import Mathlib

/-!
# The offline dealiaser: shallow embeddings of `src/radix/radix.go` and `src/amt/amt.go`

with the node counts of `src/stats/stats.go`, `RunLookUp` of `src/lookup.go`, the CIDR loop of
`src/input.go` and the lock calls of `src/bin/bin.go`.

The Go code walks a pointer tree and mutates it in place.  Here a node is a value and an
operation returns the rebuilt node; the caller puts a rebuilt child back at the index the
Go code reached it through.  The radix engine comes first, the array-mapped trie of package
`amt` after it (its own modelling notes stand at its head); the definitions of both precede
all theorems.

Modelling decisions, all local to this file:

* `net.IP` is a byte slice: a `List Nat` whose entries are bytes.  The claims concern 16-byte
  addresses; every theorem carries the length as a hypothesis or as part of the tree invariant.
* `*net.IPNet` is the pair of its address and of `ones`, the first result of `Mask.Size()`.
* `uint8` fields are `Nat`; every `uint8(...)` conversion and every `uint8` subtraction of the
  source is written out with `% 256` (`u8`, `u8sub`).
* `log.Fatal` / `log.Fatalln` end the process: `Fault.fatal`.
* The loops of `lookup` and `insert` advance a bit cursor; they are given a fuel equal to the
  bound of that cursor (128, resp. `ones`), and running out of it is the separate outcome
  `Fault.fuel`, which the theorems show does not occur.
* Go shares the `value` array between a split leaf and the internal node created above it, and
  the last-bit collapse clears one bit of that array in place.  The cleared bit lies at or after
  `endPrefix` of every node that shares the array, and no operation reads a node's value at or
  after its `endPrefix`; the value of an internal node past its `endPrefix` is therefore kept
  as it was when the node was created.
* `net.IP.To16`, `net.IP.String` and `fmt.Sprintf` belong to the Go standard library; `to16`,
  `ipString` and `cidrString` follow their documented behaviour.
* `checkpointBaseName` and `checkpointFrequency` are not read or written by `insert`, `lookup`
  or the DFS export and are left out of `Radix`; `RadixState` pairs a `Radix` with them for
  `ExportCheckpoint` and the accessors. The frequency, a `float32` that is only stored and
  returned, is kept as its bit pattern.
-/

namespace Aliasv6

/-- The Go type `net.IP`: a slice of bytes. -/
abbrev IP := List Nat

/-- The Go type `*net.IPNet`, with the mask given by its number of leading ones. -/
structure IPNet where
  ip : IP
  ones : Nat

/-- Conversion `uint8(n)`. -/
def u8 (n : Nat) : Nat := n % 256

/-- Subtraction of two `uint8` values. -/
def u8sub (a b : Nat) : Nat := (a + 256 - b % 256) % 256

/-- The method `net.IP.To16` of the Go standard library. -/
def to16 (ip : IP) : IP :=
  if ip.length = 4 then [0, 0, 0, 0, 0, 0, 0, 0, 0, 0, 255, 255] ++ ip
  else if ip.length = 16 then ip
  else []

/-- The function `dupIP`: a fresh copy of the slice. -/
def dupIP (ip : IP) : IP := ip

/-- The masked byte `ip[k/8] & (128 >> (k % 8))` that both loops compare. -/
def bitAt (ip : IP) (k : Nat) : Nat := ip.getD (k / 8) 0 &&& (128 >>> (k % 8))

/-- The assignment `v[j/8] = v[j/8] & ^(128 >> (j % 8))` on a byte slice. -/
def clearBitAt (v : IP) (j : Nat) : IP :=
  v.set (j / 8) (v.getD (j / 8) 0 &&& (255 ^^^ (128 >>> (j % 8))))

/-- Two addresses carry the same bit at every position of the half-open range. -/
def agree (a b : IP) (lo hi : Nat) : Prop :=
  ∀ k, k < hi → lo ≤ k → bitAt a k = bitAt b k

instance (a b : IP) (lo hi : Nat) : Decidable (agree a b lo hi) := by
  unfold agree; infer_instance

/-- The Go struct `Node`. -/
inductive Node where
  | mk (isLeaf : Bool) (startPrefix endPrefix length : Nat) (value : IP)
      (children : List Node) : Node

namespace Node

def isLeaf : Node → Bool
  | mk l _ _ _ _ _ => l

def startPrefix : Node → Nat
  | mk _ s _ _ _ _ => s

def endPrefix : Node → Nat
  | mk _ _ e _ _ _ => e

def length : Node → Nat
  | mk _ _ _ n _ _ => n

def value : Node → IP
  | mk _ _ _ _ v _ => v

def children : Node → List Node
  | mk _ _ _ _ _ cs => cs

/-- The node with its `children` slice replaced. -/
def setChildren : Node → List Node → Node
  | mk l s e n v _, cs => mk l s e n v cs

/-- The node with its `isLeaf` field replaced. -/
def setIsLeaf : Node → Bool → Node
  | mk _ s e n v cs, l => mk l s e n v cs

end Node

/-- The Go struct `Label`. -/
structure Label where
  aliased : Bool
  metadata : String
deriving DecidableEq

/-- The ways a run of the engine ends without returning. -/
inductive Fault where
  | fatal
  | fuel
deriving DecidableEq

/-- The Go struct `Radix`, without the two checkpoint settings. -/
structure Radix where
  root : Node
  isChanged : Bool
  constructionNewAliasFound : Bool

/-- The function `InitRadix`. -/
def InitRadix : Radix :=
  { root := Node.mk true 0 0 0 [] [], isChanged := false, constructionNewAliasFound := false }

/-! ## Text form of an address (`net.IP.String` of the Go standard library) -/

def hexDigit (n : Nat) : Char :=
  if n < 10 then Char.ofNat (48 + n) else Char.ofNat (87 + n)

/-- Lower-case hexadecimal digits of a 16-bit group, without leading zeros. -/
def hexGroup (x : Nat) : List Char :=
  if x < 16 then [hexDigit x]
  else if x < 256 then [hexDigit (x / 16), hexDigit (x % 16)]
  else if x < 4096 then [hexDigit (x / 256), hexDigit (x / 16 % 16), hexDigit (x % 16)]
  else [hexDigit (x / 4096 % 16), hexDigit (x / 256 % 16), hexDigit (x / 16 % 16),
        hexDigit (x % 16)]

/-- The two lower-case hexadecimal digits of each byte (`hexString`). -/
def hexBytes : IP → List Char
  | [] => []
  | b :: bs => hexDigit (b / 16 % 16) :: hexDigit (b % 16) :: hexBytes bs

/-- The eight 16-bit groups of a 16-byte address. -/
def groups (ip : IP) : List Nat :=
  (List.range 8).map (fun g => ip.getD (2 * g) 0 * 256 + ip.getD (2 * g + 1) 0)

/-- Length of the run of zero groups that starts the list. -/
def zeroRun : List Nat → Nat
  | [] => 0
  | g :: gs => if g = 0 then zeroRun gs + 1 else 0

/-- The first longest run of at least two zero groups, as `(start, end)`, scanning from
group `i`; `best` is the run found so far. -/
def longestZeroRun : List Nat → Nat → Option (Nat × Nat) → Option (Nat × Nat)
  | [], _, best => best
  | g :: gs, i, best =>
    let l := zeroRun (g :: gs)
    let better : Bool :=
      match best with
      | none => true
      | some (s, e) => decide (e - s < l)
    longestZeroRun gs (i + 1) (if 2 ≤ l ∧ better = true then some (i, i + l) else best)

/-- Groups `i ..` written with `:` separators, the run `run` written as `::`. -/
def writeGroups (gs : List Nat) (run : Option (Nat × Nat)) : Nat → Nat → List Char
  | 0, _ => []
  | fuel + 1, i =>
    if 8 ≤ i then []
    else
      match run with
      | some (s, e) =>
        if i = s then
          [':', ':'] ++ (if 8 ≤ e then [] else hexGroup (gs.getD e 0) ++ writeGroups gs run fuel (e + 1))
        else
          (if 0 < i then [':'] else []) ++ hexGroup (gs.getD i 0)
            ++ writeGroups gs run fuel (i + 1)
      | none =>
        (if 0 < i then [':'] else []) ++ hexGroup (gs.getD i 0) ++ writeGroups gs run fuel (i + 1)

/-- Decimal digits of a byte, as `%d` prints it. -/
def decimal (n : Nat) : String := toString n

/-- The method `net.IP.String`: `<nil>` for the empty slice, dotted quad for an IPv4 or
IPv4-mapped address, RFC 5952 text for any other 16-byte address. -/
def ipString (ip : IP) : String :=
  if ip.length = 0 then "<nil>"
  else if ip.length = 4 then
    decimal (ip.getD 0 0) ++ "." ++ decimal (ip.getD 1 0) ++ "." ++ decimal (ip.getD 2 0)
      ++ "." ++ decimal (ip.getD 3 0)
  else if ip.length ≠ 16 then "?" ++ String.mk (hexBytes ip)
  else if ip.take 12 = [0, 0, 0, 0, 0, 0, 0, 0, 0, 0, 255, 255] then
    decimal (ip.getD 12 0) ++ "." ++ decimal (ip.getD 13 0) ++ "." ++ decimal (ip.getD 14 0)
      ++ "." ++ decimal (ip.getD 15 0)
  else
    String.mk (writeGroups (groups ip) (longestZeroRun (groups ip) 0 none) 8 0)

/-- The text `fmt.Sprintf("%s/%d", value, endPrefix)`. -/
def cidrString (value : IP) (endPrefix : Nat) : String :=
  ipString value ++ "/" ++ decimal endPrefix

/-! ## lookup -/

/-- The innermost loop `for k = i; k < endPrefix; k++`: the number of leading positions,
out of `n` starting at `k`, at which the two addresses carry the same bit
(the final `matchCounter`). -/
def countMatch (ip v : IP) : Nat → Nat → Nat
  | 0, _ => 0
  | n + 1, k => if bitAt ip k ≠ bitAt v k then 0 else countMatch ip v n (k + 1) + 1

/-- The child loop of `lookup` from child index `j` on: `some (matchIndex, matchCounter)`
for the first child whose whole edge matches, `none` when the loop ends with
`matchIndex == -1`. -/
def lookupScan (ip : IP) (i : Nat) : List Node → Nat → Except Fault (Option (Nat × Nat))
  | [], _ => .ok none
  | c :: cs, j =>
    if i ≠ c.startPrefix then .error Fault.fatal
    else
      let matchCounter := countMatch ip c.value (c.endPrefix - i) i
      if matchCounter ≠ 0 then
        if matchCounter ≠ c.length then lookupScan ip i cs (j + 1)
        else .ok (some (j, matchCounter))
      else lookupScan ip i cs (j + 1)

/-- The outer loop `for i = 0; i < 128;` of `lookup`, from node `current` and cursor `i`. -/
def lookupLoop (ip : IP) : Nat → Node → Nat → Except Fault Label
  | 0, _, i => if i < 128 then .error Fault.fuel else .ok ⟨false, ""⟩
  | fuel + 1, current, i =>
    if i < 128 then
      match lookupScan ip i current.children 0 with
      | .error e => .error e
      | .ok none => .ok ⟨false, ""⟩
      | .ok (some (matchIndex, matchCounter)) =>
        match current.children.get? matchIndex with
        | none => .error Fault.fatal -- index out of range: a run-time panic in Go
        | some c =>
          if c.isLeaf then .ok ⟨true, cidrString c.value c.endPrefix⟩
          else lookupLoop ip fuel c (i + matchCounter)
    else .ok ⟨false, ""⟩

/-- The method `Radix.lookup`. -/
def Radix.lookup (t : Radix) (ip : IP) : Except Fault Label :=
  lookupLoop (to16 ip) 128 t.root 0

/-! ## insert -/

/-- Which `return` of `insert` a call left through. -/
inductive Branch where
  | firstLeaf
  | covered
  | collapse
  | leafSplit
  | internalSplit
  | prune
  | present
  | append
  | loopExit
deriving DecidableEq

/-- The child loop of `insert` from child index `j` on: `some (matchIndex, matchCounter)`
for the first child that shares at least one bit, `none` when the loop ends
(or is left through its `break`) with `matchIndex == -1`. -/
def insertScan (ipBytes : IP) (ipEndPrefix i : Nat) :
    List Node → Nat → Except Fault (Option (Nat × Nat))
  | [], _ => .ok none
  | c :: cs, j =>
    if i ≠ c.startPrefix then .error Fault.fatal
    else
      let endPrefix := if c.endPrefix > ipEndPrefix then ipEndPrefix else c.endPrefix
      if i = endPrefix ∧ c.isLeaf = true then .ok none
      else
        let matchCounter := countMatch ipBytes c.value (endPrefix - i) i
        if matchCounter ≠ 0 then .ok (some (j, matchCounter))
        else insertScan ipBytes ipEndPrefix i cs (j + 1)

/-- The state `insert` works on below the root: the node under the cursor and the two flags
of the tree, with the `return` taken. -/
structure Step where
  node : Node
  isChanged : Bool
  constructionNewAliasFound : Bool
  branch : Branch

/-- The loop `for i = 0; i < ones;` of `insert`, from node `current` and cursor `i`.
`chg` and `naf` are the flags `isChanged` and `constructionNewAliasFound` on entry. -/
def insertLoop (ip : IPNet) : Nat → Node → Nat → Bool → Bool → Except Fault Step
  | 0, current, i, chg, naf =>
    if i < ip.ones then .error Fault.fuel else .ok ⟨current, chg, naf, Branch.loopExit⟩
  | fuel + 1, current, i, chg, naf =>
    if i < ip.ones then
      let ipBytes := to16 ip.ip
      let ipEndPrefix := u8 ip.ones
      match insertScan ipBytes ipEndPrefix i current.children 0 with
      | .error e => .error e
      | .ok none =>
        let newNode := Node.mk true (u8 i) (u8 ip.ones) (u8 (ip.ones - i)) (to16 ip.ip) []
        .ok ⟨(current.setChildren (current.children ++ [newNode])).setIsLeaf false,
              true, naf, Branch.append⟩
      | .ok (some (matchIndex, matchCounter)) =>
        match current.children.get? matchIndex with
        | none => .error Fault.fatal
        | some c =>
          if i + matchCounter < ipEndPrefix then
            if i + matchCounter = c.endPrefix then
              if c.isLeaf then .ok ⟨current, chg, naf, Branch.covered⟩
              else
                match insertLoop ip fuel c (i + matchCounter) chg naf with
                | .error e => .error e
                | .ok r =>
                  .ok ⟨current.setChildren (current.children.set matchIndex r.node),
                        r.isChanged, r.constructionNewAliasFound, r.branch⟩
            else if c.isLeaf then
              if c.endPrefix = ipEndPrefix ∧ u8sub ipEndPrefix (u8 (i + matchCounter)) = 1 then
                let j := i + matchCounter
                let newNode := Node.mk true c.startPrefix (u8 (i + matchCounter))
                  (u8sub (u8 (i + matchCounter)) c.startPrefix) (dupIP (clearBitAt c.value j)) []
                .ok ⟨current.setChildren (current.children.set matchIndex newNode),
                      true, true, Branch.collapse⟩
              else
                let newNode2 := Node.mk true (u8 (i + matchCounter)) c.endPrefix
                  (u8sub c.endPrefix (u8 (i + matchCounter))) c.value []
                let newNode3 := Node.mk true (u8 (i + matchCounter)) ipEndPrefix
                  (u8sub ipEndPrefix (u8 (i + matchCounter))) (to16 ip.ip) []
                let newNode := Node.mk false (u8 i) (u8 (i + matchCounter)) (u8 matchCounter)
                  c.value [newNode2, newNode3]
                .ok ⟨current.setChildren ((current.children ++ [newNode]).eraseIdx matchIndex),
                      true, naf, Branch.leafSplit⟩
            else
              let newNode2 := Node.mk true (u8 (i + matchCounter)) ipEndPrefix
                (u8sub ipEndPrefix (u8 (i + matchCounter))) (to16 ip.ip) []
              let demoted := Node.mk c.isLeaf (u8 (i + matchCounter)) c.endPrefix
                (u8sub c.endPrefix (u8 (i + matchCounter))) c.value c.children
              let newNode := Node.mk false (u8 i) (u8 (i + matchCounter)) (u8 matchCounter)
                c.value [newNode2, demoted]
              .ok ⟨current.setChildren (current.children.set matchIndex newNode),
                    true, naf, Branch.internalSplit⟩
          else
            if c.endPrefix ≠ ipEndPrefix ∨ c.isLeaf = false then
              let newNode := Node.mk true c.startPrefix ipEndPrefix
                (u8sub ipEndPrefix c.startPrefix) (dupIP ip.ip) []
              .ok ⟨current.setChildren (current.children.set matchIndex newNode),
                    true, true, Branch.prune⟩
            else .ok ⟨current, chg, naf, Branch.present⟩
    else .ok ⟨current, chg, naf, Branch.loopExit⟩

/-- The method `Radix.insert`, together with the `return` it left through. -/
def Radix.insertTraced (t : Radix) (ip : IPNet) : Except Fault (Radix × Branch) :=
  if t.root.isLeaf then
    let newNode := Node.mk true 0 (u8 ip.ones) (u8 ip.ones) (to16 ip.ip) []
    .ok (⟨(t.root.setChildren (t.root.children ++ [newNode])).setIsLeaf false, true,
          t.constructionNewAliasFound⟩, Branch.firstLeaf)
  else
    match insertLoop ip ip.ones t.root 0 t.isChanged t.constructionNewAliasFound with
    | .error e => .error e
    | .ok r => .ok (⟨r.node, r.isChanged, r.constructionNewAliasFound⟩, r.branch)

/-- The method `Radix.insert`. -/
def Radix.insert (t : Radix) (ip : IPNet) : Except Fault Radix :=
  match t.insertTraced ip with
  | .error e => .error e
  | .ok r => .ok r.1

/-- A run of `insert` calls, in order, stopping at the first one that does not return. -/
def insertAll : Radix → List IPNet → Except Fault Radix
  | t, [] => .ok t
  | t, p :: ps =>
    match t.insert p with
    | .error e => .error e
    | .ok t1 => insertAll t1 ps

/-! ## DFS checkpoint export -/

mutual
/-- The method `Node.exportCheckpointDFS`; `buf` is the text written so far. -/
def exportCheckpointDFS : Node → String → String
  | Node.mk isLeaf _ endPrefix _ value children, buf =>
    if isLeaf then (buf ++ cidrString value endPrefix).push (Char.ofNat 10)
    else exportChildren children buf
/-- The loop over `n.children` of `exportCheckpointDFS`. -/
def exportChildren : List Node → String → String
  | [], buf => buf
  | c :: cs, buf => exportChildren cs (exportCheckpointDFS c buf)
end

/-! ## Leaves, hits and the tree invariant -/

/-- The relation `LeafIn L n`: `L` is a leaf that the DFS export reaches strictly below `n`. -/
inductive LeafIn : Node → Node → Prop
  | here (n c : Node) : c ∈ n.children → c.isLeaf = true → LeafIn c n
  | deeper (n c L : Node) : c ∈ n.children → c.isLeaf = false → LeafIn L c → LeafIn L n

/-- The relation `Hit a n L`: from `n`, with the cursor at `n.endPrefix`, the address `a` matches
the whole edge of a chain of children that ends at the leaf `L`. -/
inductive Hit (a : IP) : Node → Node → Prop
  | leaf (n c : Node) : c ∈ n.children → c.isLeaf = true →
      agree a c.value n.endPrefix c.endPrefix → Hit a n c
  | step (n c L : Node) : c ∈ n.children → c.isLeaf = false →
      agree a c.value n.endPrefix c.endPrefix → Hit a c L → Hit a n L

/-- The address `a` matches the whole edge of `c`, a child of a node that ends at `e`, and `c`
is a leaf or leads on to one. -/
def Via (a : IP) (e : Nat) (c : Node) : Prop :=
  agree a c.value e c.endPrefix ∧ (c.isLeaf = true ∨ ∃ L, Hit a c L)

/-- What the invariant asks of one child `c` of a node whose edge ends at `e` and whose value
is `v`. -/
def ChildOk (e : Nat) (v : IP) (c : Node) : Prop :=
  c.startPrefix = e ∧ e < c.endPrefix ∧ c.endPrefix ≤ 128 ∧ c.length = c.endPrefix - e ∧
    c.value.length = 16 ∧ agree c.value v 0 e ∧ (c.isLeaf = true → c.children = [])

/-- The tree invariant below a node: every child starts where the node ends, has a non-empty
edge and a length field equal to it, carries the node's bits before that edge, and no two
children start with the same bit. -/
inductive WF : Node → Prop
  | mk (n : Node) :
      (∀ c ∈ n.children, ChildOk n.endPrefix n.value c) →
      (∀ c ∈ n.children, WF c) →
      (n.children.map (fun c => bitAt c.value n.endPrefix)).Nodup → WF n

/-- A CIDR the claims range over: a 16-byte address and a mask length in `[1, 128]`. -/
def IPNet.Valid (p : IPNet) : Prop := p.ip.length = 16 ∧ 1 ≤ p.ones ∧ p.ones ≤ 128

instance (p : IPNet) : Decidable p.Valid := by
  unfold IPNet.Valid; infer_instance

/-- The invariant of a tree: the node invariant below the root, a root whose edge is empty,
and no child under a root that is still flagged as a leaf. -/
def Radix.Inv (t : Radix) : Prop :=
  WF t.root ∧ t.root.endPrefix = 0 ∧ (t.root.isLeaf = true → t.root.children = [])

/-! ## The cases of `insert`, stated on the tree -/

/-- The child loop of `insert` at node `n` (cursor `n.endPrefix`) stops at the child `c`:
the children `pre` before it differ from `ip` in their first bit, and `c` carries the bits of
`ip` up to `d`, the smaller of the first differing position and of the ends of the two
prefixes. -/
structure Picked (ip : IP) (m : Nat) (n : Node) (pre : List Node) (c : Node)
    (post : List Node) (d : Nat) : Prop where
  split : n.children = pre ++ c :: post
  miss : ∀ x ∈ pre, bitAt ip n.endPrefix ≠ bitAt x.value n.endPrefix
  lo : n.endPrefix < d
  hiNode : d ≤ c.endPrefix
  hiNet : d ≤ m
  same : agree ip c.value n.endPrefix d
  stop : d < c.endPrefix → d < m → bitAt ip d ≠ bitAt c.value d

/-- The relation `InsRel p n chg naf n1 chg1 naf1 b`: the loop of `insert` for the prefix `p`,
entered at node `n` with flags `chg` and `naf`, leaves through return `b` with the node
rebuilt as `n1` and the flags `chg1` and `naf1`. One constructor per return of the source. -/
inductive InsRel (p : IPNet) : Node → Bool → Bool → Node → Bool → Bool → Branch → Prop
  | append (n : Node) (chg naf : Bool) :
      (∀ x ∈ n.children, bitAt p.ip n.endPrefix ≠ bitAt x.value n.endPrefix) →
      InsRel p n chg naf
        ((n.setChildren (n.children ++
          [Node.mk true n.endPrefix p.ones (p.ones - n.endPrefix) p.ip []])).setIsLeaf false)
        true naf Branch.append
  | covered (n : Node) (chg naf : Bool) (pre : List Node) (c : Node) (post : List Node)
      (d : Nat) :
      Picked p.ip p.ones n pre c post d → d < p.ones → d = c.endPrefix → c.isLeaf = true →
      InsRel p n chg naf n chg naf Branch.covered
  | descend (n : Node) (chg naf : Bool) (pre : List Node) (c : Node) (post : List Node)
      (d : Nat) (c1 : Node) (chg1 naf1 : Bool) (b : Branch) :
      Picked p.ip p.ones n pre c post d → d < p.ones → d = c.endPrefix → c.isLeaf = false →
      InsRel p c chg naf c1 chg1 naf1 b →
      InsRel p n chg naf (n.setChildren (pre ++ c1 :: post)) chg1 naf1 b
  | collapse (n : Node) (chg naf : Bool) (pre : List Node) (c : Node) (post : List Node)
      (d : Nat) :
      Picked p.ip p.ones n pre c post d → d < p.ones → d ≠ c.endPrefix → c.isLeaf = true →
      c.endPrefix = p.ones → p.ones - d = 1 →
      InsRel p n chg naf
        (n.setChildren (pre ++
          Node.mk true n.endPrefix d (d - n.endPrefix) (clearBitAt c.value d) [] :: post))
        true true Branch.collapse
  | leafSplit (n : Node) (chg naf : Bool) (pre : List Node) (c : Node) (post : List Node)
      (d : Nat) :
      Picked p.ip p.ones n pre c post d → d < p.ones → d ≠ c.endPrefix → c.isLeaf = true →
      ¬ (c.endPrefix = p.ones ∧ p.ones - d = 1) →
      InsRel p n chg naf
        (n.setChildren (pre ++ post ++
          [Node.mk false n.endPrefix d (d - n.endPrefix) c.value
            [Node.mk true d c.endPrefix (c.endPrefix - d) c.value [],
             Node.mk true d p.ones (p.ones - d) p.ip []]]))
        true naf Branch.leafSplit
  | internalSplit (n : Node) (chg naf : Bool) (pre : List Node) (c : Node)
      (post : List Node) (d : Nat) :
      Picked p.ip p.ones n pre c post d → d < p.ones → d ≠ c.endPrefix → c.isLeaf = false →
      InsRel p n chg naf
        (n.setChildren (pre ++
          Node.mk false n.endPrefix d (d - n.endPrefix) c.value
            [Node.mk true d p.ones (p.ones - d) p.ip [],
             Node.mk false d c.endPrefix (c.endPrefix - d) c.value c.children] :: post))
        true naf Branch.internalSplit
  | prune (n : Node) (chg naf : Bool) (pre : List Node) (c : Node) (post : List Node)
      (d : Nat) :
      Picked p.ip p.ones n pre c post d → d = p.ones →
      (c.endPrefix ≠ p.ones ∨ c.isLeaf = false) →
      InsRel p n chg naf
        (n.setChildren (pre ++
          Node.mk true n.endPrefix p.ones (p.ones - n.endPrefix) p.ip [] :: post))
        true true Branch.prune
  | present (n : Node) (chg naf : Bool) (pre : List Node) (c : Node) (post : List Node)
      (d : Nat) :
      Picked p.ip p.ones n pre c post d → d = p.ones → c.endPrefix = p.ones →
      c.isLeaf = true → InsRel p n chg naf n chg naf Branch.present

/-- The relation `Replaced old new n n1`: `n1` is `n` with the node `old`, somewhere strictly
below `n`, replaced by `new`, and no other change. -/
inductive Replaced (old new : Node) : Node → Node → Prop
  | here (n : Node) (pre post : List Node) : n.children = pre ++ old :: post →
      Replaced old new n (n.setChildren (pre ++ new :: post))
  | deeper (n : Node) (pre : List Node) (c c1 : Node) (post : List Node) :
      n.children = pre ++ c :: post → Replaced old new c c1 →
      Replaced old new n (n.setChildren (pre ++ c1 :: post))

/-! ## Addresses and prefixes of the scenarios -/

/-- The address `2001:db8::`. -/
def addrDb8 : IP := [32, 1, 13, 184, 0, 0, 0, 0, 0, 0, 0, 0, 0, 0, 0, 0]

/-- The address `2001:db8:1::`. -/
def addrDb8Net1 : IP := [32, 1, 13, 184, 0, 1, 0, 0, 0, 0, 0, 0, 0, 0, 0, 0]

/-- The address `2001:db8:2::`. -/
def addrDb8Net2 : IP := [32, 1, 13, 184, 0, 2, 0, 0, 0, 0, 0, 0, 0, 0, 0, 0]

/-- The address `2001:db8:0:1::`. -/
def addrDb8Sub1 : IP := [32, 1, 13, 184, 0, 0, 0, 1, 0, 0, 0, 0, 0, 0, 0, 0]

/-- The address `2001:db8::1`. -/
def addrDb8Host1 : IP := [32, 1, 13, 184, 0, 0, 0, 0, 0, 0, 0, 0, 0, 0, 0, 1]

/-- The address `::`. -/
def addrZero : IP := [0, 0, 0, 0, 0, 0, 0, 0, 0, 0, 0, 0, 0, 0, 0, 0]

/-- The address `::1`. -/
def addrOne : IP := [0, 0, 0, 0, 0, 0, 0, 0, 0, 0, 0, 0, 0, 0, 0, 1]

/-- The tree with the single leaf `2001:db8::/47` and both flags raised. -/
def treeDb8Slash47 : Radix :=
  ⟨Node.mk false 0 0 0 [] [Node.mk true 0 47 47 addrDb8 []], true, true⟩

/-- The tree with the single leaf `2001:db8::/32`. -/
def treeDb8Slash32 : Radix :=
  ⟨Node.mk false 0 0 0 [] [Node.mk true 0 32 32 addrDb8 []], true, false⟩

/-- The tree after `2001:db8::/48` and `2001:db8:2::/48`: a split at bit 46. -/
def treeSplit46 : Radix :=
  ⟨Node.mk false 0 0 0 []
    [Node.mk false 0 46 46 addrDb8
      [Node.mk true 46 48 2 addrDb8 [], Node.mk true 46 48 2 addrDb8Net2 []]], true, false⟩

/-- Scenario S2 as the specification words it: after the two `/48` inserts an internal node
ending at bit 47 holds exactly two leaves, one per `/48`; `2001:db8:0:1::` is aliased with a
metadata prefix of length 48; `2001:db8:2::` is not aliased. -/
def ScenarioS2AsStated : Prop :=
  ∃ t, insertAll InitRadix [⟨addrDb8, 48⟩, ⟨addrDb8Net1, 48⟩] = .ok t ∧
    (∃ n ∈ t.root.children, n.isLeaf = false ∧ n.endPrefix = 47 ∧
      ∃ c1 c2, n.children = [c1, c2] ∧ c1.isLeaf = true ∧ c2.isLeaf = true ∧
        c1.endPrefix = 48 ∧ c2.endPrefix = 48) ∧
    (∃ v, t.lookup addrDb8Sub1 = .ok ⟨true, cidrString v 48⟩) ∧
    t.lookup addrDb8Net2 = .ok ⟨false, ""⟩

/-- The claim about mask length 0 as the specification words it: after `insert(::/0)` into a
tree, every 16-byte address is aliased. -/
def MaskZeroAliases (t : Radix) : Prop :=
  ∀ a : IP, a.length = 16 →
    ∃ t1 md, t.insert ⟨addrZero, 0⟩ = .ok t1 ∧ t1.lookup a = .ok ⟨true, md⟩

/-! ## Checkpoint export of the whole engine -/

/-- The Go struct `Radix` in full: the tree and the two flags (`Radix` above) together with
`checkpointBaseName` and `checkpointFrequency`. -/
structure RadixState where
  radix : Radix
  checkpointBaseName : String
  checkpointFrequency : Nat

/-- The full state that `InitRadix` returns: base name `checkpoint`, frequency `1.0`. -/
def InitRadixState : RadixState :=
  { radix := InitRadix, checkpointBaseName := "checkpoint", checkpointFrequency := 0x3F800000 }

/-- The method `Radix.IsChanged`. -/
def RadixState.IsChanged (t : RadixState) : Bool := t.radix.isChanged

/-- The method `Radix.CheckConstructionNewAliasFound`. -/
def RadixState.CheckConstructionNewAliasFound (t : RadixState) : Bool :=
  t.radix.constructionNewAliasFound

/-- The method `Radix.GetCheckpointFrequency`. -/
def RadixState.GetCheckpointFrequency (t : RadixState) : Nat := t.checkpointFrequency

/-- The method `Radix.setChange`. -/
def RadixState.setChange (t : RadixState) (val : Bool) : RadixState :=
  { t with radix := { t.radix with isChanged := val } }

/-- The method `Radix.ExportCheckpoint`. `stamp` is the text `checkpointTime.Format(time.RFC3339)`
and `created` tells whether `os.Create` succeeded; when it fails the method ends in `log.Fatal`.
Writes to the created file are taken to succeed. Returns the new state, the name of the file
and the text written to it. -/
def RadixState.ExportCheckpoint (t : RadixState) (stamp : String) (created : Bool) :
    Except Fault (RadixState × String × String) :=
  if created then
    let file := t.checkpointBaseName ++ "-" ++ stamp
    let text := exportCheckpointDFS t.radix.root ""
    let t1 := t.setChange false
    .ok ({ t1 with radix := { t1.radix with constructionNewAliasFound := false } }, file, text)
  else .error Fault.fatal

mutual
/-- The leaf nodes that `exportCheckpointDFS` visits from a node, in the order of the visit. -/
def leavesDFS : Node → List Node
  | Node.mk isLeaf startPrefix endPrefix length value children =>
    if isLeaf then [Node.mk isLeaf startPrefix endPrefix length value children]
    else leavesOfChildren children
/-- The leaf nodes visited from a list of children, in order. -/
def leavesOfChildren : List Node → List Node
  | [] => []
  | c :: cs => leavesDFS c ++ leavesOfChildren cs
end

/-- The line of a leaf in the checkpoint file: `value/endPrefix` and a newline. -/
def leafLine (L : Node) : String := (cidrString L.value L.endPrefix).push (Char.ofNat 10)

/-- The lines of a list of leaves, one after the other. -/
def renderLeaves : List Node → String
  | [] => ""
  | L :: Ls => leafLine L ++ renderLeaves Ls

/-! # The array-mapped trie of `src/amt/amt.go`

A node is a value; an operation returns the rebuilt node. A run-time panic of Go (an index or
a slice bound out of range, `log.Panicln`) is the result `none`. The loops over
`i < dataLength*2` are recursions over the list of the nibbles that the loop reads, in order.
The statistics counter of the struct `AMT` is not read or written by the operations embedded
here and is left out. -/

namespace Amt

/-- The Go struct `Node` of package `amt`; `prefixBits` is the field `prefix`. -/
inductive Node where
  | mk (isLeaf isAliased : Bool) (value prefixBits bitmap : Nat) (children : List Node) : Node

namespace Node

def isLeaf : Node → Bool
  | mk l _ _ _ _ _ => l

def isAliased : Node → Bool
  | mk _ a _ _ _ _ => a

def value : Node → Nat
  | mk _ _ v _ _ _ => v

def prefixBits : Node → Nat
  | mk _ _ _ p _ _ => p

def bitmap : Node → Nat
  | mk _ _ _ _ b _ => b

def children : Node → List Node
  | mk _ _ _ _ _ cs => cs

/-- The node with its `children` slice replaced. -/
def setChildren : Node → List Node → Node
  | mk l a v p b _, cs => mk l a v p b cs

/-- The node with its `bitmap` replaced. -/
def setBitmap : Node → Nat → Node
  | mk l a v p _ cs, b => mk l a v p b cs

/-- The node with `isLeaf` and `isAliased` both set to true. -/
def markLeaf : Node → Node
  | mk _ _ v p b cs => mk true true v p b cs

end Node

/-- The Go struct `AMT`, without its statistics counter. -/
structure AMT where
  root : Node

/-- The function `InitAMT`. -/
def InitAMT : AMT := { root := Node.mk false false 0 0 0 [] }

/-- The function `bits.OnesCount16` of the Go standard library. -/
def onesCount16 (x : Nat) : Nat := ((List.range 16).filter (fun i => x.testBit i)).length

/-- The function `getNibble`. -/
def getNibble (value nibbleOffset : Nat) : Nat := (value >>> nibbleOffset) &&& 0x0F

/-- The nibbles that the loops `for i := 0; i < dataLength*2; i++` read, in order:
`getNibble(data[i/2], uint8(4 - (4 * (i % 2))))`. -/
def nibbles (data : List Nat) : List Nat :=
  (List.range (data.length * 2)).map
    (fun i => getNibble (data.getD (i / 2) 0) (u8 (4 - 4 * (i % 2))))

/-- The method `Node.getIndex`; `none` is the result `-1`. -/
def Node.getIndex (n : Node) (nibble : Nat) : Option Nat :=
  let bitPosition := 1 <<< nibble
  if n.bitmap &&& (bitPosition % 65536) = 0 then none
  else some (onesCount16 (n.bitmap &&& ((bitPosition - 1) % 65536)))

/-- The loop of `getPath` from node `current`, with the nodes collected so far. -/
def getPathLoop : List Nat → Node → List Node → Option (List Node)
  | [], current, path => some (path ++ [current])
  | nibble :: rest, current, path =>
    match current.getIndex nibble with
    | none => some []
    | some nibbleIndex =>
      match current.children.get? nibbleIndex with
      | none => none
      | some c => getPathLoop rest c (path ++ [current])

/-- The method `AMT.getPath`. -/
def AMT.getPath (t : AMT) (data : List Nat) : Option (List Node) :=
  getPathLoop (nibbles data) t.root []

/-- The loop of `insert` from node `current`, then the two assignments after it. -/
def insertLoop : List Nat → Node → Option Node
  | [], current => some current.markLeaf
  | nibble :: rest, current =>
    match current.getIndex nibble with
    | some nibbleIndex =>
      match current.children.get? nibbleIndex with
      | none => none
      | some c =>
        match insertLoop rest c with
        | none => none
        | some c1 => some (current.setChildren (current.children.set nibbleIndex c1))
    | none =>
      let current1 := current.setBitmap (current.bitmap ||| ((1 <<< nibble) % 65536))
      match current1.getIndex nibble with
      | none => none
      | some nibbleIndex =>
        let newNode := Node.mk false false nibble ((current.prefixBits + 4) % 256) 0 []
        if current1.children.length = nibbleIndex then
          match insertLoop rest newNode with
          | none => none
          | some c1 => some (current1.setChildren (current1.children ++ [c1]))
        else if nibbleIndex < current1.children.length then
          match insertLoop rest newNode with
          | none => none
          | some c1 =>
            some (current1.setChildren
              ((current1.children.take (nibbleIndex + 1) ++ current1.children.drop nibbleIndex).set
                nibbleIndex c1))
        else none

/-- The method `AMT.insert`. -/
def AMT.insert (t : AMT) (data : List Nat) : Option AMT :=
  match insertLoop (nibbles data) t.root with
  | none => none
  | some r => some { root := r }

/-- A run of `insert` calls, in order. -/
def insertAll : AMT → List (List Nat) → Option AMT
  | t, [] => some t
  | t, k :: ks =>
    match t.insert k with
    | none => none
    | some t1 => insertAll t1 ks

/-- The loop of `find` from node `current`, then the final `return current.isLeaf`. -/
def findLoop : List Nat → Node → Option Bool
  | [], current => some current.isLeaf
  | nibble :: rest, current =>
    match current.getIndex nibble with
    | none => some false
    | some nibbleIndex =>
      match current.children.get? nibbleIndex with
      | none => none
      | some c => findLoop rest c

/-- The method `AMT.find`. -/
def AMT.find (t : AMT) (data : List Nat) : Option Bool :=
  findLoop (nibbles data) t.root

/-- The method `Node.removeChild`: the node afterwards and the returned status. -/
def Node.removeChild (n : Node) (value : Nat) : Option (Node × Int) :=
  match n.getIndex value with
  | some index =>
    if index < n.children.length then
      let n1 := (n.setChildren (n.children.eraseIdx index)).setBitmap
        (n.bitmap &&& (65535 ^^^ ((1 <<< value) % 65536)))
      if n1.children.length = 0 then some (n1.setChildren [], 0) else some (n1, 1)
    else none
  | none => some (n, -1)

/-- The state of the loop of `removeEntry` after an iteration: the path node as the iteration
leaves it, `prevValue`, `deletedNodeCounter`, and whether the loop was left by `break`. -/
structure RemoveState where
  node : Node
  prevValue : Nat
  deletedNodeCounter : Nat
  stopped : Bool

/-- One iteration of the loop of `removeEntry` at the path node `node`; `isRoot` is the
comparison `node == t.root`. -/
def removeStep (node : Node) (isRoot : Bool) (prevValue deletedNodeCounter : Nat) :
    Option RemoveState :=
  if node.isLeaf then some ⟨node, node.value, deletedNodeCounter + 1, false⟩
  else
    match node.removeChild prevValue with
    | none => none
    | some (node1, stats) =>
      if stats = -1 ∨ stats = 1 then some ⟨node1, prevValue, deletedNodeCounter, true⟩
      else if stats = 0 ∧ isRoot = false then
        some ⟨node1, node.value, deletedNodeCounter + 1, false⟩
      else some ⟨node1, prevValue, deletedNodeCounter, false⟩

/-- The loop `for ; i >= 0; i--` of `removeEntry` over the path from `getPath`, deepest node
first. The path holds pointers: a node changed by a later iteration index is the child its
parent holds, so each level first takes the rebuilt child into the slot that `getPath` went
through, and then runs its own iteration unless the loop was left below. -/
def removeWalk : List Node → List Nat → Bool → Option RemoveState
  | [], _, _ => none
  | [last], _, isRoot => removeStep last isRoot last.value 0
  | node :: child :: rest, nibs, isRoot =>
    match removeWalk (child :: rest) nibs.tail false with
    | none => none
    | some below =>
      match node.getIndex (nibs.headD 0) with
      | none => none
      | some nibbleIndex =>
        let node1 := node.setChildren (node.children.set nibbleIndex below.node)
        if below.stopped then
          some ⟨node1, below.prevValue, below.deletedNodeCounter, true⟩
        else removeStep node1 isRoot below.prevValue below.deletedNodeCounter

/-- The method `AMT.removeEntry`: the trie afterwards and the returned count. -/
def AMT.removeEntry (t : AMT) (data : List Nat) : Option (AMT × Nat) :=
  match t.getPath data with
  | none => none
  | some [] => some (t, 0)
  | some (p :: ps) =>
    match removeWalk (p :: ps) (nibbles data) true with
    | none => none
    | some r => some ({ root := r.node }, r.deletedNodeCounter)

mutual
/-- The method `Node.pruneChildren`: the node afterwards and the returned count. -/
def pruneChildren : Node → Option (Node × Nat)
  | Node.mk isLeaf isAliased value prefixBits bitmap children =>
    if isLeaf then some (Node.mk isLeaf isAliased value prefixBits bitmap children, 0)
    else
      match pruneLoop children with
      | none => none
      | some numDeletedNodes =>
        if children.length > numDeletedNodes then none
        else some (Node.mk true isAliased value prefixBits 0 [], numDeletedNodes)
/-- The loop `for i := range n.children` of `pruneChildren`: the sum it adds to
`numDeletedNodes`. -/
def pruneLoop : List Node → Option Nat
  | [] => some 0
  | c :: cs =>
    match pruneChildren c with
    | none => none
    | some r =>
      match pruneLoop cs with
      | none => none
      | some k => some (r.2 + 1 + k)
end

mutual
/-- The test helper `identicalTries` of `amt_test.go`, on two nodes that are not nil. -/
def identicalTries : Node → Node → Bool
  | Node.mk isLeaf isAliased value prefixBits bitmap children, n2 =>
    if prefixBits = n2.prefixBits ∧ bitmap = n2.bitmap ∧ value = n2.value ∧
        isLeaf = n2.isLeaf ∧ isAliased = n2.isAliased ∧
        children.length = n2.children.length then
      identicalChildren children n2.children
    else false
/-- The loop `for i := range n1.children` of `identicalTries`. -/
def identicalChildren : List Node → List Node → Bool
  | [], _ => true
  | _ :: _, [] => false
  | c1 :: cs1, c2 :: cs2 => if identicalTries c1 c2 then identicalChildren cs1 cs2 else false
end

mutual
/-- The number of nodes of a subtree, its root included. -/
def size : Node → Nat
  | Node.mk _ _ _ _ _ children => 1 + sizeChildren children
/-- The number of nodes of the subtrees of a list of children. -/
def sizeChildren : List Node → Nat
  | [] => 0
  | c :: cs => size c + sizeChildren cs
end

/-! ## Paths, stored keys and the shape invariant -/

/-- The child of a node for a nibble: the first child that carries the nibble as its value. -/
def child (n : Node) (x : Nat) : Option Node := n.children.find? (fun c => decide (c.value = x))

/-- The node at the end of a nibble path below a node, if the whole path exists. -/
def nodeAt : Node → List Nat → Option Node
  | n, [] => some n
  | n, x :: w =>
    match child n x with
    | none => none
    | some c => nodeAt c w

/-- The nodes on a nibble path from a node on, the node itself first, as far as the path
exists. -/
def pathNodes : Node → List Nat → List Node
  | n, [] => [n]
  | n, x :: w =>
    match child n x with
    | none => [n]
    | some c => n :: pathNodes c w

/-- The key with nibble path `w` is stored below `n`: the path ends at a node flagged as a
leaf. -/
def stored (n : Node) (w : List Nat) : Prop := ∃ m, nodeAt n w = some m ∧ m.isLeaf = true

/-- The shape invariant below a node: the children are in strictly increasing order of their
nibble value, the bitmap has bit `i` set exactly when a child carries the nibble `i`, and every
nibble is below 16. -/
inductive WFA : Node → Prop
  | mk (n : Node) :
      n.children.Pairwise (fun a b => a.value < b.value) →
      (∀ i, n.bitmap.testBit i = true ↔ ∃ c ∈ n.children, c.value = i) →
      (∀ c ∈ n.children, c.value < 16) →
      (∀ c ∈ n.children, WFA c) → WFA n

/-- A key of the trie: a list of bytes. -/
def IsBytes (k : List Nat) : Prop := ∀ b ∈ k, b < 256

instance (k : List Nat) : Decidable (IsBytes k) := by
  unfold IsBytes; infer_instance

/-- A node `h` nibbles above the end of keys of one common length: at `h = 0` a leaf without
children, above that a node that is not a leaf and has at least one child. -/
def Uniform : Nat → Node → Prop
  | 0, n => n.isLeaf = true ∧ n.children = []
  | h + 1, n => n.isLeaf = false ∧ n.children ≠ [] ∧ ∀ c ∈ n.children, Uniform h c

/-- As `Uniform`, for the root or a node just created: it may still lack children, and at
`h = 0` its leaf flag may still be unset. -/
def UniformTop : Nat → Node → Prop
  | 0, n => n.children = []
  | h + 1, n => n.isLeaf = false ∧ ∀ c ∈ n.children, Uniform h c

/-- No node of the subtree that is flagged as a leaf has children. -/
inductive NoLeafWithChildren : Node → Prop
  | mk (n : Node) : (n.isLeaf = true → n.children = []) →
      (∀ c ∈ n.children, NoLeafWithChildren c) → NoLeafWithChildren n

/-! ## The keys and the expected tree of the tests -/

/-- The four keys that the tests insert: `FA4501`, `FB4501`, `304501`, `304502`. -/
def testKeys : List (List Nat) :=
  [[0xFA, 0x45, 0x01], [0xFB, 0x45, 0x01], [0x30, 0x45, 0x01], [0x30, 0x45, 0x02]]

/-- A terminal node of the tree of `TestInsert`: depth 24, `isLeaf: true`, and `isAliased` as
given. -/
def terminalNode (aliased : Bool) (value : Nat) : Node := Node.mk true aliased value 24 0 []

/-- The chain `4, 5, 0` below the second nibble of a key, over the given terminal nodes. -/
def keyTail (bitmap20 : Nat) (terminals : List Node) : Node :=
  Node.mk false false 4 12 0b0000000000100000
    [Node.mk false false 5 16 0b0000000000000001
      [Node.mk false false 0 20 bitmap20 terminals]]

/-- The tree of `TestInsert`, with the `isAliased` flag of its four terminal nodes as given. -/
def insertTestTree (aliased : Bool) : Node :=
  Node.mk false false 0 0 0b1000000000001000
    [Node.mk false false 0x03 4 0b0000000000000001
      [Node.mk false false 0x00 8 0b0000000000010000
        [keyTail 0b0000000000000110 [terminalNode aliased 1, terminalNode aliased 2]]],
     Node.mk false false 0x0F 4 0b0000110000000000
      [Node.mk false false 0x0A 8 0b0000000000010000
        [keyTail 0b0000000000000010 [terminalNode aliased 1]],
       Node.mk false false 0x0B 8 0b0000000000010000
        [keyTail 0b0000000000000010 [terminalNode aliased 1]]]]

/-- The tree literal `expected` of `TestInsert`, which leaves `isAliased` unset everywhere. -/
def testInsertExpected : Node := insertTestTree false

/-- The calls of `removeEntry` in `TestRemoveEntry`, in order: the returned counts, or `none`
at a panic. -/
def removeAll : AMT → List (List Nat) → Option (List Nat)
  | _, [] => some []
  | t, k :: ks =>
    match t.removeEntry k with
    | none => none
    | some r =>
      match removeAll r.1 ks with
      | none => none
      | some counts => some (r.2 :: counts)

/-- The inputs of `TestRemoveEntry`. -/
def testRemoveInputs : List (List Nat) :=
  [[0xFA, 0x45, 0x01], [0xFA, 0x45, 0x01], [0x30, 0x45, 0x02], [0x30, 0x45, 0x03],
   [0x30, 0x46, 0x01], [0x30, 0x55, 0x01], [0x31, 0x45, 0x01], [0x40, 0x45, 0x01],
   [0x30, 0x45, 0x01], [0xFB, 0x45, 0x01], [0x38, 0x46, 0x01]]

/-! ## Notions used to state and prove the properties of the trie -/

/-- The two cases of a nibble `x` at a well-formed node: a child carries it, and the bitmap
index is the place of that child; or no child carries it, and the index found after the bit is
set is the place where the child belongs. -/
inductive Slot (n : Node) (x : Nat) : Prop
  | present (pre : List Node) (c : Node) (post : List Node) :
      n.children = pre ++ c :: post → c.value = x →
      (∀ a ∈ pre, a.value < x) → (∀ a ∈ post, x < a.value) →
      n.getIndex x = some pre.length → Slot n x
  | absent (pre post : List Node) :
      n.children = pre ++ post →
      (∀ a ∈ pre, a.value < x) → (∀ a ∈ post, x < a.value) →
      n.getIndex x = none →
      (n.setBitmap (n.bitmap ||| ((1 <<< x) % 65536))).getIndex x = some pre.length → Slot n x

/-- The flags `(isLeaf, isAliased)` of the node at the end of a nibble path, if the path
exists. -/
def flagsAt (n : Node) (w : List Nat) : Option (Bool × Bool) :=
  (nodeAt n w).map (fun m => (m.isLeaf, m.isAliased))

/-- The six keys that `TestFind` looks up and expects to be missing. -/
def testAbsentKeys : List (List Nat) :=
  [[0x30, 0x45, 0x03], [0x30, 0x45, 0x11], [0x30, 0x46, 0x01], [0x30, 0x55, 0x01],
   [0x31, 0x45, 0x01], [0x40, 0x45, 0x01]]

/-- Below `n`, the key with nibble path `w` is the only stored key whose first `j` nibbles are
those of `w`: the node `j` nibbles down the path of `w` lies on the path of no other key. -/
def Alone (n : Node) (w : List Nat) (j : Nat) : Prop :=
  ∀ v, stored n v → v.take j = w.take j → v = w

/-- The loop of `removeEntry` came up through the node `n` without leaving: every node of the
path from `n` down was counted, and `n` held no other key. -/
def WalkGone (n : Node) (w : List Nat) (r : RemoveState) : Prop :=
  r.stopped = false ∧ r.prevValue = n.value ∧ r.deletedNodeCounter = w.length + 1 ∧
    size n = w.length + 1 ∧ Alone n w 0

/-- The loop of `removeEntry` was left by `break` at the node `d` nibbles below `n`, or at `n`
itself when `d = 0`: the nodes of the path below that one were detached and counted, and the
rebuilt `n` holds the other keys. -/
def WalkStop (n : Node) (w : List Nat) (r : RemoveState) : Prop :=
  r.stopped = true ∧ WFA r.node ∧ Uniform w.length r.node ∧ r.node.value = n.value ∧
    (∀ v, stored r.node v ↔ (stored n v ∧ v ≠ w)) ∧
    size r.node + r.deletedNodeCounter = size n ∧
    ∃ d, d < w.length ∧ r.deletedNodeCounter = w.length - d ∧ (∀ j, d < j → Alone n w j) ∧
      ∃ v, stored n v ∧ v ≠ w ∧ v.take d = w.take d

/-- The number of nodes below the root on the path of the key `k` that lie on the path of no
other key of `ks`: the depths `j + 1` at which no other key of `ks` has the first `j + 1`
nibbles of `k`. -/
def ownNodes (ks : List (List Nat)) (k : List Nat) : Nat :=
  ((List.range (nibbles k).length).filter
    (fun j => decide (∀ q ∈ ks, (nibbles q).take (j + 1) = (nibbles k).take (j + 1) → q = k))).length

/-- The last sentence of the claim about `pruneChildren` as it is worded, at one node: the
call returns and its count is at least the number of direct children the node had. -/
def PruneCountBound (n : Node) : Prop :=
  ∃ r, pruneChildren n = some r ∧ n.children.length ≤ r.2

/-- A node flagged as a leaf that has a child: the node at the end of the key `00` after the
keys `00` and `0000` were inserted. -/
def leafWithChild : Node :=
  Node.mk true true 0 8 0b0000000000000001
    [Node.mk false false 0 12 0b0000000000000001 [Node.mk true true 0 16 0 []]]

/-- The loop `for queue.Len() != 0` of `traverseBFSRadix`: the queue holds each node with the
result of the pointer comparison `node == t.root`; the counters are `nodeCounter` and
`normalNodeCounter`. One unit of fuel per node taken from the queue. -/
def bfsRadixLoop : Nat → List (Node × Bool) → Int → Int → Option (Int × Int)
  | _, [], nodeCounter, normalNodeCounter => some (nodeCounter, normalNodeCounter)
  | 0, _ :: _, _, _ => none
  | fuel + 1, (front, isRoot) :: rest, nodeCounter, normalNodeCounter =>
    let queue := rest ++ front.children.map (fun c => (c, false))
    let nodeCounter1 := nodeCounter + 1
    let normalNodeCounter1 := normalNodeCounter + 1
    let numChildren := onesCount16 front.bitmap
    if numChildren = 1 ∧ isRoot = false then
      bfsRadixLoop fuel queue (nodeCounter1 - 1) normalNodeCounter1
    else bfsRadixLoop fuel queue nodeCounter1 normalNodeCounter1

/-- The method `AMT.traverseBFSRadix`: the returned slice
`{normalNodeCounter, nodeCounter, normalNodeCounter - nodeCounter}`. The loop is given fuel for
as many nodes as the trie has. -/
def AMT.traverseBFSRadix (t : AMT) : Option (List Int) :=
  match bfsRadixLoop (size t.root) [(t.root, true)] 0 0 with
  | none => none
  | some (nodeCounter, normalNodeCounter) =>
    some [normalNodeCounter, nodeCounter, normalNodeCounter - nodeCounter]

mutual
/-- The number of nodes of a subtree, its root included, whose bitmap has exactly one bit
set. -/
def singles : Node → Nat
  | Node.mk _ _ _ _ bitmap children =>
    (if onesCount16 bitmap = 1 then 1 else 0) + singlesChildren children
/-- The number of such nodes in the subtrees of a list of children. -/
def singlesChildren : List Node → Nat
  | [] => 0
  | c :: cs => singles c + singlesChildren cs
end

/-- The number of nodes in the subtrees of the nodes of a queue. -/
def sizeQueue : List (Node × Bool) → Nat
  | [] => 0
  | (n, _) :: q => size n + sizeQueue q

/-- The number of nodes in the subtrees of the nodes of a queue that have exactly one bit set
and are not the root. -/
def singlesQueue : List (Node × Bool) → Nat
  | [] => 0
  | (n, isRoot) :: q =>
    (if onesCount16 n.bitmap = 1 ∧ isRoot = false then 1 else 0) + singlesChildren n.children
      + singlesQueue q

/-- The triples that `traverseBFSRadix` returns after each insert of a list of keys, in
order. -/
def triplesAfterEach : AMT → List (List Nat) → Option (List (List Int))
  | _, [] => some []
  | t, k :: ks =>
    match t.insert k with
    | none => none
    | some t1 =>
      match t1.traverseBFSRadix with
      | none => none
      | some triple =>
        match triplesAfterEach t1 ks with
        | none => none
        | some rest => some (triple :: rest)

/-- The addresses `2001:db8::2` and `2001:db8::3`. -/
def addrDb8Host2 : List Nat := [32, 1, 13, 184, 0, 0, 0, 0, 0, 0, 0, 0, 0, 0, 0, 2]

def addrDb8Host3 : List Nat := [32, 1, 13, 184, 0, 0, 0, 0, 0, 0, 0, 0, 0, 0, 0, 3]

/-- Scenario S7 as the specification words it: the triples after each insert of the four
three-byte keys are the golden sequence of `TestStatsRadix`. -/
def ScenarioS7AsStated : Prop :=
  triplesAfterEach InitAMT testKeys =
    some [[33, 2, 31], [34, 4, 30], [35, 5, 30], [52, 7, 45]]

/-- The loop of `insertWithCheckpoint` from node `current`, then the two assignments after it.
The statements of the method on `t.counter` read and write the statistics maps only and end
normally; what the method does to the trie is this loop, statement by statement the loop of
`insert`. -/
def insertWithCheckpointLoop : List Nat → Node → Option Node
  | [], current => some current.markLeaf
  | nibble :: rest, current =>
    match current.getIndex nibble with
    | some nibbleIndex =>
      match current.children.get? nibbleIndex with
      | none => none
      | some c =>
        match insertWithCheckpointLoop rest c with
        | none => none
        | some c1 => some (current.setChildren (current.children.set nibbleIndex c1))
    | none =>
      let current1 := current.setBitmap (current.bitmap ||| ((1 <<< nibble) % 65536))
      match current1.getIndex nibble with
      | none => none
      | some nibbleIndex =>
        let newNode := Node.mk false false nibble ((current.prefixBits + 4) % 256) 0 []
        if current1.children.length = nibbleIndex then
          match insertWithCheckpointLoop rest newNode with
          | none => none
          | some c1 => some (current1.setChildren (current1.children ++ [c1]))
        else if nibbleIndex < current1.children.length then
          match insertWithCheckpointLoop rest newNode with
          | none => none
          | some c1 =>
            some (current1.setChildren
              ((current1.children.take (nibbleIndex + 1) ++ current1.children.drop nibbleIndex).set
                nibbleIndex c1))
        else none

/-- The method `AMT.insertWithCheckpoint`, as far as the trie goes. -/
def AMT.insertWithCheckpoint (t : AMT) (data : List Nat) : Option AMT :=
  match insertWithCheckpointLoop (nibbles data) t.root with
  | none => none
  | some r => some { root := r }

/-- A call of `pruneChildren` on the node of the trie that is reached from `n` through the
child places `w`: the trie afterwards and the returned count; `none` when there is no such
node, or at a panic. -/
def pruneAt : Node → List Nat → Option (Node × Nat)
  | n, [] => pruneChildren n
  | n, i :: w =>
    match n.children.get? i with
    | none => none
    | some c =>
      match pruneAt c w with
      | none => none
      | some (c1, count) => some (n.setChildren (n.children.set i c1), count)

/-- The tries reachable from `InitAMT` by calls of `insert`, `insertWithCheckpoint`,
`removeEntry`, and `pruneChildren` on a node of the trie. -/
inductive Reach : AMT → Prop
  | init : Reach InitAMT
  | insert (t : AMT) (k : List Nat) (t1 : AMT) : Reach t → t.insert k = some t1 → Reach t1
  | insertWithCheckpoint (t : AMT) (k : List Nat) (t1 : AMT) :
      Reach t → t.insertWithCheckpoint k = some t1 → Reach t1
  | removeEntry (t : AMT) (k : List Nat) (t1 : AMT) (count : Nat) :
      Reach t → t.removeEntry k = some (t1, count) → Reach t1
  | prune (t : AMT) (w : List Nat) (r : Node) (count : Nat) :
      Reach t → pruneAt t.root w = some (r, count) → Reach { root := r }

/-- The relation `Below m n`: the node `m` is `n` itself or lies below `n`. -/
inductive Below : Node → Node → Prop
  | self (n : Node) : Below n n
  | deeper (n c m : Node) : c ∈ n.children → Below m c → Below m n

/-- The shape of one node: as many children as the bitmap has bits set; for every nibble whose
bit is set, the child in the slot `popcount(bitmap & ((1 << x) - 1))` carries that nibble; and
the children in strictly increasing order of their nibble. -/
def SlotShape (n : Node) : Prop :=
  n.children.length = onesCount16 n.bitmap ∧
  (∀ x, x < 16 → n.bitmap.testBit x = true →
    ∃ c, n.children.get? (onesCount16 (n.bitmap &&& (((1 <<< x) - 1) % 65536))) = some c ∧
      c.value = x) ∧
  n.children.Pairwise (fun a b => a.value < b.value)

/-- The trie with the one-byte key `FA`. -/
def reachFirst : AMT :=
  { root := Node.mk false false 0 0 0b1000000000000000
      [Node.mk false false 0x0F 4 0b0000010000000000 [Node.mk true true 0x0A 8 0 []]] }

/-- The trie with the one-byte keys `FA` and `FB`, or with `FB` alone. -/
def reachStep (withA : Bool) : AMT :=
  { root := Node.mk false false 0 0 0b1000000000000000
      [Node.mk false false 0x0F 4 (if withA then 0b0000110000000000 else 0b0000100000000000)
        ((if withA then [Node.mk true true 0x0A 8 0 []] else []) ++
          [Node.mk true true 0x0B 8 0 []])] }

/-- The trie after `insert(FA)`, `insertWithCheckpoint(FB)`, `removeEntry(FA)` and
`pruneChildren` on the first child of the root. -/
def reachExample : AMT :=
  { root := Node.mk false false 0 0 0b1000000000000000 [Node.mk true false 0x0F 4 0 []] }

/-- The node `F` at depth 1 over the two leaves `A` and `B`. -/
def nodeFAB : Node :=
  Node.mk false false 0x0F 4 0b0000110000000000
    [Node.mk true true 0x0A 8 0 [], Node.mk true true 0x0B 8 0 []]

/-- The children `l` with the child `d` for the nibble `x` in its place: before the first
child whose nibble is not below `x`, instead of that child when it carries `x`. -/
def upsert (x : Nat) (d : Node) : List Node → List Node
  | [] => [d]
  | c :: cs =>
    if c.value < x then c :: upsert x d cs
    else if c.value = x then d :: cs
    else d :: c :: cs

/-- The child of `n` for the nibble `x`, or the node that `insert` creates for it. -/
def childOrNew (n : Node) (x : Nat) : Node :=
  (child n x).getD (Node.mk false false x ((n.prefixBits + 4) % 256) 0 [])

/-- The node `n` with bit `x` set and with `c1` as its child for the nibble `x`. -/
def withChild (n : Node) (x : Nat) (c1 : Node) : Node :=
  Node.mk n.isLeaf n.isAliased n.value n.prefixBits (n.bitmap ||| ((1 <<< x) % 65536))
    (upsert x c1 n.children)

/-- Below `n`, the field `prefix` of every child is that of its parent plus 4, as a `uint8`. -/
inductive PrefixOk : Node → Prop
  | mk (n : Node) :
      (∀ c ∈ n.children, c.prefixBits = (n.prefixBits + 4) % 256) →
      (∀ c ∈ n.children, PrefixOk c) → PrefixOk n

/-! ## The statistics counter of `insertWithCheckpoint`

The field `counter` of the struct `AMT` is a slice with one map per checkpoint; a map takes a
depth, the `prefix` of a node, to a `map[string]float64` with the seven keys `avg`, `max`,
`min`, `minValue`, `maxValue`, `totalNodes` and `totalChildren`. The seven keys are the fields
of a structure here. Six of the values are only set to whole numbers, incremented by one and
compared, which `float64` does exactly below 2^53: they are integers. The value of `avg` is a
`float64` quotient of two of them: it is the rational number that the division returns, the
quotient rounded to 53 significant bits. -/

/-- The floor of the binary logarithm of `x`, for `1 ≤ x` and `x ≤ 2 ^ fuel`. -/
def log2Fuel : Nat → Nat → Nat
  | 0, _ => 0
  | fuel + 1, x => if x < 2 then 0 else log2Fuel fuel (x / 2) + 1

/-- The whole number nearest to `num / den`, the even one of the two when `num / den` is halfway
between them. -/
def roundHalfEven (num den : Nat) : Nat :=
  let fl := num / den
  let r := num % den
  if 2 * r < den then fl else if den < 2 * r then fl + 1
  else if fl % 2 = 0 then fl else fl + 1

/-- The `float64` division `a / b` of two whole numbers, as the rational number it returns:
the quotient with a significand of 53 bits, rounded to the nearest, a tie to the even
significand. With `2 ^ lx ≤ a < 2 ^ (lx + 1)` and `2 ^ ly ≤ b < 2 ^ (ly + 1)` the quotient
`num / den` below lies in `[2 ^ 52, 2 ^ 53)` and is `a / b` shifted by a power of two: it is
rounded to a whole number and shifted back. The operands are positive where
`insertWithCheckpoint` divides with a non-zero result; the result is 0 for `a = 0`, and no
other operand arises on a reachable state. -/
def f64div (a b : Int) : ℚ :=
  if a ≤ 0 ∨ b ≤ 0 then 0
  else
    let x := a.toNat
    let y := b.toNat
    let lx := log2Fuel x x
    let ly := log2Fuel y y
    let num := x * 2 ^ (ly + 53)
    let den0 := y * 2 ^ lx
    let c := if den0 * 2 ^ 53 ≤ num then 2 else 1
    ((roundHalfEven num (den0 * c) * c * 2 ^ lx : Nat) : ℚ) / ((2 ^ (ly + 53) : Nat) : ℚ)

/-- The statistics of one depth: a `map[string]float64` with its seven keys. -/
structure LevelStats where
  avg : ℚ
  max : Int
  min : Int
  minValue : Int
  maxValue : Int
  totalNodes : Int
  totalChildren : Int

/-- The statistics of one checkpoint: a `map[uint8]map[string]float64`; `none` is a missing
key. -/
abbrev LevelMap := Nat → Option LevelStats

/-- The assignment `m[k] = s`. -/
def LevelMap.put (m : LevelMap) (k : Nat) (s : LevelStats) : LevelMap :=
  fun j => if j = k then some s else m j

/-- The struct `AMT` in full: the trie, `currentCheckpoint` and `counter`. -/
structure AMTState where
  root : Node
  currentCheckpoint : Nat
  counter : List LevelMap

/-- The map literal that `InitAMT` and `AddCheckpoint` write for the depth 0, with
`totalNodes` as given. -/
def emptyStats (totalNodes : Int) : LevelStats :=
  { avg := 0, max := -1, min := 17, minValue := -1, maxValue := -1, totalNodes := totalNodes,
    totalChildren := 0 }

/-- The function `InitAMT`, with the counter. -/
def InitAMTState : AMTState :=
  { root := Node.mk false false 0 0 0 [],
    currentCheckpoint := 0,
    counter := [fun k => if k = 0 then some (emptyStats 1) else none] }

/-- The statements of `insertWithCheckpoint` on the entry of the depth `current.prefix`,
which is present: one more child at this depth. -/
def parentUpdate (s : LevelStats) (numChildren value : Int) : LevelStats :=
  let s1 := { s with totalChildren := s.totalChildren + 1 }
  let s2 := { s1 with avg := f64div s1.totalChildren s1.totalNodes }
  if s2.totalNodes = 1 then
    { s2 with max := numChildren, maxValue := value, min := numChildren, minValue := value }
  else
    let s3 := if s2.max < numChildren then { s2 with max := numChildren, maxValue := value }
      else s2
    if s3.min > numChildren then { s3 with min := numChildren, minValue := value } else s3

/-- The map literal that `insertWithCheckpoint` writes for the depth `current.prefix` when
the depth has no entry. -/
def parentFirst (numChildren value : Int) : LevelStats :=
  { avg := numChildren, max := numChildren, min := numChildren, minValue := value,
    maxValue := value, totalNodes := 1, totalChildren := numChildren }

/-- The statements of `insertWithCheckpoint` on the entry of the depth `current.prefix + 4`,
which is present: one more node at this depth, without children. -/
def childUpdate (s : LevelStats) (nibble : Int) : LevelStats :=
  let s1 := { s with totalNodes := s.totalNodes + 1 }
  let s2 := { s1 with avg := f64div s1.totalChildren s1.totalNodes }
  let s3 := if s2.max < 0 then { s2 with max := 0, maxValue := nibble } else s2
  if s3.min > 0 then { s3 with min := 0, minValue := nibble } else s3

/-- The map literal that `insertWithCheckpoint` writes for the depth `current.prefix + 4`
when the depth has no entry. -/
def childFirst (nibble : Int) : LevelStats :=
  { avg := 0, max := 0, min := 0, minValue := nibble, maxValue := nibble, totalNodes := 1,
    totalChildren := 0 }

/-- The statements of `insertWithCheckpoint` on the map of the current checkpoint after a child
was created: `prefixBits` and `value` are those of `current`, `nibble` is the value of the new
child and `numChildren` is `len(current.children)`. -/
def countChild (m : LevelMap) (prefixBits value nibble numChildren : Nat) : LevelMap :=
  let m1 :=
    match m prefixBits with
    | some s => m.put prefixBits (parentUpdate s numChildren value)
    | none => m.put prefixBits (parentFirst numChildren value)
  match m1 ((prefixBits + 4) % 256) with
  | some s => m1.put ((prefixBits + 4) % 256) (childUpdate s nibble)
  | none => m1.put ((prefixBits + 4) % 256) (childFirst nibble)

/-- The loop of `insertWithCheckpoint` from node `current`, with the counter, then the two
assignments after it; `cc` is `t.currentCheckpoint`. The index `t.counter[cc]` is evaluated
only where a child was created, and panics when it is out of range. -/
def insertWithCheckpointCounted (cc : Nat) :
    List Nat → Node → List LevelMap → Option (Node × List LevelMap)
  | [], current, counter => some (current.markLeaf, counter)
  | nibble :: rest, current, counter =>
    match current.getIndex nibble with
    | some nibbleIndex =>
      match current.children.get? nibbleIndex with
      | none => none
      | some c =>
        match insertWithCheckpointCounted cc rest c counter with
        | none => none
        | some r => some (current.setChildren (current.children.set nibbleIndex r.1), r.2)
    | none =>
      let current1 := current.setBitmap (current.bitmap ||| ((1 <<< nibble) % 65536))
      match current1.getIndex nibble with
      | none => none
      | some nibbleIndex =>
        let newNode := Node.mk false false nibble ((current.prefixBits + 4) % 256) 0 []
        let placed : Option (List Node) :=
          if current1.children.length = nibbleIndex then some (current1.children ++ [newNode])
          else if nibbleIndex < current1.children.length then
            some ((current1.children.take (nibbleIndex + 1) ++
              current1.children.drop nibbleIndex).set nibbleIndex newNode)
          else none
        match placed with
        | none => none
        | some children1 =>
          match counter.get? cc with
          | none => none
          | some m =>
            let counter1 := counter.set cc
              (countChild m current.prefixBits current.value nibble children1.length)
            match insertWithCheckpointCounted cc rest newNode counter1 with
            | none => none
            | some r => some (current1.setChildren (children1.set nibbleIndex r.1), r.2)

/-- The method `AMT.insertWithCheckpoint`, with the counter. -/
def AMTState.insertWithCheckpoint (t : AMTState) (data : List Nat) : Option AMTState :=
  match insertWithCheckpointCounted t.currentCheckpoint (nibbles data) t.root t.counter with
  | none => none
  | some r => some { t with root := r.1, counter := r.2 }

/-- The method `AMT.AddCheckpoint`: a map with the literal for the depth 0 is appended, every
entry of the last map is copied into it key by key, and `currentCheckpoint` goes up by one.
The index `t.counter[totalCheckpoints-1]` panics on an empty slice. -/
def AMTState.AddCheckpoint (t : AMTState) : Option AMTState :=
  let totalCheckpoints := t.counter.length
  if totalCheckpoints = 0 then none
  else
    match t.counter.get? (totalCheckpoints - 1) with
    | none => none
    | some last =>
      let added : LevelMap := fun k => if k = 0 then some (emptyStats 0) else none
      let copied : LevelMap := fun k =>
        match last k with
        | some v => some v
        | none => added k
      some { t with counter := t.counter ++ [copied],
                    currentCheckpoint := t.currentCheckpoint + 1 }

/-- The trie of a full state, without the counter. -/
def AMTState.trie (t : AMTState) : AMT := { root := t.root }

mutual
/-- The nodes of a subtree, its root first, each as the triple of its `prefix`, the number of
its children and its `value`. -/
def recsOf : Node → List (Nat × Nat × Nat)
  | Node.mk _ _ value prefixBits _ children =>
    (prefixBits, children.length, value) :: recsOfList children
/-- The nodes of the subtrees of a list of children. -/
def recsOfList : List Node → List (Nat × Nat × Nat)
  | [] => []
  | c :: cs => recsOf c ++ recsOfList cs
end

/-- The number of nodes with `prefix = p` in a list of nodes. -/
def nodesAtDepth (p : Nat) (L : List (Nat × Nat × Nat)) : Nat :=
  (L.filter (fun r => decide (r.1 = p))).length

/-- The number of children of the nodes with `prefix = p`, summed over a list of nodes. -/
def childrenAtDepth (p : Nat) (L : List (Nat × Nat × Nat)) : Nat :=
  ((L.filter (fun r => decide (r.1 = p))).map (fun r => r.2.1)).sum

/-- The fields `max` and `maxValue` are exact: no node of the depth has more children than
`max`, and a node of the depth with the value `maxValue` has that many. -/
def MaxExact (s : LevelStats) (p : Nat) (L : List (Nat × Nat × Nat)) : Prop :=
  (∀ r ∈ L, r.1 = p → (r.2.1 : Int) ≤ s.max) ∧
  ∃ r ∈ L, r.1 = p ∧ (r.2.1 : Int) = s.max ∧ (r.2.2 : Int) = s.maxValue

/-- The field `max` is still as `InitAMT` wrote it for the depth 0, where the root is the one
node and has no child yet. -/
def MaxUnset (s : LevelStats) (p : Nat) (L : List (Nat × Nat × Nat)) : Prop :=
  p = 0 ∧ s.max = -1 ∧ s.totalNodes = 1 ∧ ∀ r ∈ L, r.1 = p → r.2.1 = 0

/-- The map of a checkpoint follows a list of nodes: a depth without entry has no node, and
the entry of a depth counts its nodes and their children, holds their `float64` quotient and the
largest number of children. -/
def Tracks (m : LevelMap) (L : List (Nat × Nat × Nat)) : Prop :=
  ∀ p, (m p = none → ∀ r ∈ L, r.1 ≠ p) ∧
    ∀ s, m p = some s →
      s.totalNodes = (nodesAtDepth p L : Int) ∧ s.totalChildren = (childrenAtDepth p L : Int) ∧
      s.avg = f64div s.totalChildren s.totalNodes ∧ (MaxExact s p L ∨ MaxUnset s p L)

/-- The states of the struct `AMT` reachable from `InitAMT` by calls of `insertWithCheckpoint`
with keys of at most 31 bytes and of `AddCheckpoint`. -/
inductive StatsReach : AMTState → Prop
  | init : StatsReach InitAMTState
  | insertWithCheckpoint (t : AMTState) (k : List Nat) (t1 : AMTState) :
      StatsReach t → k.length ≤ 31 → t.insertWithCheckpoint k = some t1 → StatsReach t1
  | addCheckpoint (t t1 : AMTState) :
      StatsReach t → t.AddCheckpoint = some t1 → StatsReach t1

/-- What holds of every reachable state: the current checkpoint is the last map of the counter,
the trie has the shape of the invariant, the `prefix` of a child is that of its parent plus 4
and stays at most 248, and the map of the current checkpoint follows the nodes of the trie. -/
def StatsInv (t : AMTState) : Prop :=
  t.counter.length = t.currentCheckpoint + 1 ∧ WFA t.root ∧ PrefixOk t.root ∧
  t.root.prefixBits = 0 ∧ t.root.value = 0 ∧ (∀ r ∈ recsOf t.root, r.1 ≤ 248) ∧
  ∃ m, t.counter.get? t.currentCheckpoint = some m ∧ Tracks m (recsOf t.root)

/-- A run of `insertWithCheckpoint` calls, in order. -/
def insertAllWithCheckpoint : AMTState → List (List Nat) → Option AMTState
  | t, [] => some t
  | t, k :: ks =>
    match t.insertWithCheckpoint k with
    | none => none
    | some t1 => insertAllWithCheckpoint t1 ks

/-- The entry of the depth `p` in the map of the current checkpoint. -/
def AMTState.depthStats (t : AMTState) (p : Nat) : Option LevelStats :=
  match t.counter.get? t.currentCheckpoint with
  | none => none
  | some m => m p

/-- The fields `min` and `minValue` are exact: no node of the depth has fewer children than
`min`, and a node of the depth with the value `minValue` has that many. -/
def MinExact (s : LevelStats) (p : Nat) (L : List (Nat × Nat × Nat)) : Prop :=
  (∀ r ∈ L, r.1 = p → s.min ≤ (r.2.1 : Int)) ∧
  ∃ r ∈ L, r.1 = p ∧ (r.2.1 : Int) = s.min ∧ (r.2.2 : Int) = s.minValue

/-- The two keys `FA45` and `FB45`. -/
def twoKeys : List (List Nat) := [[0xFA, 0x45], [0xFB, 0x45]]

/-- The fields `totalNodes`, `totalChildren`, `max`, `maxValue`, `min` and `minValue` of the
depth `p`, in this order, after a run of `insertWithCheckpoint` calls from `InitAMT`. -/
def depthReport (ks : List (List Nat)) (p : Nat) : Option (List Int) :=
  match insertAllWithCheckpoint InitAMTState ks with
  | none => none
  | some t =>
    match t.depthStats p with
    | none => none
    | some s => some [s.totalNodes, s.totalChildren, s.max, s.maxValue, s.min, s.minValue]

/-- The field `avg` of the depth `p` after a run of `insertWithCheckpoint` calls from
`InitAMT`. -/
def depthAvg (ks : List (List Nat)) (p : Nat) : Option ℚ :=
  match insertAllWithCheckpoint InitAMTState ks with
  | none => none
  | some t =>
    match t.depthStats p with
    | none => none
    | some s => some s.avg

/-- The three keys `10`, `20` and `3045`. -/
def threeKeys : List (List Nat) := [[0x10], [0x20], [0x30, 0x45]]

/-- The nodes of the depth `p` after a run of `insertWithCheckpoint` calls from `InitAMT`,
each as the triple of its `prefix`, the number of its children and its `value`. -/
def depthNodes (ks : List (List Nat)) (p : Nat) : Option (List (Nat × Nat × Nat)) :=
  match insertAllWithCheckpoint InitAMTState ks with
  | none => none
  | some t => some ((recsOf t.root).filter (fun r => decide (r.1 = p)))

end Amt

/-! # Notions used to state and prove the properties of the radix tree and of the host -/

/-- The relation `NodeIn m n`: the node `m` is `n` itself or lies below `n`. -/
inductive NodeIn : Node → Node → Prop
  | self (n : Node) : NodeIn n n
  | deeper (n c m : Node) : c ∈ n.children → NodeIn m c → NodeIn m n

/-- The relation `PermTree n n1`: the tree `n1` is obtained from `n` by permuting the children
sequence of nodes, any number of times and at any nodes. -/
inductive PermTree : Node → Node → Prop
  | refl (n : Node) : PermTree n n
  | perm (n : Node) (cs : List Node) : n.children.Perm cs → PermTree n (n.setChildren cs)
  | child (n : Node) (pre : List Node) (c c1 : Node) (post : List Node) :
      n.children = pre ++ c :: post → PermTree c c1 →
      PermTree n (n.setChildren (pre ++ c1 :: post))
  | trans (a b c : Node) : PermTree a b → PermTree b c → PermTree a c

/-- The hits of an address below `n` and below `n1` end at leaves with the same value and the
same end. -/
def SameHits (a : IP) (n n1 : Node) : Prop :=
  (∀ L, Hit a n L → ∃ L1, Hit a n1 L1 ∧ L1.value = L.value ∧ L1.endPrefix = L.endPrefix) ∧
  (∀ L1, Hit a n1 L1 → ∃ L, Hit a n L ∧ L.value = L1.value ∧ L.endPrefix = L1.endPrefix)

/-- The fields of a node other than its children. -/
def SameFields (n n1 : Node) : Prop :=
  n1.endPrefix = n.endPrefix ∧ n1.value = n.value ∧ n1.isLeaf = n.isLeaf ∧
    n1.startPrefix = n.startPrefix ∧ n1.length = n.length

/-- The tree `treeSplit46` with the two leaves below its internal node in the other order. -/
def treeSplit46Swapped : Node :=
  Node.mk false 0 0 0 []
    [Node.mk false 0 46 46 addrDb8
      [Node.mk true 46 48 2 addrDb8Net2 [], Node.mk true 46 48 2 addrDb8 []]]

/-! ## `lookup` and `insert` with every index checked

The definitions of `lookup` and `insert` above read a byte with a default for an index out of
range and keep one outcome for every way of not returning. The same two methods are given here
with each slice index checked and each way of not returning kept apart. -/

/-- The ways a run of `lookup` or `insert` ends without returning: the branch
`log.Fatal("start Prefix don't match with current bit index")`, a byte index `k/8` outside the
address slice, a child index outside `children`, and the end of the fuel of the outer loop. -/
inductive Panic where
  | prefixMismatch
  | byteIndex
  | childIndex
  | fuel
deriving DecidableEq

/-- The masked byte `ip[k/8] & (128 >> (k % 8))`; `none` when `k/8` is out of range. -/
def readBit (ip : IP) (k : Nat) : Option Nat :=
  match ip.get? (k / 8) with
  | none => none
  | some b => some (b &&& (128 >>> (k % 8)))

/-- The assignment `v[j/8] = v[j/8] & ^(128 >> (j % 8))`; `none` when `j/8` is out of range. -/
def clearBitChecked (v : IP) (j : Nat) : Option IP :=
  match v.get? (j / 8) with
  | none => none
  | some b => some (v.set (j / 8) (b &&& (255 ^^^ (128 >>> (j % 8)))))

/-- The innermost loop `for k = i; k < endPrefix; k++` with both byte reads checked. -/
def countMatchChecked (ip v : IP) : Nat → Nat → Option Nat
  | 0, _ => some 0
  | n + 1, k =>
    match readBit ip k with
    | none => none
    | some fb =>
      match readBit v k with
      | none => none
      | some sb =>
        if fb ≠ sb then some 0
        else
          match countMatchChecked ip v n (k + 1) with
          | none => none
          | some m => some (m + 1)

/-- The child loop of `lookup`, with checked reads. -/
def lookupScanChecked (ip : IP) (i : Nat) : List Node → Nat → Except Panic (Option (Nat × Nat))
  | [], _ => .ok none
  | c :: cs, j =>
    if i ≠ c.startPrefix then .error Panic.prefixMismatch
    else
      match countMatchChecked ip c.value (c.endPrefix - i) i with
      | none => .error Panic.byteIndex
      | some matchCounter =>
        if matchCounter ≠ 0 then
          if matchCounter ≠ c.length then lookupScanChecked ip i cs (j + 1)
          else .ok (some (j, matchCounter))
        else lookupScanChecked ip i cs (j + 1)

/-- The outer loop of `lookup`, with checked reads; one unit of fuel per level descended. -/
def lookupLoopChecked (ip : IP) : Nat → Node → Nat → Except Panic Label
  | 0, _, i => if i < 128 then .error Panic.fuel else .ok ⟨false, ""⟩
  | fuel + 1, current, i =>
    if i < 128 then
      match lookupScanChecked ip i current.children 0 with
      | .error e => .error e
      | .ok none => .ok ⟨false, ""⟩
      | .ok (some (matchIndex, matchCounter)) =>
        match current.children.get? matchIndex with
        | none => .error Panic.childIndex
        | some c =>
          if c.isLeaf then .ok ⟨true, cidrString c.value c.endPrefix⟩
          else lookupLoopChecked ip fuel c (i + matchCounter)
    else .ok ⟨false, ""⟩

/-- The method `Radix.lookup` with every index checked, given fuel for 128 levels. -/
def Radix.lookupChecked (t : Radix) (ip : IP) : Except Panic Label :=
  lookupLoopChecked (to16 ip) 128 t.root 0

/-- The child loop of `insert`, with checked reads. -/
def insertScanChecked (ipBytes : IP) (ipEndPrefix i : Nat) :
    List Node → Nat → Except Panic (Option (Nat × Nat))
  | [], _ => .ok none
  | c :: cs, j =>
    if i ≠ c.startPrefix then .error Panic.prefixMismatch
    else
      let endPrefix := if c.endPrefix > ipEndPrefix then ipEndPrefix else c.endPrefix
      if i = endPrefix ∧ c.isLeaf = true then .ok none
      else
        match countMatchChecked ipBytes c.value (endPrefix - i) i with
        | none => .error Panic.byteIndex
        | some matchCounter =>
          if matchCounter ≠ 0 then .ok (some (j, matchCounter))
          else insertScanChecked ipBytes ipEndPrefix i cs (j + 1)

/-- The loop `for i = 0; i < ones;` of `insert`, with checked reads and indices; one unit of
fuel per level descended. -/
def insertLoopChecked (ip : IPNet) : Nat → Node → Nat → Bool → Bool → Except Panic Step
  | 0, current, i, chg, naf =>
    if i < ip.ones then .error Panic.fuel else .ok ⟨current, chg, naf, Branch.loopExit⟩
  | fuel + 1, current, i, chg, naf =>
    if i < ip.ones then
      let ipBytes := to16 ip.ip
      let ipEndPrefix := u8 ip.ones
      match insertScanChecked ipBytes ipEndPrefix i current.children 0 with
      | .error e => .error e
      | .ok none =>
        let newNode := Node.mk true (u8 i) (u8 ip.ones) (u8 (ip.ones - i)) (to16 ip.ip) []
        .ok ⟨(current.setChildren (current.children ++ [newNode])).setIsLeaf false,
              true, naf, Branch.append⟩
      | .ok (some (matchIndex, matchCounter)) =>
        match current.children.get? matchIndex with
        | none => .error Panic.childIndex
        | some c =>
          if i + matchCounter < ipEndPrefix then
            if i + matchCounter = c.endPrefix then
              if c.isLeaf then .ok ⟨current, chg, naf, Branch.covered⟩
              else
                match insertLoopChecked ip fuel c (i + matchCounter) chg naf with
                | .error e => .error e
                | .ok r =>
                  .ok ⟨current.setChildren (current.children.set matchIndex r.node),
                        r.isChanged, r.constructionNewAliasFound, r.branch⟩
            else if c.isLeaf then
              if c.endPrefix = ipEndPrefix ∧ u8sub ipEndPrefix (u8 (i + matchCounter)) = 1 then
                let j := i + matchCounter
                match clearBitChecked c.value j with
                | none => .error Panic.byteIndex
                | some cleared =>
                  let newNode := Node.mk true c.startPrefix (u8 (i + matchCounter))
                    (u8sub (u8 (i + matchCounter)) c.startPrefix) (dupIP cleared) []
                  .ok ⟨current.setChildren (current.children.set matchIndex newNode),
                        true, true, Branch.collapse⟩
              else
                let newNode2 := Node.mk true (u8 (i + matchCounter)) c.endPrefix
                  (u8sub c.endPrefix (u8 (i + matchCounter))) c.value []
                let newNode3 := Node.mk true (u8 (i + matchCounter)) ipEndPrefix
                  (u8sub ipEndPrefix (u8 (i + matchCounter))) (to16 ip.ip) []
                let newNode := Node.mk false (u8 i) (u8 (i + matchCounter)) (u8 matchCounter)
                  c.value [newNode2, newNode3]
                .ok ⟨current.setChildren ((current.children ++ [newNode]).eraseIdx matchIndex),
                      true, naf, Branch.leafSplit⟩
            else
              let newNode2 := Node.mk true (u8 (i + matchCounter)) ipEndPrefix
                (u8sub ipEndPrefix (u8 (i + matchCounter))) (to16 ip.ip) []
              let demoted := Node.mk c.isLeaf (u8 (i + matchCounter)) c.endPrefix
                (u8sub c.endPrefix (u8 (i + matchCounter))) c.value c.children
              let newNode := Node.mk false (u8 i) (u8 (i + matchCounter)) (u8 matchCounter)
                c.value [newNode2, demoted]
              .ok ⟨current.setChildren (current.children.set matchIndex newNode),
                    true, naf, Branch.internalSplit⟩
          else
            if c.endPrefix ≠ ipEndPrefix ∨ c.isLeaf = false then
              let newNode := Node.mk true c.startPrefix ipEndPrefix
                (u8sub ipEndPrefix c.startPrefix) (dupIP ip.ip) []
              .ok ⟨current.setChildren (current.children.set matchIndex newNode),
                    true, true, Branch.prune⟩
            else .ok ⟨current, chg, naf, Branch.present⟩
    else .ok ⟨current, chg, naf, Branch.loopExit⟩

/-- The method `Radix.insert` with every index checked, given fuel for `ones` levels. -/
def Radix.insertChecked (t : Radix) (ip : IPNet) : Except Panic Radix :=
  if t.root.isLeaf then
    let newNode := Node.mk true 0 (u8 ip.ones) (u8 ip.ones) (to16 ip.ip) []
    .ok ⟨(t.root.setChildren (t.root.children ++ [newNode])).setIsLeaf false, true,
          t.constructionNewAliasFound⟩
  else
    match insertLoopChecked ip ip.ones t.root 0 t.isChanged t.constructionNewAliasFound with
    | .error e => .error e
    | .ok r => .ok ⟨r.node, r.isChanged, r.constructionNewAliasFound⟩

/-! # The host: `src/lookup.go`, `src/status.go`, `src/input.go`, `src/bin/bin.go` -/

/-- The constant `LOOKUP_SUCCESS` of `status.go`. -/
def LOOKUP_SUCCESS : String := "success"

/-- The constant `LOOKUP_NO_MATCH` of `status.go`. -/
def LOOKUP_NO_MATCH : String := "no-match"

/-- The constant `LOOKUP_UNKNOWN_ERROR` of `status.go`. -/
def LOOKUP_UNKNOWN_ERROR : String := "unknown-error"

/-- The values `statusSuccess` and `statusFailure` of `monitor.go`, sent to the monitor. -/
inductive MonitorStatus where
  | statusSuccess
  | statusFailure
deriving DecidableEq

/-- The Go struct `LookUpResponse`. -/
structure LookUpResponse where
  ip : String
  status : String
  result : Label
  timestamp : String
  error : String

/-- The function `RunLookUp`: the response and the status sent on the channel of the monitor.
`stamp` is the text `time.Now().Format(time.RFC3339)`; `expand` is
`netaddr.FromStdIPRaw(target)` followed by `StringExpanded`, of a library outside the
repository, with `none` for its `ok = false`. The error text of the no-match branch,
`NewLookUpError(LOOKUP_NO_MATCH, errors.New(label.Metadata)).Err.Error()`, is
`label.Metadata`. When `LookUp` does not return, neither does `RunLookUp`. -/
def RunLookUp (l : Radix) (target : IP) (expanded : Bool) (stamp : String)
    (expand : IP → Option String) : Except Fault (LookUpResponse × MonitorStatus) :=
  match l.lookup target with
  | .error e => .error e
  | .ok label =>
    let srcIPStr :=
      if expanded then
        match expand target with
        | some s => s
        | none => ipString target
      else ipString target
    if label.aliased then
      .ok (⟨srcIPStr, LOOKUP_SUCCESS, label, stamp, ""⟩, MonitorStatus.statusSuccess)
    else
      .ok (⟨srcIPStr, LOOKUP_NO_MATCH, label, stamp, label.metadata⟩,
        MonitorStatus.statusFailure)

/-! ## Expansion of a CIDR block in `GetTargets` -/

/-- The steps of `incrementIP` from the last byte towards the first, on the reversed slice:
`ip[j]++` on a `uint8`, and `break` when the byte did not wrap to zero. -/
def incrementRev : List Nat → List Nat
  | [] => []
  | b :: bs => if (b + 1) % 256 > 0 then (b + 1) % 256 :: bs else (b + 1) % 256 :: incrementRev bs

/-- The function `incrementIP` of `input.go`. -/
def incrementIP (ip : IP) : IP := (incrementRev ip.reverse).reverse

/-- The function `duplicateIP` of `input.go`: a fresh copy of the slice. -/
def duplicateIP (ip : IP) : IP := ip

/-- The Go type `net.IPNet` with its mask as bytes. -/
structure CidrBlock where
  ip : IP
  mask : List Nat

/-- The method `net.IP.To4` of the Go standard library; `none` is `nil`. -/
def to4 (ip : IP) : Option IP :=
  if ip.length = 4 then some ip
  else if ip.length = 16 ∧ ip.take 10 = [0, 0, 0, 0, 0, 0, 0, 0, 0, 0] ∧ ip.getD 10 0 = 255 ∧
      ip.getD 11 0 = 255 then some (ip.drop 12)
  else none

/-- The function `networkNumberAndMask` of the Go standard library; the empty list is `nil`. -/
def networkNumberAndMask (n : CidrBlock) : IP × List Nat :=
  let ip : Option IP :=
    match to4 n.ip with
    | some x => some x
    | none => if n.ip.length ≠ 16 then none else some n.ip
  match ip with
  | none => ([], [])
  | some ip =>
    if n.mask.length = 4 then
      if ip.length ≠ 4 then ([], []) else (ip, n.mask)
    else if n.mask.length = 16 then
      if ip.length = 4 then (ip, n.mask.drop 12) else (ip, n.mask)
    else ([], [])

/-- The method `net.IPNet.Contains` of the Go standard library. -/
def CidrBlock.contains (n : CidrBlock) (ip : IP) : Bool :=
  let nn := (networkNumberAndMask n).1
  let m := (networkNumberAndMask n).2
  let ip1 :=
    match to4 ip with
    | some x => x
    | none => ip
  if ip1.length ≠ nn.length then false
  else (List.range ip1.length).all
    (fun i => decide (nn.getD i 0 &&& m.getD i 0 = ip1.getD i 0 &&& m.getD i 0))

/-- The method `net.IP.Mask` of the Go standard library; the empty list is `nil`. -/
def ipMask (ip : IP) (mask : List Nat) : IP :=
  let mask1 :=
    if mask.length = 16 ∧ ip.length = 4 ∧ mask.take 12 = List.replicate 12 255 then mask.drop 12
    else mask
  let ip1 :=
    if mask1.length = 4 ∧ ip.length = 16 ∧
        ip.take 12 = [0, 0, 0, 0, 0, 0, 0, 0, 0, 0, 255, 255] then ip.drop 12
    else ip
  if ip1.length ≠ mask1.length then []
  else (List.range ip1.length).map (fun i => ip1.getD i 0 &&& mask1.getD i 0)

/-- The loop `for ip = ...; ipnet.Contains(ip); incrementIP(ip)` of `GetTargets`, from the
address `ip` on: whether the loop ended within the fuel, one unit per iteration, and the values
of `command.ParsedData` sent on the channel, in order. -/
def expandLoop (n : CidrBlock) : Nat → IP → List IP → Bool × List IP
  | 0, _, sent => (false, sent)
  | fuel + 1, ip, sent =>
    if n.contains ip then expandLoop n fuel (incrementIP ip) (sent ++ [duplicateIP ip])
    else (true, sent)

/-- The expansion of a lookup command whose data is a CIDR block, as `GetTargets` does it. -/
def expandCIDR (n : CidrBlock) (fuel : Nat) : Bool × List IP :=
  expandLoop n fuel (ipMask n.ip n.mask) []

/-- The block `0.0.0.0/0` as `net.ParseCIDR` returns it. -/
def blockAll4 : CidrBlock := { ip := [0, 0, 0, 0], mask := [0, 0, 0, 0] }

/-- The block `192.0.2.0/30` as `net.ParseCIDR` returns it. -/
def blockSlash30 : CidrBlock := { ip := [192, 0, 2, 0], mask := [255, 255, 255, 252] }

/-! ## The lock discipline of the host loop in `bin.go`

The goroutines of `AliasV6Main` share one `sync.RWMutex`. What they do while they hold it is
embedded above; here only the order of taking and giving back the lock is kept: a state records
the mutex and the operations that are between their lock and unlock calls. -/

/-- The operations on the tree that the goroutines run while they hold the mutex: `RunLookUp`
and `l.Insert` in a lookup worker, `l.ExportCheckpoint` in the checkpoint goroutine. -/
inductive HostOp where
  | lookup
  | insert
  | export
deriving DecidableEq

/-- The two ways of holding a `sync.RWMutex`: `RLock` and `Lock`. -/
inductive LockMode where
  | read
  | write
deriving DecidableEq

/-- The call that brackets each operation in `bin.go`: `mux.RLock()` around `RunLookUp`,
`mux.Lock()` around `l.Insert`, `mux.RLock()` around `l.ExportCheckpoint`. -/
def lockOf : HostOp → LockMode
  | HostOp.lookup => LockMode.read
  | HostOp.insert => LockMode.write
  | HostOp.export => LockMode.read

/-- The state of a `sync.RWMutex`: the number of readers that hold it and whether a writer
holds it. -/
structure RWMutex where
  readers : Nat
  writer : Bool

/-- The calls `RLock` and `Lock`: the state after the call returned, `none` while it blocks. -/
def RWMutex.acquire (m : RWMutex) : LockMode → Option RWMutex
  | LockMode.read => if m.writer then none else some { m with readers := m.readers + 1 }
  | LockMode.write =>
    if m.writer = true ∨ m.readers ≠ 0 then none else some { m with writer := true }

/-- The calls `RUnlock` and `Unlock`. -/
def RWMutex.release (m : RWMutex) : LockMode → RWMutex
  | LockMode.read => { m with readers := m.readers - 1 }
  | LockMode.write => { m with writer := false }

/-- The state of the host loop: the mutex and the operations now between their lock and
unlock calls. -/
structure HostState where
  mux : RWMutex
  running : List HostOp

/-- The state when the goroutines start. -/
def HostState.init : HostState := { mux := { readers := 0, writer := false }, running := [] }

/-- A step of the host loop: a goroutine gets the lock for its operation, or an operation ends
and its goroutine gives the lock back. The one checkpoint goroutine runs one export at a
time. -/
inductive HostStep : HostState → HostState → Prop
  | start (s : HostState) (op : HostOp) (m1 : RWMutex) :
      s.mux.acquire (lockOf op) = some m1 → (op = HostOp.export → HostOp.export ∉ s.running) →
      HostStep s { mux := m1, running := op :: s.running }
  | finish (s : HostState) (op : HostOp) : op ∈ s.running →
      HostStep s { mux := s.mux.release (lockOf op), running := s.running.erase op }

/-- The states that the host loop can reach. -/
inductive HostReach : HostState → Prop
  | init : HostReach HostState.init
  | step (s s1 : HostState) : HostReach s → HostStep s s1 → HostReach s1

/-- Writer exclusivity as the specification words it: in every reachable state an insert that
is running is the only operation running, and so is an export that is running. -/
def WriterExclusivityAsStated : Prop :=
  ∀ s, HostReach s →
    (HostOp.insert ∈ s.running → s.running = [HostOp.insert]) ∧
    (HostOp.export ∈ s.running → s.running = [HostOp.export])

/-- The mutex counts the running readers, and a writer holds it exactly when an insert runs,
alone. -/
def LockInv (s : HostState) : Prop :=
  s.mux.readers = (s.running.filter (fun op => decide (lockOf op = LockMode.read))).length ∧
  (s.mux.writer = true → s.running = [HostOp.insert]) ∧
  (s.mux.writer = false → HostOp.insert ∉ s.running) ∧
  s.running.count HostOp.export ≤ 1

/-- The state in which a lookup and then an export got the lock. -/
def hostLookupExport : HostState :=
  { mux := { readers := 2, writer := false }, running := [HostOp.export, HostOp.lookup] }

/-- The state in which two lookups got the lock. -/
def hostTwoLookups : HostState :=
  { mux := { readers := 2, writer := false }, running := [HostOp.lookup, HostOp.lookup] }

/-- The state in which an insert got the lock. -/
def hostInsert : HostState :=
  { mux := { readers := 0, writer := true }, running := [HostOp.insert] }

/-- The tree that holds the single leaf `(v, e)`, with the two flags as given. -/
def singleLeafTree (v : IP) (e : Nat) (chg naf : Bool) : Radix :=
  ⟨Node.mk false 0 0 0 [] [Node.mk true 0 e e v []], chg, naf⟩

/-- The tree with an internal node `[0, d)` over the two leaves `[d, e)` of `v` and `[d, m)`
of `addr`. -/
def leafSplitTree (v addr : IP) (e m d : Nat) (chg naf : Bool) : Radix :=
  ⟨Node.mk false 0 0 0 []
    [Node.mk false 0 d d v [Node.mk true d e (e - d) v [], Node.mk true d m (m - d) addr []]],
    chg, naf⟩

/-- Below `n`, every node flagged as a leaf has no children and every other node has exactly
two. -/
inductive Binary : Node → Prop
  | mk (n : Node) :
      (∀ c ∈ n.children, c.isLeaf = true → c.children = []) →
      (∀ c ∈ n.children, c.isLeaf = false → c.children.length = 2) →
      (∀ c ∈ n.children, Binary c) → Binary n

/-- The prefixes that a checkpoint of the tree lists: `value/endPrefix` of each leaf that the
DFS export visits, in the order of the visit. -/
def checkpointPrefixes (t : Radix) : List IPNet :=
  (leavesDFS t.root).map (fun L => ⟨L.value, L.endPrefix⟩)

/-- The address `2001:db8:1:8000::`. -/
def addrDb8Net1High : IP := [32, 1, 13, 184, 0, 1, 128, 0, 0, 0, 0, 0, 0, 0, 0, 0]

/-- The tree after `2001:db8::/48`, `2001:db8:1::/49` and `2001:db8:1:8000::/49`: the two
`/49` collapse into a `/48` leaf beside the first `/48`. -/
def treeTwoSlash48 : Radix :=
  ⟨Node.mk false 0 0 0 []
    [Node.mk false 0 47 47 addrDb8
      [Node.mk true 47 48 1 addrDb8 [], Node.mk true 47 48 1 addrDb8Net1 []]], true, true⟩

/-! ## Bits -/

theorem and_two_pow_cases (x p : Nat) : x &&& 2 ^ p = 0 ∨ x &&& 2 ^ p = 2 ^ p := by
  cases h : x.testBit p
  · left
    apply Nat.eq_of_testBit_eq
    intro i
    simp only [Nat.testBit_and, Nat.testBit_two_pow, Nat.zero_testBit]
    by_cases hi : p = i
    · subst hi; simp [h]
    · simp [hi]
  · right
    apply Nat.eq_of_testBit_eq
    intro i
    simp only [Nat.testBit_and, Nat.testBit_two_pow]
    by_cases hi : p = i
    · subst hi; simp [h]
    · simp [hi]

theorem shift_eq_two_pow (r : Nat) (hr : r < 8) : 128 >>> r = 2 ^ (7 - r) := by
  interval_cases r <;> rfl

theorem bitAt_cases (a : IP) (k : Nat) : bitAt a k = 0 ∨ bitAt a k = 128 >>> (k % 8) := by
  unfold bitAt
  rw [shift_eq_two_pow _ (Nat.mod_lt _ (by decide))]
  exact and_two_pow_cases _ _

theorem bitAt_eq_of_ne_of_ne {a x y : IP} {k : Nat} (hxy : bitAt x k ≠ bitAt y k)
    (hax : bitAt a k ≠ bitAt x k) : bitAt a k = bitAt y k := by
  rcases bitAt_cases a k with h1 | h1 <;> rcases bitAt_cases x k with h2 | h2 <;>
    rcases bitAt_cases y k with h3 | h3 <;> simp_all

theorem mask_clear (rj rk : Nat) (hj : rj < 8) (hk : rk < 8) :
    (255 ^^^ (128 >>> rj)) &&& (128 >>> rk) = if rj = rk then 0 else 128 >>> rk := by
  interval_cases rj <;> interval_cases rk <;> rfl

theorem clearBitAt_length (v : IP) (j : Nat) : (clearBitAt v j).length = v.length := by
  simp [clearBitAt]

theorem bitAt_clearBitAt_ne (v : IP) (j k : Nat) (hkj : k ≠ j) :
    bitAt (clearBitAt v j) k = bitAt v k := by
  unfold bitAt clearBitAt
  by_cases hb : j / 8 = k / 8
  · by_cases hlen : k / 8 < v.length
    · have hr : j % 8 ≠ k % 8 := by
        intro h; apply hkj
        have h1 := Nat.div_add_mod j 8; have h2 := Nat.div_add_mod k 8; omega
      have hlen2 : j / 8 < v.length := by omega
      simp only [List.getD_eq_getElem?_getD, ← hb, List.getElem?_set_self hlen2,
        Option.getD_some, List.getElem?_eq_getElem hlen2]
      rw [Nat.and_assoc, mask_clear _ _ (Nat.mod_lt j (by decide)) (Nat.mod_lt k (by decide)),
        if_neg hr]
    · simp only [List.getD_eq_getElem?_getD]
      rw [List.getElem?_eq_none (by simp; omega), List.getElem?_eq_none (by omega)]
  · simp only [List.getD_eq_getElem?_getD, List.getElem?_set_ne hb]

theorem bitAt_clearBitAt_self (v : IP) (j : Nat) : bitAt (clearBitAt v j) j = 0 := by
  unfold bitAt clearBitAt
  by_cases hlen : j / 8 < v.length
  · simp only [List.getD_eq_getElem?_getD]
    rw [List.getElem?_set_self hlen, List.getElem?_eq_getElem hlen]
    simp [Nat.and_assoc, mask_clear _ _ (Nat.mod_lt j (by decide)) (Nat.mod_lt j (by decide))]
  · simp only [List.getD_eq_getElem?_getD]
    rw [List.getElem?_eq_none (by simp; omega)]
    simp

/-! ## agree -/

theorem agree_refl (a : IP) (lo hi : Nat) : agree a a lo hi := fun _ _ _ => rfl

theorem agree_symm {a b : IP} {lo hi : Nat} (h : agree a b lo hi) : agree b a lo hi :=
  fun k h1 h2 => (h k h1 h2).symm

theorem agree_trans {a b c : IP} {lo hi : Nat} (h1 : agree a b lo hi) (h2 : agree b c lo hi) :
    agree a c lo hi := fun k hk1 hk2 => (h1 k hk1 hk2).trans (h2 k hk1 hk2)

theorem agree_mono {a b : IP} {lo hi lo1 hi1 : Nat} (h : agree a b lo hi) (hlo : lo ≤ lo1)
    (hhi : hi1 ≤ hi) : agree a b lo1 hi1 := fun k hk1 hk2 => h k (by omega) (by omega)

theorem agree_append {a b : IP} {lo mid hi : Nat} (h1 : agree a b lo mid) (h2 : agree a b mid hi) :
    agree a b lo hi := fun k hk1 hk2 => by
  by_cases h : k < mid
  · exact h1 k h hk2
  · exact h2 k hk1 (by omega)

theorem agree_empty (a b : IP) {lo hi : Nat} (h : hi ≤ lo) : agree a b lo hi :=
  fun k hk1 hk2 => by omega

/-! ## countMatch -/

theorem countMatch_le (ip v : IP) (n k : Nat) : countMatch ip v n k ≤ n := by
  induction n generalizing k with
  | zero => simp [countMatch]
  | succ n ih =>
    simp only [countMatch]
    split
    · omega
    · have := ih (k + 1); omega

theorem countMatch_agree (ip v : IP) (n k : Nat) :
    agree ip v k (k + countMatch ip v n k) := by
  induction n generalizing k with
  | zero => intro j h1 h2; simp [countMatch] at h1; omega
  | succ n ih =>
    simp only [countMatch]
    split
    · intro j h1 h2; omega
    · rename_i hb
      intro j h1 h2
      by_cases hj : j = k
      · subst hj; simpa using hb
      · exact ih (k + 1) j (by omega) (by omega)

theorem countMatch_stop (ip v : IP) (n k : Nat) (h : countMatch ip v n k < n) :
    bitAt ip (k + countMatch ip v n k) ≠ bitAt v (k + countMatch ip v n k) := by
  induction n generalizing k with
  | zero => simp at h
  | succ n ih =>
    simp only [countMatch] at h ⊢
    split
    · rename_i hb; simpa using hb
    · rename_i hb
      rw [if_neg hb] at h
      have := ih (k + 1) (by omega)
      rw [show k + (countMatch ip v n (k + 1) + 1) = k + 1 + countMatch ip v n (k + 1) by omega]
      exact this

theorem countMatch_eq_zero_iff (ip v : IP) (n k : Nat) :
    countMatch ip v n k = 0 ↔ n = 0 ∨ bitAt ip k ≠ bitAt v k := by
  cases n with
  | zero => simp [countMatch]
  | succ n =>
    simp only [countMatch]
    split <;> simp_all

theorem countMatch_eq_of_agree (ip v : IP) (n k : Nat) (h : agree ip v k (k + n)) :
    countMatch ip v n k = n := by
  by_contra hne
  have hlt : countMatch ip v n k < n := lt_of_le_of_ne (countMatch_le ip v n k) hne
  exact countMatch_stop ip v n k hlt (h _ (by omega) (by omega))

theorem countMatch_eq_iff_agree (ip v : IP) (n k : Nat) :
    countMatch ip v n k = n ↔ agree ip v k (k + n) :=
  ⟨fun h => h ▸ countMatch_agree ip v n k, countMatch_eq_of_agree ip v n k⟩

/-! ## Fields of a node -/

@[simp] theorem Node.isLeaf_mk (l s e n v cs) : (Node.mk l s e n v cs).isLeaf = l := rfl
@[simp] theorem Node.startPrefix_mk (l s e n v cs) : (Node.mk l s e n v cs).startPrefix = s := rfl
@[simp] theorem Node.endPrefix_mk (l s e n v cs) : (Node.mk l s e n v cs).endPrefix = e := rfl
@[simp] theorem Node.length_mk (l s e n v cs) : (Node.mk l s e n v cs).length = n := rfl
@[simp] theorem Node.value_mk (l s e n v cs) : (Node.mk l s e n v cs).value = v := rfl
@[simp] theorem Node.children_mk (l s e n v cs) : (Node.mk l s e n v cs).children = cs := rfl

@[simp] theorem Node.isLeaf_setChildren (n : Node) (cs) : (n.setChildren cs).isLeaf = n.isLeaf := by
  cases n; rfl
@[simp] theorem Node.startPrefix_setChildren (n : Node) (cs) :
    (n.setChildren cs).startPrefix = n.startPrefix := by cases n; rfl
@[simp] theorem Node.endPrefix_setChildren (n : Node) (cs) :
    (n.setChildren cs).endPrefix = n.endPrefix := by cases n; rfl
@[simp] theorem Node.length_setChildren (n : Node) (cs) :
    (n.setChildren cs).length = n.length := by cases n; rfl
@[simp] theorem Node.value_setChildren (n : Node) (cs) : (n.setChildren cs).value = n.value := by
  cases n; rfl
@[simp] theorem Node.children_setChildren (n : Node) (cs) : (n.setChildren cs).children = cs := by
  cases n; rfl

@[simp] theorem Node.isLeaf_setIsLeaf (n : Node) (l) : (n.setIsLeaf l).isLeaf = l := by
  cases n; rfl
@[simp] theorem Node.startPrefix_setIsLeaf (n : Node) (l) :
    (n.setIsLeaf l).startPrefix = n.startPrefix := by cases n; rfl
@[simp] theorem Node.endPrefix_setIsLeaf (n : Node) (l) :
    (n.setIsLeaf l).endPrefix = n.endPrefix := by cases n; rfl
@[simp] theorem Node.length_setIsLeaf (n : Node) (l) : (n.setIsLeaf l).length = n.length := by
  cases n; rfl
@[simp] theorem Node.value_setIsLeaf (n : Node) (l) : (n.setIsLeaf l).value = n.value := by
  cases n; rfl
@[simp] theorem Node.children_setIsLeaf (n : Node) (l) :
    (n.setIsLeaf l).children = n.children := by cases n; rfl

theorem Node.setChildren_self (n : Node) : n.setChildren n.children = n := by cases n; rfl

theorem Node.eta (n : Node) :
    Node.mk n.isLeaf n.startPrefix n.endPrefix n.length n.value n.children = n := by cases n; rfl

/-! ## Machine arithmetic within range -/

theorem u8_eq {n : Nat} (h : n < 256) : u8 n = n := Nat.mod_eq_of_lt h

theorem u8sub_eq {a b : Nat} (hb : b ≤ a) (ha : a < 256) : u8sub a b = a - b := by
  unfold u8sub; omega

theorem to16_eq {ip : IP} (h : ip.length = 16) : to16 ip = ip := by
  simp [to16, h]

/-! ## Lists around the matched index -/

theorem get_mid {α : Type} (pre : List α) (c : α) (post : List α) :
    (pre ++ c :: post).get? pre.length = some c := by
  rw [List.get?_eq_getElem?, List.getElem?_append_right (le_refl _)]
  simp

theorem set_mid {α : Type} (pre : List α) (c x : α) (post : List α) :
    (pre ++ c :: post).set pre.length x = pre ++ x :: post := by
  simp

theorem eraseIdx_mid {α : Type} (pre : List α) (c x : α) (post : List α) :
    (pre ++ c :: post ++ [x]).eraseIdx pre.length = pre ++ post ++ [x] := by
  rw [List.append_assoc, List.eraseIdx_append_of_length_le (le_refl _)]
  simp

/-! ## The child loops -/

theorem insertScan_spec (ip : IP) (m i : Nat) (him : i < m) (cs : List Node) (j : Nat)
    (hcs : ∀ c ∈ cs, c.startPrefix = i ∧ i < c.endPrefix) :
    (insertScan ip m i cs j = .ok none ∧ ∀ c ∈ cs, bitAt ip i ≠ bitAt c.value i) ∨
    (∃ pre c post, cs = pre ++ c :: post ∧ (∀ x ∈ pre, bitAt ip i ≠ bitAt x.value i) ∧
      countMatch ip c.value ((if c.endPrefix > m then m else c.endPrefix) - i) i ≠ 0 ∧
      insertScan ip m i cs j = .ok (some (j + pre.length,
        countMatch ip c.value ((if c.endPrefix > m then m else c.endPrefix) - i) i))) := by
  induction cs generalizing j with
  | nil => left; simp [insertScan]
  | cons c cs ih =>
    have hc := hcs c (List.mem_cons_self _ _)
    have hne : ¬ (i = (if c.endPrefix > m then m else c.endPrefix) ∧ c.isLeaf = true) := by
      intro h; have := h.1; split at this <;> omega
    by_cases hmc : countMatch ip c.value ((if c.endPrefix > m then m else c.endPrefix) - i) i = 0
    · have hbit : bitAt ip i ≠ bitAt c.value i := by
        rcases (countMatch_eq_zero_iff _ _ _ _).1 hmc with h | h
        · split at h <;> omega
        · exact h
      rcases ih (j + 1) (fun x hx => hcs x (List.mem_cons_of_mem _ hx)) with ⟨h1, h2⟩ | ⟨pre, x, post, h1, h2, h3, h4⟩
      · left
        refine ⟨?_, ?_⟩
        · simp only [insertScan, hc.1, ne_eq, not_true_eq_false, if_false, hne, hmc]
          simpa using h1
        · intro y hy
          rcases List.mem_cons.1 hy with rfl | hy
          · exact hbit
          · exact h2 y hy
      · right
        refine ⟨c :: pre, x, post, by simp [h1], ?_, h3, ?_⟩
        · intro y hy
          rcases List.mem_cons.1 hy with rfl | hy
          · exact hbit
          · exact h2 y hy
        · simp only [insertScan, hc.1, ne_eq, not_true_eq_false, if_false, hne, hmc]
          simp only [List.length_cons]
          rw [show j + (pre.length + 1) = j + 1 + pre.length by omega]
          simpa using h4
    · right
      refine ⟨[], c, cs, rfl, by simp, hmc, ?_⟩
      simp [insertScan, hc.1, hne, hmc]

theorem WF.childOk {n : Node} (h : WF n) : ∀ c ∈ n.children, ChildOk n.endPrefix n.value c := by
  cases h; assumption

theorem WF.child {n : Node} (h : WF n) : ∀ c ∈ n.children, WF c := by
  cases h; assumption

theorem WF.nodup {n : Node} (h : WF n) :
    (n.children.map (fun c => bitAt c.value n.endPrefix)).Nodup := by
  cases h; assumption

theorem insertLoop_rel (p : IPNet) (hp : p.Valid) (fuel : Nat) (n : Node) (chg naf : Bool)
    (hwf : WF n) (hlt : n.endPrefix < p.ones) (hfuel : p.ones ≤ fuel + n.endPrefix) :
    ∃ n1 chg1 naf1 b, InsRel p n chg naf n1 chg1 naf1 b ∧
      insertLoop p fuel n n.endPrefix chg naf = .ok ⟨n1, chg1, naf1, b⟩ := by
  obtain ⟨hlen, hone, h128⟩ := hp
  induction fuel generalizing n chg naf with
  | zero => omega
  | succ fuel ih =>
    have hok := hwf.childOk
    have hscan := insertScan_spec p.ip p.ones n.endPrefix hlt n.children 0
      (fun c hc => ⟨(hok c hc).1, (hok c hc).2.1⟩)
    have hm8 : u8 p.ones = p.ones := u8_eq (by omega)
    rcases hscan with ⟨hs, hall⟩ | ⟨pre, c, post, hsplit, hmiss, hmc, hs⟩
    · refine ⟨_, _, _, _, InsRel.append n chg naf hall, ?_⟩
      simp only [insertLoop, hlt, if_true, to16_eq hlen, hm8, hs]
      rw [u8_eq (show n.endPrefix < 256 by omega), u8_eq (show p.ones - n.endPrefix < 256 by omega)]
    · have hcin : c ∈ n.children := by rw [hsplit]; simp
      obtain ⟨hcs, hce, hce128, hcl, hcv, hcag, hcleaf⟩ := hok c hcin
      generalize hmcdef :
        countMatch p.ip c.value ((if c.endPrefix > p.ones then p.ones else c.endPrefix)
          - n.endPrefix) n.endPrefix = mc at hs hmc
      have hle := countMatch_le p.ip c.value
        ((if c.endPrefix > p.ones then p.ones else c.endPrefix) - n.endPrefix) n.endPrefix
      have hag := countMatch_agree p.ip c.value
        ((if c.endPrefix > p.ones then p.ones else c.endPrefix) - n.endPrefix) n.endPrefix
      have hst := countMatch_stop p.ip c.value
        ((if c.endPrefix > p.ones then p.ones else c.endPrefix) - n.endPrefix) n.endPrefix
      rw [hmcdef] at hle hag hst
      have hd1 : n.endPrefix + mc ≤ c.endPrefix := by split at hle <;> omega
      have hd2 : n.endPrefix + mc ≤ p.ones := by split at hle <;> omega
      have hpick : Picked p.ip p.ones n pre c post (n.endPrefix + mc) :=
        { split := hsplit, miss := hmiss, lo := by omega, hiNode := hd1, hiNet := hd2,
          same := hag,
          stop := fun h1 h2 => hst (by split <;> omega) }
      have hget : n.children.get? (0 + pre.length) = some c := by
        rw [hsplit, Nat.zero_add]; exact get_mid pre c post
      have hd8 : u8 (n.endPrefix + mc) = n.endPrefix + mc := u8_eq (by omega)
      have hi8 : u8 n.endPrefix = n.endPrefix := u8_eq (by omega)
      have hmc8 : u8 mc = mc := u8_eq (by omega)
      simp only [insertLoop, hlt, if_true, to16_eq hlen, hm8, hs, hget, hd8, hi8, hmc8, dupIP]
      by_cases h1 : n.endPrefix + mc < p.ones
      · simp only [h1, if_true]
        by_cases h2 : n.endPrefix + mc = c.endPrefix
        · simp only [h2, if_true]
          cases hleaf : c.isLeaf
          · -- descend
            have hwc : WF c := hwf.child c hcin
            obtain ⟨c1, chg1, naf1, b, hrel, heq⟩ :=
              ih c chg naf hwc (by omega) (by omega)
            refine ⟨_, _, _, _, InsRel.descend n chg naf pre c post _ c1 chg1 naf1 b hpick h1 h2
              hleaf hrel, ?_⟩
            simp only [heq, Bool.false_eq_true, if_false]
            rw [hsplit, Nat.zero_add, set_mid]
          · exact ⟨_, _, _, _, InsRel.covered n chg naf pre c post _ hpick h1 h2 hleaf, by simp⟩
        · simp only [h2, if_false]
          cases hleaf : c.isLeaf
          · refine ⟨_, _, _, _, InsRel.internalSplit n chg naf pre c post _ hpick h1 h2 hleaf, ?_⟩
            simp only [Bool.false_eq_true, if_false]
            rw [hsplit, Nat.zero_add, set_mid, u8sub_eq hd2 (by omega), u8sub_eq hd1 (by omega)]
            simp [Nat.add_sub_cancel_left]
          · simp only [if_true]
            have e1 : u8sub p.ones (n.endPrefix + mc) = p.ones - (n.endPrefix + mc) :=
              u8sub_eq hd2 (by omega)
            by_cases h3 : c.endPrefix = p.ones ∧ p.ones - (n.endPrefix + mc) = 1
            · refine ⟨_, _, _, _, InsRel.collapse n chg naf pre c post _ hpick h1 h2 hleaf
                h3.1 h3.2, ?_⟩
              rw [e1, if_pos h3, hsplit, Nat.zero_add, set_mid, hcs,
                u8sub_eq (show n.endPrefix ≤ n.endPrefix + mc by omega) (by omega)]
            · refine ⟨_, _, _, _, InsRel.leafSplit n chg naf pre c post _ hpick h1 h2 hleaf
                h3, ?_⟩
              rw [e1, if_neg h3, hsplit, Nat.zero_add, eraseIdx_mid,
                u8sub_eq hd1 (by omega)]
              simp [Nat.add_sub_cancel_left]
      · have hdm : n.endPrefix + mc = p.ones := by omega
        simp only [h1, if_false]
        by_cases h4 : c.endPrefix ≠ p.ones ∨ c.isLeaf = false
        · refine ⟨_, _, _, _, InsRel.prune n chg naf pre c post _ hpick hdm h4, ?_⟩
          rw [if_pos h4, hsplit, Nat.zero_add, set_mid, hcs, u8sub_eq (by omega) (by omega)]
        · have h5 : c.endPrefix = p.ones ∧ c.isLeaf = true := by
            constructor
            · by_contra h; exact h4 (Or.inl h)
            · cases hl : c.isLeaf
              · exact absurd (Or.inr hl) h4
              · rfl
          exact ⟨_, _, _, _, InsRel.present n chg naf pre c post _ hpick hdm h5.1 h5.2,
            by rw [if_neg h4]⟩

/-! ## The invariant is kept by `insert` -/

theorem InsRel.fields {p : IPNet} {n n1 : Node} {chg naf chg1 naf1 : Bool} {b : Branch}
    (h : InsRel p n chg naf n1 chg1 naf1 b) :
    n1.endPrefix = n.endPrefix ∧ n1.value = n.value ∧ n1.startPrefix = n.startPrefix ∧
      n1.length = n.length ∧ (n.isLeaf = false → n1.isLeaf = false) := by
  cases h <;> simp

theorem WF.congr {n n1 : Node} (h : WF n) (he : n1.endPrefix = n.endPrefix)
    (hv : n1.value = n.value) (hc : n1.children = n.children) : WF n1 := by
  refine WF.mk n1 ?_ ?_ ?_
  · rw [he, hv, hc]; exact h.childOk
  · rw [hc]; exact h.child
  · rw [he, hc]; exact h.nodup

theorem WF.of_no_children {n : Node} (h : n.children = []) : WF n := by
  refine WF.mk n ?_ ?_ ?_ <;> simp [h]

theorem WF.replace {n : Node} (h : WF n) {pre post : List Node} {c x : Node}
    (hs : n.children = pre ++ c :: post) (hx : ChildOk n.endPrefix n.value x) (hwx : WF x)
    (hb : bitAt x.value n.endPrefix = bitAt c.value n.endPrefix) :
    WF (n.setChildren (pre ++ x :: post)) := by
  have hok := h.childOk
  have hch := h.child
  have hnd := h.nodup
  rw [hs] at hok hch hnd
  refine WF.mk _ ?_ ?_ ?_
  · intro y hy
    simp only [Node.children_setChildren, List.mem_append, List.mem_cons] at hy
    simp only [Node.endPrefix_setChildren, Node.value_setChildren]
    rcases hy with hy | rfl | hy
    · exact hok y (by simp [hy])
    · exact hx
    · exact hok y (by simp [hy])
  · intro y hy
    simp only [Node.children_setChildren, List.mem_append, List.mem_cons] at hy
    rcases hy with hy | rfl | hy
    · exact hch y (by simp [hy])
    · exact hwx
    · exact hch y (by simp [hy])
  · simp only [Node.children_setChildren, Node.endPrefix_setChildren, List.map_append,
      List.map_cons, hb]
    simpa using hnd

theorem WF.moveLast {n : Node} (h : WF n) {pre post : List Node} {c x : Node}
    (hs : n.children = pre ++ c :: post) (hx : ChildOk n.endPrefix n.value x) (hwx : WF x)
    (hb : bitAt x.value n.endPrefix = bitAt c.value n.endPrefix) :
    WF (n.setChildren (pre ++ post ++ [x])) := by
  have hok := h.childOk
  have hch := h.child
  have hnd := h.nodup
  rw [hs] at hok hch hnd
  refine WF.mk _ ?_ ?_ ?_
  · intro y hy
    simp only [Node.children_setChildren, List.mem_append, List.mem_singleton] at hy
    simp only [Node.endPrefix_setChildren, Node.value_setChildren]
    rcases hy with (hy | hy) | rfl
    · exact hok y (by simp [hy])
    · exact hok y (by simp [hy])
    · exact hx
  · intro y hy
    simp only [Node.children_setChildren, List.mem_append, List.mem_singleton] at hy
    rcases hy with (hy | hy) | rfl
    · exact hch y (by simp [hy])
    · exact hch y (by simp [hy])
    · exact hwx
  · simp only [Node.children_setChildren, Node.endPrefix_setChildren]
    have hperm : (pre ++ post ++ [x]).Perm (pre ++ x :: post) := by
      rw [List.append_assoc]
      exact List.Perm.append_left pre (List.perm_append_singleton x post)
    rw [(hperm.map _).nodup_iff]
    simp only [List.map_append, List.map_cons, hb]
    simpa using hnd

theorem WF.addLast {n : Node} (h : WF n) {x : Node} (hx : ChildOk n.endPrefix n.value x)
    (hwx : WF x)
    (hb : ∀ y ∈ n.children, bitAt x.value n.endPrefix ≠ bitAt y.value n.endPrefix) :
    WF ((n.setChildren (n.children ++ [x])).setIsLeaf false) := by
  refine WF.mk _ ?_ ?_ ?_
  · intro y hy
    simp only [Node.children_setIsLeaf, Node.children_setChildren, List.mem_append,
      List.mem_singleton] at hy
    simp only [Node.endPrefix_setIsLeaf, Node.value_setIsLeaf, Node.endPrefix_setChildren,
      Node.value_setChildren]
    rcases hy with hy | rfl
    · exact h.childOk y hy
    · exact hx
  · intro y hy
    simp only [Node.children_setIsLeaf, Node.children_setChildren, List.mem_append,
      List.mem_singleton] at hy
    rcases hy with hy | rfl
    · exact h.child y hy
    · exact hwx
  · simp only [Node.children_setIsLeaf, Node.children_setChildren, Node.endPrefix_setIsLeaf,
      Node.endPrefix_setChildren, List.map_append, List.map_cons, List.map_nil]
    rw [List.nodup_append]
    refine ⟨h.nodup, by simp, ?_⟩
    intro a ha hb2
    simp only [List.mem_singleton] at hb2
    obtain ⟨y, hy, rfl⟩ := List.mem_map.1 ha
    exact hb y hy hb2.symm

theorem Picked.mem {ip : IP} {m : Nat} {n : Node} {pre post : List Node} {c : Node} {d : Nat}
    (h : Picked ip m n pre c post d) : c ∈ n.children := by
  rw [h.split]; simp

theorem Picked.firstBit {ip : IP} {m : Nat} {n : Node} {pre post : List Node} {c : Node}
    {d : Nat} (h : Picked ip m n pre c post d) :
    bitAt ip n.endPrefix = bitAt c.value n.endPrefix :=
  h.same _ h.lo (le_refl _)

/-- The bits of the inserted address before `d` are those of the picked child. -/
theorem Picked.pathAgree {ip : IP} {m : Nat} {n : Node} {pre post : List Node} {c : Node} {d : Nat}
    (h : Picked ip m n pre c post d) (hwf : WF n) (hpath : agree ip n.value 0 n.endPrefix) :
    agree ip c.value 0 d := by
  have hc := hwf.childOk c h.mem
  exact agree_append (agree_trans hpath (agree_symm hc.2.2.2.2.2.1)) h.same

theorem InsRel.wf {p : IPNet} (hp : p.Valid) {n n1 : Node} {chg naf chg1 naf1 : Bool}
    {b : Branch} (h : InsRel p n chg naf n1 chg1 naf1 b) (hwf : WF n)
    (hlt : n.endPrefix < p.ones) (hpath : agree p.ip n.value 0 n.endPrefix) : WF n1 := by
  obtain ⟨hlen, hone, h128⟩ := hp
  induction h with
  | append n chg naf hall =>
    refine hwf.addLast ?_ (WF.of_no_children rfl) ?_
    · exact ⟨rfl, hlt, h128, rfl, hlen, hpath, fun _ => rfl⟩
    · intro y hy; exact hall y hy
  | covered => exact hwf
  | present => exact hwf
  | descend n chg naf pre c post d c1 chg1 naf1 b hpick hd hde hleaf hrel ih =>
    have hc := hwf.childOk c hpick.mem
    obtain ⟨f1, f2, f3, f4, f5⟩ := hrel.fields
    have hp2 := hpick.pathAgree hwf hpath
    refine hwf.replace hpick.split ?_ (ih (hwf.child c hpick.mem) (by omega) (hde ▸ hp2)) (by rw [f2])
    refine ⟨f3 ▸ hc.1, f1 ▸ hc.2.1, f1 ▸ hc.2.2.1, ?_, f2 ▸ hc.2.2.2.2.1, f2 ▸ hc.2.2.2.2.2.1, ?_⟩
    · rw [f4, f1]; exact hc.2.2.2.1
    · intro hl; rw [f5 hleaf] at hl; cases hl
  | collapse n chg naf pre c post d hpick hd hde hleaf hce hone2 =>
    have hc := hwf.childOk c hpick.mem
    have hlo := hpick.lo
    refine hwf.replace hpick.split ?_ (WF.of_no_children rfl) ?_
    · refine ⟨rfl, hlo, by simp; omega, rfl, ?_, ?_, fun _ => rfl⟩
      · simp [clearBitAt_length, hc.2.2.2.2.1]
      · intro k hk1 hk2
        simp only [Node.value_mk]
        rw [bitAt_clearBitAt_ne _ _ _ (by omega)]
        exact hc.2.2.2.2.2.1 k hk1 hk2
    · simp only [Node.value_mk]
      exact bitAt_clearBitAt_ne _ _ _ (by omega)
  | leafSplit n chg naf pre c post d hpick hd hde hleaf hnc =>
    have hc := hwf.childOk c hpick.mem
    have hlo := hpick.lo
    have hhi := hpick.hiNode
    have hp2 := hpick.pathAgree hwf hpath
    refine hwf.moveLast hpick.split ?_ ?_ rfl
    · exact ⟨rfl, hlo, by simp; omega, rfl, hc.2.2.2.2.1, hc.2.2.2.2.2.1, by simp⟩
    · refine WF.mk _ ?_ ?_ ?_
      · intro y hy
        simp only [Node.children_mk, List.mem_cons, List.mem_singleton, List.not_mem_nil,
          or_false] at hy
        rcases hy with rfl | rfl
        · exact ⟨rfl, by simp; omega, hc.2.2.1, rfl, hc.2.2.2.2.1, agree_refl _ _ _,
            fun _ => rfl⟩
        · exact ⟨rfl, hd, h128, rfl, hlen, hp2, fun _ => rfl⟩
      · intro y hy
        simp only [Node.children_mk, List.mem_cons, List.mem_singleton, List.not_mem_nil,
          or_false] at hy
        rcases hy with rfl | rfl <;> exact WF.of_no_children rfl
      · simp only [Node.children_mk, Node.endPrefix_mk, List.map_cons, Node.value_mk,
          List.map_nil, List.nodup_cons, List.mem_singleton, List.not_mem_nil,
          not_false_eq_true, List.nodup_nil, and_true]
        exact fun h => hpick.stop (by omega) hd h.symm
  | internalSplit n chg naf pre c post d hpick hd hde hleaf =>
    have hc := hwf.childOk c hpick.mem
    have hlo := hpick.lo
    have hhi := hpick.hiNode
    have hp2 := hpick.pathAgree hwf hpath
    refine hwf.replace hpick.split ?_ ?_ rfl
    · exact ⟨rfl, hlo, by simp; omega, rfl, hc.2.2.2.2.1, hc.2.2.2.2.2.1, by simp⟩
    · refine WF.mk _ ?_ ?_ ?_
      · intro y hy
        simp only [Node.children_mk, List.mem_cons, List.mem_singleton, List.not_mem_nil,
          or_false] at hy
        rcases hy with rfl | rfl
        · exact ⟨rfl, hd, h128, rfl, hlen, hp2, fun _ => rfl⟩
        · exact ⟨rfl, by simp; omega, hc.2.2.1, rfl, hc.2.2.2.2.1, agree_refl _ _ _,
            by simp⟩
      · intro y hy
        simp only [Node.children_mk, List.mem_cons, List.mem_singleton, List.not_mem_nil,
          or_false] at hy
        rcases hy with rfl | rfl
        · exact WF.of_no_children rfl
        · exact (hwf.child c hpick.mem).congr rfl rfl rfl
      · simp only [Node.children_mk, Node.endPrefix_mk, List.map_cons, Node.value_mk,
          List.map_nil, List.nodup_cons, List.mem_singleton, List.not_mem_nil,
          not_false_eq_true, List.nodup_nil, and_true]
        exact fun h => hpick.stop (by omega) hd h
  | prune n chg naf pre c post d hpick hd hor =>
    refine hwf.replace hpick.split ?_ (WF.of_no_children rfl) ?_
    · exact ⟨rfl, hlt, h128, rfl, hlen, hpath, fun _ => rfl⟩
    · exact hpick.firstBit

/-! ## Hits -/

theorem hit_iff (a : IP) (n : Node) :
    (∃ L, Hit a n L) ↔ ∃ c ∈ n.children, Via a n.endPrefix c := by
  constructor
  · rintro ⟨L, h⟩
    cases h with
    | leaf _ c hc hl hag => exact ⟨L, hc, hag, Or.inl hl⟩
    | step _ c _ hc hl hag hh => exact ⟨c, hc, hag, Or.inr ⟨L, hh⟩⟩
  · rintro ⟨c, hc, hag, h⟩
    cases hl : c.isLeaf
    · rcases h with h | ⟨L, h⟩
      · rw [hl] at h; cases h
      · exact ⟨L, Hit.step n c L hc hl hag h⟩
    · exact ⟨c, Hit.leaf n c hc hl hag⟩

theorem cov_replace {a : IP} {n : Node} {pre post : List Node} {c x : Node} {P : Prop}
    (hs : n.children = pre ++ c :: post)
    (hx : Via a n.endPrefix x ↔ Via a n.endPrefix c ∨ P) :
    (∃ L, Hit a (n.setChildren (pre ++ x :: post)) L) ↔ (∃ L, Hit a n L) ∨ P := by
  rw [hit_iff, hit_iff, hs]
  simp only [Node.children_setChildren, Node.endPrefix_setChildren, List.mem_append,
    List.mem_cons]
  constructor
  · rintro ⟨y, hy | rfl | hy, hv⟩
    · exact Or.inl ⟨y, Or.inl hy, hv⟩
    · rcases hx.1 hv with h | h
      · exact Or.inl ⟨c, Or.inr (Or.inl rfl), h⟩
      · exact Or.inr h
    · exact Or.inl ⟨y, Or.inr (Or.inr hy), hv⟩
  · rintro (⟨y, hy | rfl | hy, hv⟩ | h)
    · exact ⟨y, Or.inl hy, hv⟩
    · exact ⟨x, Or.inr (Or.inl rfl), hx.2 (Or.inl hv)⟩
    · exact ⟨y, Or.inr (Or.inr hy), hv⟩
    · exact ⟨x, Or.inr (Or.inl rfl), hx.2 (Or.inr h)⟩

theorem cov_moveLast {a : IP} {n : Node} {pre post : List Node} {c x : Node} {P : Prop}
    (hs : n.children = pre ++ c :: post)
    (hx : Via a n.endPrefix x ↔ Via a n.endPrefix c ∨ P) :
    (∃ L, Hit a (n.setChildren (pre ++ post ++ [x])) L) ↔ (∃ L, Hit a n L) ∨ P := by
  rw [hit_iff, hit_iff, hs]
  simp only [Node.children_setChildren, Node.endPrefix_setChildren, List.mem_append,
    List.mem_cons, List.mem_singleton, List.not_mem_nil, or_false]
  constructor
  · rintro ⟨y, (hy | hy) | rfl, hv⟩
    · exact Or.inl ⟨y, Or.inl hy, hv⟩
    · exact Or.inl ⟨y, Or.inr (Or.inr hy), hv⟩
    · rcases hx.1 hv with h | h
      · exact Or.inl ⟨c, Or.inr (Or.inl rfl), h⟩
      · exact Or.inr h
  · rintro (⟨y, hy | rfl | hy, hv⟩ | h)
    · exact ⟨y, Or.inl (Or.inl hy), hv⟩
    · exact ⟨x, Or.inr rfl, hx.2 (Or.inl hv)⟩
    · exact ⟨y, Or.inl (Or.inr hy), hv⟩
    · exact ⟨x, Or.inr rfl, hx.2 (Or.inr h)⟩

theorem via_leaf (a : IP) (e s f len : Nat) (v : IP) :
    Via a e (Node.mk true s f len v []) ↔ agree a v e f := by
  simp [Via]

theorem no_hit_of_no_children {a : IP} {n : Node} (h : n.children = []) : ¬ ∃ L, Hit a n L := by
  rw [hit_iff, h]; simp

theorem agree_congr_right {a b c : IP} {lo hi : Nat} (h : agree b c lo hi) :
    agree a b lo hi ↔ agree a c lo hi :=
  ⟨fun h1 => agree_trans h1 h, fun h1 => agree_trans h1 (agree_symm h)⟩

/-- The addresses covered below a node after `insert` are those covered before together with
the inserted prefix. -/
theorem InsRel.cov {p : IPNet} {n n1 : Node} {chg naf chg1 naf1 : Bool} {b : Branch}
    (h : InsRel p n chg naf n1 chg1 naf1 b) (a : IP) :
    (∃ L, Hit a n1 L) ↔ (∃ L, Hit a n L) ∨ agree a p.ip n.endPrefix p.ones := by
  induction h with
  | append n chg naf hall =>
    rw [hit_iff, hit_iff]
    simp only [Node.children_setIsLeaf, Node.children_setChildren, Node.endPrefix_setIsLeaf,
      Node.endPrefix_setChildren, List.mem_append, List.mem_singleton]
    constructor
    · rintro ⟨y, hy | rfl, hv⟩
      · exact Or.inl ⟨y, hy, hv⟩
      · exact Or.inr ((via_leaf _ _ _ _ _ _).1 hv)
    · rintro (⟨y, hy, hv⟩ | h)
      · exact ⟨y, Or.inl hy, hv⟩
      · exact ⟨_, Or.inr rfl, (via_leaf _ _ _ _ _ _).2 h⟩
  | covered n chg naf pre c post d hpick hd hde hleaf =>
    constructor
    · exact Or.inl
    · rintro (h | h)
      · exact h
      · refine ⟨c, Hit.leaf n c hpick.mem hleaf ?_⟩
        subst hde
        exact agree_trans (agree_mono h (le_refl _) (le_of_lt hd)) hpick.same
  | present n chg naf pre c post d hpick hd hce hleaf =>
    constructor
    · exact Or.inl
    · rintro (h | h)
      · exact h
      · refine ⟨c, Hit.leaf n c hpick.mem hleaf ?_⟩
        subst hd
        rw [hce]
        exact agree_trans h hpick.same
  | descend n chg naf pre c post d c1 chg1 naf1 b hpick hd hde hleaf hrel ih =>
    obtain ⟨f1, f2, f3, f4, f5⟩ := hrel.fields
    apply cov_replace hpick.split
    subst hde
    unfold Via
    rw [f1, f2, f5 hleaf, hleaf, ih]
    have hsame := hpick.same
    have hlo := hpick.lo
    constructor
    · rintro ⟨h1, h2 | h2 | h2⟩
      · cases h2
      · exact Or.inl ⟨h1, Or.inr h2⟩
      · exact Or.inr (agree_append (agree_trans h1 (agree_symm hsame)) h2)
    · rintro (⟨h1, h2 | h2⟩ | h)
      · cases h2
      · exact ⟨h1, Or.inr (Or.inl h2)⟩
      · exact ⟨agree_trans (agree_mono h (le_refl _) (le_of_lt hd)) hsame,
          Or.inr (Or.inr (agree_mono h (le_of_lt hlo) (le_refl _)))⟩
  | collapse n chg naf pre c post d hpick hd hde hleaf hce hone2 =>
    apply cov_replace hpick.split
    rw [via_leaf]
    unfold Via
    have hsame := hpick.same
    have hlo := hpick.lo
    have hstop := hpick.stop (by have := hpick.hiNode; omega) hd
    have hclr : agree (clearBitAt c.value d) c.value n.endPrefix d := fun k hk1 hk2 =>
      bitAt_clearBitAt_ne _ _ _ (by omega)
    have hm : p.ones = d + 1 := by omega
    rw [agree_congr_right hclr]
    constructor
    · intro h
      by_cases hb : bitAt a d = bitAt c.value d
      · left
        refine ⟨?_, Or.inl hleaf⟩
        rw [hce, hm]
        intro k hk1 hk2
        by_cases hk : k = d
        · subst hk; exact hb
        · exact h k (by omega) hk2
      · right
        rw [hm]
        intro k hk1 hk2
        by_cases hk : k = d
        · subst hk; exact bitAt_eq_of_ne_of_ne (fun h => hstop h.symm) hb
        · exact (h k (by omega) hk2).trans (hsame k (by omega) hk2).symm
    · rintro (⟨h, _⟩ | h)
      · exact agree_mono h (le_refl _) (by omega)
      · exact agree_trans (agree_mono h (le_refl _) (by omega)) hsame
  | leafSplit n chg naf pre c post d hpick hd hde hleaf hnc =>
    apply cov_moveLast hpick.split
    have hsame := hpick.same
    have hlo := hpick.lo
    have hhi := hpick.hiNode
    unfold Via
    simp only [Node.value_mk, Node.endPrefix_mk, Node.isLeaf_mk, Bool.false_eq_true, false_or,
      hleaf, true_or, and_true]
    rw [hit_iff]
    simp only [Node.children_mk, Node.endPrefix_mk, List.mem_cons, List.mem_singleton,
      List.not_mem_nil, or_false, exists_eq_or_imp, exists_eq_left, via_leaf]
    constructor
    · rintro ⟨h1, h2 | h2⟩
      · exact Or.inl (agree_append h1 h2)
      · exact Or.inr (agree_append (agree_trans h1 (agree_symm hsame)) h2)
    · rintro (h | h)
      · exact ⟨agree_mono h (le_refl _) hhi, Or.inl (agree_mono h (le_of_lt hlo) (le_refl _))⟩
      · exact ⟨agree_trans (agree_mono h (le_refl _) (le_of_lt hd)) hsame,
          Or.inr (agree_mono h (le_of_lt hlo) (le_refl _))⟩
  | internalSplit n chg naf pre c post d hpick hd hde hleaf =>
    apply cov_replace hpick.split
    have hsame := hpick.same
    have hlo := hpick.lo
    have hhi := hpick.hiNode
    unfold Via
    simp only [Node.value_mk, Node.endPrefix_mk, Node.isLeaf_mk, Bool.false_eq_true, false_or,
      hleaf]
    rw [hit_iff]
    simp only [Node.children_mk, Node.endPrefix_mk, List.mem_cons, List.mem_singleton,
      List.not_mem_nil, or_false, exists_eq_or_imp, exists_eq_left, via_leaf]
    unfold Via
    simp only [Node.value_mk, Node.endPrefix_mk, Node.isLeaf_mk, Bool.false_eq_true, false_or]
    rw [hit_iff a (Node.mk false d c.endPrefix (c.endPrefix - d) c.value c.children),
      hit_iff a c]
    simp only [Node.children_mk, Node.endPrefix_mk]
    constructor
    · rintro ⟨h1, h2 | ⟨h2, h3⟩⟩
      · exact Or.inr (agree_append (agree_trans h1 (agree_symm hsame)) h2)
      · exact Or.inl ⟨agree_append h1 h2, h3⟩
    · rintro (⟨h, h3⟩ | h)
      · exact ⟨agree_mono h (le_refl _) hhi,
          Or.inr ⟨agree_mono h (le_of_lt hlo) (le_refl _), h3⟩⟩
      · exact ⟨agree_trans (agree_mono h (le_refl _) (le_of_lt hd)) hsame,
          Or.inl (agree_mono h (le_of_lt hlo) (le_refl _))⟩
  | prune n chg naf pre c post d hpick hd hor =>
    apply cov_replace hpick.split
    rw [via_leaf]
    have hsame := hpick.same
    have hhi := hpick.hiNode
    subst hd
    constructor
    · exact Or.inr
    · rintro (⟨h, _⟩ | h)
      · exact agree_trans (agree_mono h (le_refl _) hhi) (agree_symm hsame)
      · exact h

/-! ## lookup finds the hit -/

theorem lookupScan_spec (a : IP) (i : Nat) (cs : List Node) (j : Nat)
    (hcs : ∀ c ∈ cs, c.startPrefix = i ∧ i < c.endPrefix ∧ c.length = c.endPrefix - i) :
    (lookupScan a i cs j = .ok none ∧ ∀ c ∈ cs, ¬ agree a c.value i c.endPrefix) ∨
    (∃ pre c post, cs = pre ++ c :: post ∧ agree a c.value i c.endPrefix ∧
      lookupScan a i cs j = .ok (some (j + pre.length, c.endPrefix - i))) := by
  induction cs generalizing j with
  | nil => left; simp [lookupScan]
  | cons c cs ih =>
    obtain ⟨h1, h2, h3⟩ := hcs c (List.mem_cons_self _ _)
    by_cases hfull : countMatch a c.value (c.endPrefix - i) i = c.endPrefix - i
    · right
      have hag : agree a c.value i c.endPrefix := by
        have := (countMatch_eq_iff_agree a c.value (c.endPrefix - i) i).1 hfull
        rwa [show i + (c.endPrefix - i) = c.endPrefix by omega] at this
      refine ⟨[], c, cs, rfl, hag, ?_⟩
      have hne : c.endPrefix - i ≠ 0 := by omega
      simp [lookupScan, h1, hfull, h3, hne]
    · have hnag : ¬ agree a c.value i c.endPrefix := by
        intro hag
        apply hfull
        apply countMatch_eq_of_agree
        rwa [show i + (c.endPrefix - i) = c.endPrefix by omega]
      have hstep : lookupScan a i (c :: cs) j = lookupScan a i cs (j + 1) := by
        simp only [lookupScan, h1, ne_eq, not_true_eq_false, if_false, h3, hfull,
          not_false_eq_true, if_true, ite_self]
      rcases ih (j + 1) (fun x hx => hcs x (List.mem_cons_of_mem _ hx)) with
        ⟨h4, h5⟩ | ⟨pre, x, post, h4, h5, h6⟩
      · left
        refine ⟨hstep.trans h4, ?_⟩
        intro y hy
        rcases List.mem_cons.1 hy with rfl | hy
        · exact hnag
        · exact h5 y hy
      · right
        refine ⟨c :: pre, x, post, by simp [h4], h5, ?_⟩
        rw [hstep, h6, List.length_cons, show j + (pre.length + 1) = j + 1 + pre.length by omega]

theorem WF.child_unique {n : Node} (h : WF n) {a : IP} {c1 c2 : Node} (h1 : c1 ∈ n.children)
    (h2 : c2 ∈ n.children) (hb1 : bitAt a n.endPrefix = bitAt c1.value n.endPrefix)
    (hb2 : bitAt a n.endPrefix = bitAt c2.value n.endPrefix) : c1 = c2 :=
  List.inj_on_of_nodup_map h.nodup h1 h2 (hb1.symm.trans hb2)

theorem WF.firstBit_of_agree {n : Node} (h : WF n) {a : IP} {c : Node} (hc : c ∈ n.children)
    (hag : agree a c.value n.endPrefix c.endPrefix) :
    bitAt a n.endPrefix = bitAt c.value n.endPrefix :=
  hag _ (h.childOk c hc).2.1 (le_refl _)

theorem lookupLoop_spec (a : IP) (fuel : Nat) (n : Node) (hwf : WF n)
    (hf : 128 ≤ fuel + n.endPrefix) :
    (∀ L, Hit a n L →
      lookupLoop a fuel n n.endPrefix = .ok ⟨true, cidrString L.value L.endPrefix⟩) ∧
    ((¬ ∃ L, Hit a n L) → lookupLoop a fuel n n.endPrefix = .ok ⟨false, ""⟩) := by
  have hnone : ¬ n.endPrefix < 128 → ¬ ∃ L, Hit a n L := by
    intro hge
    rw [hit_iff]
    rintro ⟨c, hc, _⟩
    have := hwf.childOk c hc
    have h1 := this.2.1
    have h2 := this.2.2.1
    omega
  induction fuel generalizing n with
  | zero =>
    have hge : ¬ n.endPrefix < 128 := by omega
    refine ⟨fun L hL => absurd ⟨L, hL⟩ (hnone hge), fun _ => ?_⟩
    simp [lookupLoop, hge]
  | succ fuel ih =>
    by_cases hlt : n.endPrefix < 128
    · have hok := hwf.childOk
      rcases lookupScan_spec a n.endPrefix n.children 0
        (fun c hc => ⟨(hok c hc).1, (hok c hc).2.1, (hok c hc).1 ▸ (hok c hc).2.2.2.1⟩) with
        ⟨hs, hall⟩ | ⟨pre, c, post, hsplit, hag, hs⟩
      · have hno : ¬ ∃ L, Hit a n L := by
          rw [hit_iff]
          rintro ⟨c, hc, hv, _⟩
          exact hall c hc hv
        refine ⟨fun L hL => absurd ⟨L, hL⟩ hno, fun _ => ?_⟩
        simp [lookupLoop, hlt, hs]
      · have hcin : c ∈ n.children := by rw [hsplit]; simp
        have hget : n.children.get? (0 + pre.length) = some c := by
          rw [hsplit, Nat.zero_add]; exact get_mid pre c post
        have hce := (hok c hcin).2.1
        have hbc := hwf.firstBit_of_agree hcin hag
        have hsame : ∀ c2 ∈ n.children, agree a c2.value n.endPrefix c2.endPrefix → c2 = c :=
          fun c2 hc2 hag2 =>
            hwf.child_unique hc2 hcin (hwf.firstBit_of_agree hc2 hag2) hbc
        cases hleaf : c.isLeaf
        · have heq : lookupLoop a (fuel + 1) n n.endPrefix = lookupLoop a fuel c c.endPrefix := by
            simp only [lookupLoop, hlt, if_true, hs, hget, hleaf, Bool.false_eq_true, if_false]
            rw [show n.endPrefix + (c.endPrefix - n.endPrefix) = c.endPrefix by omega]
          have ih2 := ih c (hwf.child c hcin) (by omega) (by
            intro hge
            rw [hit_iff]
            rintro ⟨x, hx, _⟩
            have := (hwf.child c hcin).childOk x hx
            have h1 := this.2.1
            have h2 := this.2.2.1
            omega)
          rw [heq]
          constructor
          · intro L hL
            cases hL with
            | leaf _ _ hc2 hl2 hag2 =>
              have := hsame L hc2 hag2
              subst this
              rw [hleaf] at hl2; cases hl2
            | step _ c2 _ hc2 hl2 hag2 hh =>
              have := hsame c2 hc2 hag2
              subst this
              exact ih2.1 L hh
          · intro hno
            apply ih2.2
            rintro ⟨L, hL⟩
            exact hno ⟨L, Hit.step n c L hcin hleaf hag hL⟩
        · have heq : lookupLoop a (fuel + 1) n n.endPrefix
              = .ok ⟨true, cidrString c.value c.endPrefix⟩ := by
            simp only [lookupLoop, hlt, if_true, hs, hget, hleaf]
          rw [heq]
          constructor
          · intro L hL
            cases hL with
            | leaf _ _ hc2 hl2 hag2 =>
              have := hsame L hc2 hag2
              subst this
              rfl
            | step _ c2 _ hc2 hl2 hag2 hh =>
              have := hsame c2 hc2 hag2
              subst this
              rw [hleaf] at hl2; cases hl2
          · intro hno
            exact absurd ⟨c, Hit.leaf n c hcin hleaf hag⟩ hno
    · refine ⟨fun L hL => absurd ⟨L, hL⟩ (hnone hlt), fun _ => ?_⟩
      simp [lookupLoop, hlt]

/-! ## Hits and leaves -/

theorem Hit.leafIn {a : IP} {n L : Node} (h : Hit a n L) : LeafIn L n := by
  induction h with
  | leaf n c hc hl _ => exact LeafIn.here n c hc hl
  | step n c L hc hl _ _ ih => exact LeafIn.deeper n c L hc hl ih

theorem Hit.unique {a : IP} {n L1 L2 : Node} (hwf : WF n) (h1 : Hit a n L1) (h2 : Hit a n L2) :
    L1 = L2 := by
  induction h1 with
  | leaf n c hc hl hag =>
    have hb := hwf.firstBit_of_agree hc hag
    cases h2 with
    | leaf _ _ hc2 hl2 hag2 =>
      exact hwf.child_unique hc hc2 hb (hwf.firstBit_of_agree hc2 hag2)
    | step _ c2 _ hc2 hl2 hag2 hh =>
      have := hwf.child_unique hc hc2 hb (hwf.firstBit_of_agree hc2 hag2)
      subst this
      rw [hl] at hl2; cases hl2
  | step n c L hc hl hag hh ih =>
    have hb := hwf.firstBit_of_agree hc hag
    cases h2 with
    | leaf _ _ hc2 hl2 hag2 =>
      have := hwf.child_unique hc hc2 hb (hwf.firstBit_of_agree hc2 hag2)
      subst this
      rw [hl] at hl2; cases hl2
    | step _ c2 _ hc2 hl2 hag2 hh2 =>
      have := hwf.child_unique hc hc2 hb (hwf.firstBit_of_agree hc2 hag2)
      subst this
      exact ih (hwf.child _ hc) hh2

/-- A leaf below a node ends after it and carries the node's bits up to the node's end. -/
theorem LeafIn.bounds {n L : Node} (h : LeafIn L n) (hwf : WF n) :
    n.endPrefix < L.endPrefix ∧ L.endPrefix ≤ 128 ∧ L.value.length = 16 ∧
      agree L.value n.value 0 n.endPrefix := by
  induction h with
  | here n c hc hl =>
    have := hwf.childOk c hc
    exact ⟨this.2.1, this.2.2.1, this.2.2.2.2.1, this.2.2.2.2.2.1⟩
  | deeper n c L hc hl _ ih =>
    have hcok := hwf.childOk c hc
    obtain ⟨h1, h2, h3, h4⟩ := ih (hwf.child c hc)
    refine ⟨lt_trans hcok.2.1 h1, h2, h3, ?_⟩
    exact agree_trans (agree_mono h4 (le_refl _) (le_of_lt hcok.2.1)) hcok.2.2.2.2.2.1

theorem Hit.agree_full {a : IP} {n L : Node} (h : Hit a n L) (hwf : WF n)
    (hpath : agree a n.value 0 n.endPrefix) : agree a L.value 0 L.endPrefix := by
  induction h with
  | leaf n c hc hl hag =>
    exact agree_append (agree_trans hpath (agree_symm (hwf.childOk c hc).2.2.2.2.2.1)) hag
  | step n c L hc hl hag hh ih =>
    apply ih (hwf.child c hc)
    exact agree_append (agree_trans hpath (agree_symm (hwf.childOk c hc).2.2.2.2.2.1)) hag

theorem LeafIn.hit {a : IP} {n L : Node} (h : LeafIn L n) (hwf : WF n)
    (hag : agree a L.value 0 L.endPrefix) : Hit a n L := by
  induction h with
  | here n c hc hl =>
    exact Hit.leaf n c hc hl (agree_mono hag (Nat.zero_le _) (le_refl _))
  | deeper n c L hc hl hin ih =>
    have hp := hin.bounds (hwf.child c hc)
    refine Hit.step n c L hc hl ?_ (ih (hwf.child c hc) hag)
    exact agree_mono (agree_trans (agree_mono hag (le_refl _) (le_of_lt hp.1)) hp.2.2.2)
      (Nat.zero_le _) (le_refl _)

/-! ## Whole trees -/

theorem InitRadix_inv : InitRadix.Inv :=
  ⟨WF.of_no_children rfl, rfl, fun _ => rfl⟩

/-- What one call of `insert` does to a tree that satisfies the invariant. -/
theorem insertTraced_spec (t : Radix) (hinv : t.Inv) (p : IPNet) (hp : p.Valid) :
    ∃ t1 b, t.insertTraced p = .ok (t1, b) ∧ t1.Inv ∧ t1.root.isLeaf = false ∧
      (∀ a, (∃ L, Hit a t1.root L) ↔ (∃ L, Hit a t.root L) ∨ agree a p.ip 0 p.ones) ∧
      ((t.root.isLeaf = true ∧ b = Branch.firstLeaf ∧ t1.isChanged = true ∧
          t1.constructionNewAliasFound = t.constructionNewAliasFound ∧
          t1.root = Node.mk false t.root.startPrefix 0 t.root.length t.root.value
            [Node.mk true 0 p.ones p.ones p.ip []]) ∨
        (t.root.isLeaf = false ∧
          InsRel p t.root t.isChanged t.constructionNewAliasFound t1.root t1.isChanged
            t1.constructionNewAliasFound b)) := by
  obtain ⟨hwf, he, hleaf⟩ := hinv
  have hpv := hp
  obtain ⟨hlen, hone, h128⟩ := hp
  cases hl : t.root.isLeaf
  · obtain ⟨n1, chg1, naf1, b, hrel, heq⟩ :=
      insertLoop_rel p hpv p.ones t.root t.isChanged t.constructionNewAliasFound hwf
        (by omega) (by omega)
    rw [he] at heq
    refine ⟨⟨n1, chg1, naf1⟩, b, ?_, ?_, ?_, ?_, Or.inr ⟨rfl, hrel⟩⟩
    · simp [Radix.insertTraced, hl, heq]
    · have hf := hrel.fields
      refine ⟨hrel.wf hpv hwf (by omega) (agree_empty _ _ (by omega)), hf.1.trans he, ?_⟩
      intro h; simp only [hf.2.2.2.2 hl] at h; cases h
    · exact hrel.fields.2.2.2.2 hl
    · intro a
      have := hrel.cov a
      rwa [he] at this
  · have hch := hleaf hl
    have hroot : t.root = Node.mk true t.root.startPrefix 0 t.root.length t.root.value [] := by
      rw [← he, ← hch, ← hl]; exact (Node.eta _).symm
    have hm8 : u8 p.ones = p.ones := u8_eq (by omega)
    refine ⟨⟨Node.mk false t.root.startPrefix 0 t.root.length t.root.value
        [Node.mk true 0 p.ones p.ones p.ip []], true, t.constructionNewAliasFound⟩,
      Branch.firstLeaf, ?_, ?_, rfl, ?_, Or.inl ⟨rfl, rfl, rfl, rfl, rfl⟩⟩
    · simp only [Radix.insertTraced, hl, if_true, hm8, to16_eq hlen, hch, List.nil_append]
      rw [hroot]; rfl
    · refine ⟨WF.mk _ ?_ ?_ ?_, rfl, by simp⟩
      · intro c hc
        simp only [Node.children_mk, List.mem_singleton] at hc
        subst hc
        exact ⟨rfl, by simp; omega, h128, rfl, hlen, agree_empty _ _ (le_refl _), fun _ => rfl⟩
      · intro c hc
        simp only [Node.children_mk, List.mem_singleton] at hc
        subst hc
        exact WF.of_no_children rfl
      · simp
    · intro a
      rw [hit_iff, hit_iff, hch, he]
      simp [via_leaf]

theorem insert_eq_of_traced {t t1 : Radix} {p : IPNet} {b : Branch}
    (h : t.insertTraced p = .ok (t1, b)) : t.insert p = .ok t1 := by
  simp [Radix.insert, h]

/-- A run of inserts of valid prefixes returns, keeps the invariant, and covers what was
covered before together with the inserted prefixes. -/
theorem insertAll_spec (ps : List IPNet) (hps : ∀ p ∈ ps, p.Valid) (t0 : Radix)
    (hinv : t0.Inv) :
    ∃ t, insertAll t0 ps = .ok t ∧ t.Inv ∧
      ∀ a, (∃ L, Hit a t.root L) ↔
        (∃ L, Hit a t0.root L) ∨ ∃ p ∈ ps, agree a p.ip 0 p.ones := by
  induction ps generalizing t0 with
  | nil => exact ⟨t0, rfl, hinv, by simp⟩
  | cons p ps ih =>
    obtain ⟨t1, b, h1, hinv1, _, hcov1, _⟩ :=
      insertTraced_spec t0 hinv p (hps p (List.mem_cons_self _ _))
    obtain ⟨t, h2, hinv2, hcov2⟩ := ih (fun q hq => hps q (List.mem_cons_of_mem _ hq)) t1 hinv1
    refine ⟨t, ?_, hinv2, ?_⟩
    · simp [insertAll, insert_eq_of_traced h1, h2]
    · intro a
      rw [hcov2 a, hcov1 a]
      simp only [List.mem_cons, exists_eq_or_imp]
      tauto

theorem lookup_spec (t : Radix) (hinv : t.Inv) (a : IP) (ha : a.length = 16) :
    (∀ L, Hit a t.root L → t.lookup a = .ok ⟨true, cidrString L.value L.endPrefix⟩) ∧
    ((¬ ∃ L, Hit a t.root L) → t.lookup a = .ok ⟨false, ""⟩) := by
  have := lookupLoop_spec a 128 t.root hinv.1 (by omega)
  rw [hinv.2.1] at this
  simpa [Radix.lookup, to16_eq ha] using this

theorem hit_iff_leaf (t : Radix) (hinv : t.Inv) (a : IP) (L : Node) :
    Hit a t.root L ↔ LeafIn L t.root ∧ agree a L.value 0 L.endPrefix :=
  ⟨fun h => ⟨h.leafIn, h.agree_full hinv.1 (agree_empty _ _ (by rw [hinv.2.1]))⟩,
   fun h => h.1.hit hinv.1 h.2⟩

theorem no_hit_InitRadix (a : IP) : ¬ ∃ L, Hit a InitRadix.root L :=
  no_hit_of_no_children rfl

/-! ## Frame, flags and pruning, case by case -/

theorem Picked.only {ip : IP} {m : Nat} {n : Node} {pre post : List Node} {c : Node} {d : Nat}
    (h : Picked ip m n pre c post d) (hwf : WF n) {c2 : Node} (hc2 : c2 ∈ n.children)
    (hb : bitAt ip n.endPrefix = bitAt c2.value n.endPrefix) : c2 = c :=
  hwf.child_unique hc2 h.mem hb h.firstBit

theorem Picked.rebuild {ip : IP} {m : Nat} {n : Node} {pre post : List Node} {c : Node}
    {d : Nat} (h : Picked ip m n pre c post d) : n.setChildren (pre ++ c :: post) = n := by
  rw [← h.split]; exact n.setChildren_self

theorem hit_inv {a : IP} {n L : Node} (h : Hit a n L) :
    ∃ c ∈ n.children, agree a c.value n.endPrefix c.endPrefix ∧
      ((c.isLeaf = true ∧ L = c) ∨ (c.isLeaf = false ∧ Hit a c L)) := by
  cases h with
  | leaf _ _ hc hl hag => exact ⟨L, hc, hag, Or.inl ⟨hl, rfl⟩⟩
  | step _ c _ hc hl hag hh => exact ⟨c, hc, hag, Or.inr ⟨hl, hh⟩⟩

theorem leafIn_inv {n L : Node} (h : LeafIn L n) :
    ∃ c ∈ n.children, (c.isLeaf = true ∧ L = c) ∨ (c.isLeaf = false ∧ LeafIn L c) := by
  cases h with
  | here _ _ hc hl => exact ⟨L, hc, Or.inl ⟨hl, rfl⟩⟩
  | deeper _ c _ hc hl hh => exact ⟨c, hc, Or.inr ⟨hl, hh⟩⟩

/-- An insert whose prefix lies inside an existing leaf changes neither the node nor the flags. -/
theorem InsRel.noop {p : IPNet} {n n1 : Node} {chg naf chg1 naf1 : Bool} {b : Branch}
    (h : InsRel p n chg naf n1 chg1 naf1 b) (hwf : WF n) (L : Node) (hL : Hit p.ip n L)
    (hle : L.endPrefix ≤ p.ones) : n1 = n ∧ chg1 = chg ∧ naf1 = naf := by
  induction h with
  | append n chg naf hall =>
    obtain ⟨c2, hc2, hag, _⟩ := hit_inv hL
    exact absurd (hwf.firstBit_of_agree hc2 hag) (hall c2 hc2)
  | covered => exact ⟨rfl, rfl, rfl⟩
  | present => exact ⟨rfl, rfl, rfl⟩
  | descend n chg naf pre c post d c1 chg1 naf1 b hpick hd hde hleaf hrel ih =>
    obtain ⟨c2, hc2, hag, hcase⟩ := hit_inv hL
    have := hpick.only hwf hc2 (hwf.firstBit_of_agree hc2 hag)
    subst this
    rcases hcase with ⟨hl, _⟩ | ⟨_, hh⟩
    · rw [hleaf] at hl; cases hl
    · obtain ⟨e1, e2, e3⟩ := ih (hwf.child _ hc2) hh
      subst e1
      exact ⟨hpick.rebuild, e2, e3⟩
  | collapse n chg naf pre c post d hpick hd hde hleaf hce hone2 =>
    obtain ⟨c2, hc2, hag, _⟩ := hit_inv hL
    have := hpick.only hwf hc2 (hwf.firstBit_of_agree hc2 hag)
    subst this
    have hhi := hpick.hiNode
    exact absurd (hag d (by omega) (le_of_lt hpick.lo)) (hpick.stop (by omega) hd)
  | leafSplit n chg naf pre c post d hpick hd hde hleaf hnc =>
    obtain ⟨c2, hc2, hag, _⟩ := hit_inv hL
    have := hpick.only hwf hc2 (hwf.firstBit_of_agree hc2 hag)
    subst this
    have hhi := hpick.hiNode
    exact absurd (hag d (by omega) (le_of_lt hpick.lo)) (hpick.stop (by omega) hd)
  | internalSplit n chg naf pre c post d hpick hd hde hleaf =>
    obtain ⟨c2, hc2, hag, _⟩ := hit_inv hL
    have := hpick.only hwf hc2 (hwf.firstBit_of_agree hc2 hag)
    subst this
    have hhi := hpick.hiNode
    exact absurd (hag d (by omega) (le_of_lt hpick.lo)) (hpick.stop (by omega) hd)
  | prune n chg naf pre c post d hpick hd hor =>
    obtain ⟨c2, hc2, hag, hcase⟩ := hit_inv hL
    have := hpick.only hwf hc2 (hwf.firstBit_of_agree hc2 hag)
    subst this
    have hhi := hpick.hiNode
    rcases hcase with ⟨hl, rfl⟩ | ⟨hl, hh⟩
    · rcases hor with h | h
      · omega
      · rw [hl] at h; cases h
    · have := (hh.leafIn.bounds (hwf.child _ hc2)).1
      omega

/-- How `insert` moves the two flags, and that only returns that set `isChanged` change the
node. -/
theorem InsRel.flags {p : IPNet} {n n1 : Node} {chg naf chg1 naf1 : Bool} {b : Branch}
    (h : InsRel p n chg naf n1 chg1 naf1 b) :
    ((n1 = n ∧ chg1 = chg ∧ naf1 = naf) ∨ chg1 = true) ∧ (chg = true → chg1 = true) ∧
      (naf = true → naf1 = true) ∧
      (naf1 = true → naf = false → b = Branch.prune ∨ b = Branch.collapse) ∧
      (b = Branch.prune ∨ b = Branch.collapse → chg1 = true ∧ naf1 = true) := by
  induction h with
  | append => simp
  | covered => simp
  | present => simp
  | collapse => simp
  | leafSplit => simp
  | internalSplit => simp
  | prune => simp
  | descend n chg naf pre c post d c1 chg1 naf1 b hpick hd hde hleaf hrel ih =>
    refine ⟨?_, ih.2.1, ih.2.2.1, ih.2.2.2.1, ih.2.2.2.2⟩
    rcases ih.1 with ⟨e1, e2, e3⟩ | h
    · subst e1
      exact Or.inl ⟨hpick.rebuild, e2, e3⟩
    · exact Or.inr h

/-! ## No leaf more specific than the inserted prefix is left -/

/-- The child above a leaf that carries the bits of `ip` starts with the bit of `ip`. -/
theorem leaf_child_firstBit {n c L : Node} {ip : IP} {m : Nat} (hwf : WF n)
    (hc : c ∈ n.children) (hcase : (c.isLeaf = true ∧ L = c) ∨ (c.isLeaf = false ∧ LeafIn L c))
    (hag : agree L.value ip 0 m) (hlt : n.endPrefix < m) :
    bitAt ip n.endPrefix = bitAt c.value n.endPrefix := by
  have hce := (hwf.childOk c hc).2.1
  rcases hcase with ⟨_, rfl⟩ | ⟨_, hin⟩
  · exact (hag _ hlt (Nat.zero_le _)).symm
  · have hp := (hin.bounds (hwf.child c hc)).2.2.2
    exact (hag _ hlt (Nat.zero_le _)).symm.trans (hp _ hce (Nat.zero_le _))

theorem InsRel.no_more_specific {p : IPNet} (hp : p.Valid) {n n1 : Node}
    {chg naf chg1 naf1 : Bool} {b : Branch} (h : InsRel p n chg naf n1 chg1 naf1 b)
    (hwf : WF n) (hlt : n.endPrefix < p.ones) (hpath : agree p.ip n.value 0 n.endPrefix)
    (L : Node) (hL : LeafIn L n1) (hag : agree L.value p.ip 0 p.ones) :
    L.endPrefix ≤ p.ones := by
  have hwf1 : WF n1 := h.wf hp hwf hlt hpath
  have he1 : n1.endPrefix = n.endPrefix := h.fields.1
  obtain ⟨c2, hc2, hcase⟩ := leafIn_inv hL
  have hb2 : bitAt p.ip n1.endPrefix = bitAt c2.value n1.endPrefix :=
    leaf_child_firstBit hwf1 hc2 hcase hag (he1 ▸ hlt)
  induction h generalizing L c2 with
  | append n chg naf hall =>
    simp only [Node.children_setIsLeaf, Node.children_setChildren, List.mem_append,
      List.mem_singleton] at hc2
    simp only [Node.endPrefix_setIsLeaf, Node.endPrefix_setChildren] at hb2
    rcases hc2 with hc2 | rfl
    · exact absurd hb2 (hall c2 hc2)
    · rcases hcase with ⟨_, rfl⟩ | ⟨hl, _⟩
      · simp
      · simp at hl
  | covered n chg naf pre c post d hpick hd hde hleaf =>
    have := hpick.only hwf hc2 hb2
    subst this
    rcases hcase with ⟨_, rfl⟩ | ⟨hl, _⟩
    · omega
    · rw [hleaf] at hl; cases hl
  | present n chg naf pre c post d hpick hd hce hleaf =>
    have := hpick.only hwf hc2 hb2
    subst this
    rcases hcase with ⟨_, rfl⟩ | ⟨hl, _⟩
    · omega
    · rw [hleaf] at hl; cases hl
  | descend n chg naf pre c post d c1 chg1 naf1 b hpick hd hde hleaf hrel ih =>
    obtain ⟨f1, f2, f3, f4, f5⟩ := hrel.fields
    have hc1in : c1 ∈ (n.setChildren (pre ++ c1 :: post)).children := by simp
    have hbc1 : bitAt p.ip (n.setChildren (pre ++ c1 :: post)).endPrefix
        = bitAt c1.value (n.setChildren (pre ++ c1 :: post)).endPrefix := by
      rw [f2]; simpa using hpick.firstBit
    have := hwf1.child_unique hc2 hc1in hb2 hbc1
    subst this
    have hcok := hwf.childOk c hpick.mem
    have hwc : WF c := hwf.child c hpick.mem
    have hpc : agree p.ip c.value 0 c.endPrefix := hde ▸ hpick.pathAgree hwf hpath
    rcases hcase with ⟨hl, _⟩ | ⟨_, hin⟩
    · rw [f5 hleaf] at hl; cases hl
    · obtain ⟨c3, hc3, hcase3⟩ := leafIn_inv hin
      have hwc1 : WF c2 := hrel.wf hp hwc (by omega) hpc
      exact ih hwc (by omega) hpc L hin hag hwc1 f1 c3 hc3 hcase3
        (leaf_child_firstBit hwc1 hc3 hcase3 hag (by omega))
  | collapse n chg naf pre c post d hpick hd hde hleaf hce hone2 =>
    have hxin : Node.mk true n.endPrefix d (d - n.endPrefix) (clearBitAt c.value d) [] ∈
        (n.setChildren (pre ++ Node.mk true n.endPrefix d (d - n.endPrefix)
          (clearBitAt c.value d) [] :: post)).children := by simp
    have hbx : bitAt p.ip n.endPrefix = bitAt (clearBitAt c.value d) n.endPrefix := by
      rw [bitAt_clearBitAt_ne _ _ _ (by have := hpick.lo; omega)]; exact hpick.firstBit
    have := hwf1.child_unique hc2 hxin hb2 (by simpa using hbx)
    subst this
    rcases hcase with ⟨_, rfl⟩ | ⟨hl, _⟩
    · simp; omega
    · simp at hl
  | leafSplit n chg naf pre c post d hpick hd hde hleaf hnc =>
    have hxin : Node.mk false n.endPrefix d (d - n.endPrefix) c.value
        [Node.mk true d c.endPrefix (c.endPrefix - d) c.value [],
         Node.mk true d p.ones (p.ones - d) p.ip []] ∈
        (n.setChildren (pre ++ post ++ [Node.mk false n.endPrefix d (d - n.endPrefix) c.value
          [Node.mk true d c.endPrefix (c.endPrefix - d) c.value [],
           Node.mk true d p.ones (p.ones - d) p.ip []]])).children := by simp
    have := hwf1.child_unique hc2 hxin hb2 (by simpa using hpick.firstBit)
    subst this
    have hhi := hpick.hiNode
    rcases hcase with ⟨hl, _⟩ | ⟨_, hin⟩
    · simp at hl
    · obtain ⟨c3, hc3, hcase3⟩ := leafIn_inv hin
      simp only [Node.children_mk, List.mem_cons, List.mem_singleton, List.not_mem_nil,
        or_false] at hc3
      rcases hc3 with rfl | rfl
      · rcases hcase3 with ⟨_, rfl⟩ | ⟨hl, _⟩
        · exact absurd (hag d hd (Nat.zero_le _)).symm (hpick.stop (by omega) hd)
        · simp at hl
      · rcases hcase3 with ⟨_, rfl⟩ | ⟨hl, _⟩
        · simp
        · simp at hl
  | internalSplit n chg naf pre c post d hpick hd hde hleaf =>
    have hxin : Node.mk false n.endPrefix d (d - n.endPrefix) c.value
        [Node.mk true d p.ones (p.ones - d) p.ip [],
         Node.mk false d c.endPrefix (c.endPrefix - d) c.value c.children] ∈
        (n.setChildren (pre ++ Node.mk false n.endPrefix d (d - n.endPrefix) c.value
          [Node.mk true d p.ones (p.ones - d) p.ip [],
           Node.mk false d c.endPrefix (c.endPrefix - d) c.value c.children] :: post)).children := by
      simp
    have := hwf1.child_unique hc2 hxin hb2 (by simpa using hpick.firstBit)
    subst this
    have hhi := hpick.hiNode
    rcases hcase with ⟨hl, _⟩ | ⟨_, hin⟩
    · simp at hl
    · obtain ⟨c3, hc3, hcase3⟩ := leafIn_inv hin
      simp only [Node.children_mk, List.mem_cons, List.mem_singleton, List.not_mem_nil,
        or_false] at hc3
      rcases hc3 with rfl | rfl
      · rcases hcase3 with ⟨_, rfl⟩ | ⟨hl, _⟩
        · simp
        · simp at hl
      · rcases hcase3 with ⟨hl, _⟩ | ⟨_, hin3⟩
        · simp at hl
        · have hwc : WF (Node.mk false d c.endPrefix (c.endPrefix - d) c.value c.children) :=
            (hwf.child c hpick.mem).congr rfl rfl rfl
          have hp3 := (hin3.bounds hwc).2.2.2
          simp only [Node.value_mk, Node.endPrefix_mk] at hp3
          have e1 := hp3 d (by omega) (Nat.zero_le _)
          have e2 := hag d hd (Nat.zero_le _)
          exact absurd (e2.symm.trans e1) (hpick.stop (by omega) hd)
  | prune n chg naf pre c post d hpick hd hor =>
    have hxin : Node.mk true n.endPrefix p.ones (p.ones - n.endPrefix) p.ip [] ∈
        (n.setChildren (pre ++ Node.mk true n.endPrefix p.ones (p.ones - n.endPrefix) p.ip []
          :: post)).children := by simp
    have := hwf1.child_unique hc2 hxin hb2 (by simp)
    subst this
    rcases hcase with ⟨_, rfl⟩ | ⟨hl, _⟩
    · simp
    · simp at hl

/-- When a leaf more specific than the inserted prefix exists, `insert` leaves through the
prune, and the pruned child holds every such leaf. -/
theorem InsRel.prune_of_more_specific {p : IPNet} {n n1 : Node} {chg naf chg1 naf1 : Bool}
    {b : Branch} (h : InsRel p n chg naf n1 chg1 naf1 b) (hwf : WF n)
    (hlt : n.endPrefix < p.ones) (L : Node) (hL : LeafIn L n) (hlt2 : p.ones < L.endPrefix)
    (hag : agree L.value p.ip 0 p.ones) :
    b = Branch.prune ∧ chg1 = true ∧ naf1 = true ∧
      ∃ c, Replaced c (Node.mk true c.startPrefix p.ones (p.ones - c.startPrefix) p.ip []) n n1 ∧
        ∀ L1, LeafIn L1 n → p.ones < L1.endPrefix → agree L1.value p.ip 0 p.ones →
          L1 = c ∨ LeafIn L1 c := by
  obtain ⟨c2, hc2, hcase⟩ := leafIn_inv hL
  have hb2 := leaf_child_firstBit hwf hc2 hcase hag hlt
  induction h generalizing L c2 with
  | append n chg naf hall => exact absurd hb2 (hall c2 hc2)
  | covered n chg naf pre c post d hpick hd hde hleaf =>
    have := hpick.only hwf hc2 hb2
    subst this
    rcases hcase with ⟨_, rfl⟩ | ⟨hl, _⟩
    · omega
    · rw [hleaf] at hl; cases hl
  | present n chg naf pre c post d hpick hd hce hleaf =>
    have := hpick.only hwf hc2 hb2
    subst this
    rcases hcase with ⟨_, rfl⟩ | ⟨hl, _⟩
    · omega
    · rw [hleaf] at hl; cases hl
  | descend n chg naf pre c post d c1 chg1 naf1 b hpick hd hde hleaf hrel ih =>
    have := hpick.only hwf hc2 hb2
    subst this
    have hwc : WF c2 := hwf.child c2 hc2
    rcases hcase with ⟨hl, _⟩ | ⟨_, hin⟩
    · rw [hleaf] at hl; cases hl
    · obtain ⟨c3, hc3, hcase3⟩ := leafIn_inv hin
      obtain ⟨e1, e2, e3, c0, hrep, hall⟩ := ih hwc (by omega) L hin hlt2 hag c3 hc3 hcase3
        (leaf_child_firstBit hwc hc3 hcase3 hag (by omega))
      refine ⟨e1, e2, e3, c0, Replaced.deeper n pre c2 c1 post hpick.split hrep, ?_⟩
      intro L1 hL1 h1 h2
      obtain ⟨c4, hc4, hcase4⟩ := leafIn_inv hL1
      have := hpick.only hwf hc4 (leaf_child_firstBit hwf hc4 hcase4 h2 hlt)
      subst this
      rcases hcase4 with ⟨hl, _⟩ | ⟨_, hin4⟩
      · rw [hleaf] at hl; cases hl
      · exact hall L1 hin4 h1 h2
  | collapse n chg naf pre c post d hpick hd hde hleaf hce hone2 =>
    have := hpick.only hwf hc2 hb2
    subst this
    have hhi := hpick.hiNode
    rcases hcase with ⟨_, rfl⟩ | ⟨hl, _⟩
    · exact absurd (hag d hd (Nat.zero_le _)).symm (hpick.stop (by omega) hd)
    · rw [hleaf] at hl; cases hl
  | leafSplit n chg naf pre c post d hpick hd hde hleaf hnc =>
    have := hpick.only hwf hc2 hb2
    subst this
    have hhi := hpick.hiNode
    rcases hcase with ⟨_, rfl⟩ | ⟨hl, _⟩
    · exact absurd (hag d hd (Nat.zero_le _)).symm (hpick.stop (by omega) hd)
    · rw [hleaf] at hl; cases hl
  | internalSplit n chg naf pre c post d hpick hd hde hleaf =>
    have := hpick.only hwf hc2 hb2
    subst this
    have hhi := hpick.hiNode
    rcases hcase with ⟨hl, _⟩ | ⟨_, hin⟩
    · rw [hleaf] at hl; cases hl
    · have hp3 := (hin.bounds (hwf.child c2 hc2)).2.2.2
      have e1 := hp3 d (by omega) (Nat.zero_le _)
      have e2 := hag d hd (Nat.zero_le _)
      exact absurd (e2.symm.trans e1) (hpick.stop (by omega) hd)
  | prune n chg naf pre c post d hpick hd hor =>
    have hcs : c.startPrefix = n.endPrefix := (hwf.childOk c hpick.mem).1
    refine ⟨rfl, rfl, rfl, c, ?_, ?_⟩
    · rw [hcs]; exact Replaced.here n pre post hpick.split
    · intro L1 hL1 h1 h2
      obtain ⟨c4, hc4, hcase4⟩ := leafIn_inv hL1
      have := hpick.only hwf hc4 (leaf_child_firstBit hwf hc4 hcase4 h2 hlt)
      subst this
      rcases hcase4 with ⟨_, rfl⟩ | ⟨_, hin4⟩
      · exact Or.inl rfl
      · exact Or.inr hin4

theorem not_leafIn_of_no_children {n L : Node} (h : n.children = []) : ¬ LeafIn L n := by
  intro hL
  obtain ⟨c, hc, _⟩ := leafIn_inv hL
  rw [h] at hc; cases hc

theorem InsRel.changed_of_branch {p : IPNet} {n n1 : Node} {chg naf chg1 naf1 : Bool}
    {b : Branch} (h : InsRel p n chg naf n1 chg1 naf1 b) :
    (b ≠ Branch.covered → b ≠ Branch.present → chg1 = true) ∧
      (b = Branch.covered ∨ b = Branch.present → n1 = n ∧ chg1 = chg ∧ naf1 = naf) ∧
      b ≠ Branch.loopExit ∧ b ≠ Branch.firstLeaf := by
  induction h with
  | append => simp
  | covered => simp
  | present => simp
  | collapse => simp
  | leafSplit => simp
  | internalSplit => simp
  | prune => simp
  | descend n chg naf pre c post d c1 chg1 naf1 b hpick hd hde hleaf hrel ih =>
    refine ⟨ih.1, ?_, ih.2.2⟩
    intro hb
    obtain ⟨e1, e2, e3⟩ := ih.2.1 hb
    subst e1
    exact ⟨hpick.rebuild, e2, e3⟩

theorem singleton_split {α : Type} {a c : α} {pre post : List α}
    (h : [a] = pre ++ c :: post) : pre = [] ∧ c = a ∧ post = [] := by
  cases pre with
  | nil => simp at h; exact ⟨rfl, h.1.symm, h.2⟩
  | cons x xs =>
    have := congrArg List.length h
    simp at this

/-- Inserting `y/n` below a root whose only child is the leaf `x/n`, when `x` and `y` part
at the last bit of the prefix, leaves through the last-bit collapse. -/
theorem InsRel.last_bit {x y : IP} {n : Nat} {r n1 : Node} {chg naf chg1 naf1 : Bool}
    {b : Branch} (h : InsRel ⟨y, n⟩ r chg naf n1 chg1 naf1 b)
    (hch : r.children = [Node.mk true 0 n n x []]) (he : r.endPrefix = 0)
    (hn : 2 ≤ n) (hag : agree x y 0 (n - 1)) (hne : bitAt x (n - 1) ≠ bitAt y (n - 1)) :
    n1 = r.setChildren [Node.mk true 0 (n - 1) (n - 1) (clearBitAt x (n - 1)) []] ∧
      chg1 = true ∧ naf1 = true ∧ b = Branch.collapse := by
  have key : ∀ {pre post : List Node} {c : Node} {d : Nat},
      Picked y n r pre c post d →
      pre = [] ∧ c = Node.mk true 0 n n x [] ∧ post = [] ∧ d = n - 1 := by
    intro pre post c d hp
    obtain ⟨e1, e2, e3⟩ := singleton_split (hch.symm.trans hp.split)
    subst e2
    refine ⟨e1, rfl, e3, ?_⟩
    have hhi := hp.hiNet
    have hsame := hp.same
    have hstop := hp.stop
    simp only [Node.endPrefix_mk, Node.value_mk, he] at hsame hstop
    by_contra hd
    rcases Nat.lt_or_gt_of_ne hd with h1 | h1
    · exact hstop (by omega) (by omega) (hag d h1 (Nat.zero_le _)).symm
    · exact hne (hsame (n - 1) h1 (Nat.zero_le _)).symm
  cases h with
  | append _ _ _ hall =>
    have := hall (Node.mk true 0 n n x []) (by rw [hch]; simp)
    rw [he] at this
    exact absurd (hag 0 (by omega) (le_refl _)).symm this
  | covered _ _ _ pre c post d hpick hd hde hleaf =>
    obtain ⟨_, rfl, _, rfl⟩ := key hpick
    simp at hde; omega
  | present _ _ _ pre c post d hpick hd hce hleaf =>
    obtain ⟨_, rfl, _, rfl⟩ := key hpick
    simp at hd; omega
  | descend _ _ _ pre c post d c1 _ _ _ hpick hd hde hleaf hrel =>
    obtain ⟨_, rfl, _, rfl⟩ := key hpick
    simp at hleaf
  | collapse _ _ _ pre c post d hpick hd hde hleaf hce hone2 =>
    obtain ⟨rfl, rfl, rfl, rfl⟩ := key hpick
    simp [he]
  | leafSplit _ _ _ pre c post d hpick hd hde hleaf hnc =>
    obtain ⟨_, rfl, _, rfl⟩ := key hpick
    exfalso; apply hnc; simp; omega
  | internalSplit _ _ _ pre c post d hpick hd hde hleaf =>
    obtain ⟨_, rfl, _, rfl⟩ := key hpick
    simp at hleaf
  | prune _ _ _ pre c post d hpick hd hor =>
    obtain ⟨_, rfl, _, rfl⟩ := key hpick
    simp at hd; omega

/-! ## The claims -/

/-- Every tree built from the empty one by inserts of valid prefixes satisfies the invariant. -/
theorem inv_of_insertAll {ps : List IPNet} (hps : ∀ q ∈ ps, q.Valid) {t : Radix}
    (ht : insertAll InitRadix ps = .ok t) :
    t.Inv ∧ ∀ a, (∃ L, Hit a t.root L) ↔ ∃ p ∈ ps, agree a p.ip 0 p.ones := by
  obtain ⟨t1, h1, hinv, hcov⟩ := insertAll_spec ps hps InitRadix InitRadix_inv
  rw [h1] at ht
  cases ht
  refine ⟨hinv, fun a => ?_⟩
  rw [hcov a]
  constructor
  · rintro (h | h)
    · exact absurd h (no_hit_InitRadix a)
    · exact h
  · exact Or.inr

/-- C1 (completeness). For every list `ps` of prefixes with 16-byte addresses and mask lengths
in `[1, 128]`, inserting them in order into the empty tree returns a tree, and in that tree
`lookup a` returns `aliased = true` for every 16-byte address `a` whose leading `p.ones` bits
are those of some `p` in the list. The prefix may stand anywhere in the list: the answer holds
right after its insert and after every later one. -/
theorem completeness_of_inserts (ps : List IPNet) (hps : ∀ q ∈ ps, q.Valid) (a : IP)
    (ha : a.length = 16) (p : IPNet) (hp : p ∈ ps) (hin : agree a p.ip 0 p.ones) :
    ∃ t md, insertAll InitRadix ps = .ok t ∧ t.lookup a = .ok ⟨true, md⟩ := by
  obtain ⟨t, h1, hinv, hcov⟩ := insertAll_spec ps hps InitRadix InitRadix_inv
  obtain ⟨L, hL⟩ := (hcov a).2 (Or.inr ⟨p, hp, hin⟩)
  exact ⟨t, _, h1, (lookup_spec t hinv a ha).1 L hL⟩

/-- The completeness theorem at three inserts, the first of which covers `2001:db8:0:1::`. -/
theorem completeness_of_inserts_witness :
    (∀ q ∈ [IPNet.mk addrDb8 48, IPNet.mk addrDb8Net2 48, IPNet.mk addrDb8Net1 48], q.Valid) ∧
      addrDb8Sub1.length = 16 ∧
      IPNet.mk addrDb8 48 ∈ [IPNet.mk addrDb8 48, IPNet.mk addrDb8Net2 48,
        IPNet.mk addrDb8Net1 48] ∧
      agree addrDb8Sub1 addrDb8 0 48 ∧
      ∃ t md, insertAll InitRadix [IPNet.mk addrDb8 48, IPNet.mk addrDb8Net2 48,
          IPNet.mk addrDb8Net1 48] = .ok t ∧
        t.lookup addrDb8Sub1 = .ok ⟨true, md⟩ :=
  ⟨by decide, by decide, by simp, by decide,
    completeness_of_inserts _ (by decide) addrDb8Sub1 (by decide)
      (IPNet.mk addrDb8 48) (by simp) (by decide)⟩

/-- C2 (soundness). In a tree built from the empty one by inserts of prefixes with 16-byte
addresses and mask lengths in `[1, 128]`, whenever `lookup a` returns a label with
`aliased = true` for a 16-byte address `a`, the address lies inside one of the inserted
prefixes, and the metadata is the text `value/endPrefix` of a leaf of the tree whose prefix
`value/endPrefix` contains `a`. -/
theorem lookup_sound (ps : List IPNet) (hps : ∀ q ∈ ps, q.Valid) (t : Radix)
    (ht : insertAll InitRadix ps = .ok t) (a : IP) (ha : a.length = 16) (lab : Label)
    (hlab : t.lookup a = .ok lab) (hal : lab.aliased = true) :
    (∃ p ∈ ps, agree a p.ip 0 p.ones) ∧
      ∃ L, LeafIn L t.root ∧ lab.metadata = cidrString L.value L.endPrefix ∧
        agree a L.value 0 L.endPrefix := by
  obtain ⟨hinv, hcov⟩ := inv_of_insertAll hps ht
  have hspec := lookup_spec t hinv a ha
  by_cases hex : ∃ L, Hit a t.root L
  · obtain ⟨L, hL⟩ := hex
    have h1 := hspec.1 L hL
    rw [hlab] at h1
    cases h1
    exact ⟨(hcov a).1 ⟨L, hL⟩, L, hL.leafIn, rfl, ((hit_iff_leaf t hinv a L).1 hL).2⟩
  · have h1 := hspec.2 hex
    rw [hlab] at h1
    cases h1
    cases hal

/-- The soundness theorem at the tree split at bit 46 and the address `2001:db8:0:1::`. -/
theorem lookup_sound_witness :
    (∀ q ∈ [IPNet.mk addrDb8 48, IPNet.mk addrDb8Net2 48], q.Valid) ∧
      insertAll InitRadix [IPNet.mk addrDb8 48, IPNet.mk addrDb8Net2 48] = .ok treeSplit46 ∧
      addrDb8Sub1.length = 16 ∧
      treeSplit46.lookup addrDb8Sub1 = .ok ⟨true, "2001:db8::/48"⟩ ∧
      ((∃ p ∈ [IPNet.mk addrDb8 48, IPNet.mk addrDb8Net2 48], agree addrDb8Sub1 p.ip 0 p.ones) ∧
        ∃ L, LeafIn L treeSplit46.root ∧ "2001:db8::/48" = cidrString L.value L.endPrefix ∧
          agree addrDb8Sub1 L.value 0 L.endPrefix) :=
  ⟨by decide, rfl, by decide, rfl,
    lookup_sound [IPNet.mk addrDb8 48, IPNet.mk addrDb8Net2 48] (by decide) treeSplit46 rfl addrDb8Sub1 (by decide)
      ⟨true, "2001:db8::/48"⟩ rfl rfl⟩

/-- C3 (lookup against its reference definition). In a tree built from the empty one by
inserts of prefixes with 16-byte addresses and mask lengths in `[1, 128]`, and for a 16-byte
address `a`: if a leaf `L` below the root carries the bits of `a` on `[0, L.endPrefix)` then
`lookup a` returns `aliased = true` with the metadata `L.value/L.endPrefix`; every label with
`aliased = true` that `lookup a` returns names such a leaf, whose whole prefix matches; at most
one such leaf exists; and when none exists `lookup a` returns `aliased = false` with empty
metadata. -/
theorem lookup_reference (ps : List IPNet) (hps : ∀ q ∈ ps, q.Valid) (t : Radix)
    (ht : insertAll InitRadix ps = .ok t) (a : IP) (ha : a.length = 16) :
    (∀ L, LeafIn L t.root → agree a L.value 0 L.endPrefix →
        t.lookup a = .ok ⟨true, cidrString L.value L.endPrefix⟩) ∧
      (∀ lab, t.lookup a = .ok lab → lab.aliased = true →
        ∃ L, LeafIn L t.root ∧ agree a L.value 0 L.endPrefix ∧
          lab = ⟨true, cidrString L.value L.endPrefix⟩) ∧
      (∀ L1 L2, LeafIn L1 t.root → agree a L1.value 0 L1.endPrefix →
        LeafIn L2 t.root → agree a L2.value 0 L2.endPrefix → L1 = L2) ∧
      ((¬ ∃ L, LeafIn L t.root ∧ agree a L.value 0 L.endPrefix) →
        t.lookup a = .ok ⟨false, ""⟩) := by
  obtain ⟨hinv, _⟩ := inv_of_insertAll hps ht
  have hspec := lookup_spec t hinv a ha
  refine ⟨?_, ?_, ?_, ?_⟩
  · intro L hL hag
    exact hspec.1 L ((hit_iff_leaf t hinv a L).2 ⟨hL, hag⟩)
  · intro lab hlab hal
    by_cases hex : ∃ L, Hit a t.root L
    · obtain ⟨L, hL⟩ := hex
      have h1 := hspec.1 L hL
      rw [hlab] at h1
      cases h1
      have := (hit_iff_leaf t hinv a L).1 hL
      exact ⟨L, this.1, this.2, rfl⟩
    · have h1 := hspec.2 hex
      rw [hlab] at h1
      cases h1
      cases hal
  · intro L1 L2 h1 a1 h2 a2
    exact Hit.unique hinv.1 ((hit_iff_leaf t hinv a L1).2 ⟨h1, a1⟩)
      ((hit_iff_leaf t hinv a L2).2 ⟨h2, a2⟩)
  · intro hno
    apply hspec.2
    rintro ⟨L, hL⟩
    exact hno ⟨L, (hit_iff_leaf t hinv a L).1 hL⟩

/-- The reference theorem at the tree split at bit 46: a leaf that matches, and by direct
evaluation an address that no leaf matches. -/
theorem lookup_reference_witness :
    (∀ q ∈ [IPNet.mk addrDb8 48, IPNet.mk addrDb8Net2 48], q.Valid) ∧
      insertAll InitRadix [IPNet.mk addrDb8 48, IPNet.mk addrDb8Net2 48] = .ok treeSplit46 ∧
      addrDb8Sub1.length = 16 ∧
      treeSplit46.lookup addrDb8Sub1 = .ok ⟨true, "2001:db8::/48"⟩ ∧
      treeSplit46.lookup addrDb8Net1 = .ok ⟨false, ""⟩ :=
  ⟨by decide, rfl, by decide,
    (lookup_reference [IPNet.mk addrDb8 48, IPNet.mk addrDb8Net2 48] (by decide) treeSplit46 rfl addrDb8Sub1 (by decide)).1
      (Node.mk true 46 48 2 addrDb8 [])
      (LeafIn.deeper _ (Node.mk false 0 46 46 addrDb8
          [Node.mk true 46 48 2 addrDb8 [], Node.mk true 46 48 2 addrDb8Net2 []]) _
        (List.mem_singleton.2 rfl) rfl (LeafIn.here _ _ (List.mem_cons_self _ _) rfl))
      (by decide),
    rfl⟩

/-- C4 (an already-covered insert is a no-op). In a tree built from the empty one by inserts
of prefixes with 16-byte addresses and mask lengths in `[1, 128]`, whatever the two flags are
on entry: inserting a valid prefix `p` whose leading bits are those of an existing leaf `L`
with `L.endPrefix ≤ p.ones` returns the same root (every node, field and child order) and the
same two flags. -/
theorem covered_insert_noop (ps : List IPNet) (hps : ∀ q ∈ ps, q.Valid) (t : Radix)
    (ht : insertAll InitRadix ps = .ok t) (p : IPNet) (hp : p.Valid) (L : Node)
    (hL : LeafIn L t.root) (hle : L.endPrefix ≤ p.ones)
    (hag : agree L.value p.ip 0 L.endPrefix) (chg naf : Bool) :
    (Radix.mk t.root chg naf).insert p = .ok (Radix.mk t.root chg naf) := by
  obtain ⟨hinv, _⟩ := inv_of_insertAll hps ht
  have hinv2 : (Radix.mk t.root chg naf).Inv := hinv
  obtain ⟨t1, b, h1, _, _, _, hcase⟩ := insertTraced_spec _ hinv2 p hp
  rw [insert_eq_of_traced h1]
  rcases hcase with ⟨hl, _⟩ | ⟨_, hrel⟩
  · exact absurd hL (not_leafIn_of_no_children (hinv.2.2 hl))
  · have hhit : Hit p.ip t.root L := hL.hit hinv.1 (agree_symm hag)
    obtain ⟨e1, e2, e3⟩ := hrel.noop hinv.1 L hhit hle
    simp only at e1 e2 e3
    cases t1
    simp only at e1 e2 e3
    rw [e1, e2, e3]

/-- The no-op theorem at the tree split at bit 46 and the prefix `2001:db8:0:1::/64`, which the
leaf `2001:db8::/48` covers. -/
theorem covered_insert_noop_witness :
    (∀ q ∈ [IPNet.mk addrDb8 48, IPNet.mk addrDb8Net2 48], q.Valid) ∧
      insertAll InitRadix [IPNet.mk addrDb8 48, IPNet.mk addrDb8Net2 48] = .ok treeSplit46 ∧
      (IPNet.mk addrDb8Sub1 64).Valid ∧
      LeafIn (Node.mk true 46 48 2 addrDb8 []) treeSplit46.root ∧
      (Node.mk true 46 48 2 addrDb8 []).endPrefix ≤ (IPNet.mk addrDb8Sub1 64).ones ∧
      agree (Node.mk true 46 48 2 addrDb8 []).value (IPNet.mk addrDb8Sub1 64).ip 0
        (Node.mk true 46 48 2 addrDb8 []).endPrefix ∧
      (Radix.mk treeSplit46.root false false).insert (IPNet.mk addrDb8Sub1 64)
        = .ok (Radix.mk treeSplit46.root false false) :=
  ⟨by decide, rfl, by decide,
    LeafIn.deeper _ (Node.mk false 0 46 46 addrDb8
        [Node.mk true 46 48 2 addrDb8 [], Node.mk true 46 48 2 addrDb8Net2 []]) _
      (List.mem_singleton.2 rfl) rfl (LeafIn.here _ _ (List.mem_cons_self _ _) rfl),
    by decide, by decide,
    covered_insert_noop [IPNet.mk addrDb8 48, IPNet.mk addrDb8Net2 48] (by decide) treeSplit46
      rfl (IPNet.mk addrDb8Sub1 64) (by decide) (Node.mk true 46 48 2 addrDb8 [])
      (LeafIn.deeper _ (Node.mk false 0 46 46 addrDb8
          [Node.mk true 46 48 2 addrDb8 [], Node.mk true 46 48 2 addrDb8Net2 []]) _
        (List.mem_singleton.2 rfl) rfl (LeafIn.here _ _ (List.mem_cons_self _ _) rfl))
      (by decide) (by decide) false false⟩

/-- C5 (a covering insert prunes). In a tree built from the empty one by inserts of prefixes
with 16-byte addresses and mask lengths in `[1, 128]`, whatever the two flags are on entry,
`insert p` of a valid prefix returns a tree with no leaf `L` such that `L.endPrefix > p.ones`
and `L.value` carries the first `p.ones` bits of `p.ip`. If such a leaf existed before, both
flags are true afterwards and the new root is the old one with one node `c` replaced by the
single leaf `[c.startPrefix, p.ones)` of value `p.ip`, where `c` is or contains every such
leaf. -/
theorem covering_insert_prunes (ps : List IPNet) (hps : ∀ q ∈ ps, q.Valid) (t : Radix)
    (ht : insertAll InitRadix ps = .ok t) (p : IPNet) (hp : p.Valid) (chg naf : Bool) :
    ∃ t1, (Radix.mk t.root chg naf).insert p = .ok t1 ∧
      (∀ L, LeafIn L t1.root → ¬ (p.ones < L.endPrefix ∧ agree L.value p.ip 0 p.ones)) ∧
      ((∃ L, LeafIn L t.root ∧ p.ones < L.endPrefix ∧ agree L.value p.ip 0 p.ones) →
        t1.isChanged = true ∧ t1.constructionNewAliasFound = true ∧
        ∃ c, Replaced c (Node.mk true c.startPrefix p.ones (p.ones - c.startPrefix) p.ip [])
            t.root t1.root ∧
          ∀ L, LeafIn L t.root → p.ones < L.endPrefix → agree L.value p.ip 0 p.ones →
            L = c ∨ LeafIn L c) := by
  obtain ⟨hinv, _⟩ := inv_of_insertAll hps ht
  have hinv2 : (Radix.mk t.root chg naf).Inv := hinv
  obtain ⟨t1, b, h1, _, _, _, hcase⟩ := insertTraced_spec _ hinv2 p hp
  refine ⟨t1, insert_eq_of_traced h1, ?_, ?_⟩
  · rintro L hL ⟨h2, h3⟩
    rcases hcase with ⟨hl, _, _, _, hroot⟩ | ⟨_, hrel⟩
    · rw [hroot] at hL
      obtain ⟨c, hc, hcc⟩ := leafIn_inv hL
      simp only [Node.children_mk, List.mem_singleton] at hc
      subst hc
      rcases hcc with ⟨_, rfl⟩ | ⟨hl2, _⟩
      · simp at h2
      · simp at hl2
    · have := hrel.no_more_specific hp hinv.1 (by rw [hinv.2.1]; exact hp.2.1)
        (agree_empty _ _ (by rw [hinv.2.1])) L hL h3
      omega
  · rintro ⟨L, hL, h2, h3⟩
    rcases hcase with ⟨hl, _⟩ | ⟨_, hrel⟩
    · exact absurd hL (not_leafIn_of_no_children (hinv.2.2 hl))
    · obtain ⟨_, e2, e3, c, hrep, hall⟩ :=
        hrel.prune_of_more_specific hinv.1 (by rw [hinv.2.1]; exact hp.2.1) L hL h2 h3
      exact ⟨e2, e3, c, hrep, hall⟩

/-- The prune theorem at the tree split at bit 46 and the prefix `2001:db8::/32`, which covers
both leaves; the result of the insert is also given by direct evaluation. -/
theorem covering_insert_prunes_witness :
    (∀ q ∈ [IPNet.mk addrDb8 48, IPNet.mk addrDb8Net2 48], q.Valid) ∧
      insertAll InitRadix [IPNet.mk addrDb8 48, IPNet.mk addrDb8Net2 48] = .ok treeSplit46 ∧
      (IPNet.mk addrDb8 32).Valid ∧
      (Radix.mk treeSplit46.root false false).insert (IPNet.mk addrDb8 32)
        = .ok ⟨Node.mk false 0 0 0 [] [Node.mk true 0 32 32 addrDb8 []], true, true⟩ ∧
      ∃ t1, (Radix.mk treeSplit46.root false false).insert (IPNet.mk addrDb8 32) = .ok t1 ∧
        (∀ L, LeafIn L t1.root →
          ¬ ((IPNet.mk addrDb8 32).ones < L.endPrefix ∧
            agree L.value (IPNet.mk addrDb8 32).ip 0 (IPNet.mk addrDb8 32).ones)) ∧
        ((∃ L, LeafIn L treeSplit46.root ∧ (IPNet.mk addrDb8 32).ones < L.endPrefix ∧
            agree L.value (IPNet.mk addrDb8 32).ip 0 (IPNet.mk addrDb8 32).ones) →
          t1.isChanged = true ∧ t1.constructionNewAliasFound = true ∧
          ∃ c, Replaced c
              (Node.mk true c.startPrefix (IPNet.mk addrDb8 32).ones
                ((IPNet.mk addrDb8 32).ones - c.startPrefix) (IPNet.mk addrDb8 32).ip [])
              treeSplit46.root t1.root ∧
            ∀ L, LeafIn L treeSplit46.root → (IPNet.mk addrDb8 32).ones < L.endPrefix →
              agree L.value (IPNet.mk addrDb8 32).ip 0 (IPNet.mk addrDb8 32).ones →
              L = c ∨ LeafIn L c) :=
  ⟨by decide, rfl, by decide, rfl,
    covering_insert_prunes [IPNet.mk addrDb8 48, IPNet.mk addrDb8Net2 48] (by decide)
      treeSplit46 rfl (IPNet.mk addrDb8 32) (by decide) false false⟩

/-- C6 (last-bit sibling collapse). For `n` in `[2, 128]` and 16-byte addresses `x` and `y` that
carry the same bits on `[0, n-1)` and differ at bit `n-1`, inserting `x/n` and then `y/n` into
the empty tree returns a root with exactly one child, a leaf with `startPrefix = 0`,
`endPrefix = n-1`, `length = n-1` and value `x` with bit `n-1` cleared, and both flags true.
Clearing bit `n-1` leaves every other bit of `x` as it is. -/
theorem last_bit_collapse (n : Nat) (hn : 2 ≤ n) (hn128 : n ≤ 128) (x y : IP)
    (hx : x.length = 16) (hy : y.length = 16) (hag : agree x y 0 (n - 1))
    (hne : bitAt x (n - 1) ≠ bitAt y (n - 1)) :
    insertAll InitRadix [⟨x, n⟩, ⟨y, n⟩]
        = .ok ⟨Node.mk false 0 0 0 []
            [Node.mk true 0 (n - 1) (n - 1) (clearBitAt x (n - 1)) []], true, true⟩ ∧
      bitAt (clearBitAt x (n - 1)) (n - 1) = 0 ∧
      ∀ k, k ≠ n - 1 → bitAt (clearBitAt x (n - 1)) k = bitAt x k := by
  refine ⟨?_, bitAt_clearBitAt_self x (n - 1), fun k hk => bitAt_clearBitAt_ne x (n - 1) k hk⟩
  have hpx : (IPNet.mk x n).Valid := ⟨hx, by simp; omega, hn128⟩
  have hpy : (IPNet.mk y n).Valid := ⟨hy, by simp; omega, hn128⟩
  obtain ⟨t1, b1, h1, hinv1, _, _, hcase1⟩ := insertTraced_spec InitRadix InitRadix_inv _ hpx
  rcases hcase1 with ⟨_, _, hc1, hn1, hroot1⟩ | ⟨hl, _⟩
  · obtain ⟨t2, b2, h2, _, _, _, hcase2⟩ := insertTraced_spec t1 hinv1 _ hpy
    rcases hcase2 with ⟨hl, _⟩ | ⟨_, hrel⟩
    · rw [hroot1] at hl; simp at hl
    · obtain ⟨e1, e2, e3, _⟩ := hrel.last_bit (by rw [hroot1]; rfl) (by rw [hroot1]; rfl)
        hn hag hne
      simp only [insertAll, insert_eq_of_traced h1, insert_eq_of_traced h2]
      cases t2
      simp only at e1 e2 e3
      rw [e1, e2, e3, hroot1]
      rfl
  · cases hl

/-- The collapse theorem at `n = 128` with `::1` and `::`: the leaf left is `::/127`. -/
theorem last_bit_collapse_witness :
    2 ≤ 128 ∧ 128 ≤ 128 ∧ addrOne.length = 16 ∧ addrZero.length = 16 ∧
      agree addrOne addrZero 0 (128 - 1) ∧ bitAt addrOne (128 - 1) ≠ bitAt addrZero (128 - 1) ∧
      clearBitAt addrOne (128 - 1) = addrZero ∧
      insertAll InitRadix [⟨addrOne, 128⟩, ⟨addrZero, 128⟩]
        = .ok ⟨Node.mk false 0 0 0 []
            [Node.mk true 0 (128 - 1) (128 - 1) (clearBitAt addrOne (128 - 1)) []],
            true, true⟩ :=
  ⟨by decide, by decide, by decide, by decide, by decide, by decide, by decide,
    (last_bit_collapse 128 (by decide) (by decide) addrOne addrZero (by decide) (by decide)
      (by decide) (by decide)).1⟩

/-- C7, as the specification states scenario S2, fails: the two `/48` prefixes differ only in
their last bit, so the second insert collapses the leaf instead of splitting it, and the
root has no internal child. -/
theorem scenarioS2_as_stated_fails : ¬ ScenarioS2AsStated := by
  rintro ⟨t, ht, ⟨n, hn, hleaf, _⟩, _⟩
  have h : insertAll InitRadix [⟨addrDb8, 48⟩, ⟨addrDb8Net1, 48⟩] = .ok treeDb8Slash47 := rfl
  rw [h] at ht
  cases ht
  simp only [treeDb8Slash47, Node.children_mk, List.mem_singleton] at hn
  subst hn
  cases hleaf

/-- C7, amended. Inserting `2001:db8::/48` and then `2001:db8:1::/48` into the empty tree
returns a root with the single leaf child `[0, 47)` of value `2001:db8::` and both flags true;
`lookup(2001:db8:0:1::)` is aliased with metadata `2001:db8::/47`; `lookup(2001:db8:2::)` is
not aliased. -/
theorem scenarioS2_collapses :
    insertAll InitRadix [⟨addrDb8, 48⟩, ⟨addrDb8Net1, 48⟩]
        = .ok ⟨Node.mk false 0 0 0 [] [Node.mk true 0 47 47 addrDb8 []], true, true⟩ ∧
      treeDb8Slash47.lookup addrDb8Sub1 = .ok ⟨true, "2001:db8::/47"⟩ ∧
      treeDb8Slash47.lookup addrDb8Net2 = .ok ⟨false, ""⟩ :=
  ⟨rfl, rfl, rfl⟩

/-- C8 (scenario S3). Inserting `2001:db8::/48`, `2001:db8:1::/48` and `2001:db8::/47` into
the empty tree returns a root whose only child is the leaf `[0, 47)` of value `2001:db8::`,
so that this is the only leaf of the tree, with `constructionNewAliasFound` true; the DFS
export of that tree writes the one line `2001:db8::/47`. -/
theorem scenarioS3_single_leaf :
    insertAll InitRadix [⟨addrDb8, 48⟩, ⟨addrDb8Net1, 48⟩, ⟨addrDb8, 47⟩]
        = .ok ⟨Node.mk false 0 0 0 [] [Node.mk true 0 47 47 addrDb8 []], true, true⟩ ∧
      (∀ L, LeafIn L treeDb8Slash47.root ↔ L = Node.mk true 0 47 47 addrDb8 []) ∧
      treeDb8Slash47.constructionNewAliasFound = true ∧
      exportCheckpointDFS treeDb8Slash47.root "" = "2001:db8::/47\n" := by
  refine ⟨rfl, ?_, rfl, by decide⟩
  intro L
  constructor
  · intro h
    obtain ⟨c, hc, hcc⟩ := leafIn_inv h
    simp only [treeDb8Slash47, Node.children_mk, List.mem_singleton] at hc
    subst hc
    rcases hcc with ⟨_, rfl⟩ | ⟨hl, _⟩
    · rfl
    · cases hl
  · rintro rfl
    exact LeafIn.here _ _ (List.mem_singleton.2 rfl) rfl

/-- C9, evaluated on the code: after `insert(::/0)` into the empty tree no address is
aliased, although the tree holds the leaf and the DFS export writes it as `::/0`; and on a tree
that already holds a prefix `insert(::/0)` changes nothing, so that an address outside that
prefix is not aliased either. -/
theorem mask_zero_not_aliased :
    (∀ a : IP, ∃ t1, InitRadix.insert ⟨addrZero, 0⟩ = .ok t1 ∧
      t1.lookup a = .ok ⟨false, ""⟩ ∧ exportCheckpointDFS t1.root "" = "::/0\n") ∧
    (∀ (t : Radix) (ip : IP), t.root.isLeaf = false → t.insert ⟨ip, 0⟩ = .ok t) ∧
    treeDb8Slash32.insert ⟨addrZero, 0⟩ = .ok treeDb8Slash32 ∧
    treeDb8Slash32.lookup addrOne = .ok ⟨false, ""⟩ ∧
    ¬ MaskZeroAliases InitRadix ∧ ¬ MaskZeroAliases treeDb8Slash32 := by
  have h1 : ∀ a : IP, ∃ t1, InitRadix.insert ⟨addrZero, 0⟩ = .ok t1 ∧
      t1.lookup a = .ok ⟨false, ""⟩ ∧ exportCheckpointDFS t1.root "" = "::/0\n" := by
    intro a
    refine ⟨⟨Node.mk false 0 0 0 [] [Node.mk true 0 0 0 addrZero []], true, false⟩, rfl, ?_,
      by decide⟩
    simp [Radix.lookup, lookupLoop, lookupScan, countMatch]
  have h2 : ∀ (t : Radix) (ip : IP), t.root.isLeaf = false → t.insert ⟨ip, 0⟩ = .ok t := by
    intro t ip hl
    simp [Radix.insert, Radix.insertTraced, hl, insertLoop]
  refine ⟨h1, h2, h2 treeDb8Slash32 addrZero rfl, rfl, ?_, ?_⟩
  · intro h
    obtain ⟨t1, md, e1, e2⟩ := h addrZero rfl
    obtain ⟨t2, e3, e4, _⟩ := h1 addrZero
    rw [e1] at e3
    cases e3
    rw [e2] at e4
    cases e4
  · intro h
    obtain ⟨t1, md, e1, e2⟩ := h addrOne rfl
    rw [h2 treeDb8Slash32 addrZero rfl] at e1
    cases e1
    have e3 : treeDb8Slash32.lookup addrOne = .ok ⟨false, ""⟩ := rfl
    rw [e2] at e3
    cases e3

/-- C10 (change-flag contract). In a tree built from the empty one by inserts of prefixes with
16-byte addresses and mask lengths in `[1, 128]`, whatever the two flags `chg` and `naf` are
on entry, `insert p` of a valid prefix returns; if the root it returns differs from the old
one then `isChanged` is true; every return other than the two already-covered ones sets
`isChanged`, and those two leave root and flags as they were; a flag that was true stays true;
and `constructionNewAliasFound` turns from false to true only through the prune or the
last-bit collapse, each of which sets both flags. -/
theorem change_flag_contract (ps : List IPNet) (hps : ∀ q ∈ ps, q.Valid) (t : Radix)
    (ht : insertAll InitRadix ps = .ok t) (p : IPNet) (hp : p.Valid) (chg naf : Bool) :
    ∃ t1 b, (Radix.mk t.root chg naf).insertTraced p = .ok (t1, b) ∧
      (t1.root ≠ t.root → t1.isChanged = true) ∧
      (b ≠ Branch.covered → b ≠ Branch.present → t1.isChanged = true) ∧
      (b = Branch.covered ∨ b = Branch.present → t1 = Radix.mk t.root chg naf) ∧
      (chg = true → t1.isChanged = true) ∧
      (naf = true → t1.constructionNewAliasFound = true) ∧
      (t1.constructionNewAliasFound = true → naf = false →
        b = Branch.prune ∨ b = Branch.collapse) ∧
      (b = Branch.prune ∨ b = Branch.collapse →
        t1.isChanged = true ∧ t1.constructionNewAliasFound = true) := by
  obtain ⟨hinv, _⟩ := inv_of_insertAll hps ht
  have hinv2 : (Radix.mk t.root chg naf).Inv := hinv
  obtain ⟨t1, b, h1, _, _, _, hcase⟩ := insertTraced_spec _ hinv2 p hp
  refine ⟨t1, b, h1, ?_⟩
  rcases hcase with ⟨_, hb, hc, hn, _⟩ | ⟨_, hrel⟩
  · simp only at hn
    subst hb
    refine ⟨fun _ => hc, fun _ _ => hc, ?_, fun _ => hc, fun h => hn ▸ h, ?_, ?_⟩
    · rintro (h | h) <;> cases h
    · intro h1 h2; rw [hn, h2] at h1; cases h1
    · rintro (h | h) <;> cases h
  · simp only at hrel
    obtain ⟨f1, f2, f3, f4, f5⟩ := hrel.flags
    obtain ⟨g1, g2, _⟩ := hrel.changed_of_branch
    refine ⟨?_, g1, ?_, f2, f3, f4, f5⟩
    · intro hne
      rcases f1 with ⟨e, _⟩ | h
      · exact absurd e hne
      · exact h
    · intro hb
      obtain ⟨e1, e2, e3⟩ := g2 hb
      cases t1
      simp only at e1 e2 e3
      rw [e1, e2, e3]

/-- The flag theorem at the tree split at bit 46, both flags lowered, and the pruning prefix
`2001:db8::/32`; the result of the insert is also given by direct evaluation. -/
theorem change_flag_contract_witness :
    (∀ q ∈ [IPNet.mk addrDb8 48, IPNet.mk addrDb8Net2 48], q.Valid) ∧
      insertAll InitRadix [IPNet.mk addrDb8 48, IPNet.mk addrDb8Net2 48] = .ok treeSplit46 ∧
      (IPNet.mk addrDb8 32).Valid ∧
      (Radix.mk treeSplit46.root false false).insertTraced (IPNet.mk addrDb8 32)
        = .ok (⟨Node.mk false 0 0 0 [] [Node.mk true 0 32 32 addrDb8 []], true, true⟩,
            Branch.prune) ∧
      ∃ t1 b, (Radix.mk treeSplit46.root false false).insertTraced (IPNet.mk addrDb8 32)
          = .ok (t1, b) ∧
        (t1.root ≠ treeSplit46.root → t1.isChanged = true) ∧
        (b ≠ Branch.covered → b ≠ Branch.present → t1.isChanged = true) ∧
        (b = Branch.covered ∨ b = Branch.present →
          t1 = Radix.mk treeSplit46.root false false) ∧
        (false = true → t1.isChanged = true) ∧
        (false = true → t1.constructionNewAliasFound = true) ∧
        (t1.constructionNewAliasFound = true → false = false →
          b = Branch.prune ∨ b = Branch.collapse) ∧
        (b = Branch.prune ∨ b = Branch.collapse →
          t1.isChanged = true ∧ t1.constructionNewAliasFound = true) :=
  ⟨by decide, rfl, by decide, rfl,
    change_flag_contract [IPNet.mk addrDb8 48, IPNet.mk addrDb8Net2 48] (by decide)
      treeSplit46 rfl (IPNet.mk addrDb8 32) (by decide) false false⟩

/-! ## Checkpoint export -/

/-- C11 (export clears the flags and nothing else). For every state of the engine, when the
checkpoint file can be created `ExportCheckpoint` returns, with `IsChanged` and
`CheckConstructionNewAliasFound` false afterwards and with the root (every node, value and
child order), the checkpoint base name and the checkpoint frequency as they were; the file is
named `<base name>-<stamp>` and holds the DFS export of the root. -/
theorem export_clears_flags_only (t : RadixState) (stamp : String) :
    ∃ t1 file text, t.ExportCheckpoint stamp true = .ok (t1, file, text) ∧
      t1.IsChanged = false ∧ t1.CheckConstructionNewAliasFound = false ∧
      t1.radix.root = t.radix.root ∧ t1.checkpointBaseName = t.checkpointBaseName ∧
      t1.checkpointFrequency = t.checkpointFrequency ∧
      t1.GetCheckpointFrequency = t.GetCheckpointFrequency ∧
      file = t.checkpointBaseName ++ "-" ++ stamp ∧
      text = exportCheckpointDFS t.radix.root "" :=
  ⟨_, _, _, rfl, rfl, rfl, rfl, rfl, rfl, rfl, rfl, rfl⟩

theorem string_append_push (a b : String) (c : Char) : (a ++ b).push c = a ++ b.push c := by
  apply String.ext
  simp [String.data_push, String.data_append]

theorem renderLeaves_append (xs ys : List Node) :
    renderLeaves (xs ++ ys) = renderLeaves xs ++ renderLeaves ys := by
  induction xs with
  | nil => simp [renderLeaves]
  | cons x xs ih => simp [renderLeaves, ih, String.append_assoc]

mutual
theorem export_eq_render : ∀ (n : Node) (buf : String),
    exportCheckpointDFS n buf = buf ++ renderLeaves (leavesDFS n)
  | Node.mk isLeaf s e len v cs, buf => by
    cases isLeaf
    · simp only [exportCheckpointDFS, leavesDFS, Bool.false_eq_true, if_false]
      exact exportChildren_eq_render cs buf
    · simp only [exportCheckpointDFS, leavesDFS, if_true, renderLeaves, leafLine, Node.value_mk,
        Node.endPrefix_mk, String.append_empty]
      exact string_append_push _ _ _
theorem exportChildren_eq_render : ∀ (cs : List Node) (buf : String),
    exportChildren cs buf = buf ++ renderLeaves (leavesOfChildren cs)
  | [], buf => by simp [exportChildren, leavesOfChildren, renderLeaves]
  | c :: cs, buf => by
    simp only [exportChildren, leavesOfChildren]
    rw [exportChildren_eq_render cs, export_eq_render c, renderLeaves_append,
      String.append_assoc]
end

/-! ### No newline inside a line -/

theorem ofNat_ne_newline (n : Nat) (h : n ≠ 10) : Char.ofNat n ≠ Char.ofNat 10 := by
  intro he
  by_cases hv : n.isValidChar
  · have h1 : (Char.ofNat n).toNat = n := by
      simp only [Char.ofNat, hv, dite_true, Char.ofNatAux, Char.toNat, Char.val]
      rfl
    have h2 : (Char.ofNat 10).toNat = 10 := by decide
    rw [he, h2] at h1
    exact h h1.symm
  · have h1 : Char.ofNat n = Char.ofNat 0 := by
      simp only [Char.ofNat, hv, dite_false]
      rfl
    rw [h1] at he
    exact absurd he (by decide)

theorem hexDigit_ne_newline (n : Nat) : hexDigit n ≠ Char.ofNat 10 := by
  unfold hexDigit
  split
  · exact ofNat_ne_newline _ (by omega)
  · exact ofNat_ne_newline _ (by omega)

theorem hexGroup_no_newline (x : Nat) : ∀ c ∈ hexGroup x, c ≠ Char.ofNat 10 := by
  intro c hc
  unfold hexGroup at hc
  split at hc
  · simp at hc; subst hc; exact hexDigit_ne_newline _
  · split at hc
    · simp at hc; rcases hc with rfl | rfl <;> exact hexDigit_ne_newline _
    · split at hc
      · simp at hc; rcases hc with rfl | rfl | rfl <;> exact hexDigit_ne_newline _
      · simp at hc; rcases hc with rfl | rfl | rfl | rfl <;> exact hexDigit_ne_newline _

theorem hexBytes_no_newline (ip : IP) : ∀ c ∈ hexBytes ip, c ≠ Char.ofNat 10 := by
  induction ip with
  | nil => simp [hexBytes]
  | cons b bs ih =>
    intro c hc
    simp only [hexBytes, List.mem_cons] at hc
    rcases hc with rfl | rfl | hc
    · exact hexDigit_ne_newline _
    · exact hexDigit_ne_newline _
    · exact ih c hc

theorem writeGroups_no_newline (gs : List Nat) (run : Option (Nat × Nat)) (fuel i : Nat) :
    ∀ c ∈ writeGroups gs run fuel i, c ≠ Char.ofNat 10 := by
  induction fuel generalizing i with
  | zero => simp [writeGroups]
  | succ fuel ih =>
    intro c hc
    have hcolon : (':' : Char) ≠ Char.ofNat 10 := by decide
    unfold writeGroups at hc
    split at hc
    · simp at hc
    · split at hc
      · split at hc
        · simp only [List.cons_append, List.nil_append, List.mem_cons] at hc
          rcases hc with rfl | rfl | hc
          · exact hcolon
          · exact hcolon
          · split at hc
            · simp at hc
            · rcases List.mem_append.1 hc with h | h
              · exact hexGroup_no_newline _ c h
              · exact ih _ c h
        · rcases List.mem_append.1 hc with h | h
          · rcases List.mem_append.1 h with h | h
            · split at h
              · simp at h; subst h; exact hcolon
              · simp at h
            · exact hexGroup_no_newline _ c h
          · exact ih _ c h
      · rcases List.mem_append.1 hc with h | h
        · rcases List.mem_append.1 h with h | h
          · split at h
            · simp at h; subst h; exact hcolon
            · simp at h
          · exact hexGroup_no_newline _ c h
        · exact ih _ c h

theorem digitChar_ne_newline (n : Nat) : Nat.digitChar n ≠ Char.ofNat 10 := by
  by_cases h : n < 16
  · interval_cases n <;> decide
  · have e : Nat.digitChar n = '*' := by
      unfold Nat.digitChar
      iterate 16 rw [if_neg (show ¬ n = _ from by omega)]
    rw [e]
    decide

theorem toDigitsCore_no_newline (fuel n : Nat) (ds : List Char)
    (hds : ∀ c ∈ ds, c ≠ Char.ofNat 10) :
    ∀ c ∈ Nat.toDigitsCore 10 fuel n ds, c ≠ Char.ofNat 10 := by
  induction fuel generalizing n ds with
  | zero => simpa [Nat.toDigitsCore] using hds
  | succ fuel ih =>
    intro c hc
    simp only [Nat.toDigitsCore] at hc
    split at hc
    · rcases List.mem_cons.1 hc with rfl | h
      · exact digitChar_ne_newline _
      · exact hds c h
    · refine ih _ _ ?_ c hc
      intro d hd
      rcases List.mem_cons.1 hd with rfl | h
      · exact digitChar_ne_newline _
      · exact hds d h

theorem decimal_no_newline (n : Nat) : ∀ c ∈ (decimal n).data, c ≠ Char.ofNat 10 := by
  have : (decimal n).data = Nat.toDigits 10 n := by
    simp [decimal, toString, Nat.repr, List.asString]
  rw [this]
  exact toDigitsCore_no_newline _ _ _ (by simp)

theorem ipString_no_newline (ip : IP) : ∀ c ∈ (ipString ip).data, c ≠ Char.ofNat 10 := by
  intro c hc
  have hdot : ∀ d ∈ (".":String).data, d ≠ Char.ofNat 10 := by decide
  unfold ipString at hc
  split at hc
  · revert c; decide
  · split at hc
    · simp only [String.data_append, List.mem_append] at hc
      rcases hc with (((((h | h) | h) | h) | h) | h) | h
      all_goals first | exact decimal_no_newline _ c h | exact hdot c h
    · split at hc
      · simp only [String.data_append, List.mem_append] at hc
        rcases hc with h | h
        · revert h; revert c; decide
        · exact hexBytes_no_newline _ c h
      · split at hc
        · simp only [String.data_append, List.mem_append] at hc
          rcases hc with (((((h | h) | h) | h) | h) | h) | h
          all_goals first | exact decimal_no_newline _ c h | exact hdot c h
        · exact writeGroups_no_newline _ _ _ _ c hc

theorem cidrString_no_newline (v : IP) (e : Nat) :
    ∀ c ∈ (cidrString v e).data, c ≠ Char.ofNat 10 := by
  intro c hc
  simp only [cidrString, String.data_append, List.mem_append] at hc
  rcases hc with (h | h) | h
  · exact ipString_no_newline _ c h
  · revert h; revert c; decide
  · exact decimal_no_newline _ c h

theorem leafLine_data (L : Node) :
    (leafLine L).data = (cidrString L.value L.endPrefix).data ++ [Char.ofNat 10] := by
  simp [leafLine, String.data_push]

theorem renderLeaves_count (Ls : List Node) :
    (renderLeaves Ls).data.count (Char.ofNat 10) = Ls.length := by
  induction Ls with
  | nil => rfl
  | cons L Ls ih =>
    simp only [renderLeaves, String.data_append, leafLine_data, List.count_append, ih,
      List.length_cons]
    rw [List.count_eq_zero.2 (fun h => cidrString_no_newline _ _ _ h rfl)]
    simp [Nat.add_comm]

theorem renderLeaves_getLast (Ls : List Node) (h : Ls ≠ []) :
    (renderLeaves Ls).data.getLast? = some (Char.ofNat 10) := by
  induction Ls with
  | nil => exact absurd rfl h
  | cons L Ls ih =>
    simp only [renderLeaves, String.data_append, leafLine_data]
    cases Ls with
    | nil => simp [renderLeaves]
    | cons M Ms =>
      have := ih (by simp)
      rw [List.getLast?_append, this]
      simp

mutual
theorem mem_leavesDFS : ∀ (n : Node) (L : Node), n.isLeaf = false →
    (L ∈ leavesDFS n ↔ LeafIn L n)
  | Node.mk isLeaf s e len v cs, L, h => by
    simp only [Node.isLeaf_mk] at h
    subst h
    simp only [leavesDFS, Bool.false_eq_true, if_false]
    rw [mem_leavesOfChildren cs L]
    constructor
    · rintro ⟨c, hc, ⟨hl, rfl⟩ | ⟨hl, hin⟩⟩
      · exact LeafIn.here _ _ hc hl
      · exact LeafIn.deeper _ c _ hc hl hin
    · intro hL
      exact leafIn_inv hL
theorem mem_leavesOfChildren : ∀ (cs : List Node) (L : Node),
    (L ∈ leavesOfChildren cs ↔
      ∃ c ∈ cs, (c.isLeaf = true ∧ L = c) ∨ (c.isLeaf = false ∧ LeafIn L c))
  | [], L => by simp [leavesOfChildren]
  | c :: cs, L => by
    simp only [leavesOfChildren, List.mem_append, mem_leavesOfChildren cs L, List.mem_cons,
      exists_eq_or_imp]
    apply or_congr_left
    cases hl : c.isLeaf
    · rw [mem_leavesDFS c L hl]; simp
    · have : leavesDFS c = [c] := by
        cases c; simp only [Node.isLeaf_mk] at hl; subst hl; simp [leavesDFS]
      rw [this]; simp
end

/-- C12 (checkpoint content). In a tree built from the empty one by at least one insert of
prefixes with 16-byte addresses and mask lengths in `[1, 128]`, the text that the DFS export
writes from the root is the lines `value/endPrefix` plus newline of the leaves visited
depth-first in stored child order, and of nothing else; these leaves are exactly the leaves
below the root; the number of newlines in the text is the number of leaves; there is at least
one leaf and the text ends with a newline. -/
theorem checkpoint_content (ps : List IPNet) (hps : ∀ q ∈ ps, q.Valid) (hne : ps ≠ []) :
    ∃ t, insertAll InitRadix ps = .ok t ∧
      exportCheckpointDFS t.root "" = renderLeaves (leavesDFS t.root) ∧
      leavesDFS t.root = leavesOfChildren t.root.children ∧
      (∀ L, L ∈ leavesDFS t.root ↔ LeafIn L t.root) ∧
      ((exportCheckpointDFS t.root "").data.count (Char.ofNat 10)
        = (leavesDFS t.root).length) ∧
      leavesDFS t.root ≠ [] ∧
      (exportCheckpointDFS t.root "").data.getLast? = some (Char.ofNat 10) := by
  obtain ⟨t, ht, _, _⟩ := insertAll_spec ps hps InitRadix InitRadix_inv
  refine ⟨t, ht, ?_⟩
  obtain ⟨hinv, hcov⟩ := inv_of_insertAll hps ht
  have hexp : exportCheckpointDFS t.root "" = renderLeaves (leavesDFS t.root) := by
    rw [export_eq_render]; simp
  obtain ⟨p, rest, rfl⟩ := List.exists_cons_of_ne_nil hne
  have hroot : t.root.isLeaf = false := by
    cases hl : t.root.isLeaf
    · rfl
    · obtain ⟨L, hL⟩ := (hcov p.ip).2 ⟨p, List.mem_cons_self _ _, agree_refl _ _ _⟩
      exact absurd hL.leafIn (not_leafIn_of_no_children (hinv.2.2 hl))
  have hmem : ∀ L, L ∈ leavesDFS t.root ↔ LeafIn L t.root := fun L =>
    mem_leavesDFS t.root L hroot
  have hnonempty : leavesDFS t.root ≠ [] := by
    obtain ⟨L, hL⟩ := (hcov p.ip).2 ⟨p, List.mem_cons_self _ _, agree_refl _ _ _⟩
    intro h
    have := (hmem L).2 hL.leafIn
    rw [h] at this
    cases this
  refine ⟨hexp, ?_, hmem, ?_, hnonempty, ?_⟩
  · cases hr : t.root with
    | mk l s e len v cs =>
      rw [hr] at hroot
      simp only [Node.isLeaf_mk] at hroot
      subst hroot
      simp [leavesDFS]
  · rw [hexp, renderLeaves_count]
  · rw [hexp, renderLeaves_getLast _ hnonempty]

/-- The content theorem at the tree split at bit 46: two lines, in child order. -/
theorem checkpoint_content_witness :
    (∀ q ∈ [IPNet.mk addrDb8 48, IPNet.mk addrDb8Net2 48], q.Valid) ∧
      [IPNet.mk addrDb8 48, IPNet.mk addrDb8Net2 48] ≠ [] ∧
      (∃ t, insertAll InitRadix [IPNet.mk addrDb8 48, IPNet.mk addrDb8Net2 48] = .ok t ∧
        exportCheckpointDFS t.root "" = renderLeaves (leavesDFS t.root) ∧
        leavesDFS t.root = leavesOfChildren t.root.children ∧
        (∀ L, L ∈ leavesDFS t.root ↔ LeafIn L t.root) ∧
        ((exportCheckpointDFS t.root "").data.count (Char.ofNat 10)
          = (leavesDFS t.root).length) ∧
        leavesDFS t.root ≠ [] ∧
        (exportCheckpointDFS t.root "").data.getLast? = some (Char.ofNat 10)) ∧
      insertAll InitRadix [IPNet.mk addrDb8 48, IPNet.mk addrDb8Net2 48] = .ok treeSplit46 ∧
      exportCheckpointDFS treeSplit46.root "" = "2001:db8::/48\n2001:db8:2::/48\n" ∧
      (exportCheckpointDFS treeSplit46.root "").data.count (Char.ofNat 10) = 2 :=
  ⟨by decide, by simp,
    checkpoint_content [IPNet.mk addrDb8 48, IPNet.mk addrDb8Net2 48] (by decide) (by simp),
    rfl, by decide, by decide⟩

namespace Amt

/-! # The array-mapped trie -/

/-! ## Fields of a node -/

@[simp] theorem Node.isLeaf_mk1 (l a v p b cs) : (Node.mk l a v p b cs).isLeaf = l := rfl
@[simp] theorem Node.isAliased_mk1 (l a v p b cs) : (Node.mk l a v p b cs).isAliased = a := rfl
@[simp] theorem Node.value_mk1 (l a v p b cs) : (Node.mk l a v p b cs).value = v := rfl
@[simp] theorem Node.prefixBits_mk1 (l a v p b cs) : (Node.mk l a v p b cs).prefixBits = p := rfl
@[simp] theorem Node.bitmap_mk1 (l a v p b cs) : (Node.mk l a v p b cs).bitmap = b := rfl
@[simp] theorem Node.children_mk1 (l a v p b cs) : (Node.mk l a v p b cs).children = cs := rfl

@[simp] theorem Node.isLeaf_setChildren1 (n : Node) (cs) :
    (n.setChildren cs).isLeaf = n.isLeaf := by cases n; rfl
@[simp] theorem Node.isAliased_setChildren1 (n : Node) (cs) :
    (n.setChildren cs).isAliased = n.isAliased := by cases n; rfl
@[simp] theorem Node.value_setChildren1 (n : Node) (cs) :
    (n.setChildren cs).value = n.value := by cases n; rfl
@[simp] theorem Node.prefixBits_setChildren1 (n : Node) (cs) :
    (n.setChildren cs).prefixBits = n.prefixBits := by cases n; rfl
@[simp] theorem Node.bitmap_setChildren1 (n : Node) (cs) :
    (n.setChildren cs).bitmap = n.bitmap := by cases n; rfl
@[simp] theorem Node.children_setChildren1 (n : Node) (cs) :
    (n.setChildren cs).children = cs := by cases n; rfl

@[simp] theorem Node.isLeaf_setBitmap (n : Node) (b) :
    (n.setBitmap b).isLeaf = n.isLeaf := by cases n; rfl
@[simp] theorem Node.isAliased_setBitmap (n : Node) (b) :
    (n.setBitmap b).isAliased = n.isAliased := by cases n; rfl
@[simp] theorem Node.value_setBitmap (n : Node) (b) :
    (n.setBitmap b).value = n.value := by cases n; rfl
@[simp] theorem Node.prefixBits_setBitmap (n : Node) (b) :
    (n.setBitmap b).prefixBits = n.prefixBits := by cases n; rfl
@[simp] theorem Node.bitmap_setBitmap (n : Node) (b) :
    (n.setBitmap b).bitmap = b := by cases n; rfl
@[simp] theorem Node.children_setBitmap (n : Node) (b) :
    (n.setBitmap b).children = n.children := by cases n; rfl

@[simp] theorem Node.isLeaf_markLeaf (n : Node) : n.markLeaf.isLeaf = true := by cases n; rfl
@[simp] theorem Node.isAliased_markLeaf (n : Node) : n.markLeaf.isAliased = true := by
  cases n; rfl
@[simp] theorem Node.value_markLeaf (n : Node) : n.markLeaf.value = n.value := by cases n; rfl
@[simp] theorem Node.prefixBits_markLeaf (n : Node) : n.markLeaf.prefixBits = n.prefixBits := by
  cases n; rfl
@[simp] theorem Node.bitmap_markLeaf (n : Node) : n.markLeaf.bitmap = n.bitmap := by
  cases n; rfl
@[simp] theorem Node.children_markLeaf (n : Node) : n.markLeaf.children = n.children := by
  cases n; rfl

theorem Node.setChildren_same (n : Node) : n.setChildren n.children = n := by cases n; rfl

theorem Node.eta1 (n : Node) :
    Node.mk n.isLeaf n.isAliased n.value n.prefixBits n.bitmap n.children = n := by cases n; rfl

/-! ## Nibbles -/

theorem getNibble_lt (v o : Nat) : getNibble v o < 16 := by
  unfold getNibble
  exact Nat.lt_of_le_of_lt Nat.and_le_right (by decide)

theorem nibbles_nil : nibbles [] = [] := rfl

theorem nibbles_cons (b : Nat) (bs : List Nat) :
    nibbles (b :: bs) = getNibble b 4 :: getNibble b 0 :: nibbles bs := by
  unfold nibbles
  have h : (b :: bs).length * 2 = bs.length * 2 + 1 + 1 := by simp; omega
  rw [h, List.range_succ_eq_map, List.range_succ_eq_map]
  simp only [List.map_cons, List.map_map]
  refine congrArg₂ _ ?_ (congrArg₂ _ ?_ ?_)
  · simp [u8]
  · simp [u8]
  · apply List.map_congr_left
    intro i _
    simp only [Function.comp]
    have e1 : (i + 1 + 1) / 2 = i / 2 + 1 := by omega
    have e2 : (i + 1 + 1) % 2 = i % 2 := by omega
    rw [e1, e2]
    simp

theorem nibbles_lt (k : List Nat) : ∀ x ∈ nibbles k, x < 16 := by
  induction k with
  | nil => simp [nibbles_nil]
  | cons b bs ih =>
    intro x hx
    rw [nibbles_cons] at hx
    simp only [List.mem_cons] at hx
    rcases hx with rfl | rfl | hx
    · exact getNibble_lt _ _
    · exact getNibble_lt _ _
    · exact ih x hx

theorem nibbles_length (k : List Nat) : (nibbles k).length = 2 * k.length := by
  induction k with
  | nil => rfl
  | cons b bs ih => rw [nibbles_cons]; simp [ih]; omega

theorem byte_of_nibbles (b : Nat) (hb : b < 256) : b = 16 * getNibble b 4 + getNibble b 0 := by
  unfold getNibble
  have h1 : b >>> 4 = b / 16 := by rw [Nat.shiftRight_eq_div_pow]
  have h2 : b >>> 0 = b := rfl
  have h3 : ∀ y, y &&& 15 = y % 16 := fun y => Nat.and_pow_two_sub_one_eq_mod y 4
  rw [h1, h2, h3, h3]
  omega

theorem nibbles_injective {k q : List Nat} (hk : IsBytes k) (hq : IsBytes q)
    (h : nibbles k = nibbles q) : k = q := by
  induction k generalizing q with
  | nil =>
    cases q with
    | nil => rfl
    | cons c cs => rw [nibbles_nil, nibbles_cons] at h; cases h
  | cons b bs ih =>
    cases q with
    | nil => rw [nibbles_nil, nibbles_cons] at h; cases h
    | cons c cs =>
      rw [nibbles_cons, nibbles_cons] at h
      simp only [List.cons.injEq] at h
      obtain ⟨h1, h2, h3⟩ := h
      have hb := byte_of_nibbles b (hk b (List.mem_cons_self _ _))
      have hc := byte_of_nibbles c (hq c (List.mem_cons_self _ _))
      have : b = c := by rw [hb, hc, h1, h2]
      rw [this, ih (fun x hx => hk x (List.mem_cons_of_mem _ hx))
        (fun x hx => hq x (List.mem_cons_of_mem _ hx)) h3]

/-! ## The bitmap and the slot of a nibble -/

theorem shift_mod (x : Nat) (hx : x < 16) : (1 <<< x) % 65536 = 2 ^ x := by
  rw [Nat.one_shiftLeft]
  apply Nat.mod_eq_of_lt
  calc 2 ^ x < 2 ^ 16 := Nat.pow_lt_pow_right (by decide) hx
    _ = 65536 := by decide

theorem shift_pred_mod (x : Nat) (hx : x < 16) : ((1 <<< x) - 1) % 65536 = 2 ^ x - 1 := by
  rw [Nat.one_shiftLeft]
  apply Nat.mod_eq_of_lt
  have : 2 ^ x < 65536 := by
    calc 2 ^ x < 2 ^ 16 := Nat.pow_lt_pow_right (by decide) hx
      _ = 65536 := by decide
  omega

theorem and_two_pow_eq_zero (B x : Nat) : B &&& 2 ^ x = 0 ↔ B.testBit x = false := by
  constructor
  · intro h
    have := congrArg (fun v => Nat.testBit v x) h
    simpa [Nat.testBit_two_pow_self] using this
  · intro h
    apply Nat.eq_of_testBit_eq
    intro i
    rw [Nat.testBit_and, Nat.zero_testBit]
    by_cases hi : x = i
    · subst hi; simp [h]
    · simp [Nat.testBit_two_pow_of_ne hi]

/-- The number of children of a sorted list whose nibble is below `x`: the slot of `x`. -/
theorem getIndex_eq (n : Node) (x : Nat) (hx : x < 16) :
    n.getIndex x =
      if n.bitmap.testBit x = true then
        some ((List.range 16).filter (fun i => n.bitmap.testBit i && decide (i < x))).length
      else none := by
  unfold Node.getIndex
  simp only [shift_mod x hx, shift_pred_mod x hx, and_two_pow_eq_zero]
  by_cases h : n.bitmap.testBit x = true
  · rw [if_neg (by simp [h]), if_pos h]
    unfold onesCount16
    simp only [Nat.testBit_and, Nat.testBit_two_pow_sub_one]
  · rw [if_pos (by simpa using h), if_neg h]

theorem count_below (B : Nat) (l : List Node) (x : Nat) (hx : x ≤ 16)
    (hs : l.Pairwise (fun a b => a.value < b.value))
    (hb : ∀ i, i < x → (B.testBit i = true ↔ ∃ c ∈ l, c.value = i)) :
    ((List.range 16).filter (fun i => B.testBit i && decide (i < x))).length =
      (l.filter (fun c => decide (c.value < x))).length := by
  have hv : (l.map Node.value).Pairwise (fun a b => a < b) := List.pairwise_map.2 hs
  have hnd : (l.map Node.value).Nodup := hv.imp (fun h => Nat.ne_of_lt h)
  have e : (l.filter (fun c => decide (c.value < x))).length =
      ((l.map Node.value).filter (fun v => decide (v < x))).length := by
    rw [List.filter_map, List.length_map]; rfl
  rw [e]
  apply List.Perm.length_eq
  rw [List.perm_ext_iff_of_nodup ((List.nodup_range 16).filter _) (hnd.filter _)]
  intro i
  simp only [List.mem_filter, List.mem_range, Bool.and_eq_true, decide_eq_true_eq, List.mem_map]
  constructor
  · rintro ⟨_, hb1, hi⟩
    obtain ⟨c, hc, hcv⟩ := (hb i hi).1 hb1
    exact ⟨⟨c, hc, hcv⟩, hi⟩
  · rintro ⟨⟨c, hc, hcv⟩, hi⟩
    exact ⟨by omega, (hb i hi).2 ⟨c, hc, hcv⟩, hi⟩

/-- A sorted list of children splits at a nibble `x` into the children below `x` and the
rest. -/
theorem split_at (l : List Node) (x : Nat) (hs : l.Pairwise (fun a b => a.value < b.value)) :
    ∃ pre post, l = pre ++ post ∧ (∀ a ∈ pre, a.value < x) ∧ (∀ a ∈ post, x ≤ a.value) ∧
      (l.filter (fun c => decide (c.value < x))).length = pre.length := by
  induction l with
  | nil => exact ⟨[], [], rfl, by simp, by simp, rfl⟩
  | cons a l ih =>
    rw [List.pairwise_cons] at hs
    by_cases ha : a.value < x
    · obtain ⟨pre, post, e, h1, h2, h3⟩ := ih hs.2
      refine ⟨a :: pre, post, by rw [e]; rfl, ?_, h2, ?_⟩
      · intro b hb
        rcases List.mem_cons.1 hb with rfl | hb
        · exact ha
        · exact h1 b hb
      · rw [List.filter_cons_of_pos (by simpa using ha)]
        simp [h3]
    · refine ⟨[], a :: l, rfl, by simp, ?_, ?_⟩
      · intro b hb
        rcases List.mem_cons.1 hb with rfl | hb
        · omega
        · have := hs.1 b hb; omega
      · have hnil : (a :: l).filter (fun c => decide (c.value < x)) = [] := by
          apply List.filter_eq_nil_iff.2
          intro b hb
          rcases List.mem_cons.1 hb with rfl | hb
          · simpa using ha
          · have := hs.1 b hb
            simp; omega
        rw [hnil]


theorem WFA.sorted {n : Node} (h : WFA n) : n.children.Pairwise (fun a b => a.value < b.value) := by
  cases h with
  | mk _ h1 _ _ _ => exact h1

theorem WFA.bits {n : Node} (h : WFA n) :
    ∀ i, n.bitmap.testBit i = true ↔ ∃ c ∈ n.children, c.value = i := by
  cases h with
  | mk _ _ h2 _ _ => exact h2

theorem WFA.small {n : Node} (h : WFA n) : ∀ c ∈ n.children, c.value < 16 := by
  cases h with
  | mk _ _ _ h3 _ => exact h3

theorem WFA.sub {n : Node} (h : WFA n) : ∀ c ∈ n.children, WFA c := by
  cases h with
  | mk _ _ _ _ h4 => exact h4

theorem slot_cases (n : Node) (x : Nat) (hx : x < 16) (h : WFA n) : Slot n x := by
  obtain ⟨pre, post, e, h1, h2, h3⟩ := split_at n.children x h.sorted
  have hcount := count_below n.bitmap n.children x (Nat.le_of_lt hx) h.sorted
    (fun i _ => h.bits i)
  have hsorted := h.sorted
  rw [e] at hsorted
  by_cases hb : n.bitmap.testBit x = true
  · obtain ⟨c, hc, hcv⟩ := (h.bits x).1 hb
    rw [e] at hc
    have hcpost : c ∈ post := by
      rcases List.mem_append.1 hc with hc | hc
      · have := h1 c hc; omega
      · exact hc
    cases post with
    | nil => cases hcpost
    | cons d post =>
      have hpw := (List.pairwise_append.1 hsorted).2.1
      rw [List.pairwise_cons] at hpw
      have hd : d.value = x := by
        rcases List.mem_cons.1 hcpost with rfl | hm
        · exact hcv
        · have := hpw.1 c hm
          have := h2 d (List.mem_cons_self _ _)
          omega
      refine Slot.present pre d post e hd h1 ?_ ?_
      · intro a ha
        have := hpw.1 a ha
        omega
      · rw [getIndex_eq n x hx, if_pos hb, hcount, h3]
  · have hlt : ∀ a ∈ post, x < a.value := by
      intro a ha
      have h5 := h2 a ha
      rcases Nat.lt_or_eq_of_le h5 with h6 | h6
      · exact h6
      · exact absurd ((h.bits x).2 ⟨a, by rw [e]; exact List.mem_append_right _ ha, h6.symm⟩) hb
    refine Slot.absent pre post e h1 hlt ?_ ?_
    · rw [getIndex_eq n x hx, if_neg hb]
    · rw [getIndex_eq _ x hx]
      simp only [Node.bitmap_setBitmap, shift_mod x hx]
      rw [if_pos (by simp [Nat.testBit_two_pow_self])]
      rw [count_below _ n.children x (Nat.le_of_lt hx) h.sorted, h3]
      intro i hi
      rw [Nat.testBit_or, Nat.testBit_two_pow_of_ne (by omega : x ≠ i), Bool.or_false]
      exact h.bits i

/-! ## Finding a child by its nibble -/

theorem find_skip (pre post : List Node) (c : Node) (y : Nat) (h : c.value ≠ y) :
    (pre ++ c :: post).find? (fun a => decide (a.value = y)) =
      (pre ++ post).find? (fun a => decide (a.value = y)) := by
  simp [List.find?_append, List.find?_cons, h]

theorem find_none_of_ne (l : List Node) (y : Nat) (h : ∀ a ∈ l, a.value ≠ y) :
    l.find? (fun a => decide (a.value = y)) = none := by
  rw [List.find?_eq_none]
  intro a ha
  simpa using h a ha

theorem find_hit (pre post : List Node) (c : Node) (x : Nat) (hpre : ∀ a ∈ pre, a.value < x)
    (hc : c.value = x) :
    (pre ++ c :: post).find? (fun a => decide (a.value = x)) = some c := by
  rw [List.find?_append, find_none_of_ne pre x (fun a ha => Nat.ne_of_lt (hpre a ha))]
  simp [List.find?_cons, hc]

theorem slot_get (pre post : List Node) (c : Node) :
    (pre ++ c :: post).get? pre.length = some c := by
  rw [List.get?_eq_getElem?, List.getElem?_append_right (le_refl _)]
  simp

theorem slot_set (pre post : List Node) (c d : Node) :
    (pre ++ c :: post).set pre.length d = pre ++ d :: post := by
  induction pre with
  | nil => rfl
  | cons a pre ih => simp [ih]

theorem slot_eraseIdx (pre post : List Node) (c : Node) :
    (pre ++ c :: post).eraseIdx pre.length = pre ++ post := by
  induction pre with
  | nil => rfl
  | cons a pre ih => simp [ih]

theorem place_mid (pre post : List Node) (d : Node) (h : pre.length < (pre ++ post).length) :
    ((pre ++ post).take (pre.length + 1) ++ (pre ++ post).drop pre.length).set pre.length d =
      pre ++ d :: post := by
  cases post with
  | nil => simp at h
  | cons b post =>
    have e1 : (pre ++ b :: post).take (pre.length + 1) = pre ++ [b] := by
      rw [List.take_append_eq_append_take]
      simp
    have e2 : (pre ++ b :: post).drop pre.length = b :: post := by
      rw [List.drop_append_eq_append_drop]
      simp
    rw [e1, e2, List.append_assoc]
    exact slot_set pre (b :: post) b d

theorem child_present {n : Node} {x : Nat} {pre post : List Node} {c : Node}
    (e : n.children = pre ++ c :: post) (hc : c.value = x) (hpre : ∀ a ∈ pre, a.value < x) :
    child n x = some c := by
  unfold child
  rw [e]
  exact find_hit pre post c x hpre hc

theorem child_absent {n : Node} {x : Nat} {pre post : List Node}
    (e : n.children = pre ++ post) (hpre : ∀ a ∈ pre, a.value < x)
    (hpost : ∀ a ∈ post, x < a.value) : child n x = none := by
  unfold child
  rw [e]
  apply find_none_of_ne
  intro a ha
  rcases List.mem_append.1 ha with h | h
  · exact Nat.ne_of_lt (hpre a h)
  · exact Nat.ne_of_gt (hpost a h)

theorem child_mem {n c : Node} {x : Nat} (h : child n x = some c) :
    c ∈ n.children ∧ c.value = x := by
  unfold child at h
  exact ⟨List.mem_of_find?_eq_some h, by simpa using List.find?_some h⟩

/-- At a well-formed node the bitmap index of a nibble leads to the child that carries the
nibble, and is `-1` exactly when no child carries it. -/
theorem getIndex_child (n : Node) (x : Nat) (hx : x < 16) (h : WFA n) :
    (∀ c, child n x = some c →
      ∃ i, n.getIndex x = some i ∧ n.children.get? i = some c) ∧
    (child n x = none → n.getIndex x = none) := by
  cases slot_cases n x hx h with
  | present pre c post e hc hpre hpost hidx =>
    have hch := child_present e hc hpre
    constructor
    · intro d hd
      rw [hch] at hd
      cases hd
      exact ⟨pre.length, hidx, by rw [e]; exact slot_get pre post c⟩
    · intro hn; rw [hch] at hn; cases hn
  | absent pre post e hpre hpost hidx _ =>
    have hch := child_absent e hpre hpost
    constructor
    · intro d hd; rw [hch] at hd; cases hd
    · intro _; exact hidx

/-! ## The walk of `find` and of `getPath` -/

theorem findLoop_spec (w : List Nat) : ∀ n, WFA n → (∀ x ∈ w, x < 16) →
    findLoop w n = some (match nodeAt n w with
      | some m => m.isLeaf
      | none => false) := by
  induction w with
  | nil => intro n _ _; rfl
  | cons x w ih =>
    intro n hn hw
    have hx : x < 16 := hw x (List.mem_cons_self _ _)
    have hb := getIndex_child n x hx hn
    unfold findLoop nodeAt
    cases hc : child n x with
    | none =>
      rw [hb.2 hc]
    | some c =>
      obtain ⟨i, hi, hg⟩ := hb.1 c hc
      rw [hi]
      simp only [hg]
      exact ih c (hn.sub c (child_mem hc).1) (fun y hy => hw y (List.mem_cons_of_mem _ hy))

theorem getPathLoop_spec (w : List Nat) : ∀ n acc, WFA n → (∀ x ∈ w, x < 16) →
    getPathLoop w n acc = some (match nodeAt n w with
      | some _ => acc ++ pathNodes n w
      | none => []) := by
  induction w with
  | nil => intro n acc _ _; rfl
  | cons x w ih =>
    intro n acc hn hw
    have hx : x < 16 := hw x (List.mem_cons_self _ _)
    have hb := getIndex_child n x hx hn
    unfold getPathLoop nodeAt pathNodes
    cases hc : child n x with
    | none =>
      rw [hb.2 hc]
    | some c =>
      obtain ⟨i, hi, hg⟩ := hb.1 c hc
      rw [hi]
      simp only [hg]
      rw [ih c (acc ++ [n]) (hn.sub c (child_mem hc).1)
        (fun y hy => hw y (List.mem_cons_of_mem _ hy))]
      cases nodeAt c w with
      | none => rfl
      | some m => simp

/-! ## One step of `insert` -/

theorem insertLoop_present {n : Node} {x : Nat} {pre post : List Node} {c : Node} (w : List Nat)
    (e : n.children = pre ++ c :: post) (hidx : n.getIndex x = some pre.length) :
    insertLoop (x :: w) n =
      (insertLoop w c).map (fun c1 => n.setChildren (pre ++ c1 :: post)) := by
  rw [insertLoop, hidx]
  simp only [e, slot_get]
  cases insertLoop w c with
  | none => rfl
  | some c1 => simp [slot_set]

theorem insertLoop_absent {n : Node} {x : Nat} {pre post : List Node} (w : List Nat)
    (e : n.children = pre ++ post) (hidx : n.getIndex x = none)
    (hidx1 : (n.setBitmap (n.bitmap ||| ((1 <<< x) % 65536))).getIndex x = some pre.length) :
    insertLoop (x :: w) n =
      (insertLoop w (Node.mk false false x ((n.prefixBits + 4) % 256) 0 [])).map
        (fun c1 => (n.setBitmap (n.bitmap ||| ((1 <<< x) % 65536))).setChildren
          (pre ++ c1 :: post)) := by
  rw [insertLoop, hidx]
  simp only [hidx1, Node.children_setBitmap, e]
  by_cases hl : (pre ++ post).length = pre.length
  · rw [if_pos hl]
    have hp : post = [] := by
      cases post with
      | nil => rfl
      | cons b post => simp at hl
    subst hp
    cases insertLoop w _ with
    | none => rfl
    | some c1 => simp
  · rw [if_neg hl]
    have hlt : pre.length < (pre ++ post).length := by
      have : pre.length ≤ (pre ++ post).length := by simp
      omega
    rw [if_pos hlt]
    cases insertLoop w _ with
    | none => rfl
    | some c1 => simp only [Option.map_some']; rw [place_mid pre post c1 hlt]

/-! ## The shape invariant is kept -/

theorem pairwise_mid (pre post : List Node) (d : Node) (x : Nat)
    (h1 : pre.Pairwise (fun a b => a.value < b.value))
    (h2 : post.Pairwise (fun a b => a.value < b.value))
    (hpre : ∀ a ∈ pre, a.value < x) (hpost : ∀ a ∈ post, x < a.value) (hd : d.value = x) :
    (pre ++ d :: post).Pairwise (fun a b => a.value < b.value) := by
  rw [List.pairwise_append, List.pairwise_cons]
  refine ⟨h1, ⟨fun a ha => by rw [hd]; exact hpost a ha, h2⟩, ?_⟩
  intro a ha b hb
  rcases List.mem_cons.1 hb with rfl | hb
  · rw [hd]; exact hpre a ha
  · exact Nat.lt_trans (hpre a ha) (hpost b hb)

theorem wfa_present {n : Node} {x : Nat} {pre post : List Node} {c c1 : Node} (h : WFA n)
    (e : n.children = pre ++ c :: post) (hc : c.value = x)
    (hpre : ∀ a ∈ pre, a.value < x) (hpost : ∀ a ∈ post, x < a.value)
    (hc1 : c1.value = x) (hw1 : WFA c1) : WFA (n.setChildren (pre ++ c1 :: post)) := by
  have hs := h.sorted
  rw [e] at hs
  have hs1 := (List.pairwise_append.1 hs).1
  have hs2 := (List.pairwise_cons.1 (List.pairwise_append.1 hs).2.1).2
  refine WFA.mk _ ?_ ?_ ?_ ?_
  · simpa using pairwise_mid pre post c1 x hs1 hs2 hpre hpost hc1
  · intro i
    rw [Node.bitmap_setChildren1, Node.children_setChildren1, h.bits i, e]
    constructor
    · rintro ⟨a, ha, hv⟩
      rcases List.mem_append.1 ha with ha | ha
      · exact ⟨a, List.mem_append_left _ ha, hv⟩
      · rcases List.mem_cons.1 ha with rfl | ha
        · exact ⟨c1, by simp, by rw [hc1, ← hc, hv]⟩
        · exact ⟨a, by simp [ha], hv⟩
    · rintro ⟨a, ha, hv⟩
      rcases List.mem_append.1 ha with ha | ha
      · exact ⟨a, List.mem_append_left _ ha, hv⟩
      · rcases List.mem_cons.1 ha with rfl | ha
        · exact ⟨c, by simp, by rw [hc, ← hc1, hv]⟩
        · exact ⟨a, by simp [ha], hv⟩
  · intro a ha
    rw [Node.children_setChildren1] at ha
    rcases List.mem_append.1 ha with ha | ha
    · exact h.small a (by rw [e]; exact List.mem_append_left _ ha)
    · rcases List.mem_cons.1 ha with rfl | ha
      · rw [hc1, ← hc]; exact h.small c (by rw [e]; simp)
      · exact h.small a (by rw [e]; simp [ha])
  · intro a ha
    rw [Node.children_setChildren1] at ha
    rcases List.mem_append.1 ha with ha | ha
    · exact h.sub a (by rw [e]; exact List.mem_append_left _ ha)
    · rcases List.mem_cons.1 ha with rfl | ha
      · exact hw1
      · exact h.sub a (by rw [e]; simp [ha])

theorem wfa_absent {n : Node} {x : Nat} {pre post : List Node} {c1 : Node} (h : WFA n)
    (hx : x < 16) (e : n.children = pre ++ post)
    (hpre : ∀ a ∈ pre, a.value < x) (hpost : ∀ a ∈ post, x < a.value)
    (hc1 : c1.value = x) (hw1 : WFA c1) :
    WFA ((n.setBitmap (n.bitmap ||| ((1 <<< x) % 65536))).setChildren (pre ++ c1 :: post)) := by
  have hs := h.sorted
  rw [e] at hs
  have hs1 := (List.pairwise_append.1 hs).1
  have hs2 := (List.pairwise_append.1 hs).2.1
  refine WFA.mk _ ?_ ?_ ?_ ?_
  · simpa using pairwise_mid pre post c1 x hs1 hs2 hpre hpost hc1
  · intro i
    rw [Node.bitmap_setChildren1, Node.children_setChildren1, Node.bitmap_setBitmap,
      shift_mod x hx, Nat.testBit_or, Bool.or_eq_true, h.bits i, e]
    constructor
    · rintro (⟨a, ha, hv⟩ | hi)
      · rcases List.mem_append.1 ha with ha | ha
        · exact ⟨a, List.mem_append_left _ ha, hv⟩
        · exact ⟨a, by simp [ha], hv⟩
      · rw [Nat.testBit_two_pow] at hi
        exact ⟨c1, by simp, by rw [hc1]; simpa using hi⟩
    · rintro ⟨a, ha, hv⟩
      rcases List.mem_append.1 ha with ha | ha
      · exact Or.inl ⟨a, List.mem_append_left _ ha, hv⟩
      · rcases List.mem_cons.1 ha with rfl | ha
        · right
          rw [Nat.testBit_two_pow]
          simp [← hv, hc1]
        · exact Or.inl ⟨a, List.mem_append_right _ ha, hv⟩
  · intro a ha
    rw [Node.children_setChildren1] at ha
    rcases List.mem_append.1 ha with ha | ha
    · exact h.small a (by rw [e]; exact List.mem_append_left _ ha)
    · rcases List.mem_cons.1 ha with rfl | ha
      · rw [hc1]; exact hx
      · exact h.small a (by rw [e]; exact List.mem_append_right _ ha)
  · intro a ha
    rw [Node.children_setChildren1] at ha
    rcases List.mem_append.1 ha with ha | ha
    · exact h.sub a (by rw [e]; exact List.mem_append_left _ ha)
    · rcases List.mem_cons.1 ha with rfl | ha
      · exact hw1
      · exact h.sub a (by rw [e]; exact List.mem_append_right _ ha)

theorem wfa_fresh (l a : Bool) (v p : Nat) : WFA (Node.mk l a v p 0 []) := by
  refine WFA.mk _ ?_ ?_ ?_ ?_
  · simp
  · intro i; simp
  · intro c hc; simp at hc
  · intro c hc; simp at hc

theorem wfa_markLeaf {n : Node} (h : WFA n) : WFA n.markLeaf := by
  refine WFA.mk _ ?_ ?_ ?_ ?_
  · simpa using h.sorted
  · intro i; simpa using h.bits i
  · intro c hc; exact h.small c (by simpa using hc)
  · intro c hc; exact h.sub c (by simpa using hc)

/-! ## Children of the rebuilt node -/

theorem child_new {n1 : Node} {x : Nat} {pre post : List Node} {c1 : Node}
    (e1 : n1.children = pre ++ c1 :: post) (hc1 : c1.value = x)
    (hpre : ∀ a ∈ pre, a.value < x) : child n1 x = some c1 :=
  child_present e1 hc1 hpre

theorem child_other_present {n n1 : Node} {x y : Nat} {pre post : List Node} {c c1 : Node}
    (e : n.children = pre ++ c :: post) (hc : c.value = x)
    (e1 : n1.children = pre ++ c1 :: post) (hc1 : c1.value = x) (hy : y ≠ x) :
    child n1 y = child n y := by
  unfold child
  rw [e, e1, find_skip pre post c y (by rw [hc]; exact fun h => hy h.symm),
    find_skip pre post c1 y (by rw [hc1]; exact fun h => hy h.symm)]

theorem child_other_absent {n n1 : Node} {x y : Nat} {pre post : List Node} {c1 : Node}
    (e : n.children = pre ++ post)
    (e1 : n1.children = pre ++ c1 :: post) (hc1 : c1.value = x) (hy : y ≠ x) :
    child n1 y = child n y := by
  unfold child
  rw [e, e1, find_skip pre post c1 y (by rw [hc1]; exact fun h => hy h.symm)]

theorem flagsAt_nil (n : Node) : flagsAt n [] = some (n.isLeaf, n.isAliased) := rfl

theorem flagsAt_cons_some {n c : Node} {x : Nat} (v : List Nat) (h : child n x = some c) :
    flagsAt n (x :: v) = flagsAt c v := by
  unfold flagsAt
  rw [nodeAt, h]

theorem flagsAt_cons_none {n : Node} {x : Nat} (v : List Nat) (h : child n x = none) :
    flagsAt n (x :: v) = none := by
  unfold flagsAt
  rw [nodeAt, h]
  rfl

theorem flagsAt_congr {n n1 : Node} {y : Nat} (v : List Nat) (h : child n1 y = child n y) :
    flagsAt n1 (y :: v) = flagsAt n (y :: v) := by
  unfold flagsAt
  rw [nodeAt, nodeAt, h]

theorem flagsAt_fresh (l a : Bool) (x p : Nat) (v : List Nat) :
    flagsAt (Node.mk l a x p 0 []) v = if v = [] then some (l, a) else none := by
  cases v with
  | nil => rfl
  | cons y v => rfl

/-! ## What `insert` does to the trie -/

/-- The loop of `insert` on a well-formed node returns a well-formed node with the same value
and prefix, and the flags along every nibble path `v` are: `(true, true)` at the end of the
inserted path; unchanged where a node was there before; `(false, false)` at a node created on
the way; and no node anywhere else. -/
theorem insertLoop_spec (w : List Nat) : ∀ n, WFA n → (∀ x ∈ w, x < 16) →
    ∃ n1, insertLoop w n = some n1 ∧ WFA n1 ∧ n1.value = n.value ∧
      n1.prefixBits = n.prefixBits ∧
      ∀ v, flagsAt n1 v =
        if v = w then some (true, true)
        else if (flagsAt n v).isSome = true then flagsAt n v
        else if v <+: w then some (false, false) else none := by
  induction w with
  | nil =>
    intro n hn _
    refine ⟨n.markLeaf, rfl, wfa_markLeaf hn, by simp, by simp, ?_⟩
    intro v
    cases v with
    | nil => simp [flagsAt_nil]
    | cons y v =>
      have hch : child n.markLeaf y = child n y := by unfold child; simp
      rw [flagsAt_congr v hch]
      simp only [reduceCtorEq, if_false, List.prefix_nil]
      cases flagsAt n (y :: v) <;> simp
  | cons x w ih =>
    intro n hn hw
    have hx : x < 16 := hw x (List.mem_cons_self _ _)
    have hw1 : ∀ y ∈ w, y < 16 := fun y hy => hw y (List.mem_cons_of_mem _ hy)
    cases slot_cases n x hx hn with
    | present pre c post e hc hpre hpost hidx =>
      have hcw : WFA c := hn.sub c (by rw [e]; simp)
      obtain ⟨c1, hi, hw2, hv, hp, hf⟩ := ih c hcw hw1
      have hcv : c1.value = x := by rw [hv, hc]
      have hch := child_present e hc hpre
      refine ⟨n.setChildren (pre ++ c1 :: post), ?_, wfa_present hn e hc hpre hpost hcv hw2,
        by simp, by simp, ?_⟩
      · rw [insertLoop_present w e hidx, hi]; rfl
      · intro v
        cases v with
        | nil => simp [flagsAt_nil]
        | cons y v =>
          by_cases hy : y = x
          · subst hy
            rw [flagsAt_cons_some v (child_new (Node.children_setChildren1 n _) hcv hpre),
              flagsAt_cons_some v hch, hf v]
            simp [List.cons_prefix_cons]
          · rw [flagsAt_congr v (child_other_present e hc (Node.children_setChildren1 n _)
              hcv hy)]
            have h1 : ¬ (y :: v = x :: w) := by
              intro h; injection h with h _; exact hy h
            have h2 : ¬ (y :: v <+: x :: w) := by
              rw [List.cons_prefix_cons]; exact fun h => hy h.1
            rw [if_neg h1, if_neg h2]
            cases flagsAt n (y :: v) <;> simp
    | absent pre post e hpre hpost hidx hidx1 =>
      obtain ⟨c1, hi, hw2, hv, hp, hf⟩ :=
        ih (Node.mk false false x ((n.prefixBits + 4) % 256) 0 []) (wfa_fresh _ _ _ _) hw1
      have hcv : c1.value = x := by rw [hv]; rfl
      have hch := child_absent e hpre hpost
      refine ⟨(n.setBitmap (n.bitmap ||| ((1 <<< x) % 65536))).setChildren (pre ++ c1 :: post),
        ?_, wfa_absent hn hx e hpre hpost hcv hw2, by simp, by simp, ?_⟩
      · rw [insertLoop_absent w e hidx hidx1, hi]; rfl
      · intro v
        cases v with
        | nil => simp [flagsAt_nil]
        | cons y v =>
          by_cases hy : y = x
          · subst hy
            rw [flagsAt_cons_some v (child_new (Node.children_setChildren1 _ _) hcv hpre),
              flagsAt_cons_none v hch, hf v, flagsAt_fresh]
            by_cases hvw : v = w
            · simp [hvw]
            · by_cases hv0 : v = []
              · subst hv0; simp [hvw, List.cons_prefix_cons]
              · simp [hvw, hv0, List.cons_prefix_cons]
          · rw [flagsAt_congr v (child_other_absent (n := n) e (Node.children_setChildren1 _ _)
              hcv hy)]
            have h1 : ¬ (y :: v = x :: w) := by
              intro h; injection h with h _; exact hy h
            have h2 : ¬ (y :: v <+: x :: w) := by
              rw [List.cons_prefix_cons]; exact fun h => hy h.1
            rw [if_neg h1, if_neg h2]
            cases flagsAt n (y :: v) <;> simp

theorem stored_iff_flags (n : Node) (v : List Nat) :
    stored n v ↔ ∃ a, flagsAt n v = some (true, a) := by
  unfold stored flagsAt
  cases nodeAt n v with
  | none => simp
  | some m =>
    simp only [Option.some.injEq, exists_eq_left', Option.map_some', Prod.mk.injEq]
    constructor
    · intro h; exact ⟨m.isAliased, h, rfl⟩
    · rintro ⟨a, h, _⟩; exact h

/-- After the loop of `insert` the stored keys are the ones stored before and the inserted
one. -/
theorem insertLoop_stored (w : List Nat) (n : Node) (hn : WFA n) (hw : ∀ x ∈ w, x < 16) :
    ∃ n1, insertLoop w n = some n1 ∧ WFA n1 ∧ ∀ v, stored n1 v ↔ (stored n v ∨ v = w) := by
  obtain ⟨n1, hi, hw1, _, _, hf⟩ := insertLoop_spec w n hn hw
  refine ⟨n1, hi, hw1, ?_⟩
  intro v
  rw [stored_iff_flags, stored_iff_flags, hf v]
  by_cases hvw : v = w
  · simp [hvw]
  · rw [if_neg hvw]
    cases hfl : flagsAt n v with
    | some f => simp [hvw]
    | none =>
      by_cases hp : v <+: w <;> simp [hp, hvw]

/-! ## Runs of `insert` from the empty trie -/

theorem wfa_init : WFA InitAMT.root := wfa_fresh _ _ _ _

theorem not_stored_init (v : List Nat) : ¬ stored InitAMT.root v := by
  rw [stored_iff_flags]
  show ¬ ∃ a, flagsAt (Node.mk false false 0 0 0 []) v = some (true, a)
  rw [flagsAt_fresh]
  by_cases hv : v = [] <;> simp [hv]

theorem insert_stored (t : AMT) (k : List Nat) (h : WFA t.root) :
    ∃ t1, t.insert k = some t1 ∧ WFA t1.root ∧
      ∀ v, stored t1.root v ↔ (stored t.root v ∨ v = nibbles k) := by
  obtain ⟨n1, hi, hw, hs⟩ := insertLoop_stored (nibbles k) t.root h (nibbles_lt k)
  refine ⟨⟨n1⟩, ?_, hw, hs⟩
  unfold AMT.insert
  rw [hi]

theorem insertAll_stored (ks : List (List Nat)) : ∀ t : AMT, WFA t.root →
    ∃ t1, insertAll t ks = some t1 ∧ WFA t1.root ∧
      ∀ v, stored t1.root v ↔ (stored t.root v ∨ ∃ k ∈ ks, nibbles k = v) := by
  induction ks with
  | nil =>
    intro t h
    exact ⟨t, rfl, h, by simp⟩
  | cons k ks ih =>
    intro t h
    obtain ⟨t1, hi, hw, hs⟩ := insert_stored t k h
    obtain ⟨t2, hi2, hw2, hs2⟩ := ih t1 hw
    refine ⟨t2, ?_, hw2, ?_⟩
    · rw [insertAll, hi]; exact hi2
    · intro v
      rw [hs2 v, hs v]
      constructor
      · rintro ((h1 | h1) | ⟨q, hq, h1⟩)
        · exact Or.inl h1
        · exact Or.inr ⟨k, List.mem_cons_self _ _, h1.symm⟩
        · exact Or.inr ⟨q, List.mem_cons_of_mem _ hq, h1⟩
      · rintro (h1 | ⟨q, hq, h1⟩)
        · exact Or.inl (Or.inl h1)
        · rcases List.mem_cons.1 hq with rfl | hq
          · exact Or.inl (Or.inr h1.symm)
          · exact Or.inr ⟨q, hq, h1⟩

theorem find_eq_stored (t : AMT) (q : List Nat) (h : WFA t.root) :
    ∃ b, t.find q = some b ∧ (b = true ↔ stored t.root (nibbles q)) := by
  unfold AMT.find
  rw [findLoop_spec (nibbles q) t.root h (nibbles_lt q)]
  unfold stored
  cases nodeAt t.root (nibbles q) with
  | none => exact ⟨false, rfl, by simp⟩
  | some m => exact ⟨m.isLeaf, rfl, by simp⟩

/-! ## The nodes of a path -/

theorem pathNodes_length (w : List Nat) : ∀ n m, nodeAt n w = some m →
    (pathNodes n w).length = w.length + 1 := by
  induction w with
  | nil => intro n m _; rfl
  | cons x w ih =>
    intro n m h
    rw [nodeAt] at h
    rw [pathNodes]
    cases hc : child n x with
    | none => rw [hc] at h; cases h
    | some c =>
      rw [hc] at h
      simp only [List.length_cons]
      rw [ih c m h]

theorem pathNodes_get (w : List Nat) : ∀ n m, nodeAt n w = some m →
    ∀ j, j ≤ w.length → (pathNodes n w).get? j = nodeAt n (w.take j) := by
  induction w with
  | nil =>
    intro n m _ j hj
    have : j = 0 := by simpa using hj
    subst this
    rfl
  | cons x w ih =>
    intro n m h j hj
    rw [nodeAt] at h
    rw [pathNodes]
    cases hc : child n x with
    | none => rw [hc] at h; cases h
    | some c =>
      rw [hc] at h
      cases j with
      | zero => rfl
      | succ j =>
        simp only [List.get?_cons_succ, List.take_succ_cons]
        rw [nodeAt, hc]
        exact ih c m h j (by simpa using hj)

theorem pathNodes_getLast (w : List Nat) : ∀ n m, nodeAt n w = some m →
    (pathNodes n w).getLast? = some m := by
  induction w with
  | nil => intro n m h; rw [nodeAt] at h; cases h; rfl
  | cons x w ih =>
    intro n m h
    rw [nodeAt] at h
    rw [pathNodes]
    cases hc : child n x with
    | none => rw [hc] at h; cases h
    | some c =>
      rw [hc] at h
      have hne : pathNodes c w ≠ [] := by
        intro h0
        have := pathNodes_length w c m h
        rw [h0] at this
        simp at this
      have hih := ih c m h
      cases hp : pathNodes c w with
      | nil => exact absurd hp hne
      | cons a l =>
        rw [hp] at hih
        show (n :: pathNodes c w).getLast? = some m
        rw [hp, List.getLast?_cons_cons]
        exact hih

theorem pathNodes_head (w : List Nat) (n : Node) : (pathNodes n w).head? = some n := by
  cases w with
  | nil => rfl
  | cons x w =>
    rw [pathNodes]
    cases child n x <;> rfl

/-! ## Properties of `insert`, `find` and `getPath` -/

theorem wfa_of_insertAll {ks : List (List Nat)} {t : AMT} (h : insertAll InitAMT ks = some t) :
    WFA t.root := by
  obtain ⟨t1, h1, hw, _⟩ := insertAll_stored ks InitAMT wfa_init
  rw [h] at h1
  cases h1
  exact hw

theorem wfa_insertTestTree : WFA (insertTestTree true) :=
  @wfa_of_insertAll testKeys ⟨insertTestTree true⟩ rfl

/-- C13. Set semantics of the trie: after any finite list of byte-string keys is inserted into
the empty trie of `InitAMT` (every insert returns), `find q` returns true exactly when `q` is
one of the inserted keys, for every byte-string key `q`, whatever its length; so neither a
proper prefix nor a proper extension of an inserted key is found unless it was inserted
itself. -/
theorem find_iff_inserted (ks : List (List Nat)) (q : List Nat) (hks : ∀ k ∈ ks, IsBytes k)
    (hq : IsBytes q) :
    ∃ t, insertAll InitAMT ks = some t ∧ t.find q = some (decide (q ∈ ks)) := by
  obtain ⟨t, hi, hw, hs⟩ := insertAll_stored ks InitAMT wfa_init
  obtain ⟨b, hf, hb⟩ := find_eq_stored t q hw
  refine ⟨t, hi, ?_⟩
  rw [hf]
  congr 1
  have hiff : stored t.root (nibbles q) ↔ q ∈ ks := by
    rw [hs]
    constructor
    · rintro (h | ⟨k, hk, hn⟩)
      · exact absurd h (not_stored_init _)
      · rw [← nibbles_injective (hks k hk) hq hn]; exact hk
    · intro h; exact Or.inr ⟨q, h, rfl⟩
  cases b with
  | true => simpa using hiff.1 (hb.1 rfl)
  | false =>
    have : ¬ q ∈ ks := fun h => by simpa using hb.2 (hiff.2 h)
    simpa using this

theorem find_iff_inserted_witness :
    (∀ k ∈ testKeys, IsBytes k) ∧ IsBytes [0x30, 0x45, 0x03] ∧
    (∃ t, insertAll InitAMT testKeys = some t ∧
      t.find [0x30, 0x45, 0x03] = some (decide ([0x30, 0x45, 0x03] ∈ testKeys))) ∧
    (testKeys ++ testAbsentKeys).map
        (fun q => (insertAll InitAMT testKeys).bind (fun t => t.find q)) =
      [some true, some true, some true, some true,
       some false, some false, some false, some false, some false, some false] :=
  ⟨by decide, by decide, find_iff_inserted testKeys [0x30, 0x45, 0x03] (by decide) (by decide),
    by decide⟩

/-- C17. On a trie that satisfies the shape invariant (children in increasing nibble order,
bitmap bit set exactly for the nibbles that have a child), for every key `k` of `L` bytes:
when every nibble of `k`, high nibble of each byte first, is present along the descent from
the root, `getPath k` returns `2L + 1` nodes, the root first, at place `j` the node reached
after the first `j` nibbles, the last one the terminal node; when a nibble is missing it
returns the empty sequence. The method only reads the trie: its embedding returns the path
alone. -/
theorem getPath_nodes (t : AMT) (k : List Nat) (h : WFA t.root) :
    (∀ m, nodeAt t.root (nibbles k) = some m →
      ∃ p, t.getPath k = some p ∧ p.length = 2 * k.length + 1 ∧ p.head? = some t.root ∧
        (∀ j, j ≤ 2 * k.length → p.get? j = nodeAt t.root ((nibbles k).take j)) ∧
        p.getLast? = some m) ∧
    (nodeAt t.root (nibbles k) = none → t.getPath k = some []) := by
  have hg := getPathLoop_spec (nibbles k) t.root [] h (nibbles_lt k)
  constructor
  · intro m hm
    rw [hm] at hg
    refine ⟨pathNodes t.root (nibbles k), by simpa [AMT.getPath] using hg, ?_,
      pathNodes_head _ _, ?_, pathNodes_getLast _ _ _ hm⟩
    · rw [pathNodes_length _ _ _ hm, nibbles_length]
    · intro j hj
      exact pathNodes_get _ _ _ hm j (by rw [nibbles_length]; exact hj)
  · intro hn
    rw [hn] at hg
    exact hg

theorem getPath_nodes_witness :
    WFA (AMT.mk (insertTestTree true)).root ∧
    ((∀ m, nodeAt (AMT.mk (insertTestTree true)).root (nibbles [0xFA, 0x45, 0x01]) = some m →
      ∃ p, (AMT.mk (insertTestTree true)).getPath [0xFA, 0x45, 0x01] = some p ∧
        p.length = 2 * [0xFA, 0x45, 0x01].length + 1 ∧
        p.head? = some (AMT.mk (insertTestTree true)).root ∧
        (∀ j, j ≤ 2 * [0xFA, 0x45, 0x01].length →
          p.get? j = nodeAt (AMT.mk (insertTestTree true)).root
            ((nibbles [0xFA, 0x45, 0x01]).take j)) ∧
        p.getLast? = some m) ∧
    (nodeAt (AMT.mk (insertTestTree true)).root (nibbles [0xFA, 0x45, 0x01]) = none →
      (AMT.mk (insertTestTree true)).getPath [0xFA, 0x45, 0x01] = some [])) ∧
    nodeAt (insertTestTree true) (nibbles [0xFA, 0x45, 0x01]) = some (terminalNode true 1) ∧
    (AMT.mk (insertTestTree true)).getPath [0x30, 0x46, 0x01] = some [] :=
  ⟨wfa_insertTestTree, getPath_nodes ⟨insertTestTree true⟩ [0xFA, 0x45, 0x01] wfa_insertTestTree,
    rfl, rfl⟩

/-- C18. Evaluation of `TestInsert`: inserting `FA4501`, `FB4501`, `304501`, `304502` in that
order into the empty trie gives the tree of the test with `isAliased = true` at its four
terminal nodes; the tree literal of the test has `isAliased = false` there, and
`identicalTries` on the two returns false. -/
theorem testInsert_not_identical :
    insertAll InitAMT testKeys = some ⟨insertTestTree true⟩ ∧
    identicalTries (insertTestTree true) testInsertExpected = false ∧
    identicalTries (insertTestTree true) (insertTestTree true) = true :=
  ⟨rfl, by decide, by decide⟩

/-- C19. On a trie that satisfies the shape invariant, `insert k` returns and afterwards the
node at the end of the nibble path of `k` has `isLeaf = true` and `isAliased = true`; every
node that existed before, other than that terminal node, keeps both flags; and every node that
did not exist before, other than the terminal node, lies on the path of `k` and has both flags
false. Nodes are named by their nibble path from the root. -/
theorem insert_marks_terminal (t : AMT) (k : List Nat) (h : WFA t.root) :
    ∃ t1, t.insert k = some t1 ∧
      (∃ m, nodeAt t1.root (nibbles k) = some m ∧ m.isLeaf = true ∧ m.isAliased = true) ∧
      (∀ v a, v ≠ nibbles k → nodeAt t.root v = some a →
        ∃ a1, nodeAt t1.root v = some a1 ∧ a1.isLeaf = a.isLeaf ∧
          a1.isAliased = a.isAliased) ∧
      (∀ v a1, v ≠ nibbles k → nodeAt t.root v = none → nodeAt t1.root v = some a1 →
        v <+: nibbles k ∧ a1.isLeaf = false ∧ a1.isAliased = false) := by
  obtain ⟨n1, hi, _, _, _, hf⟩ := insertLoop_spec (nibbles k) t.root h (nibbles_lt k)
  refine ⟨⟨n1⟩, by unfold AMT.insert; rw [hi], ?_, ?_, ?_⟩
  · have := hf (nibbles k)
    rw [if_pos rfl] at this
    unfold flagsAt at this
    cases hn : nodeAt n1 (nibbles k) with
    | none => rw [hn] at this; cases this
    | some m =>
      rw [hn] at this
      simp only [Option.map_some', Option.some.injEq, Prod.mk.injEq] at this
      exact ⟨m, rfl, this.1, this.2⟩
  · intro v a hv ha
    have := hf v
    rw [if_neg hv] at this
    unfold flagsAt at this
    rw [ha] at this
    simp only [Option.map_some', Option.isSome_some, if_true] at this
    cases hn : nodeAt n1 v with
    | none => rw [hn] at this; cases this
    | some a1 =>
      rw [hn] at this
      simp only [Option.map_some', Option.some.injEq, Prod.mk.injEq] at this
      exact ⟨a1, rfl, this.1, this.2⟩
  · intro v a1 hv hn ha1
    have := hf v
    rw [if_neg hv] at this
    unfold flagsAt at this
    rw [hn, ha1] at this
    simp only [Option.map_some', Option.map_none', Option.isSome_none, Bool.false_eq_true,
      if_false] at this
    by_cases hp : v <+: nibbles k
    · rw [if_pos hp] at this
      simp only [Option.some.injEq, Prod.mk.injEq] at this
      exact ⟨hp, this.1, this.2⟩
    · rw [if_neg hp] at this
      cases this

theorem insert_marks_terminal_witness :
    WFA (AMT.mk (insertTestTree true)).root ∧
    ∃ t1, (AMT.mk (insertTestTree true)).insert [0x30, 0x46] = some t1 ∧
      (∃ m, nodeAt t1.root (nibbles [0x30, 0x46]) = some m ∧ m.isLeaf = true ∧
        m.isAliased = true) ∧
      (∀ v a, v ≠ nibbles [0x30, 0x46] →
        nodeAt (AMT.mk (insertTestTree true)).root v = some a →
        ∃ a1, nodeAt t1.root v = some a1 ∧ a1.isLeaf = a.isLeaf ∧
          a1.isAliased = a.isAliased) ∧
      (∀ v a1, v ≠ nibbles [0x30, 0x46] →
        nodeAt (AMT.mk (insertTestTree true)).root v = none →
        nodeAt t1.root v = some a1 →
        v <+: nibbles [0x30, 0x46] ∧ a1.isLeaf = false ∧ a1.isAliased = false) :=
  ⟨wfa_insertTestTree, insert_marks_terminal ⟨insertTestTree true⟩ [0x30, 0x46]
    wfa_insertTestTree⟩

/-- C14. Evaluation of `removeEntry` on a key that is not in the trie: after the one key
`0000` is inserted into the empty trie, the key `00` is not found, yet `removeEntry` of `00`
returns 2, not 0, and afterwards the key `0000` is no longer found. -/
theorem removeEntry_absent_key_counts :
    ∃ t t1, insertAll InitAMT [[0x00, 0x00]] = some t ∧ t.find [0x00] = some false ∧
      t.find [0x00, 0x00] = some true ∧
      t.removeEntry [0x00] = some (t1, 2) ∧ t1.find [0x00, 0x00] = some false :=
  ⟨_, _, rfl, by decide, by decide, rfl, by decide⟩

/-! ## Tries of keys of one length -/

theorem uniform_weaken : ∀ (h : Nat) (n : Node), Uniform h n → UniformTop h n
  | 0, _, hu => hu.2
  | _ + 1, _, hu => ⟨hu.1, hu.2.2⟩

theorem uniformTop_fresh (h : Nat) (a : Bool) (v p : Nat) :
    UniformTop h (Node.mk false a v p 0 []) := by
  cases h with
  | zero => rfl
  | succ h => exact ⟨rfl, by intro c hc; cases hc⟩

theorem insertLoop_uniform (w : List Nat) : ∀ (n : Node) (h : Nat), WFA n →
    (∀ x ∈ w, x < 16) → w.length = h → UniformTop h n →
    ∃ n1, insertLoop w n = some n1 ∧ Uniform h n1 := by
  induction w with
  | nil =>
    intro n h _ _ hl hu
    subst hl
    exact ⟨n.markLeaf, rfl, by simp, by simpa using hu⟩
  | cons x w ih =>
    intro n h hn hw hl hu
    have hx : x < 16 := hw x (List.mem_cons_self _ _)
    have hw1 : ∀ y ∈ w, y < 16 := fun y hy => hw y (List.mem_cons_of_mem _ hy)
    cases h with
    | zero => simp at hl
    | succ h =>
      have hl1 : w.length = h := by simpa using hl
      cases slot_cases n x hx hn with
      | present pre c post e hc hpre hpost hidx =>
        have hcm : c ∈ n.children := by rw [e]; simp
        obtain ⟨c1, hi, hu1⟩ := ih c h (hn.sub c hcm) hw1 hl1 (uniform_weaken h c (hu.2 c hcm))
        refine ⟨n.setChildren (pre ++ c1 :: post), ?_, ?_, ?_, ?_⟩
        · rw [insertLoop_present w e hidx, hi]; rfl
        · simpa using hu.1
        · simp
        · intro a ha
          rw [Node.children_setChildren1] at ha
          rcases List.mem_append.1 ha with ha | ha
          · exact hu.2 a (by rw [e]; exact List.mem_append_left _ ha)
          · rcases List.mem_cons.1 ha with rfl | ha
            · exact hu1
            · exact hu.2 a (by rw [e]; simp [ha])
      | absent pre post e hpre hpost hidx hidx1 =>
        obtain ⟨c1, hi, hu1⟩ := ih (Node.mk false false x ((n.prefixBits + 4) % 256) 0 []) h
          (wfa_fresh _ _ _ _) hw1 hl1 (uniformTop_fresh h _ _ _)
        refine ⟨(n.setBitmap (n.bitmap ||| ((1 <<< x) % 65536))).setChildren
          (pre ++ c1 :: post), ?_, ?_, ?_, ?_⟩
        · rw [insertLoop_absent w e hidx hidx1, hi]; rfl
        · simpa using hu.1
        · simp
        · intro a ha
          rw [Node.children_setChildren1] at ha
          rcases List.mem_append.1 ha with ha | ha
          · exact hu.2 a (by rw [e]; exact List.mem_append_left _ ha)
          · rcases List.mem_cons.1 ha with rfl | ha
            · exact hu1
            · exact hu.2 a (by rw [e]; exact List.mem_append_right _ ha)

/-- A run of inserts of keys of `L` bytes each, from a trie whose root is `2L` nibbles above
the end of its keys, returns a trie of the same kind with the shape invariant, which stores the
keys stored before and the inserted ones. -/
theorem insertAll_fixed (L : Nat) (ks : List (List Nat)) : ∀ t : AMT, WFA t.root →
    UniformTop (2 * L) t.root → (∀ k ∈ ks, k.length = L) →
    ∃ t1, insertAll t ks = some t1 ∧ WFA t1.root ∧ UniformTop (2 * L) t1.root ∧
      ∀ v, stored t1.root v ↔ (stored t.root v ∨ ∃ k ∈ ks, nibbles k = v) := by
  induction ks with
  | nil =>
    intro t h hu _
    exact ⟨t, rfl, h, hu, by simp⟩
  | cons k ks ih =>
    intro t h hu hl
    obtain ⟨t1, hi, hw, hs⟩ := insert_stored t k h
    obtain ⟨n1, hi1, hu1⟩ := insertLoop_uniform (nibbles k) t.root (2 * L) h (nibbles_lt k)
      (by rw [nibbles_length, hl k (List.mem_cons_self _ _)]) hu
    have ht1 : t1.root = n1 := by
      unfold AMT.insert at hi
      rw [hi1] at hi
      cases hi
      rfl
    obtain ⟨t2, hi2, hw2, hu2, hs2⟩ := ih t1 hw (by rw [ht1]; exact uniform_weaken _ _ hu1)
      (fun q hq => hl q (List.mem_cons_of_mem _ hq))
    refine ⟨t2, ?_, hw2, hu2, ?_⟩
    · rw [insertAll, hi]; exact hi2
    · intro v
      rw [hs2 v, hs v]
      constructor
      · rintro ((h1 | h1) | ⟨q, hq, h1⟩)
        · exact Or.inl h1
        · exact Or.inr ⟨k, List.mem_cons_self _ _, h1.symm⟩
        · exact Or.inr ⟨q, List.mem_cons_of_mem _ hq, h1⟩
      · rintro (h1 | ⟨q, hq, h1⟩)
        · exact Or.inl (Or.inl h1)
        · rcases List.mem_cons.1 hq with rfl | hq
          · exact Or.inl (Or.inr h1.symm)
          · exact Or.inr ⟨q, hq, h1⟩

theorem uniform_nodeAt (w : List Nat) : ∀ (n : Node) (h : Nat), Uniform h n → w.length = h →
    ∀ m, nodeAt n w = some m → m.isLeaf = true := by
  induction w with
  | nil =>
    intro n h hu hl m hm
    subst hl
    rw [nodeAt] at hm
    cases hm
    exact hu.1
  | cons x w ih =>
    intro n h hu hl m hm
    cases h with
    | zero => simp at hl
    | succ h =>
      rw [nodeAt] at hm
      cases hc : child n x with
      | none => rw [hc] at hm; cases hm
      | some c =>
        rw [hc] at hm
        exact ih c h (hu.2.2 c (child_mem hc).1) (by simpa using hl) m hm

theorem child_of_mem {n c : Node} (h : WFA n) (hc : c ∈ n.children) :
    child n c.value = some c := by
  cases slot_cases n c.value (h.small c hc) h with
  | present pre d post e hd hpre hpost _ =>
    rw [child_present e hd hpre]
    rw [e] at hc
    rcases List.mem_append.1 hc with h1 | h1
    · exact absurd (hpre c h1) (Nat.lt_irrefl _)
    · rcases List.mem_cons.1 h1 with rfl | h1
      · rfl
      · exact absurd (hpost c h1) (Nat.lt_irrefl _)
  | absent pre post e hpre hpost _ _ =>
    rw [e] at hc
    rcases List.mem_append.1 hc with h1 | h1
    · exact absurd (hpre c h1) (Nat.lt_irrefl _)
    · exact absurd (hpost c h1) (Nat.lt_irrefl _)

/-- Below a node that is `h` nibbles above the end of its keys some key of `h` nibbles is
stored. -/
theorem uniform_has_key : ∀ (h : Nat) (n : Node), WFA n → Uniform h n →
    ∃ v, stored n v ∧ v.length = h
  | 0, n, _, hu => ⟨[], ⟨n, rfl, hu.1⟩, rfl⟩
  | h + 1, n, hn, hu => by
    cases hch : n.children with
    | nil => exact absurd hch hu.2.1
    | cons c cs =>
      have hcm : c ∈ n.children := by rw [hch]; simp
      obtain ⟨v, ⟨m, hm, hl⟩, hlen⟩ := uniform_has_key h c (hn.sub c hcm) (hu.2.2 c hcm)
      refine ⟨c.value :: v, ⟨m, ?_, hl⟩, by simp [hlen]⟩
      rw [nodeAt, child_of_mem hn hcm]
      exact hm

/-! ## Sizes -/

theorem sizeChildren_append (l1 l2 : List Node) :
    sizeChildren (l1 ++ l2) = sizeChildren l1 + sizeChildren l2 := by
  induction l1 with
  | nil => simp [sizeChildren]
  | cons a l1 ih => simp [sizeChildren, ih]; omega

theorem size_eq (n : Node) : size n = 1 + sizeChildren n.children := by
  cases n; rfl

theorem size_pos (n : Node) : 1 ≤ size n := by
  rw [size_eq]; omega

/-! ## Stored keys, node by node -/

theorem stored_nil (n : Node) : stored n [] ↔ n.isLeaf = true := by
  unfold stored nodeAt
  simp

theorem stored_cons (n : Node) (y : Nat) (v : List Nat) :
    stored n (y :: v) ↔ ∃ c, child n y = some c ∧ stored c v := by
  unfold stored
  rw [nodeAt]
  cases child n y with
  | none => simp
  | some c => simp

theorem alone_lift {n c : Node} {x : Nat} {w : List Nat} {j : Nat} (hl : n.isLeaf = false)
    (hc : child n x = some c) (h : Alone c w j) : Alone n (x :: w) (j + 1) := by
  intro v hv ht
  cases v with
  | nil =>
    rw [stored_nil] at hv
    rw [hl] at hv
    cases hv
  | cons y v =>
    simp only [List.take_succ_cons, List.cons.injEq] at ht
    obtain ⟨hy, ht⟩ := ht
    subst hy
    obtain ⟨c1, hc1, hs⟩ := (stored_cons n y v).1 hv
    rw [hc] at hc1
    cases hc1
    rw [h v hs ht]

theorem alone_mono {n : Node} {w : List Nat} {i j : Nat} (hij : i ≤ j) (h : Alone n w i) :
    Alone n w j := by
  intro v hv ht
  apply h v hv
  have : v.take i = (v.take j).take i := by rw [List.take_take, Nat.min_eq_left hij]
  rw [this, ht, List.take_take, Nat.min_eq_left hij]

theorem take_le {v w : List Nat} {i j : Nat} (hij : i ≤ j) (h : v.take j = w.take j) :
    v.take i = w.take i := by
  have : v.take i = (v.take j).take i := by rw [List.take_take, Nat.min_eq_left hij]
  rw [this, h, List.take_take, Nat.min_eq_left hij]

/-! ## One call of `removeChild` -/

theorem getIndex_setChildren (n : Node) (l : List Node) (x : Nat) :
    (n.setChildren l).getIndex x = n.getIndex x := by
  unfold Node.getIndex
  simp

theorem setChildren_twice (n : Node) (l1 l2 : List Node) :
    (n.setChildren l1).setChildren l2 = n.setChildren l2 := by cases n; rfl

theorem setBitmap_setChildren_nil (n : Node) (b : Nat) (h : n.children = []) :
    (n.setBitmap b).setChildren [] = n.setBitmap b := by
  cases n
  simp only [Node.children_mk1] at h
  subst h
  rfl

/-- The node after `removeChild x` took out the child in the slot of `x`. -/
theorem removeChild_slot {n : Node} {x : Nat} {pre post : List Node} (d : Node)
    (hidx : n.getIndex x = some pre.length) :
    (n.setChildren (pre ++ d :: post)).removeChild x =
      some ((n.setChildren (pre ++ post)).setBitmap
          (n.bitmap &&& (65535 ^^^ ((1 <<< x) % 65536))),
        if (pre ++ post).length = 0 then 0 else 1) := by
  unfold Node.removeChild
  rw [getIndex_setChildren, hidx]
  simp only [Node.children_setChildren1, Node.bitmap_setChildren1, setChildren_twice,
    Node.children_setBitmap, slot_eraseIdx]
  rw [if_pos (by simp)]
  by_cases he : (pre ++ post).length = 0
  · rw [if_pos he, if_pos he]
    rw [setBitmap_setChildren_nil _ _ (by simpa using he)]
  · rw [if_neg he, if_neg he]

theorem testBit_clear (B x i : Nat) (hx : x < 16) (hB : B.testBit i = true → i < 16) :
    (B &&& (65535 ^^^ ((1 <<< x) % 65536))).testBit i = (B.testBit i && decide (i ≠ x)) := by
  rw [shift_mod x hx, Nat.testBit_and, Nat.testBit_xor, Nat.testBit_two_pow]
  have h16 : (65535 : Nat).testBit i = decide (i < 16) := Nat.testBit_two_pow_sub_one 16 i
  rw [h16]
  cases hb : B.testBit i with
  | false => simp
  | true =>
    have := hB hb
    by_cases hi : i = x
    · subst hi; simp [this]
    · have hi2 : ¬ x = i := fun h => hi h.symm
      simp [this, hi, hi2]

theorem wfa_cut {n : Node} {x : Nat} {pre post : List Node} {c : Node} (h : WFA n)
    (hx : x < 16) (e : n.children = pre ++ c :: post) (hc : c.value = x)
    (hpre : ∀ a ∈ pre, a.value < x) (hpost : ∀ a ∈ post, x < a.value) :
    WFA ((n.setChildren (pre ++ post)).setBitmap
      (n.bitmap &&& (65535 ^^^ ((1 <<< x) % 65536)))) := by
  have hs := h.sorted
  rw [e] at hs
  have hs1 := (List.pairwise_append.1 hs)
  refine WFA.mk _ ?_ ?_ ?_ ?_
  · simp only [Node.children_setBitmap, Node.children_setChildren1]
    rw [List.pairwise_append]
    refine ⟨hs1.1, (List.pairwise_cons.1 hs1.2.1).2, ?_⟩
    intro a ha b hb
    exact hs1.2.2 a ha b (List.mem_cons_of_mem _ hb)
  · intro i
    simp only [Node.bitmap_setBitmap, Node.children_setBitmap, Node.children_setChildren1]
    rw [testBit_clear _ x i hx (fun hb => by
      obtain ⟨a, ha, hv⟩ := (h.bits i).1 hb
      rw [← hv]; exact h.small a ha)]
    simp only [Bool.and_eq_true, decide_eq_true_eq]
    rw [h.bits i, e]
    constructor
    · rintro ⟨⟨a, ha, hv⟩, hi⟩
      rcases List.mem_append.1 ha with ha | ha
      · exact ⟨a, List.mem_append_left _ ha, hv⟩
      · rcases List.mem_cons.1 ha with rfl | ha
        · exact absurd (hv.symm.trans hc) hi
        · exact ⟨a, List.mem_append_right _ ha, hv⟩
    · rintro ⟨a, ha, hv⟩
      rcases List.mem_append.1 ha with ha | ha
      · exact ⟨⟨a, List.mem_append_left _ ha, hv⟩, by have := hpre a ha; omega⟩
      · exact ⟨⟨a, by simp [ha], hv⟩, by have := hpost a ha; omega⟩
  · intro a ha
    simp only [Node.children_setBitmap, Node.children_setChildren1] at ha
    rcases List.mem_append.1 ha with ha | ha
    · exact h.small a (by rw [e]; exact List.mem_append_left _ ha)
    · exact h.small a (by rw [e]; simp [ha])
  · intro a ha
    simp only [Node.children_setBitmap, Node.children_setChildren1] at ha
    rcases List.mem_append.1 ha with ha | ha
    · exact h.sub a (by rw [e]; exact List.mem_append_left _ ha)
    · exact h.sub a (by rw [e]; simp [ha])

theorem child_cut_self {n1 : Node} {x : Nat} {pre post : List Node}
    (e1 : n1.children = pre ++ post)
    (hpre : ∀ a ∈ pre, a.value < x) (hpost : ∀ a ∈ post, x < a.value) :
    child n1 x = none := child_absent e1 hpre hpost

theorem child_cut_other {n n1 : Node} {x y : Nat} {pre post : List Node} {c : Node}
    (e : n.children = pre ++ c :: post) (hc : c.value = x)
    (e1 : n1.children = pre ++ post) (hy : y ≠ x) : child n1 y = child n y := by
  unfold child
  rw [e, e1, find_skip pre post c y (by rw [hc]; exact fun h => hy h.symm)]

/-! ## The loop of `removeEntry`, level by level -/

theorem pathNodes_cons (c : Node) (w : List Nat) :
    ∃ rest, pathNodes c w = c :: rest := by
  cases w with
  | nil => exact ⟨[], rfl⟩
  | cons y w =>
    rw [pathNodes]
    cases child c y with
    | none => exact ⟨[], rfl⟩
    | some d => exact ⟨_, rfl⟩

theorem removeWalk_cons (n c : Node) (x : Nat) (w : List Nat) (isRoot : Bool) :
    removeWalk (n :: pathNodes c w) (x :: w) isRoot =
      match removeWalk (pathNodes c w) w false with
      | none => none
      | some below =>
        match n.getIndex x with
        | none => none
        | some nibbleIndex =>
          if below.stopped then
            some ⟨n.setChildren (n.children.set nibbleIndex below.node), below.prevValue,
              below.deletedNodeCounter, true⟩
          else removeStep (n.setChildren (n.children.set nibbleIndex below.node)) isRoot
            below.prevValue below.deletedNodeCounter := by
  obtain ⟨rest, hr⟩ := pathNodes_cons c w
  rw [hr]
  rfl

theorem removeWalk_level {n c : Node} {x : Nat} {w : List Nat} {pre post : List Node}
    {rc : RemoveState} (isRoot : Bool) (hc : child n x = some c)
    (e : n.children = pre ++ c :: post) (hidx : n.getIndex x = some pre.length)
    (hrc : removeWalk (pathNodes c w) w false = some rc) :
    removeWalk (pathNodes n (x :: w)) (x :: w) isRoot =
      if rc.stopped then
        some ⟨n.setChildren (pre ++ rc.node :: post), rc.prevValue, rc.deletedNodeCounter, true⟩
      else removeStep (n.setChildren (pre ++ rc.node :: post)) isRoot rc.prevValue
        rc.deletedNodeCounter := by
  have hpath : pathNodes n (x :: w) = n :: pathNodes c w := by rw [pathNodes, hc]
  rw [hpath, removeWalk_cons, hrc]
  simp only [hidx]
  rw [e, slot_set]

theorem removeStep_cut {n : Node} {x : Nat} {pre post : List Node} (d : Node) (isRoot : Bool)
    (cnt : Nat) (hl : n.isLeaf = false) (hidx : n.getIndex x = some pre.length) :
    removeStep (n.setChildren (pre ++ d :: post)) isRoot x cnt =
      some (if (pre ++ post).length = 0 then
          (if isRoot = true then
            ⟨(n.setChildren (pre ++ post)).setBitmap
              (n.bitmap &&& (65535 ^^^ ((1 <<< x) % 65536))), x, cnt, false⟩
          else
            ⟨(n.setChildren (pre ++ post)).setBitmap
              (n.bitmap &&& (65535 ^^^ ((1 <<< x) % 65536))), n.value, cnt + 1, false⟩)
        else
          ⟨(n.setChildren (pre ++ post)).setBitmap
            (n.bitmap &&& (65535 ^^^ ((1 <<< x) % 65536))), x, cnt, true⟩) := by
  unfold removeStep
  rw [if_neg (by simp [hl]), removeChild_slot d hidx]
  by_cases he : (pre ++ post).length = 0
  · simp only [he, if_true]
    cases isRoot <;> simp
  · simp only [he, if_false]
    simp

/-! ## The stored keys and the size after a level of the loop -/

theorem relink_stored {n c c1 : Node} {x : Nat} {w : List Nat} {pre post : List Node}
    (hl : n.isLeaf = false) (e : n.children = pre ++ c :: post) (hc : c.value = x)
    (hpre : ∀ a ∈ pre, a.value < x) (hc1 : c1.value = x)
    (hs : ∀ v, stored c1 v ↔ (stored c v ∧ v ≠ w)) :
    ∀ v, stored (n.setChildren (pre ++ c1 :: post)) v ↔ (stored n v ∧ v ≠ x :: w) := by
  intro v
  cases v with
  | nil => simp [stored_nil, hl]
  | cons y v =>
    rw [stored_cons, stored_cons]
    by_cases hy : y = x
    · subst hy
      rw [child_new (Node.children_setChildren1 n _) hc1 hpre, child_present e hc hpre]
      simp only [Option.some.injEq, exists_eq_left']
      rw [hs v]
      simp
    · rw [child_other_present e hc (Node.children_setChildren1 n _) hc1 hy]
      have : y :: v ≠ x :: w := by
        intro h; injection h with h _; exact hy h
      simp [this]

theorem relink_size {n c c1 : Node} {pre post : List Node} {k : Nat}
    (e : n.children = pre ++ c :: post) (hk : size c1 + k = size c) :
    size (n.setChildren (pre ++ c1 :: post)) + k = size n := by
  rw [size_eq, size_eq n, Node.children_setChildren1, e, sizeChildren_append,
    sizeChildren_append]
  simp only [sizeChildren]
  omega

theorem cut_stored {n c : Node} {x : Nat} {w : List Nat} {pre post : List Node} (b : Nat)
    (hl : n.isLeaf = false) (e : n.children = pre ++ c :: post) (hc : c.value = x)
    (hpre : ∀ a ∈ pre, a.value < x) (hpost : ∀ a ∈ post, x < a.value)
    (hal : Alone c w 0) :
    ∀ v, stored ((n.setChildren (pre ++ post)).setBitmap b) v ↔
      (stored n v ∧ v ≠ x :: w) := by
  have e1 : ((n.setChildren (pre ++ post)).setBitmap b).children = pre ++ post := by simp
  intro v
  cases v with
  | nil => simp [stored_nil, hl]
  | cons y v =>
    rw [stored_cons, stored_cons]
    by_cases hy : y = x
    · subst hy
      rw [child_cut_self e1 hpre hpost, child_present e hc hpre]
      simp only [reduceCtorEq, false_and, exists_false, Option.some.injEq, exists_eq_left',
        List.cons.injEq, true_and, false_iff, not_and, not_not]
      intro hv
      exact hal v hv rfl
    · rw [child_cut_other e hc e1 hy]
      have : y :: v ≠ x :: w := by
        intro h; injection h with h _; exact hy h
      simp [this]

theorem cut_size {n c : Node} {pre post : List Node} (b : Nat)
    (e : n.children = pre ++ c :: post) :
    size ((n.setChildren (pre ++ post)).setBitmap b) + size c = size n := by
  rw [size_eq, size_eq n, Node.children_setBitmap, Node.children_setChildren1, e,
    sizeChildren_append, sizeChildren_append]
  simp only [sizeChildren]
  omega

theorem alone_leaf {n : Node} (h : n.children = []) : Alone n [] 0 := by
  intro v hv _
  cases v with
  | nil => rfl
  | cons y v =>
    obtain ⟨c, hc, _⟩ := (stored_cons n y v).1 hv
    have := (child_mem hc).1
    rw [h] at this
    cases this

/-- A key stored through another child than the one for `x`. -/
theorem other_key {n c : Node} {x : Nat} {w : List Nat} {pre post : List Node} (hn : WFA n)
    (e : n.children = pre ++ c :: post) (hpre : ∀ a ∈ pre, a.value < x)
    (hpost : ∀ a ∈ post, x < a.value)
    (hu : ∀ a ∈ n.children, Uniform w.length a) (hne : (pre ++ post).length ≠ 0) :
    ∃ v, stored n v ∧ v ≠ x :: w ∧ v.take 0 = (x :: w).take 0 := by
  have hex : ∃ a, a ∈ pre ++ post := by
    cases hpp : pre ++ post with
    | nil => rw [hpp] at hne; exact absurd rfl hne
    | cons a l => exact ⟨a, by simp⟩
  obtain ⟨a, ha⟩ := hex
  have ham : a ∈ n.children := by
    rw [e]
    rcases List.mem_append.1 ha with h | h
    · exact List.mem_append_left _ h
    · exact List.mem_append_right _ (List.mem_cons_of_mem _ h)
  have hax : a.value ≠ x := by
    rcases List.mem_append.1 ha with h | h
    · exact Nat.ne_of_lt (hpre a h)
    · exact Nat.ne_of_gt (hpost a h)
  obtain ⟨v, hv, _⟩ := uniform_has_key w.length a (hn.sub a ham) (hu a ham)
  refine ⟨a.value :: v, (stored_cons n a.value v).2 ⟨a, child_of_mem hn ham, hv⟩, ?_, rfl⟩
  intro h
  injection h with h _
  exact hax h

/-- The loop of `removeEntry` from the end of the path of a stored key up to a node `n` that is
not the root: either every node from `n` down was detached, or the loop was left at a node
that kept a child. -/
theorem removeWalk_inner (w : List Nat) : ∀ n, WFA n → Uniform w.length n →
    (∀ x ∈ w, x < 16) → (∃ m, nodeAt n w = some m) →
    ∃ r, removeWalk (pathNodes n w) w false = some r ∧ (WalkGone n w r ∨ WalkStop n w r) := by
  induction w with
  | nil =>
    intro n _ hu _ _
    have hu1 : n.isLeaf = true ∧ n.children = [] := hu
    refine ⟨⟨n, n.value, 1, false⟩, ?_, Or.inl ⟨rfl, rfl, rfl, ?_, alone_leaf hu1.2⟩⟩
    · show removeStep n false n.value 0 = _
      unfold removeStep
      rw [if_pos hu1.1]
    · rw [size_eq, hu1.2]; rfl
  | cons x w ih =>
    intro n hn hu hw hm
    obtain ⟨m, hm⟩ := hm
    have hu1 : n.isLeaf = false ∧ n.children ≠ [] ∧ ∀ c ∈ n.children, Uniform w.length c := hu
    have hx : x < 16 := hw x (List.mem_cons_self _ _)
    have hw1 : ∀ y ∈ w, y < 16 := fun y hy => hw y (List.mem_cons_of_mem _ hy)
    cases slot_cases n x hx hn with
    | absent pre post e hpre hpost _ _ =>
      rw [nodeAt, child_absent e hpre hpost] at hm
      cases hm
    | present pre c post e hc hpre hpost hidx =>
      have hch := child_present e hc hpre
      have hcm : c ∈ n.children := by rw [e]; simp
      rw [nodeAt, hch] at hm
      obtain ⟨rc, hrc, hcase⟩ := ih c (hn.sub c hcm) (hu1.2.2 c hcm) hw1 ⟨m, hm⟩
      have hlev := removeWalk_level false hch e hidx hrc
      rcases hcase with hg | hs
      · obtain ⟨hst, hpv, hcnt, hsz, hal⟩ := hg
        rw [hst, if_neg (by simp), hpv, hc, removeStep_cut rc.node false rc.deletedNodeCounter
          hu1.1 hidx] at hlev
        by_cases he : (pre ++ post).length = 0
        · rw [if_pos he, if_neg (by simp)] at hlev
          refine ⟨_, hlev, Or.inl ⟨rfl, rfl, ?_, ?_, ?_⟩⟩
          · simp [hcnt]
          · have hpp : pre ++ post = [] := List.length_eq_zero.1 he
            have hp1 : pre = [] := (List.append_eq_nil.1 hpp).1
            have hp2 : post = [] := (List.append_eq_nil.1 hpp).2
            rw [size_eq, e, hp1, hp2]
            simp [sizeChildren, hsz]
            omega
          · intro v hv _
            cases v with
            | nil => rw [stored_nil, hu1.1] at hv; cases hv
            | cons y v =>
              obtain ⟨c2, hc2, hs2⟩ := (stored_cons n y v).1 hv
              have hmem := (child_mem hc2).1
              have hpp : pre ++ post = [] := List.length_eq_zero.1 he
              have hp1 : pre = [] := (List.append_eq_nil.1 hpp).1
              have hp2 : post = [] := (List.append_eq_nil.1 hpp).2
              rw [e, hp1, hp2] at hmem
              simp only [List.nil_append, List.mem_singleton] at hmem
              subst hmem
              rw [← (child_mem hc2).2, hc, hal v hs2 rfl]
        · rw [if_neg he] at hlev
          refine ⟨_, hlev, Or.inr ⟨rfl, wfa_cut hn hx e hc hpre hpost, ?_, by simp,
            cut_stored _ hu1.1 e hc hpre hpost hal, ?_, 0, by simp, ?_, ?_,
            other_key hn e hpre hpost hu1.2.2 he⟩⟩
          · show Uniform (w.length + 1) _
            refine ⟨by simpa using hu1.1, ?_, ?_⟩
            · simp only [Node.children_setBitmap, Node.children_setChildren1]
              intro h0; rw [h0] at he; exact he rfl
            · intro a ha
              simp only [Node.children_setBitmap, Node.children_setChildren1] at ha
              apply hu1.2.2 a
              rw [e]
              rcases List.mem_append.1 ha with h | h
              · exact List.mem_append_left _ h
              · exact List.mem_append_right _ (List.mem_cons_of_mem _ h)
          · show size _ + rc.deletedNodeCounter = size n
            rw [hcnt, ← hsz]
            exact cut_size _ e
          · show rc.deletedNodeCounter = (x :: w).length - 0
            simp [hcnt]
          · intro j hj
            cases j with
            | zero => exact absurd hj (Nat.lt_irrefl 0)
            | succ j => exact alone_lift hu1.1 hch (alone_mono (Nat.zero_le j) hal)
      · obtain ⟨hst, hwf, hun, hval, hsto, hsz, d, hd, hcnt, hal, v, hv, hvw, hvt⟩ := hs
        rw [hst, if_pos rfl] at hlev
        have hc1 : rc.node.value = x := by rw [hval, hc]
        refine ⟨_, hlev, Or.inr ⟨rfl, wfa_present hn e hc hpre hpost hc1 hwf, ?_, by simp,
          relink_stored hu1.1 e hc hpre hc1 hsto, relink_size e hsz, d + 1, by simpa using hd,
          ?_, ?_, x :: v, (stored_cons n x v).2 ⟨c, hch, hv⟩, ?_, ?_⟩⟩
        · show Uniform (w.length + 1) _
          refine ⟨by simpa using hu1.1, by simp, ?_⟩
          intro a ha
          rw [Node.children_setChildren1] at ha
          rcases List.mem_append.1 ha with h | h
          · exact hu1.2.2 a (by rw [e]; exact List.mem_append_left _ h)
          · rcases List.mem_cons.1 h with rfl | h
            · exact hun
            · exact hu1.2.2 a (by rw [e]; simp [h])
        · show rc.deletedNodeCounter = (x :: w).length - (d + 1)
          simp [hcnt]
        · intro j hj
          cases j with
          | zero => exact absurd hj (Nat.not_lt_zero _)
          | succ j => exact alone_lift hu1.1 hch (hal j (by omega))
        · intro h; injection h with _ h; exact hvw h
        · simp [hvt]

/-- The loop of `removeEntry` over the whole path of a stored key, up to the root: the trie
keeps its shape, loses exactly that key, and the count is the number of detached nodes, the
nodes of the path below the last node that lies on the path of another key. -/
theorem removeWalk_root (x : Nat) (w : List Nat) (n : Node) (hn : WFA n)
    (hu : UniformTop (w.length + 1) n) (hw : ∀ y ∈ x :: w, y < 16)
    (hm : ∃ m, nodeAt n (x :: w) = some m) :
    ∃ r, removeWalk (pathNodes n (x :: w)) (x :: w) true = some r ∧ WFA r.node ∧
      UniformTop (w.length + 1) r.node ∧
      (∀ v, stored r.node v ↔ (stored n v ∧ v ≠ x :: w)) ∧
      size r.node + r.deletedNodeCounter = size n ∧
      ∃ d, d ≤ w.length ∧ r.deletedNodeCounter = w.length + 1 - d ∧
        (∀ j, d < j → Alone n (x :: w) j) ∧ (∀ j, 1 ≤ j → j ≤ d → ¬ Alone n (x :: w) j) := by
  obtain ⟨m, hm⟩ := hm
  have hu1 : n.isLeaf = false ∧ ∀ c ∈ n.children, Uniform w.length c := hu
  have hx : x < 16 := hw x (List.mem_cons_self _ _)
  have hw1 : ∀ y ∈ w, y < 16 := fun y hy => hw y (List.mem_cons_of_mem _ hy)
  cases slot_cases n x hx hn with
  | absent pre post e hpre hpost _ _ =>
    rw [nodeAt, child_absent e hpre hpost] at hm
    cases hm
  | present pre c post e hc hpre hpost hidx =>
    have hch := child_present e hc hpre
    have hcm : c ∈ n.children := by rw [e]; simp
    rw [nodeAt, hch] at hm
    obtain ⟨rc, hrc, hcase⟩ := removeWalk_inner w c (hn.sub c hcm) (hu1.2 c hcm) hw1 ⟨m, hm⟩
    have hlev := removeWalk_level true hch e hidx hrc
    rcases hcase with hg | hs
    · obtain ⟨hst, hpv, hcnt, hsz, hal⟩ := hg
      rw [hst, if_neg (by simp), hpv, hc, removeStep_cut rc.node true rc.deletedNodeCounter
        hu1.1 hidx] at hlev
      have hfin : ∃ r, removeWalk (pathNodes n (x :: w)) (x :: w) true = some r ∧
          r.node = (n.setChildren (pre ++ post)).setBitmap
            (n.bitmap &&& (65535 ^^^ ((1 <<< x) % 65536))) ∧
          r.deletedNodeCounter = rc.deletedNodeCounter := by
        by_cases he : (pre ++ post).length = 0
        · rw [if_pos he, if_pos rfl] at hlev
          exact ⟨_, hlev, rfl, rfl⟩
        · rw [if_neg he] at hlev
          exact ⟨_, hlev, rfl, rfl⟩
      obtain ⟨r, hr, hrn, hrc1⟩ := hfin
      refine ⟨r, hr, ?_, ?_, ?_, ?_, 0, Nat.zero_le _, ?_, ?_, ?_⟩
      · rw [hrn]; exact wfa_cut hn hx e hc hpre hpost
      · rw [hrn]
        refine ⟨by simpa using hu1.1, ?_⟩
        intro a ha
        simp only [Node.children_setBitmap, Node.children_setChildren1] at ha
        apply hu1.2 a
        rw [e]
        rcases List.mem_append.1 ha with h | h
        · exact List.mem_append_left _ h
        · exact List.mem_append_right _ (List.mem_cons_of_mem _ h)
      · rw [hrn]; exact cut_stored _ hu1.1 e hc hpre hpost hal
      · rw [hrn, hrc1, hcnt, ← hsz]; exact cut_size _ e
      · rw [hrc1, hcnt]; rfl
      · intro j hj
        cases j with
        | zero => exact absurd hj (Nat.lt_irrefl 0)
        | succ j => exact alone_lift hu1.1 hch (alone_mono (Nat.zero_le j) hal)
      · intro j h1 h2
        omega
    · obtain ⟨hst, hwf, hun, hval, hsto, hsz, d, hd, hcnt, hal, v, hv, hvw, hvt⟩ := hs
      rw [hst, if_pos rfl] at hlev
      have hc1 : rc.node.value = x := by rw [hval, hc]
      refine ⟨_, hlev, wfa_present hn e hc hpre hpost hc1 hwf, ?_,
        relink_stored hu1.1 e hc hpre hc1 hsto, relink_size e hsz, d + 1, hd, ?_, ?_, ?_⟩
      · refine ⟨by simpa using hu1.1, ?_⟩
        intro a ha
        rw [Node.children_setChildren1] at ha
        rcases List.mem_append.1 ha with h | h
        · exact hu1.2 a (by rw [e]; exact List.mem_append_left _ h)
        · rcases List.mem_cons.1 h with rfl | h
          · exact hun
          · exact hu1.2 a (by rw [e]; simp [h])
      · show rc.deletedNodeCounter = w.length + 1 - (d + 1)
        rw [hcnt]; omega
      · intro j hj
        cases j with
        | zero => exact absurd hj (Nat.not_lt_zero _)
        | succ j => exact alone_lift hu1.1 hch (hal j (by omega))
      · intro j h1 h2 halone
        cases j with
        | zero => omega
        | succ j =>
          have hsv : stored n (x :: v) := (stored_cons n x v).2 ⟨c, hch, hv⟩
          have hte : (x :: v).take (j + 1) = (x :: w).take (j + 1) := by
            simp only [List.take_succ_cons, List.cons.injEq, true_and]
            exact take_le (by omega) hvt
          have := halone (x :: v) hsv hte
          injection this with _ h
          exact hvw h

theorem count_from (N d : Nat) :
    ((List.range N).filter (fun j => decide (d ≤ j))).length = N - d := by
  induction N with
  | zero => simp
  | succ N ih =>
    rw [List.range_succ, List.filter_append, List.length_append, ih]
    by_cases h : d ≤ N
    · rw [List.filter_cons_of_pos (by simpa using h)]
      simp; omega
    · rw [List.filter_cons_of_neg (by simpa using h)]
      simp; omega

/-! ## Properties of `removeEntry` -/

/-- The method `removeEntry` on a trie of keys of `L ≥ 1` bytes with the shape invariant, for a
key of `L` bytes: it returns, the trie keeps the invariant and stores the keys stored before
other than the removed one, and the count is the number of nodes that left the trie. -/
theorem removeEntry_fixed (t : AMT) (k : List Nat) (L : Nat) (hL : 1 ≤ L) (hn : WFA t.root)
    (hu : UniformTop (2 * L) t.root) (hk : k.length = L) :
    ∃ t1 c, t.removeEntry k = some (t1, c) ∧ WFA t1.root ∧ UniformTop (2 * L) t1.root ∧
      (∀ v, stored t1.root v ↔ (stored t.root v ∧ v ≠ nibbles k)) ∧
      size t1.root + c = size t.root ∧
      (¬ stored t.root (nibbles k) → t1 = t ∧ c = 0) ∧
      (stored t.root (nibbles k) → ∃ d, d < 2 * L ∧ c = 2 * L - d ∧
        (∀ j, d < j → Alone t.root (nibbles k) j) ∧
        (∀ j, 1 ≤ j → j ≤ d → ¬ Alone t.root (nibbles k) j)) := by
  have hlen : (nibbles k).length = 2 * L := by rw [nibbles_length, hk]
  have hlt := nibbles_lt k
  have hg := getPathLoop_spec (nibbles k) t.root [] hn hlt
  cases hnk : nibbles k with
  | nil => rw [hnk] at hlen; simp at hlen; omega
  | cons x w =>
    rw [hnk] at hlen hlt hg
    have h2 : 2 * L = w.length + 1 := by simpa using hlen.symm
    rw [h2] at hu
    rw [h2]
    cases hm : nodeAt t.root (x :: w) with
    | none =>
      rw [hm] at hg
      have hns : ¬ stored t.root (x :: w) := by
        rintro ⟨m, h1, _⟩
        rw [hm] at h1
        cases h1
      refine ⟨t, 0, ?_, hn, hu, ?_, rfl, fun _ => ⟨rfl, rfl⟩, fun h => absurd h hns⟩
      · unfold AMT.removeEntry AMT.getPath
        rw [hnk, hg]
      · intro v
        constructor
        · intro hv
          exact ⟨hv, fun h => hns (h ▸ hv)⟩
        · intro hv; exact hv.1
    | some m =>
      rw [hm] at hg
      simp only [List.nil_append] at hg
      obtain ⟨r, hr, hwf, hut, hsto, hsz, d, hd, hcnt, hal, hnal⟩ :=
        removeWalk_root x w t.root hn hu hlt ⟨m, hm⟩
      obtain ⟨rest, hrest⟩ := pathNodes_cons t.root (x :: w)
      refine ⟨⟨r.node⟩, r.deletedNodeCounter, ?_, hwf, hut, hsto, hsz, ?_, ?_⟩
      · unfold AMT.removeEntry AMT.getPath
        rw [hnk, hg, hrest]
        simp only []
        rw [← hrest, hr]
      · intro hns
        exfalso
        apply hns
        refine ⟨m, hm, ?_⟩
        rw [nodeAt] at hm
        cases hc : child t.root x with
        | none => rw [hc] at hm; cases hm
        | some c =>
          rw [hc] at hm
          exact uniform_nodeAt w c w.length (hu.2 c (child_mem hc).1) rfl m hm
      · intro _
        exact ⟨d, by omega, hcnt, hal, hnal⟩

theorem init_uniformTop (h : Nat) : UniformTop h InitAMT.root := uniformTop_fresh h _ _ _

theorem stored_of_insertAll_init {L : Nat} {ks : List (List Nat)}
    (hks : ∀ x ∈ ks, IsBytes x ∧ x.length = L) :
    ∃ t, insertAll InitAMT ks = some t ∧ WFA t.root ∧ UniformTop (2 * L) t.root ∧
      ∀ v, stored t.root v ↔ ∃ q ∈ ks, nibbles q = v := by
  obtain ⟨t, hi, hw, hu, hs⟩ := insertAll_fixed L ks InitAMT wfa_init (init_uniformTop _)
    (fun q hq => (hks q hq).2)
  refine ⟨t, hi, hw, hu, ?_⟩
  intro v
  rw [hs v]
  constructor
  · rintro (h | h)
    · exact absurd h (not_stored_init v)
    · exact h
  · intro h; exact Or.inr h

theorem stored_key_iff {ks : List (List Nat)} {n : Node} {k : List Nat}
    (hks : ∀ x ∈ ks, IsBytes x) (hk : IsBytes k)
    (hs : ∀ v, stored n v ↔ ∃ q ∈ ks, nibbles q = v) : stored n (nibbles k) ↔ k ∈ ks := by
  rw [hs]
  constructor
  · rintro ⟨q, hq, h⟩
    rw [← nibbles_injective (hks q hq) hk h]; exact hq
  · intro h; exact ⟨k, h, rfl⟩

/-- C15. Deletion on keys of one length: for `L ≥ 1`, after keys of `L` bytes each are inserted
into the empty trie, `removeEntry` of a key `k` of `L` bytes returns, and afterwards `find q`
is true exactly when `q` is one of the inserted keys and differs from `k`, for every
byte-string key `q`; when `k` was not inserted the trie is unchanged and the count is 0. -/
theorem removeEntry_deletes (L : Nat) (ks : List (List Nat)) (k q : List Nat) (hL : 1 ≤ L)
    (hks : ∀ x ∈ ks, IsBytes x ∧ x.length = L) (hk : IsBytes k ∧ k.length = L)
    (hq : IsBytes q) :
    ∃ t t1 c, insertAll InitAMT ks = some t ∧ t.removeEntry k = some (t1, c) ∧
      t1.find q = some (decide (q ∈ ks ∧ q ≠ k)) ∧ (k ∉ ks → t1 = t ∧ c = 0) := by
  obtain ⟨t, hi, hw, hu, hs⟩ := stored_of_insertAll_init hks
  obtain ⟨t1, c, hr, hw1, _, hs1, _, hab, _⟩ := removeEntry_fixed t k L hL hw hu hk.2
  have hkey := fun (x : List Nat) (hx : IsBytes x) =>
    stored_key_iff (fun y hy => (hks y hy).1) hx hs
  obtain ⟨b, hf, hb⟩ := find_eq_stored t1 q hw1
  refine ⟨t, t1, c, hi, hr, ?_, fun h => hab (fun hst => h ((hkey k hk.1).1 hst))⟩
  rw [hf]
  congr 1
  have hiff : stored t1.root (nibbles q) ↔ (q ∈ ks ∧ q ≠ k) := by
    rw [hs1, hkey q hq]
    constructor
    · rintro ⟨h1, h2⟩
      exact ⟨h1, fun h => h2 (by rw [h])⟩
    · rintro ⟨h1, h2⟩
      exact ⟨h1, fun h => h2 (nibbles_injective hq hk.1 h)⟩
  cases b with
  | true => simpa using hiff.1 (hb.1 rfl)
  | false =>
    have : ¬ (q ∈ ks ∧ q ≠ k) := fun h => by simpa using hb.2 (hiff.2 h)
    simpa using this

theorem removeEntry_deletes_witness :
    1 ≤ 3 ∧ (∀ x ∈ testKeys, IsBytes x ∧ x.length = 3) ∧
    (IsBytes [0xFA, 0x45, 0x01] ∧ [0xFA, 0x45, 0x01].length = 3) ∧ IsBytes [0xFB, 0x45, 0x01] ∧
    ∃ t t1 c, insertAll InitAMT testKeys = some t ∧
      t.removeEntry [0xFA, 0x45, 0x01] = some (t1, c) ∧
      t1.find [0xFB, 0x45, 0x01] =
        some (decide ([0xFB, 0x45, 0x01] ∈ testKeys ∧ [0xFB, 0x45, 0x01] ≠ [0xFA, 0x45, 0x01])) ∧
      ([0xFA, 0x45, 0x01] ∉ testKeys → t1 = t ∧ c = 0) :=
  ⟨by decide, by decide, by decide, by decide,
    removeEntry_deletes 3 testKeys [0xFA, 0x45, 0x01] [0xFB, 0x45, 0x01] (by decide)
      (by decide) (by decide) (by decide)⟩

/-- C16. The count of `removeEntry` on keys of one length: for `L ≥ 1`, after keys of `L` bytes
each are inserted into the empty trie, `removeEntry` of an inserted key `k` returns the number
of nodes detached, the number of nodes reachable from the root before minus the number
afterwards, which is the number of nodes below the root on the path of `k` that lie on the path
of no other inserted key; it is at least 1 and at most `2L`, so the root is not counted. -/
theorem removeEntry_count (L : Nat) (ks : List (List Nat)) (k : List Nat) (hL : 1 ≤ L)
    (hks : ∀ x ∈ ks, IsBytes x ∧ x.length = L) (hk : k ∈ ks) :
    ∃ t t1 c, insertAll InitAMT ks = some t ∧ t.removeEntry k = some (t1, c) ∧
      size t1.root + c = size t.root ∧ c = ownNodes ks k ∧ 1 ≤ c ∧ c ≤ 2 * L := by
  obtain ⟨t, hi, hw, hu, hs⟩ := stored_of_insertAll_init hks
  have hkb := (hks k hk).1
  obtain ⟨t1, c, hr, _, _, _, hsz, _, hin⟩ := removeEntry_fixed t k L hL hw hu (hks k hk).2
  have hst : stored t.root (nibbles k) :=
    (stored_key_iff (fun y hy => (hks y hy).1) hkb hs).2 hk
  obtain ⟨d, hd, hc, hal, hnal⟩ := hin hst
  refine ⟨t, t1, c, hi, hr, hsz, ?_, by omega, by omega⟩
  have hlen : (nibbles k).length = 2 * L := by rw [nibbles_length, (hks k hk).2]
  have hP : ∀ j, Alone t.root (nibbles k) (j + 1) ↔
      ∀ q ∈ ks, (nibbles q).take (j + 1) = (nibbles k).take (j + 1) → q = k := by
    intro j
    constructor
    · intro ha q hq ht
      exact nibbles_injective (hks q hq).1 hkb (ha (nibbles q) ((hs _).2 ⟨q, hq, rfl⟩) ht)
    · intro h v hv ht
      obtain ⟨q, hq, hqv⟩ := (hs v).1 hv
      rw [← hqv] at ht ⊢
      rw [h q hq ht]
  unfold ownNodes
  rw [hlen, hc, ← count_from (2 * L) d]
  congr 1
  apply List.filter_congr
  intro j _
  by_cases hdj : d ≤ j
  · have h1 := (hP j).1 (hal (j + 1) (by omega))
    rw [decide_eq_true hdj, decide_eq_true h1]
  · have h1 : ¬ (∀ q ∈ ks, (nibbles q).take (j + 1) = (nibbles k).take (j + 1) → q = k) :=
      fun h => hnal (j + 1) (by omega) (by omega) ((hP j).2 h)
    rw [decide_eq_false hdj, decide_eq_false h1]

theorem removeEntry_count_witness :
    1 ≤ 3 ∧ (∀ x ∈ testKeys, IsBytes x ∧ x.length = 3) ∧ [0xFA, 0x45, 0x01] ∈ testKeys ∧
    (∃ t t1 c, insertAll InitAMT testKeys = some t ∧
      t.removeEntry [0xFA, 0x45, 0x01] = some (t1, c) ∧
      size t1.root + c = size t.root ∧ c = ownNodes testKeys [0xFA, 0x45, 0x01] ∧ 1 ≤ c ∧
      c ≤ 2 * 3) ∧
    ownNodes testKeys [0xFA, 0x45, 0x01] = 5 ∧
    (insertAll InitAMT testKeys).bind (fun t => removeAll t testRemoveInputs) =
      some [5, 0, 1, 0, 0, 0, 0, 0, 6, 6, 0] :=
  ⟨by decide, by decide, by decide,
    removeEntry_count 3 testKeys [0xFA, 0x45, 0x01] (by decide) (by decide) (by decide),
    by decide, by rfl⟩

/-! ## Pruning a subtree -/

mutual
theorem pruneChildren_total : ∀ n : Node, ∃ r, pruneChildren n = some r ∧
    (n.isLeaf = true → r = (n, 0)) ∧
    (n.isLeaf = false → r.1 = Node.mk true n.isAliased n.value n.prefixBits 0 [] ∧
      n.children.length ≤ r.2 ∧ r.2 ≤ sizeChildren n.children)
  | Node.mk l a v p b cs => by
    obtain ⟨k, hk, h1, h2⟩ := pruneLoop_total cs
    cases l with
    | true =>
      refine ⟨(Node.mk true a v p b cs, 0), ?_, fun _ => rfl, fun h => by simp at h⟩
      rw [pruneChildren]; rfl
    | false =>
      refine ⟨(Node.mk true a v p 0 [], k), ?_, fun h => by simp at h, fun _ => ⟨rfl, h1, h2⟩⟩
      rw [pruneChildren, hk]
      simp only [Bool.false_eq_true, if_false]
      rw [if_neg (by omega)]
theorem pruneLoop_total : ∀ cs : List Node, ∃ k, pruneLoop cs = some k ∧ cs.length ≤ k ∧
    k ≤ sizeChildren cs
  | [] => ⟨0, rfl, Nat.le_refl _, Nat.le_refl _⟩
  | c :: cs => by
    obtain ⟨r, hr, hl, hn⟩ := pruneChildren_total c
    obtain ⟨k, hk, h1, h2⟩ := pruneLoop_total cs
    refine ⟨r.2 + 1 + k, ?_, ?_, ?_⟩
    · rw [pruneLoop, hr]
      simp only [hk]
    · simp only [List.length_cons]; omega
    · simp only [sizeChildren]
      have hsz := size_eq c
      cases hcl : c.isLeaf with
      | true =>
        have := hl hcl
        rw [this]
        simp only []
        omega
      | false =>
        have := (hn hcl).2.2
        omega
end

theorem NoLeafWithChildren.leaf {n : Node} (h : NoLeafWithChildren n) :
    n.isLeaf = true → n.children = [] := by
  cases h with
  | mk _ h1 _ => exact h1

theorem NoLeafWithChildren.kids {n : Node} (h : NoLeafWithChildren n) :
    ∀ c ∈ n.children, NoLeafWithChildren c := by
  cases h with
  | mk _ _ h2 => exact h2

mutual
theorem pruneChildren_exact : ∀ n : Node, NoLeafWithChildren n → n.isLeaf = false →
    pruneChildren n =
      some (Node.mk true n.isAliased n.value n.prefixBits 0 [], sizeChildren n.children)
  | Node.mk l a v p b cs => by
    intro h hl
    simp only [Node.isLeaf_mk1] at hl
    subst hl
    have hk := pruneLoop_exact cs (fun c hc => h.kids c hc)
    rw [pruneChildren, hk]
    simp only [Bool.false_eq_true, if_false]
    obtain ⟨k, hk2, h1, _⟩ := pruneLoop_total cs
    rw [hk] at hk2
    cases hk2
    rw [if_neg (by omega)]
    rfl
theorem pruneLoop_exact : ∀ cs : List Node, (∀ c ∈ cs, NoLeafWithChildren c) →
    pruneLoop cs = some (sizeChildren cs)
  | [] => fun _ => rfl
  | c :: cs => by
    intro h
    have hc := h c (List.mem_cons_self _ _)
    have hk := pruneLoop_exact cs (fun d hd => h d (List.mem_cons_of_mem _ hd))
    rw [pruneLoop, hk]
    cases hcl : c.isLeaf with
    | true =>
      obtain ⟨r, hr, hl, _⟩ := pruneChildren_total c
      rw [hr, hl hcl]
      simp only [sizeChildren]
      rw [size_eq c, hc.leaf hcl]
      simp [sizeChildren]
    | false =>
      rw [pruneChildren_exact c hc hcl]
      simp only [sizeChildren]
      rw [size_eq c]
      congr 1
      omega
end

theorem uniform_noLeaf : ∀ (h : Nat) (n : Node), Uniform h n → NoLeafWithChildren n
  | 0, n, hu => NoLeafWithChildren.mk n (fun _ => hu.2) (by
      intro c hc
      rw [hu.2] at hc
      cases hc)
  | h + 1, n, hu => NoLeafWithChildren.mk n (fun hl => by rw [hu.1] at hl; cases hl)
      (fun c hc => uniform_noLeaf h c (hu.2.2 c hc))

theorem uniformTop_noLeaf : ∀ (h : Nat) (n : Node), UniformTop h n → NoLeafWithChildren n
  | 0, n, hu => NoLeafWithChildren.mk n (fun _ => hu) (by
      intro c hc
      have hu1 : n.children = [] := hu
      rw [hu1] at hc
      cases hc)
  | h + 1, n, hu => NoLeafWithChildren.mk n (fun hl => by rw [hu.1] at hl; cases hl)
      (fun c hc => uniform_noLeaf h c (hu.2 c hc))

theorem noLeaf_insertTestTree : NoLeafWithChildren (insertTestTree true) := by
  obtain ⟨t, hi, _, hu, _⟩ := @stored_of_insertAll_init 3 testKeys (by decide)
  have : insertAll InitAMT testKeys = some ⟨insertTestTree true⟩ := rfl
  rw [this] at hi
  cases hi
  exact uniformTop_noLeaf _ _ hu

/-- C20, as it is worded, fails at a leaf that has a child: `pruneChildren` returns 0 there and
leaves the node as it is, and 0 is below the number of direct children. Such a node is in the
trie after the keys `00` and `0000` were inserted. -/
theorem pruneChildren_leaf_with_child :
    (∃ t, insertAll InitAMT [[0x00], [0x00, 0x00]] = some t ∧
      nodeAt t.root (nibbles [0x00]) = some leafWithChild) ∧
    pruneChildren leafWithChild = some (leafWithChild, 0) ∧
    leafWithChild.children.length = 1 ∧ ¬ PruneCountBound leafWithChild := by
  refine ⟨⟨_, rfl, rfl⟩, rfl, rfl, ?_⟩
  rintro ⟨r, hr, hle⟩
  have h0 : pruneChildren leafWithChild = some (leafWithChild, 0) := rfl
  rw [h0] at hr
  cases hr
  exact absurd hle (by decide)

/-- C20, amended. For a node in whose subtree no node flagged as a leaf has children:
when the node is not a leaf, `pruneChildren` returns the number of its proper descendants and
leaves it with `isLeaf = true`, bitmap 0 and no children, its other fields as they were; when
it is a leaf, the call returns 0 and leaves it unchanged; and the count is at least the number
of direct children. For every node whatsoever the call returns, so the fatal accounting check
is never triggered, and when the node is not flagged as a leaf the count is at least the
number of its direct children. -/
theorem pruneChildren_spec (n : Node) (h : NoLeafWithChildren n) :
    (n.isLeaf = false →
      pruneChildren n =
        some (Node.mk true n.isAliased n.value n.prefixBits 0 [], size n - 1)) ∧
    (n.isLeaf = true → pruneChildren n = some (n, 0)) ∧
    PruneCountBound n ∧
    ∀ m : Node, ∃ r, pruneChildren m = some r ∧ (m.isLeaf = false → m.children.length ≤ r.2) := by
  have hsz : size n - 1 = sizeChildren n.children := by rw [size_eq]; omega
  obtain ⟨r, hr, hl, hn⟩ := pruneChildren_total n
  refine ⟨?_, ?_, ?_, ?_⟩
  · intro hf
    rw [hsz]
    exact pruneChildren_exact n h hf
  · intro ht
    rw [hr, hl ht]
  · refine ⟨r, hr, ?_⟩
    cases hcl : n.isLeaf with
    | true => rw [h.leaf hcl]; exact Nat.zero_le _
    | false => exact (hn hcl).2.1
  · intro m
    obtain ⟨r1, hr1, _, hn1⟩ := pruneChildren_total m
    exact ⟨r1, hr1, fun hf => (hn1 hf).2.1⟩

theorem pruneChildren_spec_witness :
    NoLeafWithChildren (insertTestTree true) ∧
    ((insertTestTree true).isLeaf = false →
      pruneChildren (insertTestTree true) =
        some (Node.mk true (insertTestTree true).isAliased (insertTestTree true).value
          (insertTestTree true).prefixBits 0 [], size (insertTestTree true) - 1)) ∧
    ((insertTestTree true).isLeaf = true →
      pruneChildren (insertTestTree true) = some (insertTestTree true, 0)) ∧
    PruneCountBound (insertTestTree true) ∧
    (∀ m : Node, ∃ r, pruneChildren m = some r ∧
      (m.isLeaf = false → m.children.length ≤ r.2)) ∧
    pruneChildren (insertTestTree true) = some (Node.mk true false 0 0 0 [], 18) :=
  ⟨noLeaf_insertTestTree,
    (pruneChildren_spec (insertTestTree true) noLeaf_insertTestTree).1,
    (pruneChildren_spec (insertTestTree true) noLeaf_insertTestTree).2.1,
    (pruneChildren_spec (insertTestTree true) noLeaf_insertTestTree).2.2.1,
    (pruneChildren_spec (insertTestTree true) noLeaf_insertTestTree).2.2.2, rfl⟩

end Amt

/-! ## The invariants of the tree, node by node -/

theorem NodeIn.wf_node {m n : Node} (h : NodeIn m n) (hwf : WF n) : WF m := by
  induction h with
  | self n => exact hwf
  | deeper n c m hc _ ih => exact ih (hwf.child c hc)

/-- A run of inserts of valid prefixes returns, keeps the invariant and leaves the
`startPrefix` of the root as it was. -/
theorem insertAll_root (ps : List IPNet) (hps : ∀ p ∈ ps, p.Valid) : ∀ t0 : Radix, t0.Inv →
    ∃ t, insertAll t0 ps = .ok t ∧ t.Inv ∧ t.root.startPrefix = t0.root.startPrefix := by
  induction ps with
  | nil => intro t0 h; exact ⟨t0, rfl, h, rfl⟩
  | cons p ps ih =>
    intro t0 hinv
    obtain ⟨t1, b, h1, hinv1, _, _, hcase⟩ :=
      insertTraced_spec t0 hinv p (hps p (List.mem_cons_self _ _))
    have hs1 : t1.root.startPrefix = t0.root.startPrefix := by
      rcases hcase with ⟨_, _, _, _, hroot⟩ | ⟨_, hrel⟩
      · rw [hroot]; rfl
      · exact hrel.fields.2.2.1
    obtain ⟨t, h2, hinv2, hs2⟩ := ih (fun q hq => hps q (List.mem_cons_of_mem _ hq)) t1 hinv1
    refine ⟨t, ?_, hinv2, by rw [hs2, hs1]⟩
    simp [insertAll, insert_eq_of_traced h1, h2]

theorem u8sub_of_le {a b : Nat} (hab : b ≤ a) (ha : a < 256) : u8sub a b = a - b := by
  unfold u8sub
  rw [Nat.mod_eq_of_lt (by omega : b < 256)]
  omega

/-- C24. The edge invariant: every run of inserts of prefixes with 16-byte addresses and mask
lengths in `[1, 128]` from the empty tree returns a tree whose root has `startPrefix = 0` and
`endPrefix = 0`, and in which every node `c` that is a child of a node `p` of the tree has
`c.startPrefix = p.endPrefix`, `c.length = c.endPrefix - c.startPrefix`, `c.length ≥ 1` and
`c.endPrefix ≤ 128`; the `uint8` subtraction `c.endPrefix - c.startPrefix` does not wrap. -/
theorem edge_invariant (ps : List IPNet) (hps : ∀ q ∈ ps, q.Valid) :
    ∃ t, insertAll InitRadix ps = .ok t ∧ t.root.startPrefix = 0 ∧ t.root.endPrefix = 0 ∧
      ∀ p c, NodeIn p t.root → c ∈ p.children →
        c.startPrefix = p.endPrefix ∧ c.length = c.endPrefix - c.startPrefix ∧
        1 ≤ c.length ∧ c.endPrefix ≤ 128 ∧ c.startPrefix < c.endPrefix ∧
        u8sub c.endPrefix c.startPrefix = c.length := by
  obtain ⟨t, ht, hinv, hs⟩ := insertAll_root ps hps InitRadix InitRadix_inv
  refine ⟨t, ht, by rw [hs]; rfl, hinv.2.1, ?_⟩
  intro p c hp hc
  obtain ⟨h1, h2, h3, h4, _⟩ := (hp.wf_node hinv.1).childOk c hc
  refine ⟨h1, by rw [h4, h1], by rw [h4]; omega, h3, by rw [h1]; exact h2, ?_⟩
  rw [u8sub_of_le (by rw [h1]; exact Nat.le_of_lt h2) (by omega), h4, h1]

theorem edge_invariant_witness :
    (∀ q ∈ [IPNet.mk addrDb8 48, IPNet.mk addrDb8Net2 48], q.Valid) ∧
    (∃ t, insertAll InitRadix [IPNet.mk addrDb8 48, IPNet.mk addrDb8Net2 48] = .ok t ∧
      t.root.startPrefix = 0 ∧ t.root.endPrefix = 0 ∧
      ∀ p c, NodeIn p t.root → c ∈ p.children →
        c.startPrefix = p.endPrefix ∧ c.length = c.endPrefix - c.startPrefix ∧
        1 ≤ c.length ∧ c.endPrefix ≤ 128 ∧ c.startPrefix < c.endPrefix ∧
        u8sub c.endPrefix c.startPrefix = c.length) ∧
    insertAll InitRadix [IPNet.mk addrDb8 48, IPNet.mk addrDb8Net2 48] = .ok treeSplit46 :=
  ⟨by decide, edge_invariant [IPNet.mk addrDb8 48, IPNet.mk addrDb8Net2 48] (by decide), rfl⟩

theorem length_le_two_of_bits (l : List Nat) (x : Nat) (hnd : l.Nodup)
    (hl : ∀ v ∈ l, v = 0 ∨ v = x) : l.length ≤ 2 := by
  have hsub : l ⊆ [0, x] := by
    intro v hv
    rcases hl v hv with h | h <;> simp [h]
  exact (List.subperm_of_subset hnd hsub).length_le

/-- C25. The first-bit invariant: every run of inserts of prefixes with 16-byte addresses and
mask lengths in `[1, 128]` from the empty tree returns a tree in which at every node the
children all start at the end of the node and pairwise differ in the bit of their value at
that position; so a node has at most two children, at most one child carries the bit of a
given address there, and at most one child can give the child loop of `insert` a positive
`matchCounter`. -/
theorem first_bit_invariant (ps : List IPNet) (hps : ∀ q ∈ ps, q.Valid) :
    ∃ t, insertAll InitRadix ps = .ok t ∧
      ∀ p, NodeIn p t.root →
        (∀ c ∈ p.children, c.startPrefix = p.endPrefix) ∧
        p.children.Pairwise
          (fun c1 c2 => bitAt c1.value p.endPrefix ≠ bitAt c2.value p.endPrefix) ∧
        p.children.length ≤ 2 ∧
        (∀ (ip : IP) (c1 c2 : Node), c1 ∈ p.children → c2 ∈ p.children →
          bitAt ip p.endPrefix = bitAt c1.value p.endPrefix →
          bitAt ip p.endPrefix = bitAt c2.value p.endPrefix → c1 = c2) ∧
        (∀ (ip : IP) (n1 n2 : Nat) (c1 c2 : Node), c1 ∈ p.children → c2 ∈ p.children →
          countMatch ip c1.value n1 p.endPrefix ≠ 0 →
          countMatch ip c2.value n2 p.endPrefix ≠ 0 → c1 = c2) := by
  obtain ⟨t, ht, hinv, _⟩ := insertAll_root ps hps InitRadix InitRadix_inv
  refine ⟨t, ht, ?_⟩
  intro p hp
  have hwf := hp.wf_node hinv.1
  refine ⟨fun c hc => (hwf.childOk c hc).1, List.pairwise_map.1 hwf.nodup, ?_, ?_, ?_⟩
  · have := length_le_two_of_bits _ (128 >>> (p.endPrefix % 8)) hwf.nodup (by
      intro v hv
      obtain ⟨c, _, rfl⟩ := List.mem_map.1 hv
      exact bitAt_cases _ _)
    simpa using this
  · intro ip c1 c2 h1 h2 hb1 hb2
    exact hwf.child_unique h1 h2 hb1 hb2
  · intro ip n1 n2 c1 c2 h1 h2 hm1 hm2
    have e1 : bitAt ip p.endPrefix = bitAt c1.value p.endPrefix := by
      by_contra hne
      exact hm1 ((countMatch_eq_zero_iff _ _ _ _).2 (Or.inr hne))
    have e2 : bitAt ip p.endPrefix = bitAt c2.value p.endPrefix := by
      by_contra hne
      exact hm2 ((countMatch_eq_zero_iff _ _ _ _).2 (Or.inr hne))
    exact hwf.child_unique h1 h2 e1 e2

theorem first_bit_invariant_witness :
    (∀ q ∈ [IPNet.mk addrDb8 48, IPNet.mk addrDb8Net2 48], q.Valid) ∧
    ∃ t, insertAll InitRadix [IPNet.mk addrDb8 48, IPNet.mk addrDb8Net2 48] = .ok t ∧
      ∀ p, NodeIn p t.root →
        (∀ c ∈ p.children, c.startPrefix = p.endPrefix) ∧
        p.children.Pairwise
          (fun c1 c2 => bitAt c1.value p.endPrefix ≠ bitAt c2.value p.endPrefix) ∧
        p.children.length ≤ 2 ∧
        (∀ (ip : IP) (c1 c2 : Node), c1 ∈ p.children → c2 ∈ p.children →
          bitAt ip p.endPrefix = bitAt c1.value p.endPrefix →
          bitAt ip p.endPrefix = bitAt c2.value p.endPrefix → c1 = c2) ∧
        (∀ (ip : IP) (n1 n2 : Nat) (c1 c2 : Node), c1 ∈ p.children → c2 ∈ p.children →
          countMatch ip c1.value n1 p.endPrefix ≠ 0 →
          countMatch ip c2.value n2 p.endPrefix ≠ 0 → c1 = c2) :=
  ⟨by decide, first_bit_invariant [IPNet.mk addrDb8 48, IPNet.mk addrDb8Net2 48] (by decide)⟩

/-! ## The order of the children does not matter to `lookup` -/

theorem sameHits_swap {a : IP} {n : Node} {pre post : List Node} {c c1 : Node}
    (hs : n.children = pre ++ c :: post) (hf : SameFields c c1) (hh : SameHits a c c1) :
    SameHits a n (n.setChildren (pre ++ c1 :: post)) := by
  obtain ⟨he1, hv1, hl1, _, _⟩ := hf
  constructor
  · intro L hL
    obtain ⟨x, hx, hag, hcase⟩ := hit_inv hL
    rw [hs] at hx
    rcases List.mem_append.1 hx with hx | hx
    · refine ⟨L, ?_, rfl, rfl⟩
      rcases hcase with ⟨hl, rfl⟩ | ⟨hl, hh2⟩
      · exact Hit.leaf _ _ (by simp [hx]) hl (by simpa using hag)
      · exact Hit.step _ x _ (by simp [hx]) hl (by simpa using hag) hh2
    · rcases List.mem_cons.1 hx with rfl | hx
      · rcases hcase with ⟨hl, rfl⟩ | ⟨hl, hh2⟩
        · refine ⟨c1, Hit.leaf _ _ (by simp) (by rw [hl1]; exact hl) ?_, hv1, he1⟩
          rw [hv1, he1]; simpa using hag
        · obtain ⟨L1, h1, e1, e2⟩ := hh.1 L hh2
          refine ⟨L1, Hit.step _ c1 _ (by simp) (by rw [hl1]; exact hl) ?_ h1, e1, e2⟩
          rw [hv1, he1]; simpa using hag
      · refine ⟨L, ?_, rfl, rfl⟩
        rcases hcase with ⟨hl, rfl⟩ | ⟨hl, hh2⟩
        · exact Hit.leaf _ _ (by simp [hx]) hl (by simpa using hag)
        · exact Hit.step _ x _ (by simp [hx]) hl (by simpa using hag) hh2
  · intro L hL
    obtain ⟨x, hx, hag, hcase⟩ := hit_inv hL
    simp only [Node.children_setChildren, Node.endPrefix_setChildren] at hx hag
    rcases List.mem_append.1 hx with hx | hx
    · refine ⟨L, ?_, rfl, rfl⟩
      rcases hcase with ⟨hl, rfl⟩ | ⟨hl, hh2⟩
      · exact Hit.leaf _ _ (by rw [hs]; simp [hx]) hl hag
      · exact Hit.step _ x _ (by rw [hs]; simp [hx]) hl hag hh2
    · rcases List.mem_cons.1 hx with rfl | hx
      · rw [hv1, he1] at hag
        rcases hcase with ⟨hl, rfl⟩ | ⟨hl, hh2⟩
        · exact ⟨c, Hit.leaf _ _ (by rw [hs]; simp) (by rw [← hl1]; exact hl) hag,
            hv1.symm, he1.symm⟩
        · obtain ⟨L0, h0, e1, e2⟩ := hh.2 L hh2
          exact ⟨L0, Hit.step _ c _ (by rw [hs]; simp) (by rw [← hl1]; exact hl) hag h0, e1, e2⟩
      · refine ⟨L, ?_, rfl, rfl⟩
        rcases hcase with ⟨hl, rfl⟩ | ⟨hl, hh2⟩
        · exact Hit.leaf _ _ (by rw [hs]; simp [hx]) hl hag
        · exact Hit.step _ x _ (by rw [hs]; simp [hx]) hl hag hh2

theorem PermTree.props {n n1 : Node} (h : PermTree n n1) : WF n →
    WF n1 ∧ SameFields n n1 ∧ (n.children = [] → n1.children = []) ∧ ∀ a, SameHits a n n1 := by
  induction h with
  | refl n =>
    intro hwf
    exact ⟨hwf, ⟨rfl, rfl, rfl, rfl, rfl⟩, fun h => h,
      fun a => ⟨fun L hL => ⟨L, hL, rfl, rfl⟩, fun L hL => ⟨L, hL, rfl, rfl⟩⟩⟩
  | perm n cs hp =>
    intro hwf
    refine ⟨?_, ⟨by simp, by simp, by simp, by simp, by simp⟩, ?_, ?_⟩
    · refine WF.mk _ ?_ ?_ ?_
      · intro c hc
        simp only [Node.children_setChildren] at hc
        simpa using hwf.childOk c (hp.mem_iff.2 hc)
      · intro c hc
        simp only [Node.children_setChildren] at hc
        exact hwf.child c (hp.mem_iff.2 hc)
      · simp only [Node.children_setChildren, Node.endPrefix_setChildren]
        exact (List.Perm.nodup_iff (hp.map _)).1 hwf.nodup
    · intro h0
      rw [h0] at hp
      simpa using hp.symm.eq_nil
    · intro a
      constructor
      · intro L hL
        refine ⟨L, ?_, rfl, rfl⟩
        obtain ⟨c, hc, hag, hcase⟩ := hit_inv hL
        rcases hcase with ⟨hl, rfl⟩ | ⟨hl, hh⟩
        · exact Hit.leaf _ _ (by simpa using hp.mem_iff.1 hc) hl (by simpa using hag)
        · exact Hit.step _ c _ (by simpa using hp.mem_iff.1 hc) hl (by simpa using hag) hh
      · intro L hL
        refine ⟨L, ?_, rfl, rfl⟩
        obtain ⟨c, hc, hag, hcase⟩ := hit_inv hL
        simp only [Node.children_setChildren, Node.endPrefix_setChildren] at hc hag
        rcases hcase with ⟨hl, rfl⟩ | ⟨hl, hh⟩
        · exact Hit.leaf _ _ (hp.mem_iff.2 hc) hl hag
        · exact Hit.step _ c _ (hp.mem_iff.2 hc) hl hag hh
  | child n pre c c1 post hs _ ih =>
    intro hwf
    have hcm : c ∈ n.children := by rw [hs]; simp
    obtain ⟨hw1, hf1, hnil1, hh1⟩ := ih (hwf.child c hcm)
    obtain ⟨he1, hv1, hl1, hs1, hlen1⟩ := hf1
    obtain ⟨o1, o2, o3, o4, o5, o6, o7⟩ := hwf.childOk c hcm
    have hok1 : ChildOk n.endPrefix n.value c1 :=
      ⟨by rw [hs1]; exact o1, by rw [he1]; exact o2, by rw [he1]; exact o3,
        by rw [hlen1, he1]; exact o4, by rw [hv1]; exact o5, by rw [hv1]; exact o6,
        fun hl => hnil1 (o7 (by rw [← hl1]; exact hl))⟩
    refine ⟨hwf.replace hs hok1 hw1 (by rw [hv1]), ⟨by simp, by simp, by simp, by simp, by simp⟩,
      ?_, fun a => sameHits_swap hs ⟨he1, hv1, hl1, hs1, hlen1⟩ (hh1 a)⟩
    intro h0
    rw [hs] at h0
    simp at h0
  | trans a b c _ _ ih1 ih2 =>
    intro hwf
    obtain ⟨hw1, hf1, hn1, hh1⟩ := ih1 hwf
    obtain ⟨hw2, hf2, hn2, hh2⟩ := ih2 hw1
    obtain ⟨a1, a2, a3, a4, a5⟩ := hf1
    obtain ⟨b1, b2, b3, b4, b5⟩ := hf2
    refine ⟨hw2, ⟨by rw [b1, a1], by rw [b2, a2], by rw [b3, a3], by rw [b4, a4],
      by rw [b5, a5]⟩, fun h => hn2 (hn1 h), ?_⟩
    intro x
    constructor
    · intro L hL
      obtain ⟨L1, h1, e1, e2⟩ := (hh1 x).1 L hL
      obtain ⟨L2, h2, e3, e4⟩ := (hh2 x).1 L1 h1
      exact ⟨L2, h2, by rw [e3, e1], by rw [e4, e2]⟩
    · intro L hL
      obtain ⟨L1, h1, e1, e2⟩ := (hh2 x).2 L hL
      obtain ⟨L2, h2, e3, e4⟩ := (hh1 x).2 L1 h1
      exact ⟨L2, h2, by rw [e3, e1], by rw [e4, e2]⟩

/-- C29. The order of the children does not matter: every run of inserts of prefixes with
16-byte addresses and mask lengths in `[1, 128]` from the empty tree returns a tree such that,
for every tree obtained from it by permuting the children sequences of any of its nodes and for
every 16-byte address, `lookup` returns on both trees, with the same label (the same `aliased`
flag and the same metadata). -/
theorem lookup_order_independent (ps : List IPNet) (hps : ∀ q ∈ ps, q.Valid) (a : IP)
    (ha : a.length = 16) :
    ∃ t, insertAll InitRadix ps = .ok t ∧
      ∀ r, PermTree t.root r →
        ∃ l, t.lookup a = .ok l ∧
          (Radix.mk r t.isChanged t.constructionNewAliasFound).lookup a = .ok l := by
  obtain ⟨t, ht, hinv, _⟩ := insertAll_root ps hps InitRadix InitRadix_inv
  refine ⟨t, ht, ?_⟩
  intro r hr
  obtain ⟨hw1, hf1, hn1, hh1⟩ := hr.props hinv.1
  have hinv1 : (Radix.mk r t.isChanged t.constructionNewAliasFound).Inv :=
    ⟨hw1, by show r.endPrefix = 0; rw [hf1.1]; exact hinv.2.1,
      fun hl => hn1 (hinv.2.2 (by rw [← hf1.2.2.1]; exact hl))⟩
  have hs := lookup_spec t hinv a ha
  have hs1 := lookup_spec _ hinv1 a ha
  by_cases hex : ∃ L, Hit a t.root L
  · obtain ⟨L, hL⟩ := hex
    obtain ⟨L1, hL1, e1, e2⟩ := (hh1 a).1 L hL
    refine ⟨_, hs.1 L hL, ?_⟩
    rw [hs1.1 L1 hL1, e1, e2]
  · refine ⟨_, hs.2 hex, hs1.2 ?_⟩
    rintro ⟨L1, hL1⟩
    obtain ⟨L, hL, _, _⟩ := (hh1 a).2 L1 hL1
    exact hex ⟨L, hL⟩

theorem permTree_split46 : PermTree treeSplit46.root treeSplit46Swapped :=
  PermTree.child treeSplit46.root [] (Node.mk false 0 46 46 addrDb8
      [Node.mk true 46 48 2 addrDb8 [], Node.mk true 46 48 2 addrDb8Net2 []]) _ [] rfl
    (PermTree.perm _ [Node.mk true 46 48 2 addrDb8Net2 [], Node.mk true 46 48 2 addrDb8 []]
      (List.Perm.swap _ _ []))

theorem lookup_order_independent_witness :
    (∀ q ∈ [IPNet.mk addrDb8 48, IPNet.mk addrDb8Net2 48], q.Valid) ∧
    addrDb8Sub1.length = 16 ∧
    (∃ t, insertAll InitRadix [IPNet.mk addrDb8 48, IPNet.mk addrDb8Net2 48] = .ok t ∧
      ∀ r, PermTree t.root r →
        ∃ l, t.lookup addrDb8Sub1 = .ok l ∧
          (Radix.mk r t.isChanged t.constructionNewAliasFound).lookup addrDb8Sub1 = .ok l) ∧
    insertAll InitRadix [IPNet.mk addrDb8 48, IPNet.mk addrDb8Net2 48] = .ok treeSplit46 ∧
    PermTree treeSplit46.root treeSplit46Swapped ∧
    treeSplit46.lookup addrDb8Sub1 = .ok ⟨true, "2001:db8::/48"⟩ ∧
    (Radix.mk treeSplit46Swapped true false).lookup addrDb8Sub1 = .ok ⟨true, "2001:db8::/48"⟩ :=
  ⟨by decide, rfl,
    lookup_order_independent [IPNet.mk addrDb8 48, IPNet.mk addrDb8Net2 48] (by decide)
      addrDb8Sub1 rfl,
    rfl, permTree_split46, rfl, rfl⟩

/-! ## Every index is in range -/

theorem readBit_eq (ip : IP) (k : Nat) (h : k / 8 < ip.length) :
    readBit ip k = some (bitAt ip k) := by
  unfold readBit bitAt
  rw [List.get?_eq_get h]
  simp [List.getElem?_eq_getElem h]

theorem clearBitChecked_eq (v : IP) (j : Nat) (h : j / 8 < v.length) :
    clearBitChecked v j = some (clearBitAt v j) := by
  unfold clearBitChecked clearBitAt
  rw [List.get?_eq_get h]
  simp [List.getElem?_eq_getElem h]

theorem countMatchChecked_eq (ip v : IP) (hip : ip.length = 16) (hv : v.length = 16) (n : Nat) :
    ∀ k, n = 0 ∨ k + n ≤ 128 → countMatchChecked ip v n k = some (countMatch ip v n k) := by
  induction n with
  | zero => intro k _; rfl
  | succ n ih =>
    intro k hk
    have hk1 : k + (n + 1) ≤ 128 := by
      rcases hk with h | h
      · omega
      · exact h
    rw [countMatchChecked, countMatch, readBit_eq ip k (by omega), readBit_eq v k (by omega)]
    simp only []
    by_cases hne : bitAt ip k ≠ bitAt v k
    · rw [if_pos hne, if_pos hne]
    · rw [if_neg hne, if_neg hne, ih (k + 1) (by omega)]

theorem ok_cast {α : Type} {x r : α} (h : (Except.ok x : Except Fault α) = Except.ok r) :
    (Except.ok x : Except Panic α) = Except.ok r := by
  cases h; rfl

theorem lookupScanChecked_ok (ip : IP) (i : Nat) (hip : ip.length = 16) (cs : List Node) :
    ∀ j r, (∀ c ∈ cs, c.endPrefix ≤ 128 ∧ c.value.length = 16) →
      lookupScan ip i cs j = .ok r → lookupScanChecked ip i cs j = .ok r := by
  induction cs with
  | nil => intro j r _ h; exact ok_cast h
  | cons c cs ih =>
    intro j r hcs h
    have hc := hcs c (List.mem_cons_self _ _)
    have hrest : ∀ x ∈ cs, x.endPrefix ≤ 128 ∧ x.value.length = 16 :=
      fun x hx => hcs x (List.mem_cons_of_mem _ hx)
    rw [lookupScan] at h
    rw [lookupScanChecked]
    by_cases hi : i ≠ c.startPrefix
    · rw [if_pos hi] at h; cases h
    · rw [if_neg hi] at h
      rw [if_neg hi, countMatchChecked_eq ip c.value hip hc.2 _ i (by omega)]
      simp only [] at h ⊢
      by_cases h0 : countMatch ip c.value (c.endPrefix - i) i ≠ 0
      · rw [if_pos h0] at h ⊢
        by_cases h1 : countMatch ip c.value (c.endPrefix - i) i ≠ c.length
        · rw [if_pos h1] at h ⊢
          exact ih _ _ hrest h
        · rw [if_neg h1] at h ⊢
          exact ok_cast h
      · rw [if_neg h0] at h ⊢
        exact ih _ _ hrest h

theorem WF.child_bounds {n : Node} (h : WF n) :
    ∀ c ∈ n.children, c.endPrefix ≤ 128 ∧ c.value.length = 16 := fun c hc =>
  ⟨(h.childOk c hc).2.2.1, (h.childOk c hc).2.2.2.2.1⟩

theorem lookupLoopChecked_ok (ip : IP) (hip : ip.length = 16) (fuel : Nat) :
    ∀ (n : Node) (i : Nat) (l : Label), WF n →
      lookupLoop ip fuel n i = .ok l → lookupLoopChecked ip fuel n i = .ok l := by
  induction fuel with
  | zero =>
    intro n i l _ h
    rw [lookupLoop] at h
    rw [lookupLoopChecked]
    by_cases hi : i < 128
    · rw [if_pos hi] at h; cases h
    · rw [if_neg hi] at h ⊢; exact ok_cast h
  | succ fuel ih =>
    intro n i l hwf h
    rw [lookupLoop] at h
    rw [lookupLoopChecked]
    by_cases hi : i < 128
    · rw [if_pos hi] at h ⊢
      cases hs : lookupScan ip i n.children 0 with
      | error e => rw [hs] at h; cases h
      | ok o =>
        rw [hs] at h
        rw [lookupScanChecked_ok ip i hip n.children 0 o hwf.child_bounds hs]
        cases o with
        | none => exact ok_cast h
        | some mm =>
          obtain ⟨matchIndex, matchCounter⟩ := mm
          simp only [] at h ⊢
          cases hg : n.children.get? matchIndex with
          | none => rw [hg] at h; cases h
          | some c =>
            rw [hg] at h
            simp only [] at h ⊢
            by_cases hl : c.isLeaf = true
            · rw [if_pos hl] at h ⊢; exact ok_cast h
            · rw [if_neg hl] at h ⊢
              exact ih c _ l (hwf.child c (List.get?_mem hg)) h
    · rw [if_neg hi] at h ⊢; exact ok_cast h

theorem to16_of_length {a : IP} (h : a.length = 16) : to16 a = a := by
  unfold to16
  rw [if_neg (by omega), if_pos h]

theorem insertScanChecked_ok (ip : IP) (m i : Nat) (hip : ip.length = 16) (hm : m ≤ 128)
    (cs : List Node) :
    ∀ j r, (∀ c ∈ cs, c.endPrefix ≤ 128 ∧ c.value.length = 16) →
      insertScan ip m i cs j = .ok r → insertScanChecked ip m i cs j = .ok r := by
  induction cs with
  | nil => intro j r _ h; exact ok_cast h
  | cons c cs ih =>
    intro j r hcs h
    have hc := hcs c (List.mem_cons_self _ _)
    have hrest : ∀ x ∈ cs, x.endPrefix ≤ 128 ∧ x.value.length = 16 :=
      fun x hx => hcs x (List.mem_cons_of_mem _ hx)
    rw [insertScan] at h
    rw [insertScanChecked]
    by_cases hi : i ≠ c.startPrefix
    · rw [if_pos hi] at h; cases h
    · rw [if_neg hi] at h
      rw [if_neg hi]
      simp only [] at h ⊢
      by_cases hb : i = (if c.endPrefix > m then m else c.endPrefix) ∧ c.isLeaf = true
      · rw [if_pos hb] at h ⊢; exact ok_cast h
      · rw [if_neg hb] at h ⊢
        rw [countMatchChecked_eq ip c.value hip hc.2 _ i (by split_ifs <;> omega)]
        simp only []
        by_cases h0 : countMatch ip c.value ((if c.endPrefix > m then m else c.endPrefix) - i) i ≠ 0
        · rw [if_pos h0] at h ⊢; exact ok_cast h
        · rw [if_neg h0] at h ⊢
          exact ih _ _ hrest h

theorem insertLoopChecked_ok (p : IPNet) (hp : p.Valid) (fuel : Nat) :
    ∀ (n : Node) (i : Nat) (chg naf : Bool) (r : Step), WF n →
      insertLoop p fuel n i chg naf = .ok r → insertLoopChecked p fuel n i chg naf = .ok r := by
  have hip : (to16 p.ip).length = 16 := by rw [to16_of_length hp.1]; exact hp.1
  have hm : u8 p.ones ≤ 128 := by
    unfold u8
    rw [Nat.mod_eq_of_lt (by have := hp.2.2; omega)]
    exact hp.2.2
  induction fuel with
  | zero =>
    intro n i chg naf r _ h
    rw [insertLoop] at h
    rw [insertLoopChecked]
    by_cases hi : i < p.ones
    · rw [if_pos hi] at h; cases h
    · rw [if_neg hi] at h ⊢; exact ok_cast h
  | succ fuel ih =>
    intro n i chg naf r hwf h
    rw [insertLoop] at h
    rw [insertLoopChecked]
    by_cases hi : i < p.ones
    · rw [if_pos hi] at h ⊢
      simp only [] at h ⊢
      cases hs : insertScan (to16 p.ip) (u8 p.ones) i n.children 0 with
      | error e => rw [hs] at h; cases h
      | ok o =>
        rw [hs] at h
        rw [insertScanChecked_ok (to16 p.ip) (u8 p.ones) i hip hm n.children 0 o hwf.child_bounds hs]
        cases o with
        | none => exact ok_cast h
        | some mm =>
          obtain ⟨matchIndex, matchCounter⟩ := mm
          simp only [] at h ⊢
          cases hg : n.children.get? matchIndex with
          | none => rw [hg] at h; cases h
          | some c =>
            rw [hg] at h
            simp only [] at h ⊢
            have hcm : c ∈ n.children := List.get?_mem hg
            by_cases h1 : i + matchCounter < u8 p.ones
            · rw [if_pos h1] at h ⊢
              by_cases h2 : i + matchCounter = c.endPrefix
              · rw [if_pos h2] at h ⊢
                by_cases hl : c.isLeaf = true
                · rw [if_pos hl] at h ⊢; exact ok_cast h
                · rw [if_neg hl] at h ⊢
                  cases hrec : insertLoop p fuel c (i + matchCounter) chg naf with
                  | error e => rw [hrec] at h; cases h
                  | ok r1 =>
                    rw [hrec] at h
                    rw [ih c _ chg naf r1 (hwf.child c hcm) hrec]
                    exact ok_cast h
              · rw [if_neg h2] at h ⊢
                by_cases hl : c.isLeaf = true
                · rw [if_pos hl] at h ⊢
                  by_cases h3 : c.endPrefix = u8 p.ones ∧
                      u8sub (u8 p.ones) (u8 (i + matchCounter)) = 1
                  · rw [if_pos h3] at h ⊢
                    rw [clearBitChecked_eq c.value (i + matchCounter)
                      (by rw [(hwf.child_bounds c hcm).2]; omega)]
                    exact ok_cast h
                  · rw [if_neg h3] at h ⊢; exact ok_cast h
                · rw [if_neg hl] at h ⊢; exact ok_cast h
            · rw [if_neg h1] at h ⊢
              by_cases h4 : c.endPrefix ≠ u8 p.ones ∨ c.isLeaf = false
              · rw [if_pos h4] at h ⊢; exact ok_cast h
              · rw [if_neg h4] at h ⊢; exact ok_cast h
    · rw [if_neg hi] at h ⊢; exact ok_cast h

theorem lookupChecked_ok {t : Radix} (hinv : t.Inv) {a : IP} (ha : a.length = 16) {l : Label}
    (h : t.lookup a = .ok l) : t.lookupChecked a = .ok l := by
  unfold Radix.lookupChecked
  unfold Radix.lookup at h
  exact lookupLoopChecked_ok (to16 a) (by rw [to16_of_length ha]; exact ha) 128 t.root 0 l
    hinv.1 h

theorem insertChecked_ok {t : Radix} (hinv : t.Inv) {p : IPNet} (hp : p.Valid) {t1 : Radix}
    {b : Branch} (h : t.insertTraced p = .ok (t1, b)) : t.insertChecked p = .ok t1 := by
  unfold Radix.insertTraced at h
  unfold Radix.insertChecked
  by_cases hl : t.root.isLeaf = true
  · rw [if_pos hl] at h ⊢
    cases h
    rfl
  · rw [if_neg hl] at h ⊢
    cases hrec : insertLoop p p.ones t.root 0 t.isChanged t.constructionNewAliasFound with
    | error e => rw [hrec] at h; cases h
    | ok r =>
      rw [hrec] at h
      rw [insertLoopChecked_ok p hp p.ones t.root 0 _ _ r hinv.1 hrec]
      cases h
      rfl

/-- C30. No fault on a reachable tree: every run of inserts of prefixes with 16-byte addresses
and mask lengths in `[1, 128]` from the empty tree returns a tree on which, for every 16-byte
address and every such prefix, `lookup` and `insert` with every index checked return: neither
reaches the fatal branch `start Prefix don't match with current bit index`, no byte index
`k/8` leaves the 16-byte address, no child index leaves `children`, and the outer loops end
within the fuel of 128 levels for `lookup` and of `ones ≤ 128` levels for `insert`. The checked
runs return what the unchecked definitions return. -/
theorem no_fault_reachable (ps : List IPNet) (hps : ∀ q ∈ ps, q.Valid) (a : IP)
    (ha : a.length = 16) (p : IPNet) (hp : p.Valid) :
    ∃ t, insertAll InitRadix ps = .ok t ∧
      (∃ l, t.lookupChecked a = .ok l ∧ t.lookup a = .ok l) ∧
      (∃ t1, t.insertChecked p = .ok t1 ∧ t.insert p = .ok t1) ∧ p.ones ≤ 128 := by
  obtain ⟨t, ht, hinv, _⟩ := insertAll_root ps hps InitRadix InitRadix_inv
  refine ⟨t, ht, ?_, ?_, hp.2.2⟩
  · have hs := lookup_spec t hinv a ha
    by_cases hex : ∃ L, Hit a t.root L
    · obtain ⟨L, hL⟩ := hex
      exact ⟨_, lookupChecked_ok hinv ha (hs.1 L hL), hs.1 L hL⟩
    · exact ⟨_, lookupChecked_ok hinv ha (hs.2 hex), hs.2 hex⟩
  · obtain ⟨t1, b, h1, _⟩ := insertTraced_spec t hinv p hp
    exact ⟨t1, insertChecked_ok hinv hp h1, insert_eq_of_traced h1⟩

theorem no_fault_reachable_witness :
    (∀ q ∈ [IPNet.mk addrDb8 48, IPNet.mk addrDb8Net2 48], q.Valid) ∧
    addrDb8Sub1.length = 16 ∧ (IPNet.mk addrDb8Net1 48).Valid ∧
    (∃ t, insertAll InitRadix [IPNet.mk addrDb8 48, IPNet.mk addrDb8Net2 48] = .ok t ∧
      (∃ l, t.lookupChecked addrDb8Sub1 = .ok l ∧ t.lookup addrDb8Sub1 = .ok l) ∧
      (∃ t1, t.insertChecked (IPNet.mk addrDb8Net1 48) = .ok t1 ∧
        t.insert (IPNet.mk addrDb8Net1 48) = .ok t1) ∧ (IPNet.mk addrDb8Net1 48).ones ≤ 128) ∧
    treeSplit46.lookupChecked addrDb8Sub1 = .ok ⟨true, "2001:db8::/48"⟩ :=
  ⟨by decide, rfl, by decide,
    no_fault_reachable [IPNet.mk addrDb8 48, IPNet.mk addrDb8Net2 48] (by decide) addrDb8Sub1
      rfl (IPNet.mk addrDb8Net1 48) (by decide),
    rfl⟩

namespace Amt

/-! ## The node counts of `traverseBFSRadix` -/

theorem sizeQueue_append (q1 q2 : List (Node × Bool)) :
    sizeQueue (q1 ++ q2) = sizeQueue q1 + sizeQueue q2 := by
  induction q1 with
  | nil => simp [sizeQueue]
  | cons x q1 ih =>
    obtain ⟨n, b⟩ := x
    simp [sizeQueue, ih]; omega

theorem singlesQueue_append (q1 q2 : List (Node × Bool)) :
    singlesQueue (q1 ++ q2) = singlesQueue q1 + singlesQueue q2 := by
  induction q1 with
  | nil => simp [singlesQueue]
  | cons x q1 ih =>
    obtain ⟨n, b⟩ := x
    simp [singlesQueue, ih]; omega

theorem singles_eq (n : Node) :
    singles n = (if onesCount16 n.bitmap = 1 then 1 else 0) + singlesChildren n.children := by
  cases n; rfl

theorem sizeQueue_children (cs : List Node) :
    sizeQueue (cs.map (fun c => (c, false))) = sizeChildren cs := by
  induction cs with
  | nil => rfl
  | cons c cs ih => simp [sizeQueue, sizeChildren, ih]

theorem singlesQueue_children (cs : List Node) :
    singlesQueue (cs.map (fun c => (c, false))) = singlesChildren cs := by
  induction cs with
  | nil => rfl
  | cons c cs ih =>
    simp only [List.map_cons, singlesQueue, singlesChildren, ih, singles_eq]
    simp

theorem singlesQueue_le (q : List (Node × Bool)) : singlesQueue q ≤ sizeQueue q := by
  have hc : ∀ n : Node, singles n ≤ size n ∧ singlesChildren n.children ≤ sizeChildren n.children := by
    intro n
    induction n using Node.rec (motive_2 := fun cs => singlesChildren cs ≤ sizeChildren cs) with
    | mk l a v p b cs ih =>
      refine ⟨?_, ih⟩
      rw [singles_eq, size_eq]
      simp only [Node.bitmap_mk1, Node.children_mk1]
      split_ifs <;> omega
    | nil => simp [singlesChildren, sizeChildren]
    | cons c cs ih1 ih2 =>
      simp only [singlesChildren, sizeChildren]
      have := ih1.1
      omega
  induction q with
  | nil => simp [singlesQueue, sizeQueue]
  | cons x q ih =>
    obtain ⟨n, b⟩ := x
    simp only [singlesQueue, sizeQueue]
    have h1 := (hc n).2
    have h2 := size_eq n
    split_ifs <;> omega

/-- The loop of `traverseBFSRadix` ends within fuel for the nodes still to visit, having added
to `normalNodeCounter` the number of those nodes and to `nodeCounter` the same number less the
nodes with exactly one bit set that are not the root. -/
theorem bfsRadixLoop_spec (fuel : Nat) : ∀ (q : List (Node × Bool)) (nc nn : Int),
    sizeQueue q ≤ fuel →
    bfsRadixLoop fuel q nc nn =
      some (nc + (sizeQueue q : Int) - (singlesQueue q : Int), nn + (sizeQueue q : Int)) := by
  induction fuel with
  | zero =>
    intro q nc nn h
    cases q with
    | nil => simp [bfsRadixLoop, sizeQueue, singlesQueue]
    | cons x q =>
      obtain ⟨n, b⟩ := x
      simp only [sizeQueue] at h
      have := size_pos n
      omega
  | succ fuel ih =>
    intro q nc nn h
    cases q with
    | nil => simp [bfsRadixLoop, sizeQueue, singlesQueue]
    | cons x q =>
      obtain ⟨n, b⟩ := x
      simp only [sizeQueue] at h
      have hsz := size_eq n
      have hq : sizeQueue (q ++ n.children.map (fun c => (c, false))) ≤ fuel := by
        rw [sizeQueue_append, sizeQueue_children]; omega
      rw [bfsRadixLoop]
      by_cases hc : onesCount16 n.bitmap = 1 ∧ b = false
      · rw [if_pos hc, ih _ _ _ hq]
        simp only [sizeQueue, singlesQueue, sizeQueue_append, singlesQueue_append,
          sizeQueue_children, singlesQueue_children, if_pos hc, hsz]
        congr 1
        push_cast
        congr 1 <;> omega
      · rw [if_neg hc, ih _ _ _ hq]
        simp only [sizeQueue, singlesQueue, sizeQueue_append, singlesQueue_append,
          sizeQueue_children, singlesQueue_children, if_neg hc, hsz]
        congr 1
        push_cast
        congr 1 <;> omega

/-- C21. For every trie `traverseBFSRadix` returns the triple `[N, N - U, U]`, where `N` is the
number of nodes reachable from the root, the root included, and `U` is the number of nodes
other than the root whose bitmap has exactly one bit set; the root is not subtracted even when
its own bitmap has exactly one bit set. After the single 16-byte key `2001:db8::1` is inserted
into the empty trie the root has one bit set and the triple is `[33, 2, 31]`. -/
theorem traverseBFSRadix_counts :
    (∀ t : AMT, t.traverseBFSRadix =
      some [(size t.root : Int), (size t.root : Int) - (singlesChildren t.root.children : Int),
        (singlesChildren t.root.children : Int)]) ∧
    ∃ t, InitAMT.insert addrDb8Host1 = some t ∧ onesCount16 t.root.bitmap = 1 ∧
      t.traverseBFSRadix = some [33, 2, 31] := by
  constructor
  · intro t
    unfold AMT.traverseBFSRadix
    rw [bfsRadixLoop_spec (size t.root) [(t.root, true)] 0 0 (by simp [sizeQueue])]
    simp only [sizeQueue, singlesQueue]
    simp
  · exact ⟨_, rfl, by decide, by decide⟩

/-- C22, as it is worded, fails: after the first of the four three-byte keys the trie has 7
nodes, not 33, and the four triples are not the golden sequence. -/
theorem scenarioS7_as_stated_fails : ¬ ScenarioS7AsStated := by
  have h : triplesAfterEach InitAMT testKeys =
      some [[7, 2, 5], [12, 4, 8], [18, 5, 13], [19, 7, 12]] := by decide!
  unfold ScenarioS7AsStated
  rw [h]
  decide

/-- C22, amended. Starting from the empty trie and inserting the three-byte keys `FA4501`,
`FB4501`, `304501`, `304502` in that order, the triples that `traverseBFSRadix` returns after
the four inserts are `[7,2,5]`, `[12,4,8]`, `[18,5,13]` and `[19,7,12]`. The sequence
`[33,2,31]`, `[34,4,30]`, `[35,5,30]`, `[52,7,45]` is what 16-byte keys give, here
`2001:db8::1`, `2001:db8::2`, `2001:db8::3` and `2001:db8:0:1::`. -/
theorem scenarioS7_triples :
    triplesAfterEach InitAMT testKeys =
      some [[7, 2, 5], [12, 4, 8], [18, 5, 13], [19, 7, 12]] ∧
    triplesAfterEach InitAMT [addrDb8Host1, addrDb8Host2, addrDb8Host3, addrDb8Sub1] =
      some [[33, 2, 31], [34, 4, 30], [35, 5, 30], [52, 7, 45]] := by
  constructor <;> decide!

/-! ## The shape invariant on every reachable trie -/

theorem insertWithCheckpointLoop_eq (w : List Nat) :
    ∀ n, insertWithCheckpointLoop w n = insertLoop w n := by
  induction w with
  | nil => intro n; rfl
  | cons x w ih =>
    intro n
    rw [insertWithCheckpointLoop, insertLoop]
    simp only [ih]

theorem insertWithCheckpoint_eq (t : AMT) (k : List Nat) :
    t.insertWithCheckpoint k = t.insert k := by
  unfold AMT.insertWithCheckpoint AMT.insert
  rw [insertWithCheckpointLoop_eq]

theorem wfa_set {n c c1 : Node} {i : Nat} (h : WFA n) (hg : n.children.get? i = some c)
    (hv : c1.value = c.value) (hw : WFA c1) : WFA (n.setChildren (n.children.set i c1)) := by
  have hmap : (n.children.set i c1).map Node.value = n.children.map Node.value := by
    rw [List.map_set, hv]
    apply List.ext_get?
    intro j
    by_cases hj : i = j
    · subst hj
      rw [List.get?_eq_getElem?, List.get?_eq_getElem?, List.getElem?_set_self']
      rw [List.get?_eq_getElem?] at hg
      simp [hg]
    · rw [List.get?_eq_getElem?, List.get?_eq_getElem?, List.getElem?_set_ne hj]
  have hmem : ∀ v, (∃ a ∈ n.children.set i c1, a.value = v) ↔ ∃ a ∈ n.children, a.value = v := by
    intro v
    have e1 : (∃ a ∈ n.children.set i c1, a.value = v) ↔ v ∈ (n.children.set i c1).map Node.value :=
      List.mem_map.symm
    have e2 : (∃ a ∈ n.children, a.value = v) ↔ v ∈ n.children.map Node.value :=
      List.mem_map.symm
    rw [e1, e2, hmap]
  refine WFA.mk _ ?_ ?_ ?_ ?_
  · have := List.pairwise_map.2 h.sorted
    rw [← hmap] at this
    simpa using List.pairwise_map.1 this
  · intro x
    simp only [Node.bitmap_setChildren1, Node.children_setChildren1]
    rw [h.bits x, hmem]
  · intro a ha
    simp only [Node.children_setChildren1] at ha
    obtain ⟨b, hb, hbv⟩ := (hmem a.value).1 ⟨a, ha, rfl⟩
    rw [← hbv]; exact h.small b hb
  · intro a ha
    simp only [Node.children_setChildren1] at ha
    rcases List.mem_or_eq_of_mem_set ha with h1 | h1
    · exact h.sub a h1
    · rw [h1]; exact hw

theorem shift_mod_zero (x : Nat) (hx : 16 ≤ x) : (1 <<< x) % 65536 = 0 := by
  rw [Nat.one_shiftLeft]
  have : 2 ^ x = 65536 * 2 ^ (x - 16) := by
    have h16 : (65536 : Nat) = 2 ^ 16 := by decide
    rw [h16, ← Nat.pow_add]
    congr 1
    omega
  rw [this, Nat.mul_mod_right]

theorem getIndex_large (n : Node) (x : Nat) (hx : 16 ≤ x) : n.getIndex x = none := by
  unfold Node.getIndex
  simp only [shift_mod_zero x hx]
  simp

/-- A call of `removeChild` on a well-formed node returns a well-formed node with the same
nibble, whatever the value asked for. -/
theorem removeChild_wfa (n : Node) (x : Nat) (h : WFA n) :
    ∃ n1 s, n.removeChild x = some (n1, s) ∧ WFA n1 ∧ n1.value = n.value := by
  by_cases hx : x < 16
  · cases slot_cases n x hx h with
    | present pre c post e hc hpre hpost hidx =>
      have hrc := @removeChild_slot n x pre post c hidx
      rw [← e, Node.setChildren_same] at hrc
      exact ⟨_, _, hrc, wfa_cut h hx e hc hpre hpost, by simp⟩
    | absent pre post e hpre hpost hidx _ =>
      refine ⟨n, -1, ?_, h, rfl⟩
      unfold Node.removeChild
      rw [hidx]
  · refine ⟨n, -1, ?_, h, rfl⟩
    unfold Node.removeChild
    rw [getIndex_large n x (by omega)]

theorem removeStep_wfa (node : Node) (isRoot : Bool) (pv cnt : Nat) (h : WFA node) :
    ∃ r, removeStep node isRoot pv cnt = some r ∧ WFA r.node ∧ r.node.value = node.value := by
  unfold removeStep
  by_cases hl : node.isLeaf = true
  · rw [if_pos hl]
    exact ⟨_, rfl, h, rfl⟩
  · rw [if_neg hl]
    obtain ⟨n1, s, hr, hw, hv⟩ := removeChild_wfa node pv h
    rw [hr]
    simp only []
    split_ifs
    · exact ⟨_, rfl, hw, hv⟩
    · exact ⟨_, rfl, hw, hv⟩
    · exact ⟨_, rfl, hw, hv⟩

/-- The loop of `removeEntry` over an existing path, of any key, returns and leaves a
well-formed node with the same nibble. -/
theorem removeWalk_wfa (w : List Nat) : ∀ (n : Node) (isRoot : Bool), WFA n →
    (∀ x ∈ w, x < 16) → (∃ m, nodeAt n w = some m) →
    ∃ r, removeWalk (pathNodes n w) w isRoot = some r ∧ WFA r.node ∧
      r.node.value = n.value := by
  induction w with
  | nil =>
    intro n isRoot hn _ _
    exact removeStep_wfa n isRoot n.value 0 hn
  | cons x w ih =>
    intro n isRoot hn hw hm
    obtain ⟨m, hm⟩ := hm
    have hx : x < 16 := hw x (List.mem_cons_self _ _)
    have hw1 : ∀ y ∈ w, y < 16 := fun y hy => hw y (List.mem_cons_of_mem _ hy)
    cases hc : child n x with
    | none => rw [nodeAt, hc] at hm; cases hm
    | some c =>
      rw [nodeAt, hc] at hm
      obtain ⟨i, hi, hg⟩ := (getIndex_child n x hx hn).1 c hc
      obtain ⟨rc, hrc, hwc, hvc⟩ := ih c false (hn.sub c (child_mem hc).1) hw1 ⟨m, hm⟩
      have hpath : pathNodes n (x :: w) = n :: pathNodes c w := by rw [pathNodes, hc]
      rw [hpath, removeWalk_cons, hrc]
      simp only [hi]
      have hw2 := wfa_set hn hg hvc hwc
      by_cases hs : rc.stopped = true
      · rw [if_pos hs]
        exact ⟨_, rfl, hw2, by simp⟩
      · rw [if_neg hs]
        obtain ⟨r, hr, hwr, hvr⟩ := removeStep_wfa _ isRoot rc.prevValue rc.deletedNodeCounter hw2
        exact ⟨r, hr, hwr, by rw [hvr]; simp⟩

theorem removeEntry_wfa (t : AMT) (k : List Nat) (h : WFA t.root) :
    ∃ t1 c, t.removeEntry k = some (t1, c) ∧ WFA t1.root := by
  have hg := getPathLoop_spec (nibbles k) t.root [] h (nibbles_lt k)
  unfold AMT.removeEntry AMT.getPath
  rw [hg]
  cases hm : nodeAt t.root (nibbles k) with
  | none => exact ⟨t, 0, rfl, h⟩
  | some m =>
    simp only [List.nil_append]
    obtain ⟨rest, hrest⟩ := pathNodes_cons t.root (nibbles k)
    obtain ⟨r, hr, hw, _⟩ := removeWalk_wfa (nibbles k) t.root true h (nibbles_lt k) ⟨m, hm⟩
    rw [hrest]
    simp only []
    rw [← hrest, hr]
    exact ⟨_, _, rfl, hw⟩

theorem pruneChildren_wfa (n : Node) (h : WFA n) :
    ∃ r, pruneChildren n = some r ∧ WFA r.1 ∧ r.1.value = n.value := by
  obtain ⟨r, hr, hl, hn⟩ := pruneChildren_total n
  refine ⟨r, hr, ?_⟩
  cases hcl : n.isLeaf with
  | true => rw [hl hcl]; exact ⟨h, rfl⟩
  | false => rw [(hn hcl).1]; exact ⟨wfa_fresh _ _ _ _, rfl⟩

theorem pruneAt_wfa (w : List Nat) : ∀ (n r : Node) (k : Nat), WFA n →
    pruneAt n w = some (r, k) → WFA r ∧ r.value = n.value := by
  induction w with
  | nil =>
    intro n r k hn h
    obtain ⟨r1, hr1, hw, hv⟩ := pruneChildren_wfa n hn
    rw [pruneAt] at h
    rw [hr1] at h
    cases h
    exact ⟨hw, hv⟩
  | cons i w ih =>
    intro n r k hn h
    rw [pruneAt] at h
    cases hg : n.children.get? i with
    | none => rw [hg] at h; cases h
    | some c =>
      rw [hg] at h
      simp only [] at h
      cases hp : pruneAt c w with
      | none => rw [hp] at h; cases h
      | some res =>
        obtain ⟨c1, k1⟩ := res
        rw [hp] at h
        simp only [Option.some.injEq, Prod.mk.injEq] at h
        obtain ⟨hr, _⟩ := h
        obtain ⟨hw1, hv1⟩ := ih c c1 k1 (hn.sub c (List.get?_mem hg)) hp
        rw [← hr]
        exact ⟨wfa_set hn hg hv1 hw1, by simp⟩

theorem reach_wfa {t : AMT} (h : Reach t) : WFA t.root := by
  induction h with
  | init => exact wfa_init
  | insert t k t1 _ hi ih =>
    obtain ⟨t2, h2, hw, _⟩ := insert_stored t k ih
    rw [hi] at h2
    cases h2
    exact hw
  | insertWithCheckpoint t k t1 _ hi ih =>
    rw [insertWithCheckpoint_eq] at hi
    obtain ⟨t2, h2, hw, _⟩ := insert_stored t k ih
    rw [hi] at h2
    cases h2
    exact hw
  | removeEntry t k t1 c _ hr ih =>
    obtain ⟨t2, c2, h2, hw⟩ := removeEntry_wfa t k ih
    rw [hr] at h2
    cases h2
    exact hw
  | prune t w r k _ hp ih => exact (pruneAt_wfa w t.root r k ih hp).1

theorem Below.wfa {m n : Node} (h : Below m n) (hw : WFA n) : WFA m := by
  induction h with
  | self n => exact hw
  | deeper n c m hc _ ih => exact ih (hw.sub c hc)

theorem slotShape_of_wfa {n : Node} (h : WFA n) : SlotShape n := by
  refine ⟨?_, ?_, h.sorted⟩
  · have hc := count_below n.bitmap n.children 16 (Nat.le_refl _) h.sorted (fun i _ => h.bits i)
    have e1 : (n.children.filter (fun c => decide (c.value < 16))) = n.children := by
      apply List.filter_eq_self.2
      intro c hc1
      simpa using h.small c hc1
    have e2 : (List.range 16).filter (fun i => n.bitmap.testBit i && decide (i < 16)) =
        (List.range 16).filter (fun i => n.bitmap.testBit i) := by
      apply List.filter_congr
      intro i hi
      have : i < 16 := List.mem_range.1 hi
      simp [this]
    rw [e1, e2] at hc
    unfold onesCount16
    exact hc.symm
  · intro x hx hb
    obtain ⟨c, hc, hcv⟩ := (h.bits x).1 hb
    have hch : child n x = some c := by rw [← hcv]; exact child_of_mem h hc
    obtain ⟨i, hi, hg⟩ := (getIndex_child n x hx h).1 c hch
    unfold Node.getIndex at hi
    simp only [] at hi
    split_ifs at hi with h0
    cases hi
    exact ⟨c, hg, hcv⟩

/-- C23. The shape invariant: in every trie reachable from `InitAMT` by calls of `insert`,
`insertWithCheckpoint`, `removeEntry` and of `pruneChildren` on a node of the trie, every node
has as many children as its bitmap has bits set, for every nibble whose bit is set the child in
the slot `popcount(bitmap & ((1 << x) - 1))` carries that nibble, and the children are in
strictly increasing order of their nibble. On such a trie each of the four operations
returns. -/
theorem shape_invariant (t : AMT) (h : Reach t) :
    (∀ m, Below m t.root → SlotShape m) ∧
    (∀ k, ∃ t1, t.insert k = some t1) ∧
    (∀ k, ∃ t1, t.insertWithCheckpoint k = some t1) ∧
    (∀ k, ∃ t1 c, t.removeEntry k = some (t1, c)) ∧
    (∀ m, Below m t.root → ∃ r, pruneChildren m = some r) := by
  have hw := reach_wfa h
  refine ⟨fun m hm => slotShape_of_wfa (hm.wfa hw), ?_, ?_, ?_, ?_⟩
  · intro k
    obtain ⟨t1, h1, _⟩ := insert_stored t k hw
    exact ⟨t1, h1⟩
  · intro k
    obtain ⟨t1, h1, _⟩ := insert_stored t k hw
    exact ⟨t1, by rw [insertWithCheckpoint_eq]; exact h1⟩
  · intro k
    obtain ⟨t1, c, h1, _⟩ := removeEntry_wfa t k hw
    exact ⟨t1, c, h1⟩
  · intro m _
    obtain ⟨r, hr, _⟩ := pruneChildren_total m
    exact ⟨r, hr⟩

theorem reach_example : Reach reachExample := by
  have h1 : Reach reachFirst := Reach.insert InitAMT [0xFA] _ Reach.init (by rfl)
  have h2 : Reach (reachStep true) := Reach.insertWithCheckpoint _ [0xFB] _ h1 (by rfl)
  have h3 : Reach (reachStep false) := Reach.removeEntry _ [0xFA] _ 1 h2 (by rfl)
  exact Reach.prune _ [0] _ 1 h3 (by rfl)

theorem shape_invariant_witness :
    Reach reachExample ∧
    (∀ m, Below m reachExample.root → SlotShape m) ∧
    (∀ k, ∃ t1, reachExample.insert k = some t1) ∧
    (∀ k, ∃ t1, reachExample.insertWithCheckpoint k = some t1) ∧
    (∀ k, ∃ t1 c, reachExample.removeEntry k = some (t1, c)) ∧
    (∀ m, Below m reachExample.root → ∃ r, pruneChildren m = some r) :=
  ⟨reach_example, shape_invariant reachExample reach_example⟩

end Amt

/-! ## The status of a lookup -/

/-- C27. The status mapping of `RunLookUp`, for every tree and target: whenever the radix
lookup returns a label, `RunLookUp` returns a response whose result is that label unchanged,
whose status is `success` with an empty error string exactly when the label has
`aliased = true`, and `no-match` exactly when it has `aliased = false`; the status is never
`unknown-error`. `RunLookUp` fails to return only when the lookup does, which does not happen
on a tree that satisfies the invariant of the engine with a 16-byte target. On the tree with
`2001:db8::/48` and `2001:db8:2::/48`, the target `2001:db8:0:1::` gets `success` and the
target `2001:db8:1::` gets `no-match`. -/
theorem runLookUp_status :
    (∀ (l : Radix) (target : IP) (expanded : Bool) (stamp : String)
        (expand : IP → Option String),
      (∀ label, l.lookup target = .ok label →
        ∃ resp sent, RunLookUp l target expanded stamp expand = .ok (resp, sent) ∧
          resp.result = label ∧
          ((resp.status = LOOKUP_SUCCESS ∧ resp.error = "") ↔ label.aliased = true) ∧
          (resp.status = LOOKUP_NO_MATCH ↔ label.aliased = false) ∧
          resp.status ≠ LOOKUP_UNKNOWN_ERROR ∧
          (sent = MonitorStatus.statusSuccess ↔ label.aliased = true)) ∧
      (∀ e, l.lookup target = .error e →
        RunLookUp l target expanded stamp expand = .error e) ∧
      (l.Inv → target.length = 16 → ∃ label, l.lookup target = .ok label)) ∧
    RunLookUp treeSplit46 addrDb8Sub1 false "t" (fun _ => none) =
      .ok (⟨"2001:db8:0:1::", "success", ⟨true, "2001:db8::/48"⟩, "t", ""⟩,
        MonitorStatus.statusSuccess) ∧
    RunLookUp treeSplit46 addrDb8Net1 false "t" (fun _ => none) =
      .ok (⟨"2001:db8:1::", "no-match", ⟨false, ""⟩, "t", ""⟩,
        MonitorStatus.statusFailure) := by
  refine ⟨?_, by rfl, by rfl⟩
  intro l target expanded stamp expand
  refine ⟨?_, ?_, ?_⟩
  · intro label hl
    unfold RunLookUp
    rw [hl]
    simp only []
    cases ha : label.aliased with
    | true =>
      refine ⟨_, _, rfl, rfl, ?_, ?_, ?_, ?_⟩
      · simp [LOOKUP_SUCCESS]
      · simp [LOOKUP_SUCCESS, LOOKUP_NO_MATCH]
      · simp [LOOKUP_SUCCESS, LOOKUP_UNKNOWN_ERROR]
      · simp
    | false =>
      refine ⟨_, _, rfl, rfl, ?_, ?_, ?_, ?_⟩
      · simp [LOOKUP_SUCCESS, LOOKUP_NO_MATCH]
      · simp [LOOKUP_NO_MATCH]
      · simp [LOOKUP_NO_MATCH, LOOKUP_UNKNOWN_ERROR]
      · simp
  · intro e he
    unfold RunLookUp
    rw [he]
  · intro hinv ht
    have hs := lookup_spec l hinv target ht
    by_cases hex : ∃ L, Hit target l.root L
    · obtain ⟨L, hL⟩ := hex
      exact ⟨_, hs.1 L hL⟩
    · exact ⟨_, hs.2 hex⟩

/-! ## The expansion of `0.0.0.0/0` does not end -/

theorem incrementRev_length (l : List Nat) : (incrementRev l).length = l.length := by
  induction l with
  | nil => rfl
  | cons b bs ih =>
    rw [incrementRev]
    split_ifs <;> simp [ih]

theorem incrementIP_length (ip : IP) : (incrementIP ip).length = ip.length := by
  unfold incrementIP
  simp [incrementRev_length]

theorem blockAll4_contains (ip : IP) (h : ip.length = 4) : blockAll4.contains ip = true := by
  have h4 : to4 ip = some ip := by unfold to4; rw [if_pos h]
  have hn : networkNumberAndMask blockAll4 = ([0, 0, 0, 0], [0, 0, 0, 0]) := by decide
  have hz : ∀ i : Nat, (([0, 0, 0, 0] : List Nat)[i]?).getD 0 = 0 := by
    intro i
    rcases i with _ | _ | _ | _ | _ | i <;> rfl
  unfold CidrBlock.contains
  rw [hn, h4]
  simp only [h, List.length_cons, List.length_nil]
  simp only [List.getD_eq_getElem?_getD, hz, Nat.and_zero]
  simp

theorem expandLoop_all4 (fuel : Nat) : ∀ (ip : IP) (sent : List IP), ip.length = 4 →
    ∃ more, expandLoop blockAll4 fuel ip sent = (false, sent ++ more) ∧ more.length = fuel := by
  induction fuel with
  | zero => intro ip sent _; exact ⟨[], by simp [expandLoop], rfl⟩
  | succ fuel ih =>
    intro ip sent h
    rw [expandLoop, blockAll4_contains ip h, if_pos rfl]
    obtain ⟨more, hm, hl⟩ := ih (incrementIP ip) (sent ++ [duplicateIP ip])
      (by rw [incrementIP_length]; exact h)
    refine ⟨duplicateIP ip :: more, ?_, by simp [hl]⟩
    rw [hm]
    simp

/-- C26. Evaluation of the expansion loop of `GetTargets` on the lookup command `0.0.0.0/0`:
the loop has not ended after any number of iterations, and has then sent as many commands as
iterations, so more than the `2^32` addresses of the block; `incrementIP` wraps
`255.255.255.255` to `0.0.0.0`, which the block contains. On `192.0.2.0/30` the loop ends
after the four addresses of the block, in ascending order. -/
theorem expand_all_never_ends :
    (∀ fuel, ∃ sent, expandCIDR blockAll4 fuel = (false, sent) ∧ sent.length = fuel) ∧
    incrementIP [255, 255, 255, 255] = [0, 0, 0, 0] ∧
    blockAll4.contains [0, 0, 0, 0] = true ∧
    expandCIDR blockSlash30 5 =
      (true, [[192, 0, 2, 0], [192, 0, 2, 1], [192, 0, 2, 2], [192, 0, 2, 3]]) := by
  refine ⟨?_, by decide, by decide, by decide⟩
  intro fuel
  obtain ⟨more, hm, hl⟩ := expandLoop_all4 fuel (ipMask blockAll4.ip blockAll4.mask) []
    (by decide)
  exact ⟨more, by unfold expandCIDR; rw [hm]; simp, hl⟩

/-! ## Who can hold the lock together -/

theorem filter_erase_length (l : List HostOp) (a : HostOp) (p : HostOp → Bool) (ha : a ∈ l)
    (hp : p a = true) : (l.filter p).length = ((l.erase a).filter p).length + 1 := by
  have hperm := (List.perm_cons_erase ha).filter p
  rw [hperm.length_eq, List.filter_cons_of_pos hp]
  rfl

theorem lockOf_read_iff (op : HostOp) : lockOf op = LockMode.read ↔ op ≠ HostOp.insert := by
  cases op <;> simp [lockOf]

theorem lockInv_init : LockInv HostState.init := by
  refine ⟨rfl, ?_, ?_, ?_⟩
  · intro h; cases h
  · intro _ h; cases h
  · decide

theorem lockInv_step {s s1 : HostState} (hs : LockInv s) (h : HostStep s s1) : LockInv s1 := by
  obtain ⟨h1, h2, h3, h4⟩ := hs
  cases h with
  | start op m1 hacq hexp =>
    cases hop : lockOf op with
    | read =>
      rw [hop] at hacq
      unfold RWMutex.acquire at hacq
      by_cases hw : s.mux.writer = true
      · rw [if_pos hw] at hacq; cases hacq
      · rw [if_neg hw] at hacq
        cases hacq
        have hw0 : s.mux.writer = false := by simpa using hw
        have hne : op ≠ HostOp.insert := (lockOf_read_iff op).1 hop
        refine ⟨?_, ?_, ?_, ?_⟩
        · show s.mux.readers + 1 = _
          rw [List.filter_cons_of_pos (by simpa using hop), List.length_cons, h1]
        · intro hw1
          exact absurd hw1 hw
        · intro _ hm
          rcases List.mem_cons.1 hm with hm | hm
          · exact hne hm.symm
          · exact h3 hw0 hm
        · show (op :: s.running).count HostOp.export ≤ 1
          by_cases he : op = HostOp.export
          · have := hexp he
            rw [he, List.count_cons_self, List.count_eq_zero_of_not_mem this]
          · rw [List.count_cons_of_ne (fun h => he h.symm)]
            exact h4
    | write =>
      rw [hop] at hacq
      unfold RWMutex.acquire at hacq
      by_cases hw : s.mux.writer = true ∨ s.mux.readers ≠ 0
      · rw [if_pos hw] at hacq; cases hacq
      · rw [if_neg hw] at hacq
        cases hacq
        have hw0 : s.mux.writer = false := by
          cases hwr : s.mux.writer
          · rfl
          · exact absurd (Or.inl hwr) hw
        have hr0 : s.mux.readers = 0 := by
          by_contra hne
          exact hw (Or.inr hne)
        have hop1 : op = HostOp.insert := by
          cases op <;> simp [lockOf] at hop
          rfl
        have hnil : s.running = [] := by
          cases hrun : s.running with
          | nil => rfl
          | cons a l =>
            exfalso
            have ha : a ∈ s.running := by rw [hrun]; simp
            by_cases hai : a = HostOp.insert
            · exact h3 hw0 (hai ▸ ha)
            · have hrd : lockOf a = LockMode.read := (lockOf_read_iff a).2 hai
              rw [hr0, hrun, List.filter_cons_of_pos (by simpa using hrd)] at h1
              simp at h1
        refine ⟨?_, ?_, ?_, ?_⟩
        · show s.mux.readers = _
          rw [hr0, hnil, hop1]
          rfl
        · intro _
          show op :: s.running = _
          rw [hnil, hop1]
        · intro hw1
          cases hw1
        · show (op :: s.running).count HostOp.export ≤ 1
          rw [hnil, hop1]
          decide
  | finish op hmem =>
    by_cases hw : s.mux.writer = true
    · have hrun := h2 hw
      have hop1 : op = HostOp.insert := by
        rw [hrun] at hmem
        simpa using hmem
      refine ⟨?_, ?_, ?_, ?_⟩
      · show (s.mux.release (lockOf op)).readers = _
        rw [hop1, hrun]
        show s.mux.readers = _
        rw [h1, hrun]
        rfl
      · intro hw1
        rw [hop1] at hw1
        cases hw1
      · intro _
        show HostOp.insert ∉ s.running.erase op
        rw [hrun, hop1]
        decide
      · show (s.running.erase op).count HostOp.export ≤ 1
        rw [hrun, hop1]
        decide
    · have hw0 : s.mux.writer = false := by simpa using hw
      have hni := h3 hw0
      have hne : op ≠ HostOp.insert := fun h => hni (h ▸ hmem)
      have hrd : lockOf op = LockMode.read := (lockOf_read_iff op).2 hne
      have hcount := filter_erase_length s.running op
        (fun x => decide (lockOf x = LockMode.read)) hmem (by simpa using hrd)
      refine ⟨?_, ?_, ?_, ?_⟩
      · show (s.mux.release (lockOf op)).readers = _
        rw [hrd]
        show s.mux.readers - 1 = _
        rw [h1, hcount]
        rfl
      · intro hw1
        rw [hrd] at hw1
        exact absurd hw1 hw
      · intro _ hm
        exact hni (List.mem_of_mem_erase hm)
      · show (s.running.erase op).count HostOp.export ≤ 1
        exact Nat.le_trans (List.Sublist.count_le (List.erase_sublist _ _) _) h4

theorem lockInv_of_reach {s : HostState} (h : HostReach s) : LockInv s := by
  induction h with
  | init => exact lockInv_init
  | step s s1 _ hstep ih => exact lockInv_step ih hstep

theorem reach_lookupExport : HostReach hostLookupExport :=
  HostReach.step _ _
    (HostReach.step _ _ HostReach.init
      (HostStep.start HostState.init HostOp.lookup { readers := 1, writer := false } rfl
        (by decide)))
    (HostStep.start { mux := { readers := 1, writer := false }, running := [HostOp.lookup] }
      HostOp.export { readers := 2, writer := false } rfl (by decide))

theorem reach_twoLookups : HostReach hostTwoLookups :=
  HostReach.step _ _
    (HostReach.step _ _ HostReach.init
      (HostStep.start HostState.init HostOp.lookup { readers := 1, writer := false } rfl
        (by decide)))
    (HostStep.start { mux := { readers := 1, writer := false }, running := [HostOp.lookup] }
      HostOp.lookup { readers := 2, writer := false } rfl (by decide))

theorem reach_insert : HostReach hostInsert :=
  HostReach.step _ _ HostReach.init
    (HostStep.start HostState.init HostOp.insert { readers := 0, writer := true } rfl
      (by decide))

/-- C28, as it is worded, fails: a lookup worker and the checkpoint goroutine both take the
lock by `RLock`, so the state in which an export and a lookup run together is reachable. -/
theorem writer_exclusivity_as_stated_fails : ¬ WriterExclusivityAsStated := by
  intro h
  have := (h hostLookupExport reach_lookupExport).2 (by decide)
  exact absurd this (by decide)

/-- C28, amended. In every reachable state of the host loop an insert that is running is the
only operation running: no lookup, no export and no other insert runs with it. An export does
not run with an insert or with another export, but it holds the lock by `RLock` as a lookup
does, so lookups may run together with an export as they may with each other: the states with
an export and a lookup, and with two lookups, are reachable. -/
theorem insert_exclusive (s : HostState) (h : HostReach s) :
    (HostOp.insert ∈ s.running → s.running = [HostOp.insert]) ∧
    (HostOp.export ∈ s.running → HostOp.insert ∉ s.running) ∧
    s.running.count HostOp.export ≤ 1 ∧
    HostReach hostLookupExport ∧ HostReach hostTwoLookups := by
  obtain ⟨_, h2, h3, h4⟩ := lockInv_of_reach h
  refine ⟨?_, ?_, h4, reach_lookupExport, reach_twoLookups⟩
  · intro hi
    cases hw : s.mux.writer with
    | true => exact h2 hw
    | false => exact absurd hi (h3 hw)
  · intro he hi
    cases hw : s.mux.writer with
    | true =>
      rw [h2 hw] at he
      simp at he
    | false => exact h3 hw hi

theorem insert_exclusive_witness :
    HostReach hostInsert ∧
    (HostOp.insert ∈ hostInsert.running → hostInsert.running = [HostOp.insert]) ∧
    (HostOp.export ∈ hostInsert.running → HostOp.insert ∉ hostInsert.running) ∧
    hostInsert.running.count HostOp.export ≤ 1 ∧
    HostReach hostLookupExport ∧ HostReach hostTwoLookups :=
  ⟨reach_insert, insert_exclusive hostInsert reach_insert⟩

/-! ## The shape of a leaf split -/

theorem singleLeafTree_inv (v : IP) (e : Nat) (chg naf : Bool) (hv : v.length = 16)
    (he1 : 1 ≤ e) (he : e ≤ 128) : (singleLeafTree v e chg naf).Inv := by
  have hp : (IPNet.mk v e).Valid := ⟨hv, he1, he⟩
  obtain ⟨t1, b1, h1, hinv1, _, _, hcase1⟩ := insertTraced_spec InitRadix InitRadix_inv _ hp
  rcases hcase1 with ⟨_, _, _, _, hroot1⟩ | ⟨hl, _⟩
  · have hr : (singleLeafTree v e chg naf).root = t1.root := by rw [hroot1]; rfl
    exact ⟨hr ▸ hinv1.1, hr ▸ hinv1.2.1, hr ▸ hinv1.2.2⟩
  · cases hl

theorem InsRel.leaf_split {v addr : IP} {e m d : Nat} {r n1 : Node}
    {chg naf chg1 naf1 : Bool} {b : Branch} (h : InsRel ⟨addr, m⟩ r chg naf n1 chg1 naf1 b)
    (hch : r.children = [Node.mk true 0 e e v []]) (he0 : r.endPrefix = 0)
    (hd1 : 1 ≤ d) (hde : d < e) (hdm : d < m) (hag : agree addr v 0 d)
    (hne : bitAt addr d ≠ bitAt v d) (hnc : ¬ (e = m ∧ d = m - 1)) :
    n1 = r.setChildren
        [Node.mk false 0 d d v [Node.mk true d e (e - d) v [], Node.mk true d m (m - d) addr []]] ∧
      chg1 = true ∧ naf1 = naf ∧ b = Branch.leafSplit := by
  have key : ∀ {pre post : List Node} {c : Node} {d1 : Nat},
      Picked addr m r pre c post d1 →
      pre = [] ∧ c = Node.mk true 0 e e v [] ∧ post = [] ∧ d1 = d := by
    intro pre post c d1 hp
    obtain ⟨e1, e2, e3⟩ := singleton_split (hch.symm.trans hp.split)
    subst e2
    refine ⟨e1, rfl, e3, ?_⟩
    have hhi := hp.hiNet
    have hhn := hp.hiNode
    have hsame := hp.same
    have hstop := hp.stop
    simp only [Node.endPrefix_mk, Node.value_mk, he0] at hsame hstop hhn
    by_contra hd
    rcases Nat.lt_or_gt_of_ne hd with h1 | h1
    · exact hstop (by omega) (by omega) (hag d1 h1 (Nat.zero_le _))
    · exact hne (hsame d h1 (Nat.zero_le _))
  cases h with
  | append _ _ _ hall =>
    have := hall (Node.mk true 0 e e v []) (by rw [hch]; simp)
    rw [he0] at this
    exact absurd (hag 0 (by omega) (le_refl _)) this
  | covered _ _ _ pre c post d1 hpick hd hde1 hleaf =>
    obtain ⟨_, rfl, _, rfl⟩ := key hpick
    simp at hde1; omega
  | present _ _ _ pre c post d1 hpick hd hce hleaf =>
    obtain ⟨_, rfl, _, rfl⟩ := key hpick
    simp at hd; omega
  | descend _ _ _ pre c post d1 c1 _ _ _ hpick hd hde1 hleaf hrel =>
    obtain ⟨_, rfl, _, rfl⟩ := key hpick
    simp at hleaf
  | collapse _ _ _ pre c post d1 hpick hd hde1 hleaf hce hone2 =>
    obtain ⟨_, rfl, _, rfl⟩ := key hpick
    exfalso; apply hnc
    simp at hce hone2
    omega
  | leafSplit _ _ _ pre c post d1 hpick hd hde1 hleaf hnc1 =>
    obtain ⟨rfl, rfl, rfl, rfl⟩ := key hpick
    simp [he0]
  | internalSplit _ _ _ pre c post d1 hpick hd hde1 hleaf =>
    obtain ⟨_, rfl, _, rfl⟩ := key hpick
    simp at hleaf
  | prune _ _ _ pre c post d1 hpick hd hor =>
    obtain ⟨_, rfl, _, rfl⟩ := key hpick
    simp at hd; omega

/-- C31. The shape of a leaf split: on the tree that holds the single leaf `(v, e)`, with any
state of the two flags, the insert of the prefix `(addr, m)`, where `addr` and `v` carry the
same bits before position `d` and differ at `d`, with `1 ≤ d < min(e, m)`, `e, m ≤ 128` and
not `e = m` with `d = m - 1`, returns through the leaf-split branch with a root whose only
child is the internal node `[0, d)` with the value `v`, over exactly the two leaves `[d, e)`
with `v` and `[d, m)` with `addr`, in this order; `isChanged` is true afterwards and
`constructionNewAliasFound` is as it was. The tree with the single leaf is what the first
insert `(v, e)` into the empty tree returns. -/
theorem leaf_split_shape (v addr : IP) (e m d : Nat) (chg naf : Bool) (hv : v.length = 16)
    (ha : addr.length = 16) (he : e ≤ 128) (hm : m ≤ 128) (hd1 : 1 ≤ d) (hde : d < e)
    (hdm : d < m) (hag : agree addr v 0 d) (hne : bitAt addr d ≠ bitAt v d)
    (hnc : ¬ (e = m ∧ d = m - 1)) :
    (singleLeafTree v e chg naf).insertTraced ⟨addr, m⟩ =
      .ok (leafSplitTree v addr e m d true naf, Branch.leafSplit) ∧
    (singleLeafTree v e chg naf).insert ⟨addr, m⟩ = .ok (leafSplitTree v addr e m d true naf) ∧
    InitRadix.insert ⟨v, e⟩ = .ok (singleLeafTree v e true false) ∧
    insertAll InitRadix [⟨v, e⟩, ⟨addr, m⟩] = .ok (leafSplitTree v addr e m d true false) := by
  have hinv := singleLeafTree_inv v e chg naf hv (by omega) he
  have hp : (IPNet.mk addr m).Valid := ⟨ha, by simp; omega, hm⟩
  have hfirst : InitRadix.insert ⟨v, e⟩ = .ok (singleLeafTree v e true false) := by
    have h8 : u8 e = e := u8_eq (by omega)
    simp only [Radix.insert, Radix.insertTraced, InitRadix, Node.isLeaf_mk, if_true, h8,
      to16_eq hv]
    rfl
  have hsplit : ∀ c f, (singleLeafTree v e c f).insertTraced ⟨addr, m⟩ =
      .ok (leafSplitTree v addr e m d true f, Branch.leafSplit) := by
    intro c f
    obtain ⟨t2, b2, h2, _, _, _, hcase2⟩ :=
      insertTraced_spec (singleLeafTree v e c f) (singleLeafTree_inv v e c f hv (by omega) he) _ hp
    rcases hcase2 with ⟨hl, _⟩ | ⟨_, hrel⟩
    · simp [singleLeafTree] at hl
    · obtain ⟨e1, e2, e3, e4⟩ := hrel.leaf_split rfl rfl hd1 hde hdm hag hne hnc
      rw [h2]
      cases t2
      simp only [singleLeafTree] at e1 e2 e3
      rw [e1, e2, e3, e4]
      rfl
  refine ⟨hsplit chg naf, insert_eq_of_traced (hsplit chg naf), hfirst, ?_⟩
  simp only [insertAll, hfirst, insert_eq_of_traced (hsplit true false)]

/-- The leaf split of `2001:db8::/48` by `2001:db8:2::/48`, which differ first at bit 46: the
tree of scenario S1. -/
theorem leaf_split_shape_witness :
    addrDb8.length = 16 ∧ addrDb8Net2.length = 16 ∧ 48 ≤ 128 ∧ 1 ≤ 46 ∧ 46 < 48 ∧
    agree addrDb8Net2 addrDb8 0 46 ∧ bitAt addrDb8Net2 46 ≠ bitAt addrDb8 46 ∧
    ¬ (48 = 48 ∧ 46 = 48 - 1) ∧
    (singleLeafTree addrDb8 48 false false).insert ⟨addrDb8Net2, 48⟩ =
      .ok (leafSplitTree addrDb8 addrDb8Net2 48 48 46 true false) ∧
    leafSplitTree addrDb8 addrDb8Net2 48 48 46 true false = treeSplit46 :=
  ⟨by decide, by decide, by decide, by decide, by decide, by decide, by decide, by decide,
    (leaf_split_shape addrDb8 addrDb8Net2 48 48 46 false false (by decide) (by decide)
      (by decide) (by decide) (by decide) (by decide) (by decide) (by decide) (by decide)
      (by decide)).2.1, rfl⟩

/-! ## Every internal node below the root has two children -/

theorem Binary.children_ok {n : Node} (h : Binary n) :
    ∀ c ∈ n.children, (c.isLeaf = true → c.children = []) ∧
      (c.isLeaf = false → c.children.length = 2) ∧ Binary c := by
  cases h with
  | mk _ h1 h2 h3 => exact fun c hc => ⟨h1 c hc, h2 c hc, h3 c hc⟩

theorem Binary.of_kids (n : Node)
    (h : ∀ c ∈ n.children, (c.isLeaf = true → c.children = []) ∧
      (c.isLeaf = false → c.children.length = 2) ∧ Binary c) : Binary n :=
  Binary.mk n (fun c hc => (h c hc).1) (fun c hc => (h c hc).2.1) (fun c hc => (h c hc).2.2)

theorem Binary.same_children {n n1 : Node} (h : Binary n) (hc : n1.children = n.children) :
    Binary n1 :=
  Binary.of_kids n1 (by rw [hc]; exact h.children_ok)

theorem Binary.of_leaf (s e len : Nat) (v : IP) : Binary (Node.mk true s e len v []) :=
  Binary.of_kids _ (by intro c hc; simp at hc)

theorem Binary.swap_child {n : Node} {l : List Node} (x : Node)
    (hl : ∀ c ∈ l, c ∈ n.children ∨ c = x) (h : Binary n)
    (hx : (x.isLeaf = true → x.children = []) ∧ (x.isLeaf = false → x.children.length = 2) ∧
      Binary x) : Binary (n.setChildren l) := by
  refine Binary.of_kids _ ?_
  intro c hc
  rw [Node.children_setChildren] at hc
  rcases hl c hc with h1 | h1
  · exact h.children_ok c h1
  · rw [h1]; exact hx

theorem Binary.replace_child {n : Node} {pre post : List Node} {c x : Node}
    (hs : n.children = pre ++ c :: post) (h : Binary n)
    (hx : (x.isLeaf = true → x.children = []) ∧ (x.isLeaf = false → x.children.length = 2) ∧
      Binary x) : Binary (n.setChildren (pre ++ x :: post)) := by
  refine Binary.swap_child x ?_ h hx
  intro a ha
  rw [hs]
  simp only [List.mem_append, List.mem_cons] at ha ⊢
  tauto

theorem Binary.move_last {n : Node} {pre post : List Node} {c x : Node}
    (hs : n.children = pre ++ c :: post) (h : Binary n)
    (hx : (x.isLeaf = true → x.children = []) ∧ (x.isLeaf = false → x.children.length = 2) ∧
      Binary x) : Binary (n.setChildren (pre ++ post ++ [x])) := by
  refine Binary.swap_child x ?_ h hx
  intro a ha
  rw [hs]
  simp only [List.mem_append, List.mem_cons, List.mem_singleton] at ha ⊢
  tauto

theorem Binary.leaf_ok (s e len : Nat) (v : IP) :
    ((Node.mk true s e len v []).isLeaf = true → (Node.mk true s e len v []).children = []) ∧
    ((Node.mk true s e len v []).isLeaf = false →
      (Node.mk true s e len v []).children.length = 2) ∧
    Binary (Node.mk true s e len v []) :=
  ⟨fun _ => rfl, fun hl => by simp at hl, Binary.of_leaf _ _ _ _⟩

theorem replace_lengths {n : Node} {pre post : List Node} {c : Node} (x : Node)
    (hs : n.children = pre ++ c :: post) :
    n.children.length ≤ (n.setChildren (pre ++ x :: post)).children.length ∧
      (n.children.length = 2 → (n.setChildren (pre ++ x :: post)).children.length = 2) ∧
      1 ≤ (n.setChildren (pre ++ x :: post)).children.length := by
  rw [hs]
  simp only [Node.children_setChildren, List.length_append, List.length_cons]
  omega

theorem moveLast_lengths {n : Node} {pre post : List Node} {c : Node} (x : Node)
    (hs : n.children = pre ++ c :: post) :
    n.children.length ≤ (n.setChildren (pre ++ post ++ [x])).children.length ∧
      (n.children.length = 2 → (n.setChildren (pre ++ post ++ [x])).children.length = 2) ∧
      1 ≤ (n.setChildren (pre ++ post ++ [x])).children.length := by
  rw [hs]
  simp only [Node.children_setChildren, List.length_append, List.length_cons,
    List.length_nil]
  omega

theorem append_needs_room {n : Node} {ip : IP} (hwf : WF n)
    (hall : ∀ x ∈ n.children, bitAt ip n.endPrefix ≠ bitAt x.value n.endPrefix) :
    n.children.length ≠ 2 := by
  intro h2
  have hnd := hwf.nodup
  match hch : n.children, h2 with
  | [x, y], _ =>
    rw [hch] at hnd hall
    have hxy : bitAt x.value n.endPrefix ≠ bitAt y.value n.endPrefix := by
      simp only [List.map_cons, List.map_nil, List.nodup_cons, List.mem_cons,
        List.mem_singleton] at hnd
      intro he
      exact hnd.1 (Or.inl he)
    have hx := hall x (by simp)
    have hy := hall y (by simp)
    exact hy (bitAt_eq_of_ne_of_ne hxy hx)

theorem InsRel.keeps_binary {p : IPNet} {n n1 : Node} {chg naf chg1 naf1 : Bool} {b : Branch}
    (h : InsRel p n chg naf n1 chg1 naf1 b) :
    WF n → Binary n →
      Binary n1 ∧ n.children.length ≤ n1.children.length ∧
        (n.children.length = 2 → n1.children.length = 2) ∧ 1 ≤ n1.children.length := by
  induction h with
  | append n chg naf hall =>
    intro hwf hb
    refine ⟨?_, by simp, ?_, by simp⟩
    · refine Binary.of_kids _ ?_
      intro c hc
      simp only [Node.children_setIsLeaf, Node.children_setChildren, List.mem_append,
        List.mem_singleton] at hc
      rcases hc with hc | hc
      · exact hb.children_ok c hc
      · rw [hc]
        exact Binary.leaf_ok _ _ _ _
    · intro h2
      exact absurd h2 (append_needs_room hwf hall)
  | covered n chg naf pre c post d hpick _ _ _ =>
    intro _ hb
    refine ⟨hb, Nat.le_refl _, fun h => h, ?_⟩
    rw [hpick.split, List.length_append, List.length_cons]
    omega
  | present n chg naf pre c post d hpick _ _ _ =>
    intro _ hb
    refine ⟨hb, Nat.le_refl _, fun h => h, ?_⟩
    rw [hpick.split, List.length_append, List.length_cons]
    omega
  | descend n chg naf pre c post d c1 chg1 naf1 b hpick _ _ hleaf hrel ih =>
    intro hwf hb
    have hcm : c ∈ n.children := hpick.mem
    obtain ⟨_, hc2, hcb⟩ := hb.children_ok c hcm
    obtain ⟨hb1, _, h22, _⟩ := ih (hwf.child c hcm) hcb
    have hl1 : c1.isLeaf = false := hrel.fields.2.2.2.2 hleaf
    have hx1 : c1.isLeaf = true → c1.children = [] := by
      intro hl
      rw [hl1] at hl
      cases hl
    refine ⟨?_, replace_lengths _ hpick.split⟩
    exact Binary.replace_child hpick.split hb ⟨hx1, fun _ => h22 (hc2 hleaf), hb1⟩
  | collapse n chg naf pre c post d hpick _ _ _ _ _ =>
    intro _ hb
    refine ⟨?_, replace_lengths _ hpick.split⟩
    exact Binary.replace_child hpick.split hb (Binary.leaf_ok _ _ _ _)
  | leafSplit n chg naf pre c post d hpick _ _ _ _ =>
    intro _ hb
    refine ⟨?_, moveLast_lengths _ hpick.split⟩
    refine Binary.move_last hpick.split hb ⟨fun hl => by simp at hl, fun _ => rfl, ?_⟩
    refine Binary.of_kids _ ?_
    intro x hx
    simp only [Node.children_mk, List.mem_cons, List.mem_singleton] at hx
    rcases hx with rfl | rfl | hx
    · exact Binary.leaf_ok _ _ _ _
    · exact Binary.leaf_ok _ _ _ _
    · cases hx
  | internalSplit n chg naf pre c post d hpick _ _ hleaf =>
    intro _ hb
    have hcm : c ∈ n.children := hpick.mem
    obtain ⟨_, hc2, hcb⟩ := hb.children_ok c hcm
    refine ⟨?_, replace_lengths _ hpick.split⟩
    refine Binary.replace_child hpick.split hb ⟨fun hl => by simp at hl, fun _ => rfl, ?_⟩
    refine Binary.of_kids _ ?_
    intro x hx
    simp only [Node.children_mk, List.mem_cons, List.mem_singleton] at hx
    rcases hx with rfl | rfl | hx
    · exact Binary.leaf_ok _ _ _ _
    · exact ⟨fun hl => by simp at hl, fun _ => hc2 hleaf, hcb.same_children rfl⟩
    · cases hx
  | prune n chg naf pre c post d hpick _ _ =>
    intro _ hb
    refine ⟨?_, replace_lengths _ hpick.split⟩
    exact Binary.replace_child hpick.split hb (Binary.leaf_ok _ _ _ _)

theorem Binary.init_root : Binary InitRadix.root :=
  Binary.of_kids _ (by intro c hc; simp [InitRadix] at hc)

theorem insertAll_binary (ps : List IPNet) (hps : ∀ p ∈ ps, p.Valid) : ∀ t0 : Radix, t0.Inv →
    Binary t0.root → (t0.root.isLeaf = false → 1 ≤ t0.root.children.length) →
    ∃ t, insertAll t0 ps = .ok t ∧ t.Inv ∧ Binary t.root ∧
      (t.root.isLeaf = false → 1 ≤ t.root.children.length) ∧
      (ps ≠ [] → t.root.isLeaf = false) := by
  induction ps with
  | nil => intro t0 h hb h1; exact ⟨t0, rfl, h, hb, h1, fun h => absurd rfl h⟩
  | cons p ps ih =>
    intro t0 hinv hb hone
    obtain ⟨t1, b, h1, hinv1, hl1, _, hcase⟩ :=
      insertTraced_spec t0 hinv p (hps p (List.mem_cons_self _ _))
    have hb1 : Binary t1.root ∧ 1 ≤ t1.root.children.length := by
      rcases hcase with ⟨_, _, _, _, hroot⟩ | ⟨_, hrel⟩
      · rw [hroot]
        refine ⟨Binary.of_kids _ ?_, by simp⟩
        intro c hc
        simp only [Node.children_mk, List.mem_singleton] at hc
        rw [hc]
        exact Binary.leaf_ok _ _ _ _
      · obtain ⟨hx, _, _, hy⟩ := hrel.keeps_binary hinv.1 hb
        exact ⟨hx, hy⟩
    obtain ⟨t, h2, hinv2, hb2, hone2, hl2⟩ :=
      ih (fun q hq => hps q (List.mem_cons_of_mem _ hq)) t1 hinv1 hb1.1 (fun _ => hb1.2)
    refine ⟨t, ?_, hinv2, hb2, hone2, ?_⟩
    · simp [insertAll, insert_eq_of_traced h1, h2]
    · intro _
      cases ps with
      | nil =>
        simp only [insertAll] at h2
        cases h2
        exact hl1
      | cons q qs => exact hl2 (by simp)

theorem NodeIn.binary_node {m n : Node} (h : NodeIn m n) (hb : Binary n) : Binary m := by
  induction h with
  | self n => exact hb
  | deeper n c m hc _ ih => exact ih (hb.children_ok c hc).2.2

/-- C33. Path compression is maximal: every run of inserts of prefixes with 16-byte addresses
and mask lengths in `[1, 128]` from the empty tree returns a tree in which every node flagged
as a leaf has no children, every node below the root that is not a leaf has exactly two
children, and the root, once at least one prefix was inserted, is not a leaf and has one or
two children. -/
theorem path_compression_maximal (ps : List IPNet) (hps : ∀ q ∈ ps, q.Valid) :
    ∃ t, insertAll InitRadix ps = .ok t ∧
      (∀ m, NodeIn m t.root → m.isLeaf = true → m.children = []) ∧
      (∀ p c, NodeIn p t.root → c ∈ p.children → c.isLeaf = false → c.children.length = 2) ∧
      (ps ≠ [] → t.root.isLeaf = false ∧
        (t.root.children.length = 1 ∨ t.root.children.length = 2)) := by
  obtain ⟨t, ht, hinv, hb, hone, hl⟩ :=
    insertAll_binary ps hps InitRadix InitRadix_inv Binary.init_root (fun h => by cases h)
  refine ⟨t, ht, ?_, ?_, ?_⟩
  · intro m hm hleaf
    cases hm with
    | self _ => exact hinv.2.2 hleaf
    | deeper _ c _ hc hin =>
      have key : ∀ {a x : Node}, NodeIn x a → WF a → (a.isLeaf = true → a.children = []) →
          x.isLeaf = true → x.children = [] := by
        intro a x hx
        induction hx with
        | self _ => intro _ h0 hl0; exact h0 hl0
        | deeper a c1 x hc1 _ ih =>
          intro hwf _ hl0
          exact ih (hwf.child c1 hc1) ((hwf.childOk c1 hc1).2.2.2.2.2.2) hl0
      exact key hin (hinv.1.child c hc) ((hinv.1.childOk c hc).2.2.2.2.2.2) hleaf
  · intro p c hp hc hleaf
    exact ((hp.binary_node hb).children_ok c hc).2.1 hleaf
  · intro hne
    have hlf := hl hne
    refine ⟨hlf, ?_⟩
    have h1 := hone hlf
    have h2 : t.root.children.length ≤ 2 := by
      have := length_le_two_of_bits _ (128 >>> (t.root.endPrefix % 8)) hinv.1.nodup (by
        intro v hv
        obtain ⟨c, _, rfl⟩ := List.mem_map.1 hv
        exact bitAt_cases _ _)
      simpa using this
    omega

theorem path_compression_maximal_witness :
    (∀ q ∈ [IPNet.mk addrDb8 48, IPNet.mk addrDb8Net2 48], q.Valid) ∧
    (∃ t, insertAll InitRadix [IPNet.mk addrDb8 48, IPNet.mk addrDb8Net2 48] = .ok t ∧
      (∀ m, NodeIn m t.root → m.isLeaf = true → m.children = []) ∧
      (∀ p c, NodeIn p t.root → c ∈ p.children → c.isLeaf = false → c.children.length = 2) ∧
      ([IPNet.mk addrDb8 48, IPNet.mk addrDb8Net2 48] ≠ [] → t.root.isLeaf = false ∧
        (t.root.children.length = 1 ∨ t.root.children.length = 2))) ∧
    insertAll InitRadix [IPNet.mk addrDb8 48, IPNet.mk addrDb8Net2 48] = .ok treeSplit46 :=
  ⟨by decide, path_compression_maximal [IPNet.mk addrDb8 48, IPNet.mk addrDb8Net2 48]
    (by decide), rfl⟩

/-! ## A checkpoint read back -/

theorem aliased_eq_of_hits {t t1 : Radix} (hinv : t.Inv) (hinv1 : t1.Inv) {a : IP}
    (ha : a.length = 16) (h : (∃ L, Hit a t.root L) ↔ ∃ L, Hit a t1.root L) :
    ∃ l l1, t.lookup a = .ok l ∧ t1.lookup a = .ok l1 ∧ l.aliased = l1.aliased := by
  by_cases hex : ∃ L, Hit a t.root L
  · obtain ⟨L, hL⟩ := hex
    obtain ⟨L1, hL1⟩ := h.1 ⟨L, hL⟩
    exact ⟨_, _, (lookup_spec t hinv a ha).1 L hL, (lookup_spec t1 hinv1 a ha).1 L1 hL1, rfl⟩
  · exact ⟨_, _, (lookup_spec t hinv a ha).2 hex,
      (lookup_spec t1 hinv1 a ha).2 (fun h1 => hex (h.2 h1)), rfl⟩

theorem round_trip_of_prefixes {t : Radix} (hinv : t.Inv) (hl : t.root.isLeaf = false)
    (f : Node → IPNet)
    (hf : ∀ L, LeafIn L t.root →
      (f L).ip.length = 16 ∧ (f L).ones = L.endPrefix ∧ agree (f L).ip L.value 0 L.endPrefix)
    (a : IP) (ha : a.length = 16) :
    ∃ t1, insertAll InitRadix ((leavesDFS t.root).map f) = .ok t1 ∧
      ∃ l l1, t.lookup a = .ok l ∧ t1.lookup a = .ok l1 ∧ l.aliased = l1.aliased := by
  have hq : ∀ q ∈ (leavesDFS t.root).map f, q.Valid := by
    intro q hq
    obtain ⟨L, hL, rfl⟩ := List.mem_map.1 hq
    have hin := (mem_leavesDFS t.root L hl).1 hL
    obtain ⟨h1, h2, h3⟩ := hf L hin
    obtain ⟨b1, b2, _, _⟩ := hin.bounds hinv.1
    exact ⟨h1, by rw [h2]; omega, by rw [h2]; exact b2⟩
  obtain ⟨t1, ht1, hinv1, hcov⟩ := insertAll_spec _ hq InitRadix InitRadix_inv
  refine ⟨t1, ht1, aliased_eq_of_hits hinv hinv1 ha ?_⟩
  rw [hcov a]
  constructor
  · rintro ⟨L, hL⟩
    obtain ⟨hin, hag⟩ := (hit_iff_leaf t hinv a L).1 hL
    obtain ⟨_, h2, h3⟩ := hf L hin
    refine Or.inr ⟨f L, List.mem_map.2 ⟨L, (mem_leavesDFS t.root L hl).2 hin, rfl⟩, ?_⟩
    rw [h2]
    exact agree_trans hag (agree_symm h3)
  · rintro (h | ⟨q, hq1, hag⟩)
    · exact absurd h (no_hit_InitRadix a)
    · obtain ⟨L, hL, rfl⟩ := List.mem_map.1 hq1
      have hin := (mem_leavesDFS t.root L hl).1 hL
      obtain ⟨_, h2, h3⟩ := hf L hin
      rw [h2] at hag
      exact ⟨L, (hit_iff_leaf t hinv a L).2 ⟨hin, agree_trans hag h3⟩⟩

theorem round_trip_empty (a : IP) :
    ∃ t1, insertAll InitRadix (checkpointPrefixes InitRadix) = .ok t1 ∧
      InitRadix.lookup a = .ok ⟨false, ""⟩ ∧ t1.lookup a = .ok ⟨false, ""⟩ :=
  ⟨_, rfl, rfl, rfl⟩

/-- C32. The checkpoint read back: for every run of inserts of prefixes with 16-byte addresses
and mask lengths in `[1, 128]` from the empty tree, with result `T`, the inserts of the leaves
that the DFS export of `T` lists, each as the prefix `value/endPrefix` and in the order of the
export, into a fresh empty tree return a tree `T1`, and for every 16-byte address `lookup`
returns on both trees, with the same `aliased`. The same holds when each listed prefix is given
with any 16-byte address that carries the bits of the leaf's value before `endPrefix`, as the
network address of the parsed text does. -/
theorem checkpoint_round_trip (ps : List IPNet) (hps : ∀ q ∈ ps, q.Valid) (a : IP)
    (ha : a.length = 16) :
    ∃ t, insertAll InitRadix ps = .ok t ∧
      (∃ t1, insertAll InitRadix (checkpointPrefixes t) = .ok t1 ∧
        ∃ l l1, t.lookup a = .ok l ∧ t1.lookup a = .ok l1 ∧ l.aliased = l1.aliased) ∧
      (ps ≠ [] → ∀ f : Node → IPNet,
        (∀ L, LeafIn L t.root → (f L).ip.length = 16 ∧ (f L).ones = L.endPrefix ∧
          agree (f L).ip L.value 0 L.endPrefix) →
        ∃ t1, insertAll InitRadix ((leavesDFS t.root).map f) = .ok t1 ∧
          ∃ l l1, t.lookup a = .ok l ∧ t1.lookup a = .ok l1 ∧ l.aliased = l1.aliased) := by
  obtain ⟨t, ht, hinv, _, _, hl⟩ :=
    insertAll_binary ps hps InitRadix InitRadix_inv Binary.init_root (fun h => by cases h)
  refine ⟨t, ht, ?_, ?_⟩
  · cases ps with
    | nil =>
      simp only [insertAll] at ht
      cases ht
      obtain ⟨t1, h1, h2, h3⟩ := round_trip_empty a
      exact ⟨t1, h1, _, _, h2, h3, rfl⟩
    | cons p ps =>
      have hlf := hl (by simp)
      refine round_trip_of_prefixes hinv hlf (fun L => ⟨L.value, L.endPrefix⟩) ?_ a ha
      intro L hin
      exact ⟨(hin.bounds hinv.1).2.2.1, rfl, agree_refl _ _ _⟩
  · intro hne f hf
    exact round_trip_of_prefixes hinv (hl hne) f hf a ha

/-- The round trip on the prefixes `2001:db8::/48`, `2001:db8:1::/49`, `2001:db8:1:8000::/49`:
the tree holds the two sibling leaves `2001:db8::/48` and `2001:db8:1::/48`, the checkpoint
lists them, and reading it back collapses them into `2001:db8::/47`; the address
`2001:db8:0:1::` is aliased in both trees, with different metadata. -/
theorem checkpoint_round_trip_witness :
    (∀ q ∈ [IPNet.mk addrDb8 48, IPNet.mk addrDb8Net1 49, IPNet.mk addrDb8Net1High 49],
      q.Valid) ∧
    addrDb8Sub1.length = 16 ∧
    (∃ t, insertAll InitRadix
        [IPNet.mk addrDb8 48, IPNet.mk addrDb8Net1 49, IPNet.mk addrDb8Net1High 49] = .ok t ∧
      (∃ t1, insertAll InitRadix (checkpointPrefixes t) = .ok t1 ∧
        ∃ l l1, t.lookup addrDb8Sub1 = .ok l ∧ t1.lookup addrDb8Sub1 = .ok l1 ∧
          l.aliased = l1.aliased) ∧
      ([IPNet.mk addrDb8 48, IPNet.mk addrDb8Net1 49, IPNet.mk addrDb8Net1High 49] ≠ [] →
        ∀ f : Node → IPNet,
        (∀ L, LeafIn L t.root → (f L).ip.length = 16 ∧ (f L).ones = L.endPrefix ∧
          agree (f L).ip L.value 0 L.endPrefix) →
        ∃ t1, insertAll InitRadix ((leavesDFS t.root).map f) = .ok t1 ∧
          ∃ l l1, t.lookup addrDb8Sub1 = .ok l ∧ t1.lookup addrDb8Sub1 = .ok l1 ∧
            l.aliased = l1.aliased)) ∧
    insertAll InitRadix
      [IPNet.mk addrDb8 48, IPNet.mk addrDb8Net1 49, IPNet.mk addrDb8Net1High 49]
        = .ok treeTwoSlash48 ∧
    checkpointPrefixes treeTwoSlash48 = [IPNet.mk addrDb8 48, IPNet.mk addrDb8Net1 48] ∧
    insertAll InitRadix (checkpointPrefixes treeTwoSlash48) = .ok treeDb8Slash47 ∧
    treeTwoSlash48.lookup addrDb8Sub1 = .ok ⟨true, "2001:db8::/48"⟩ ∧
    treeDb8Slash47.lookup addrDb8Sub1 = .ok ⟨true, "2001:db8::/47"⟩ :=
  ⟨by decide, by decide,
    checkpoint_round_trip
      [IPNet.mk addrDb8 48, IPNet.mk addrDb8Net1 49, IPNet.mk addrDb8Net1High 49] (by decide)
      addrDb8Sub1 (by decide),
    by rfl, by rfl, by rfl, by rfl, by rfl⟩

namespace Amt

/-! ## The bitmap and the slots -/

theorem filter_length_lt (l : List Nat) (p q : Nat → Bool)
    (hpq : ∀ a, p a = true → q a = true) (x : Nat) (hx : x ∈ l) (hqx : q x = true)
    (hpx : p x = false) : (l.filter p).length < (l.filter q).length := by
  induction l with
  | nil => cases hx
  | cons a l ih =>
    have hmono : (l.filter p).length ≤ (l.filter q).length :=
      (List.monotone_filter_right l hpq).length_le
    rcases List.mem_cons.1 hx with h | h
    · subst h
      rw [List.filter_cons_of_neg (by simp [hpx]), List.filter_cons_of_pos hqx,
        List.length_cons]
      omega
    · have := ih h
      by_cases hpa : p a = true
      · rw [List.filter_cons_of_pos hpa, List.filter_cons_of_pos (hpq a hpa),
          List.length_cons, List.length_cons]
        omega
      · rw [List.filter_cons_of_neg hpa]
        by_cases hqa : q a = true
        · rw [List.filter_cons_of_pos hqa, List.length_cons]
          omega
        · rw [List.filter_cons_of_neg hqa]
          exact this

theorem onesCount16_below (B x : Nat) :
    onesCount16 (B &&& (2 ^ x - 1)) =
      ((List.range 16).filter (fun i => B.testBit i && decide (i < x))).length := by
  unfold onesCount16
  simp only [Nat.testBit_and, Nat.testBit_two_pow_sub_one]

theorem onesCount16_below_lt (B x : Nat) (hx : x < 16) (hb : B.testBit x = true) :
    onesCount16 (B &&& (2 ^ x - 1)) < onesCount16 B := by
  rw [onesCount16_below]
  unfold onesCount16
  exact filter_length_lt _ _ _ (fun a ha => by
    simp only [Bool.and_eq_true] at ha
    exact ha.1) x (List.mem_range.2 hx) hb (by simp)

theorem onesCount16_below_le (B x : Nat) :
    onesCount16 (B &&& (2 ^ x - 1)) ≤ onesCount16 B := by
  rw [onesCount16_below]
  unfold onesCount16
  exact (List.monotone_filter_right _ (fun a ha => by
    simp only [Bool.and_eq_true] at ha
    exact ha.1)).length_le

theorem onesCount16_below_set (B x : Nat) :
    onesCount16 ((B ||| 2 ^ x) &&& (2 ^ x - 1)) = onesCount16 (B &&& (2 ^ x - 1)) := by
  rw [onesCount16_below, onesCount16_below]
  congr 1
  apply List.filter_congr
  intro i _
  by_cases hi : i < x
  · have hne : x ≠ i := by omega
    simp [Nat.testBit_or, Nat.testBit_two_pow_of_ne hne]
  · simp [hi]

theorem getIndex_some (n : Node) (x : Nat) (hx : x < 16) (hb : n.bitmap.testBit x = true) :
    n.getIndex x = some (onesCount16 (n.bitmap &&& (2 ^ x - 1))) := by
  rw [getIndex_eq n x hx, if_pos hb, onesCount16_below]

theorem getIndex_none_iff (n : Node) (x : Nat) (hx : x < 16) :
    n.getIndex x = none ↔ n.bitmap.testBit x = false := by
  rw [getIndex_eq n x hx]
  cases hb : n.bitmap.testBit x <;> simp

theorem split_of_lt {l : List Node} {i : Nat} (h : i < l.length) :
    ∃ pre c post, l = pre ++ c :: post ∧ pre.length = i ∧ l.get? i = some c := by
  refine ⟨l.take i, l.get ⟨i, h⟩, l.drop (i + 1), ?_, ?_, ?_⟩
  · rw [List.get_eq_getElem, ← List.drop_eq_getElem_cons h, List.take_append_drop]
  · rw [List.length_take]; omega
  · rw [List.get?_eq_get h]

/-- C34. The contract between the bitmap and the slots: for every node and every nibble
`x < 16`, `getIndex` returns `-1` exactly when bit `x` of the bitmap is clear, and otherwise
returns `popcount(bitmap & ((1 << x) - 1))`, which is below `popcount(bitmap)`. So at a node
with `len(children) = popcount(bitmap)` the index that `find`, `getPath` and `removeChild` use
is that of a child, the index that `insert` uses for a nibble that is present is that of a
child, and the index that `insert` finds after it set the bit of an absent nibble is at most
`len(children)`: the new child is appended or put at a place inside the slice. -/
theorem getIndex_contract (n : Node) (x : Nat) (hx : x < 16) :
    (n.getIndex x = none ↔ n.bitmap.testBit x = false) ∧
    (n.bitmap.testBit x = true →
      n.getIndex x = some (onesCount16 (n.bitmap &&& (((1 <<< x) - 1) % 65536))) ∧
      ((1 <<< x) - 1) % 65536 = 2 ^ x - 1 ∧
      onesCount16 (n.bitmap &&& (2 ^ x - 1)) < onesCount16 n.bitmap) ∧
    (n.children.length = onesCount16 n.bitmap →
      (∀ i, n.getIndex x = some i → i < n.children.length ∧ ∃ c, n.children.get? i = some c) ∧
      (n.getIndex x = none →
        ∃ i, (n.setBitmap (n.bitmap ||| ((1 <<< x) % 65536))).getIndex x = some i ∧
          i ≤ n.children.length ∧
          (n.setBitmap (n.bitmap ||| ((1 <<< x) % 65536))).children = n.children)) := by
  refine ⟨getIndex_none_iff n x hx, ?_, ?_⟩
  · intro hb
    rw [shift_pred_mod x hx]
    exact ⟨getIndex_some n x hx hb, rfl, onesCount16_below_lt _ x hx hb⟩
  · intro hlen
    constructor
    · intro i hi
      cases hb : n.bitmap.testBit x with
      | false =>
        rw [(getIndex_none_iff n x hx).2 hb] at hi
        cases hi
      | true =>
        rw [getIndex_some n x hx hb] at hi
        cases hi
        have hlt := onesCount16_below_lt _ x hx hb
        rw [← hlen] at hlt
        obtain ⟨_, c, _, _, _, hg⟩ := split_of_lt hlt
        exact ⟨hlt, c, hg⟩
    · intro _
      have hset : (n.setBitmap (n.bitmap ||| ((1 <<< x) % 65536))).bitmap.testBit x = true := by
        rw [Node.bitmap_setBitmap, shift_mod x hx, Nat.testBit_or, Nat.testBit_two_pow_self]
        simp
      refine ⟨_, getIndex_some _ x hx hset, ?_, Node.children_setBitmap _ _⟩
      rw [Node.bitmap_setBitmap, shift_mod x hx, onesCount16_below_set, hlen]
      exact onesCount16_below_le _ _

/-- The contract at the root of the tree of `TestInsert`, whose bitmap has the bits 3 and 15
set: the nibble `F` has the slot 1, the nibble `3` the slot 0 and the nibble `4` none. -/
theorem getIndex_contract_witness :
    15 < 16 ∧
    (((insertTestTree true).getIndex 15 = none ↔
        (insertTestTree true).bitmap.testBit 15 = false) ∧
      ((insertTestTree true).bitmap.testBit 15 = true →
        (insertTestTree true).getIndex 15 =
          some (onesCount16 ((insertTestTree true).bitmap &&& (((1 <<< 15) - 1) % 65536))) ∧
        ((1 <<< 15) - 1) % 65536 = 2 ^ 15 - 1 ∧
        onesCount16 ((insertTestTree true).bitmap &&& (2 ^ 15 - 1)) <
          onesCount16 (insertTestTree true).bitmap) ∧
      ((insertTestTree true).children.length = onesCount16 (insertTestTree true).bitmap →
        (∀ i, (insertTestTree true).getIndex 15 = some i →
          i < (insertTestTree true).children.length ∧
            ∃ c, (insertTestTree true).children.get? i = some c) ∧
        ((insertTestTree true).getIndex 15 = none →
          ∃ i, ((insertTestTree true).setBitmap
              ((insertTestTree true).bitmap ||| ((1 <<< 15) % 65536))).getIndex 15 = some i ∧
            i ≤ (insertTestTree true).children.length ∧
            ((insertTestTree true).setBitmap
              ((insertTestTree true).bitmap ||| ((1 <<< 15) % 65536))).children =
                (insertTestTree true).children))) ∧
    (insertTestTree true).getIndex 15 = some 1 ∧ (insertTestTree true).getIndex 3 = some 0 ∧
    (insertTestTree true).getIndex 4 = none :=
  ⟨by decide, getIndex_contract (insertTestTree true) 15 (by decide), by decide, by decide,
    by decide⟩

/-- C40. The three results of `removeChild`: at a node with `len(children) = popcount(bitmap)`
and for a nibble `x < 16`, when bit `x` of the bitmap is clear the call returns `-1` and leaves
the node as it was; when the bit is set the call removes the child in the slot
`popcount(bitmap & ((1 << x) - 1))`, which carries the nibble `x` when the node has the shape
of the invariant, keeps the children before and after it in their order, clears bit `x` and no
other bit of the bitmap, leaves the other fields as they were, and returns `0` when no child is
left and `1` when one is. -/
theorem removeChild_tristate (n : Node) (x : Nat) (hx : x < 16)
    (hlen : n.children.length = onesCount16 n.bitmap) :
    (n.bitmap.testBit x = false → n.removeChild x = some (n, -1)) ∧
    (n.bitmap.testBit x = true →
      ∃ pre c post, n.children = pre ++ c :: post ∧
        pre.length = onesCount16 (n.bitmap &&& (2 ^ x - 1)) ∧
        (SlotShape n → c.value = x) ∧
        n.removeChild x =
          some (Node.mk n.isLeaf n.isAliased n.value n.prefixBits
              (n.bitmap &&& (65535 ^^^ ((1 <<< x) % 65536))) (pre ++ post),
            if (pre ++ post).length = 0 then 0 else 1) ∧
        (∀ i, i < 16 → (n.bitmap &&& (65535 ^^^ ((1 <<< x) % 65536))).testBit i =
          (n.bitmap.testBit i && decide (i ≠ x)))) := by
  constructor
  · intro hb
    unfold Node.removeChild
    rw [(getIndex_none_iff n x hx).2 hb]
  · intro hb
    have hlt := onesCount16_below_lt _ x hx hb
    rw [← hlen] at hlt
    obtain ⟨pre, c, post, hs, hpl, hg⟩ := split_of_lt hlt
    refine ⟨pre, c, post, hs, hpl, ?_, ?_, ?_⟩
    · intro hshape
      obtain ⟨c1, hc1, hv⟩ := hshape.2.1 x hx hb
      rw [shift_pred_mod x hx, hg] at hc1
      cases hc1
      exact hv
    · have hidx : n.getIndex x = some pre.length := by
        rw [hpl]; exact getIndex_some n x hx hb
      have h := @removeChild_slot n x pre post c hidx
      rw [← hs, Node.setChildren_same] at h
      rw [h]
      cases n
      rfl
    · intro i hi
      exact testBit_clear _ x i hx (fun _ => hi)

/-- The three results at the node `F` over the leaves `A` and `B`: the nibble `A` is removed
with result 1, then `B` with result 0, and the nibble `C` gives -1. -/
theorem removeChild_tristate_witness :
    10 < 16 ∧ nodeFAB.children.length = onesCount16 nodeFAB.bitmap ∧
    ((nodeFAB.bitmap.testBit 10 = false → nodeFAB.removeChild 10 = some (nodeFAB, -1)) ∧
      (nodeFAB.bitmap.testBit 10 = true →
        ∃ pre c post, nodeFAB.children = pre ++ c :: post ∧
          pre.length = onesCount16 (nodeFAB.bitmap &&& (2 ^ 10 - 1)) ∧
          (SlotShape nodeFAB → c.value = 10) ∧
          nodeFAB.removeChild 10 =
            some (Node.mk nodeFAB.isLeaf nodeFAB.isAliased nodeFAB.value nodeFAB.prefixBits
                (nodeFAB.bitmap &&& (65535 ^^^ ((1 <<< 10) % 65536))) (pre ++ post),
              if (pre ++ post).length = 0 then 0 else 1) ∧
          (∀ i, i < 16 → (nodeFAB.bitmap &&& (65535 ^^^ ((1 <<< 10) % 65536))).testBit i =
            (nodeFAB.bitmap.testBit i && decide (i ≠ 10))))) ∧
    nodeFAB.removeChild 10 =
      some (Node.mk false false 0x0F 4 0b0000100000000000 [Node.mk true true 0x0B 8 0 []], 1) ∧
    (Node.mk false false 0x0F 4 0b0000100000000000 [Node.mk true true 0x0B 8 0 []]).removeChild 11
      = some (Node.mk false false 0x0F 4 0 [], 0) ∧
    (Node.mk false false 0x0F 4 0b0000100000000000 [Node.mk true true 0x0B 8 0 []]).removeChild 12
      = some (Node.mk false false 0x0F 4 0b0000100000000000 [Node.mk true true 0x0B 8 0 []],
          -1) :=
  ⟨by decide, by decide, removeChild_tristate nodeFAB 10 (by decide) (by decide), by rfl, by rfl,
    by rfl⟩

/-! ## One step of `insert`, by the nibble -/

theorem upsert_present (x : Nat) (d c : Node) (pre post : List Node)
    (hpre : ∀ a ∈ pre, a.value < x) (hc : c.value = x) :
    upsert x d (pre ++ c :: post) = pre ++ d :: post := by
  induction pre with
  | nil => simp [upsert, hc]
  | cons a pre ih =>
    have ha : a.value < x := hpre a (List.mem_cons_self _ _)
    rw [List.cons_append, upsert, if_pos ha, ih (fun b hb => hpre b (List.mem_cons_of_mem _ hb))]
    rfl

theorem upsert_absent (x : Nat) (d : Node) (pre post : List Node)
    (hpre : ∀ a ∈ pre, a.value < x) (hpost : ∀ a ∈ post, x < a.value) :
    upsert x d (pre ++ post) = pre ++ d :: post := by
  induction pre with
  | nil =>
    cases post with
    | nil => rfl
    | cons b post =>
      have hb : x < b.value := hpost b (List.mem_cons_self _ _)
      simp only [List.nil_append, upsert, if_neg (show ¬ b.value < x by omega),
        if_neg (show ¬ b.value = x by omega)]
  | cons a pre ih =>
    have ha : a.value < x := hpre a (List.mem_cons_self _ _)
    rw [List.cons_append, upsert, if_pos ha, ih (fun b hb => hpre b (List.mem_cons_of_mem _ hb))]
    rfl

theorem mem_upsert {x : Nat} {d a : Node} {l : List Node} (h : a ∈ upsert x d l) :
    a = d ∨ a ∈ l := by
  induction l with
  | nil =>
    simp only [upsert, List.mem_singleton] at h
    exact Or.inl h
  | cons c cs ih =>
    simp only [upsert] at h
    split_ifs at h with h1 h2
    · rcases List.mem_cons.1 h with h | h
      · exact Or.inr (by rw [h]; exact List.mem_cons_self _ _)
      · rcases ih h with h | h
        · exact Or.inl h
        · exact Or.inr (List.mem_cons_of_mem _ h)
    · rcases List.mem_cons.1 h with h | h
      · exact Or.inl h
      · exact Or.inr (List.mem_cons_of_mem _ h)
    · rcases List.mem_cons.1 h with h | h
      · exact Or.inl h
      · exact Or.inr h

theorem find_upsert_self (x : Nat) (d : Node) (hd : d.value = x) (l : List Node) :
    (upsert x d l).find? (fun a => decide (a.value = x)) = some d := by
  induction l with
  | nil => simp [upsert, hd]
  | cons c cs ih =>
    simp only [upsert]
    split_ifs with h1 h2
    · rw [List.find?_cons_of_neg _ (by simp; omega)]
      exact ih
    · simp [hd]
    · simp [hd]

theorem find_upsert_ne (x y : Nat) (d : Node) (hd : d.value = x) (hy : y ≠ x)
    (l : List Node) :
    (upsert x d l).find? (fun a => decide (a.value = y)) =
      l.find? (fun a => decide (a.value = y)) := by
  have hdy : ¬ d.value = y := by rw [hd]; exact fun h => hy h.symm
  induction l with
  | nil => simp [upsert, hdy]
  | cons c cs ih =>
    simp only [upsert]
    split_ifs with h1 h2
    · by_cases hc : c.value = y
      · simp [hc]
      · rw [List.find?_cons_of_neg _ (by simpa using hc),
          List.find?_cons_of_neg _ (by simpa using hc)]
        exact ih
    · have hc : ¬ c.value = y := by rw [h2]; exact fun h => hy h.symm
      rw [List.find?_cons_of_neg _ (by simpa using hdy),
        List.find?_cons_of_neg _ (by simpa using hc)]
    · rw [List.find?_cons_of_neg _ (by simpa using hdy)]

theorem upsert_twice (x : Nat) (c d : Node) (hc : c.value = x) (l : List Node) :
    upsert x d (upsert x c l) = upsert x d l := by
  induction l with
  | nil => simp [upsert, hc]
  | cons a l ih =>
    simp only [upsert]
    split_ifs with h1 h2
    · simp only [upsert, if_pos h1, ih]
    · simp [upsert, hc]
    · simp [upsert, hc]

theorem upsert_comm (x y : Nat) (c d : Node) (hc : c.value = x) (hd : d.value = y)
    (hxy : x ≠ y) (l : List Node) :
    upsert y d (upsert x c l) = upsert x c (upsert y d l) := by
  induction l with
  | nil =>
    simp only [upsert, hc, hd]
    rcases Nat.lt_or_gt_of_ne hxy with h | h
    · rw [if_pos h, if_neg (show ¬ y < x by omega), if_neg (show ¬ y = x by omega)]
    · rw [if_neg (show ¬ x < y by omega), if_neg hxy, if_pos h]
  | cons a l ih =>
    simp only [upsert]
    by_cases h1 : a.value < x
    · by_cases h2 : a.value < y
      · simp only [if_pos h1, if_pos h2, upsert, ih]
      · by_cases h3 : a.value = y
        · simp only [if_pos h1, if_neg h2, if_pos h3, upsert, hd,
            if_pos (show y < x by omega)]
        · simp only [if_pos h1, if_neg h2, if_neg h3, upsert, hd,
            if_pos (show y < x by omega)]
    · by_cases h1e : a.value = x
      · by_cases h2 : a.value < y
        · simp only [if_neg h1, if_pos h1e, if_pos h2, upsert, hc,
            if_pos (show x < y by omega)]
        · have h3 : ¬ a.value = y := by omega
          simp only [if_neg h1, if_pos h1e, if_neg h2, if_neg h3, upsert, hc, hd,
            if_neg (show ¬ x < y by omega), if_neg hxy, if_pos (show y < x by omega),
            if_neg h1, if_pos h1e]
      · by_cases h2 : a.value < y
        · simp only [if_neg h1, if_neg h1e, if_pos h2, upsert, hc,
            if_pos (show x < y by omega), if_pos h2]
        · by_cases h3 : a.value = y
          · simp only [if_neg h1, if_neg h1e, if_neg h2, if_pos h3, upsert, hc, hd]
            rcases Nat.lt_or_gt_of_ne hxy with h | h
            · simp only [if_pos h, if_neg h2, if_pos h3, if_neg (show ¬ y < x by omega),
                if_neg (show ¬ y = x by omega)]
            · omega
          · simp only [if_neg h1, if_neg h1e, if_neg h2, if_neg h3, upsert, hc, hd]
            rcases Nat.lt_or_gt_of_ne hxy with h | h
            · simp only [if_pos h, if_neg h2, if_neg h3, if_neg (show ¬ y < x by omega),
                if_neg (show ¬ y = x by omega)]
            · simp only [if_pos h, if_neg h1, if_neg h1e, if_neg (show ¬ x < y by omega),
                if_neg hxy]

theorem lor_bit_of_set (B x : Nat) (h : B.testBit x = true) : B ||| 2 ^ x = B := by
  apply Nat.eq_of_testBit_eq
  intro i
  rw [Nat.testBit_or]
  by_cases hi : x = i
  · subst hi; simp [h]
  · simp [Nat.testBit_two_pow_of_ne hi]

theorem childOrNew_value (n : Node) (x : Nat) : (childOrNew n x).value = x := by
  unfold childOrNew
  cases h : child n x with
  | none => rfl
  | some c => exact (child_mem h).2

theorem childOrNew_wfa {n : Node} (h : WFA n) (x : Nat) : WFA (childOrNew n x) := by
  unfold childOrNew
  cases hc : child n x with
  | none => exact wfa_fresh _ _ _ _
  | some c => exact h.sub c (child_mem hc).1

theorem insertLoop_step {n : Node} (h : WFA n) (x : Nat) (hx : x < 16) (w : List Nat) :
    insertLoop (x :: w) n = (insertLoop w (childOrNew n x)).map (withChild n x) := by
  cases slot_cases n x hx h with
  | present pre c post e hc hpre hpost hidx =>
    rw [insertLoop_present w e hidx]
    have hch : childOrNew n x = c := by
      unfold childOrNew
      rw [child_present e hc hpre]
      rfl
    rw [hch]
    congr 1
    funext c1
    have hb : n.bitmap.testBit x = true := (h.bits x).2 ⟨c, by rw [e]; simp, hc⟩
    unfold withChild
    rw [shift_mod x hx, lor_bit_of_set _ _ hb, e, upsert_present x c1 c pre post hpre hc]
    cases n
    rfl
  | absent pre post e hpre hpost hidx hidx1 =>
    rw [insertLoop_absent w e hidx hidx1]
    have hch : childOrNew n x = Node.mk false false x ((n.prefixBits + 4) % 256) 0 [] := by
      unfold childOrNew
      rw [child_absent e hpre hpost]
      rfl
    rw [hch]
    congr 1
    funext c1
    unfold withChild
    rw [e, upsert_absent x c1 pre post hpre hpost]
    cases n
    rfl

theorem child_withChild_self (n : Node) (x : Nat) (c1 : Node) (hc1 : c1.value = x) :
    child (withChild n x c1) x = some c1 := by
  unfold child withChild
  exact find_upsert_self x c1 hc1 _

theorem child_withChild_ne (n : Node) (x y : Nat) (c1 : Node) (hc1 : c1.value = x)
    (hy : y ≠ x) : child (withChild n x c1) y = child n y := by
  unfold child withChild
  exact find_upsert_ne x y c1 hc1 hy _

theorem childOrNew_withChild_self (n : Node) (x : Nat) (c1 : Node) (hc1 : c1.value = x) :
    childOrNew (withChild n x c1) x = c1 := by
  unfold childOrNew
  rw [child_withChild_self n x c1 hc1]
  rfl

theorem childOrNew_withChild_ne (n : Node) (x y : Nat) (c1 : Node) (hc1 : c1.value = x)
    (hy : y ≠ x) : childOrNew (withChild n x c1) y = childOrNew n y := by
  unfold childOrNew
  rw [child_withChild_ne n x y c1 hc1 hy]
  rfl

theorem withChild_twice (n : Node) (x : Nat) (c d : Node) (hc : c.value = x) :
    withChild (withChild n x c) x d = withChild n x d := by
  unfold withChild
  simp only [Node.isLeaf_mk1, Node.isAliased_mk1, Node.value_mk1, Node.prefixBits_mk1,
    Node.bitmap_mk1, Node.children_mk1, upsert_twice x c d hc, Nat.lor_assoc, Nat.or_self]

theorem withChild_comm (n : Node) (x y : Nat) (c d : Node) (hc : c.value = x)
    (hd : d.value = y) (hxy : x ≠ y) :
    withChild (withChild n x c) y d = withChild (withChild n y d) x c := by
  unfold withChild
  simp only [Node.isLeaf_mk1, Node.isAliased_mk1, Node.value_mk1, Node.prefixBits_mk1,
    Node.bitmap_mk1, Node.children_mk1, upsert_comm x y c d hc hd hxy]
  rw [Nat.lor_assoc, Nat.lor_comm ((1 <<< x) % 65536), ← Nat.lor_assoc]

theorem childOrNew_markLeaf (n : Node) (x : Nat) : childOrNew n.markLeaf x = childOrNew n x := by
  cases n
  rfl

theorem withChild_markLeaf (n : Node) (x : Nat) (c : Node) :
    withChild n.markLeaf x c = (withChild n x c).markLeaf := by
  cases n
  rfl

theorem markLeaf_twice (n : Node) : n.markLeaf.markLeaf = n.markLeaf := by
  cases n
  rfl

theorem insertLoop_markLeaf {n : Node} (h : WFA n) (w : List Nat) (hw : ∀ x ∈ w, x < 16) :
    insertLoop w n.markLeaf = (insertLoop w n).map Node.markLeaf := by
  cases w with
  | nil => simp [insertLoop, markLeaf_twice]
  | cons x w =>
    have hx := hw x (List.mem_cons_self _ _)
    rw [insertLoop_step (wfa_markLeaf h) x hx, insertLoop_step h x hx, childOrNew_markLeaf,
      Option.map_map]
    congr 1
    funext c
    exact withChild_markLeaf n x c

theorem insertLoop_comm (wa : List Nat) : ∀ (wb : List Nat) (n : Node), WFA n →
    (∀ x ∈ wa, x < 16) → (∀ x ∈ wb, x < 16) →
    (insertLoop wa n).bind (insertLoop wb) = (insertLoop wb n).bind (insertLoop wa) := by
  induction wa with
  | nil =>
    intro wb n hn _ hb
    show insertLoop wb n.markLeaf = (insertLoop wb n).bind (insertLoop [])
    rw [insertLoop_markLeaf hn wb hb]
    cases insertLoop wb n <;> rfl
  | cons x wa ih =>
    intro wb n hn ha hb
    cases wb with
    | nil =>
      show (insertLoop (x :: wa) n).bind (insertLoop []) = insertLoop (x :: wa) n.markLeaf
      rw [insertLoop_markLeaf hn (x :: wa) ha]
      cases insertLoop (x :: wa) n <;> rfl
    | cons y wb =>
      have hx := ha x (List.mem_cons_self _ _)
      have hy := hb y (List.mem_cons_self _ _)
      have ha1 : ∀ z ∈ wa, z < 16 := fun z hz => ha z (List.mem_cons_of_mem _ hz)
      have hb1 : ∀ z ∈ wb, z < 16 := fun z hz => hb z (List.mem_cons_of_mem _ hz)
      obtain ⟨n1, e1, hw1, _⟩ := insertLoop_spec (x :: wa) n hn ha
      obtain ⟨n2, e2, hw2, _⟩ := insertLoop_spec (y :: wb) n hn hb
      obtain ⟨c1, ec1, hwc1, hv1, _⟩ := insertLoop_spec wa (childOrNew n x) (childOrNew_wfa hn x) ha1
      obtain ⟨d1, ed1, hwd1, hvd1, _⟩ :=
        insertLoop_spec wb (childOrNew n y) (childOrNew_wfa hn y) hb1
      rw [childOrNew_value] at hv1 hvd1
      have f1 : n1 = withChild n x c1 := by
        rw [insertLoop_step hn x hx, ec1] at e1
        exact (Option.some.inj e1).symm
      have f2 : n2 = withChild n y d1 := by
        rw [insertLoop_step hn y hy, ed1] at e2
        exact (Option.some.inj e2).symm
      rw [e1, e2]
      show insertLoop (y :: wb) n1 = insertLoop (x :: wa) n2
      rw [insertLoop_step hw1 y hy, insertLoop_step hw2 x hx, f1, f2]
      by_cases hxy : x = y
      · subst hxy
        rw [childOrNew_withChild_self n x c1 hv1, childOrNew_withChild_self n x d1 hvd1]
        have hcomm := ih wb (childOrNew n x) (childOrNew_wfa hn x) ha1 hb1
        rw [ec1, ed1] at hcomm
        have hcomm1 : insertLoop wb c1 = insertLoop wa d1 := hcomm
        obtain ⟨r, er, _, hvr, _⟩ := insertLoop_spec wb c1 hwc1 hb1
        rw [← hcomm1, er]
        show some (withChild (withChild n x c1) x r) = some (withChild (withChild n x d1) x r)
        rw [withChild_twice n x c1 r hv1, withChild_twice n x d1 r hvd1]
      · rw [childOrNew_withChild_ne n x y c1 hv1 (fun h => hxy h.symm),
          childOrNew_withChild_ne n y x d1 hvd1 hxy, ec1, ed1]
        show some (withChild (withChild n x c1) y d1) = some (withChild (withChild n y d1) x c1)
        rw [withChild_comm n x y c1 d1 hv1 hvd1 hxy]

theorem insertLoop_twice (w : List Nat) : ∀ (n n1 : Node), WFA n → (∀ x ∈ w, x < 16) →
    insertLoop w n = some n1 → insertLoop w n1 = some n1 := by
  induction w with
  | nil =>
    intro n n1 _ _ h
    simp only [insertLoop, Option.some.injEq] at h
    rw [← h]
    simp [insertLoop, markLeaf_twice]
  | cons x w ih =>
    intro n n1 hn hw h
    have hx := hw x (List.mem_cons_self _ _)
    have hw1 : ∀ z ∈ w, z < 16 := fun z hz => hw z (List.mem_cons_of_mem _ hz)
    obtain ⟨m, em, hwm, _⟩ := insertLoop_spec (x :: w) n hn hw
    obtain ⟨c1, ec1, hwc1, hv1, _⟩ := insertLoop_spec w (childOrNew n x) (childOrNew_wfa hn x) hw1
    rw [childOrNew_value] at hv1
    have hmn : m = n1 := Option.some.inj (em.symm.trans h)
    subst hmn
    have f1 : m = withChild n x c1 := by
      rw [insertLoop_step hn x hx, ec1] at em
      exact (Option.some.inj em).symm
    rw [insertLoop_step hwm x hx, f1, childOrNew_withChild_self n x c1 hv1,
      ih (childOrNew n x) c1 (childOrNew_wfa hn x) hw1 ec1]
    show some (withChild (withChild n x c1) x c1) = some (withChild n x c1)
    rw [withChild_twice n x c1 c1 hv1]

theorem insert_comm (t : AMT) (h : WFA t.root) (a b : List Nat) :
    ∃ tab, (t.insert a).bind (fun t1 => t1.insert b) = some tab ∧
      (t.insert b).bind (fun t1 => t1.insert a) = some tab := by
  obtain ⟨ta, ea, hwa, _⟩ := insert_stored t a h
  obtain ⟨tab, eab, _, _⟩ := insert_stored ta b hwa
  refine ⟨tab, by rw [ea]; exact eab, ?_⟩
  have hc := insertLoop_comm (nibbles a) (nibbles b) t.root h (nibbles_lt a) (nibbles_lt b)
  have ea1 : insertLoop (nibbles a) t.root = some ta.root := by
    unfold AMT.insert at ea
    cases hl : insertLoop (nibbles a) t.root with
    | none => rw [hl] at ea; cases ea
    | some r => rw [hl] at ea; cases ea; rfl
  have eab1 : insertLoop (nibbles b) ta.root = some tab.root := by
    unfold AMT.insert at eab
    cases hl : insertLoop (nibbles b) ta.root with
    | none => rw [hl] at eab; cases eab
    | some r => rw [hl] at eab; cases eab; rfl
  obtain ⟨tb, eb, hwb, _⟩ := insert_stored t b h
  have eb1 : insertLoop (nibbles b) t.root = some tb.root := by
    unfold AMT.insert at eb
    cases hl : insertLoop (nibbles b) t.root with
    | none => rw [hl] at eb; cases eb
    | some r => rw [hl] at eb; cases eb; rfl
  rw [ea1, eb1] at hc
  have hc1 : insertLoop (nibbles b) ta.root = insertLoop (nibbles a) tb.root := hc
  rw [eab1] at hc1
  rw [eb]
  show tb.insert a = some tab
  unfold AMT.insert
  rw [← hc1]

theorem insert_twice (t : AMT) (h : WFA t.root) (a : List Nat) :
    ∃ ta, t.insert a = some ta ∧ ta.insert a = some ta := by
  obtain ⟨ta, ea, _, _⟩ := insert_stored t a h
  refine ⟨ta, ea, ?_⟩
  have ea1 : insertLoop (nibbles a) t.root = some ta.root := by
    unfold AMT.insert at ea
    cases hl : insertLoop (nibbles a) t.root with
    | none => rw [hl] at ea; cases ea
    | some r => rw [hl] at ea; cases ea; rfl
  unfold AMT.insert
  rw [insertLoop_twice (nibbles a) t.root ta.root h (nibbles_lt a) ea1]

theorem insertAll_perm {ks qs : List (List Nat)} (hp : ks.Perm qs) :
    ∀ t : AMT, WFA t.root → insertAll t ks = insertAll t qs := by
  induction hp with
  | nil => intro t _; rfl
  | cons k _ ih =>
    intro t h
    obtain ⟨t1, e1, hw1, _⟩ := insert_stored t k h
    simp only [insertAll, e1]
    exact ih t1 hw1
  | swap a b l =>
    intro t h
    obtain ⟨tab, e1, e2⟩ := insert_comm t h a b
    obtain ⟨ta, ea, _, _⟩ := insert_stored t a h
    obtain ⟨tb, eb, _, _⟩ := insert_stored t b h
    rw [ea] at e1
    rw [eb] at e2
    have e1a : ta.insert b = some tab := e1
    have e2a : tb.insert a = some tab := e2
    simp only [insertAll, ea, eb, e1a, e2a]
  | trans _ _ ih1 ih2 =>
    intro t h
    rw [ih1 t h, ih2 t h]

/-- C39. Insertion into the trie does not depend on the order and is idempotent: on every trie
reachable from `InitAMT` by the operations of the package, for all keys `a` and `b`, `insert a`
and then `insert b` return the same trie, node for node with all fields and the children in
their order, as `insert b` and then `insert a`, and a second `insert a` returns the trie of the
first. So a run of inserts returns the same trie for every order of its keys. -/
theorem insert_order_independent (t : AMT) (h : Reach t) (a b : List Nat) :
    (∃ tab, (t.insert a).bind (fun t1 => t1.insert b) = some tab ∧
      (t.insert b).bind (fun t1 => t1.insert a) = some tab) ∧
    (∃ ta, t.insert a = some ta ∧ ta.insert a = some ta) ∧
    (∀ ks qs : List (List Nat), ks.Perm qs →
      ∃ r, insertAll t ks = some r ∧ insertAll t qs = some r) := by
  have hw := reach_wfa h
  refine ⟨insert_comm t hw a b, insert_twice t hw a, ?_⟩
  intro ks qs hp
  obtain ⟨r, er, _⟩ := insertAll_stored ks t hw
  exact ⟨r, er, by rw [← insertAll_perm hp t hw]; exact er⟩

/-- The theorem on the trie reached by `insert(FA)`, `insertWithCheckpoint(FB)`,
`removeEntry(FA)` and a prune, with the keys `FA` and `FB`; and the four keys of the tests
inserted in the reverse order give the tree of `TestInsert`. -/
theorem insert_order_independent_witness :
    Reach reachExample ∧
    ((∃ tab, (reachExample.insert [0xFA]).bind (fun t1 => t1.insert [0xFB]) = some tab ∧
        (reachExample.insert [0xFB]).bind (fun t1 => t1.insert [0xFA]) = some tab) ∧
      (∃ ta, reachExample.insert [0xFA] = some ta ∧ ta.insert [0xFA] = some ta) ∧
      (∀ ks qs : List (List Nat), ks.Perm qs →
        ∃ r, insertAll reachExample ks = some r ∧ insertAll reachExample qs = some r)) ∧
    insertAll InitAMT testKeys = some ⟨insertTestTree true⟩ ∧
    insertAll InitAMT testKeys.reverse = some ⟨insertTestTree true⟩ :=
  ⟨reach_example, insert_order_independent reachExample reach_example [0xFA] [0xFB], by rfl,
    by rfl⟩

/-! ## The nodes of the trie and the prefixes of the keys -/

theorem PrefixOk.step {n : Node} (h : PrefixOk n) :
    ∀ c ∈ n.children, c.prefixBits = (n.prefixBits + 4) % 256 ∧ PrefixOk c := by
  cases h with
  | mk _ h1 h2 => exact fun c hc => ⟨h1 c hc, h2 c hc⟩

theorem prefixOk_fresh (l a : Bool) (v p : Nat) : PrefixOk (Node.mk l a v p 0 []) :=
  PrefixOk.mk _ (by intro c hc; simp at hc) (by intro c hc; simp at hc)

theorem childOrNew_prefixBits {n : Node} (h : PrefixOk n) (x : Nat) :
    (childOrNew n x).prefixBits = (n.prefixBits + 4) % 256 ∧ PrefixOk (childOrNew n x) := by
  unfold childOrNew
  cases hc : child n x with
  | none => exact ⟨rfl, prefixOk_fresh _ _ _ _⟩
  | some c => exact h.step c (child_mem hc).1

theorem prefixOk_markLeaf {n : Node} (h : PrefixOk n) : PrefixOk n.markLeaf := by
  cases n
  exact PrefixOk.mk _ (fun c hc => (h.step c hc).1) (fun c hc => (h.step c hc).2)

theorem insertLoop_prefixOk (w : List Nat) : ∀ (n n1 : Node), WFA n → PrefixOk n →
    (∀ x ∈ w, x < 16) → insertLoop w n = some n1 → PrefixOk n1 := by
  induction w with
  | nil =>
    intro n n1 _ hp _ h
    simp only [insertLoop, Option.some.injEq] at h
    rw [← h]
    exact prefixOk_markLeaf hp
  | cons x w ih =>
    intro n n1 hn hp hw h
    have hx := hw x (List.mem_cons_self _ _)
    have hw1 : ∀ z ∈ w, z < 16 := fun z hz => hw z (List.mem_cons_of_mem _ hz)
    obtain ⟨c1, ec1, _, _, hpb, _⟩ :=
      insertLoop_spec w (childOrNew n x) (childOrNew_wfa hn x) hw1
    obtain ⟨hcp, hcok⟩ := childOrNew_prefixBits hp x
    have hc1 := ih (childOrNew n x) c1 (childOrNew_wfa hn x) hcok hw1 ec1
    rw [insertLoop_step hn x hx, ec1] at h
    have f1 : n1 = withChild n x c1 := (Option.some.inj h).symm
    rw [f1]
    refine PrefixOk.mk _ ?_ ?_
    · intro c hc
      rcases mem_upsert hc with e | e
      · rw [e, hpb, hcp]; rfl
      · exact (hp.step c e).1
    · intro c hc
      rcases mem_upsert hc with e | e
      · rw [e]; exact hc1
      · exact (hp.step c e).2

theorem nodeAt_prefixBits (v : List Nat) : ∀ (n m : Node), PrefixOk n → n.prefixBits < 256 →
    nodeAt n v = some m → m.prefixBits = (n.prefixBits + 4 * v.length) % 256 := by
  induction v with
  | nil =>
    intro n m _ hlt h
    simp only [nodeAt, Option.some.injEq] at h
    rw [← h, List.length_nil]
    omega
  | cons x v ih =>
    intro n m hp _ h
    simp only [nodeAt] at h
    cases hc : child n x with
    | none => rw [hc] at h; cases h
    | some c =>
      rw [hc] at h
      obtain ⟨h1, h2⟩ := hp.step c (child_mem hc).1
      have := ih c m h2 (by rw [h1]; exact Nat.mod_lt _ (by decide)) h
      rw [this, h1, List.length_cons]
      omega

theorem nodeAt_value (v : List Nat) : ∀ (n m : Node), nodeAt n v = some m →
    m.value = v.getLast?.getD n.value := by
  induction v with
  | nil =>
    intro n m h
    simp only [nodeAt, Option.some.injEq] at h
    rw [← h]
    rfl
  | cons x v ih =>
    intro n m h
    simp only [nodeAt] at h
    cases hc : child n x with
    | none => rw [hc] at h; cases h
    | some c =>
      rw [hc] at h
      have := ih c m h
      rw [this, (child_mem hc).2]
      cases v with
      | nil => rfl
      | cons y v =>
        rw [List.getLast?_cons_cons,
          List.getLast?_eq_getLast (y :: v) (List.cons_ne_nil _ _)]
        rfl

theorem nodeAt_snoc (v : List Nat) (x : Nat) : ∀ n : Node,
    nodeAt n (v ++ [x]) = (nodeAt n v).bind (fun m => child m x) := by
  induction v with
  | nil =>
    intro n
    simp only [List.nil_append, nodeAt, Option.some_bind]
    cases child n x <;> rfl
  | cons y v ih =>
    intro n
    simp only [List.cons_append, nodeAt]
    cases child n y with
    | none => rfl
    | some c => exact ih c

theorem nodeAt_wfa (v : List Nat) : ∀ (n m : Node), WFA n → nodeAt n v = some m → WFA m := by
  induction v with
  | nil =>
    intro n m hn h
    simp only [nodeAt, Option.some.injEq] at h
    rw [← h]
    exact hn
  | cons x v ih =>
    intro n m hn h
    simp only [nodeAt] at h
    cases hc : child n x with
    | none => rw [hc] at h; cases h
    | some c =>
      rw [hc] at h
      exact ih c m (hn.sub c (child_mem hc).1) h

theorem bit_iff_child {m : Node} (h : WFA m) (x : Nat) :
    m.bitmap.testBit x = true ↔ ∃ c, child m x = some c := by
  rw [h.bits x]
  constructor
  · rintro ⟨c, hc, hv⟩
    exact ⟨c, by rw [← hv]; exact child_of_mem h hc⟩
  · rintro ⟨c, hc⟩
    exact ⟨c, child_mem hc⟩

theorem exists_iff_flags (n : Node) (v : List Nat) :
    (∃ m, nodeAt n v = some m) ↔ (flagsAt n v).isSome = true := by
  unfold flagsAt
  cases nodeAt n v <;> simp

theorem insertLoop_nodes (w : List Nat) (n : Node) (hn : WFA n) (hw : ∀ x ∈ w, x < 16) :
    ∃ n1, insertLoop w n = some n1 ∧ WFA n1 ∧ n1.value = n.value ∧
      n1.prefixBits = n.prefixBits ∧
      ∀ v, (∃ m, nodeAt n1 v = some m) ↔ ((∃ m, nodeAt n v = some m) ∨ v <+: w) := by
  obtain ⟨n1, e1, hw1, hv, hp, hf⟩ := insertLoop_spec w n hn hw
  refine ⟨n1, e1, hw1, hv, hp, ?_⟩
  intro v
  rw [exists_iff_flags, exists_iff_flags, hf v]
  by_cases h1 : v = w
  · rw [if_pos h1]
    simp [h1]
  · rw [if_neg h1]
    by_cases h2 : (flagsAt n v).isSome = true
    · rw [if_pos h2]
      simp [h2]
    · rw [if_neg h2]
      by_cases h3 : v <+: w
      · rw [if_pos h3]; simp [h3]
      · rw [if_neg h3]; simp [h2, h3]

theorem insertAll_nodes (ks : List (List Nat)) : ∀ t0 : AMT, WFA t0.root → PrefixOk t0.root →
    ∃ t, insertAll t0 ks = some t ∧ WFA t.root ∧ PrefixOk t.root ∧
      t.root.value = t0.root.value ∧ t.root.prefixBits = t0.root.prefixBits ∧
      ∀ v, (∃ m, nodeAt t.root v = some m) ↔
        ((∃ m, nodeAt t0.root v = some m) ∨ ∃ k ∈ ks, v <+: nibbles k) := by
  induction ks with
  | nil =>
    intro t0 hw hp
    exact ⟨t0, rfl, hw, hp, rfl, rfl, fun v => by simp⟩
  | cons k ks ih =>
    intro t0 hw hp
    obtain ⟨n1, e1, hw1, hv1, hp1, hx1⟩ := insertLoop_nodes (nibbles k) t0.root hw (nibbles_lt k)
    have hpo := insertLoop_prefixOk (nibbles k) t0.root n1 hw hp (nibbles_lt k) e1
    obtain ⟨t, e2, hw2, hpo2, hv2, hp2, hx2⟩ := ih ⟨n1⟩ hw1 hpo
    refine ⟨t, ?_, hw2, hpo2, by rw [hv2]; exact hv1, by rw [hp2]; exact hp1, ?_⟩
    · simp only [insertAll, AMT.insert, e1]
      exact e2
    · intro v
      rw [hx2 v, hx1 v]
      simp only [List.mem_cons, exists_eq_or_imp]
      tauto

/-- C35. The structure of the trie and the order of the nibbles: every run of inserts of keys
of at most 31 bytes from `InitAMT` returns a trie in which a node stands at the end of the
nibble path `w` exactly when `w` is empty (the root) or the first nibbles of some inserted key,
where the nibbles of a key are, byte by byte, `(b >> 4) & 0xF` and then `b & 0xF`. The node at
the end of `w` has `prefix = 4 * |w|` and as `value` the last nibble of `w`, 0 at the root; bit
`x` of its bitmap is set exactly when `w` followed by `x` is again the first nibbles of an
inserted key; and the walk of `getPath` along `w`, by the bitmap slots, ends at that node. -/
theorem trie_structure (ks : List (List Nat)) (hks : ∀ k ∈ ks, k.length ≤ 31) :
    ∃ t, insertAll InitAMT ks = some t ∧
      (∀ w, (∃ m, nodeAt t.root w = some m) ↔ (w = [] ∨ ∃ k ∈ ks, w <+: nibbles k)) ∧
      (∀ w m, nodeAt t.root w = some m →
        m.prefixBits = 4 * w.length ∧ m.value = w.getLast?.getD 0 ∧
        (∀ x, m.bitmap.testBit x = true ↔ ∃ k ∈ ks, w ++ [x] <+: nibbles k) ∧
        getPathLoop w t.root [] = some (pathNodes t.root w) ∧
        (pathNodes t.root w).getLast? = some m) ∧
      (∀ b bs, nibbles (b :: bs) = ((b >>> 4) &&& 0x0F) :: (b &&& 0x0F) :: nibbles bs) := by
  obtain ⟨t, e, hw, hpo, hv, hp, hx⟩ :=
    insertAll_nodes ks InitAMT wfa_init (prefixOk_fresh _ _ _ _)
  have hinit : ∀ v, (∃ m, nodeAt InitAMT.root v = some m) ↔ v = [] := by
    intro v
    rw [exists_iff_flags]
    show (flagsAt (Node.mk false false 0 0 0 []) v).isSome = true ↔ v = []
    rw [flagsAt_fresh]
    by_cases hv0 : v = []
    · simp [hv0]
    · simp [hv0]
  have hex : ∀ w, (∃ m, nodeAt t.root w = some m) ↔ (w = [] ∨ ∃ k ∈ ks, w <+: nibbles k) := by
    intro w
    rw [hx w, hinit w]
  refine ⟨t, e, hex, ?_, ?_⟩
  · intro w m hm
    have hlen : w.length ≤ 62 := by
      rcases (hex w).1 ⟨m, hm⟩ with h0 | ⟨k, hk, hpre⟩
      · rw [h0]; simp
      · have := hpre.length_le
        rw [nibbles_length] at this
        have := hks k hk
        omega
    have hsmall : ∀ x ∈ w, x < 16 := by
      rcases (hex w).1 ⟨m, hm⟩ with h0 | ⟨k, hk, hpre⟩
      · rw [h0]; intro x hx0; cases hx0
      · intro x hx0
        exact nibbles_lt k x (hpre.subset hx0)
    refine ⟨?_, ?_, ?_, ?_, ?_⟩
    · have hr : t.root.prefixBits = 0 := by rw [hp]; rfl
      rw [nodeAt_prefixBits w t.root m hpo (by rw [hr]; decide) hm, hr]
      omega
    · have hr : t.root.value = 0 := by rw [hv]; rfl
      rw [nodeAt_value w t.root m hm, hr]
    · intro x
      rw [bit_iff_child (nodeAt_wfa w t.root m hw hm) x]
      have : (∃ c, child m x = some c) ↔ ∃ c, nodeAt t.root (w ++ [x]) = some c := by
        rw [nodeAt_snoc, hm]
        rfl
      rw [this, hex (w ++ [x])]
      constructor
      · rintro (h0 | h0)
        · simp at h0
        · exact h0
      · exact Or.inr
    · have := getPathLoop_spec w t.root [] hw hsmall
      rw [hm] at this
      simpa using this
    · exact pathNodes_getLast w t.root m hm
  · intro b bs
    rw [nibbles_cons]
    simp [getNibble]

/-- The structure theorem on the four keys of the tests: the bitmap of the root is
`0b1000000000001000`. -/
theorem trie_structure_witness :
    (∀ k ∈ testKeys, k.length ≤ 31) ∧
    (∃ t, insertAll InitAMT testKeys = some t ∧
      (∀ w, (∃ m, nodeAt t.root w = some m) ↔ (w = [] ∨ ∃ k ∈ testKeys, w <+: nibbles k)) ∧
      (∀ w m, nodeAt t.root w = some m →
        m.prefixBits = 4 * w.length ∧ m.value = w.getLast?.getD 0 ∧
        (∀ x, m.bitmap.testBit x = true ↔ ∃ k ∈ testKeys, w ++ [x] <+: nibbles k) ∧
        getPathLoop w t.root [] = some (pathNodes t.root w) ∧
        (pathNodes t.root w).getLast? = some m) ∧
      (∀ b bs, nibbles (b :: bs) = ((b >>> 4) &&& 0x0F) :: (b &&& 0x0F) :: nibbles bs)) ∧
    (∃ t, insertAll InitAMT testKeys = some t ∧ t.root.bitmap = 0b1000000000001000) ∧
    nibbles [0xFA, 0x45, 0x01] = [0xF, 0xA, 4, 5, 0, 1] :=
  ⟨by decide, trie_structure testKeys (by decide), ⟨⟨insertTestTree true⟩, by rfl, by rfl⟩,
    by decide⟩

/-! ## `insertWithCheckpoint` and `insert` build the same trie -/

theorem counted_eq_insertLoop (cc : Nat) (w : List Nat) : ∀ (n : Node) (counter : List LevelMap),
    cc < counter.length →
    ∃ r, insertWithCheckpointCounted cc w n counter = r ∧
      r.map Prod.fst = insertLoop w n ∧
      ∀ n1 counter1, r = some (n1, counter1) →
        counter1.length = counter.length ∧
        ∀ j, j ≠ cc → counter1.get? j = counter.get? j := by
  induction w with
  | nil =>
    intro n counter _
    refine ⟨_, rfl, rfl, ?_⟩
    intro n1 counter1 h
    simp only [insertWithCheckpointCounted, Option.some.injEq, Prod.mk.injEq] at h
    rw [← h.2]
    exact ⟨rfl, fun _ _ => rfl⟩
  | cons x w ih =>
    intro n counter hcc
    refine ⟨_, rfl, ?_, ?_⟩
    · rw [insertWithCheckpointCounted, insertLoop]
      cases hgi : n.getIndex x with
      | some i =>
        simp only []
        cases hg : n.children.get? i with
        | none => rfl
        | some c =>
          simp only []
          obtain ⟨r, er, hr, _⟩ := ih c counter hcc
          rw [er, ← hr]
          cases r <;> rfl
      | none =>
        simp only []
        cases hgi1 : (n.setBitmap (n.bitmap ||| ((1 <<< x) % 65536))).getIndex x with
        | none => rfl
        | some i =>
          simp only []
          obtain ⟨m, hm⟩ : ∃ m, counter.get? cc = some m := by
            cases hcg : counter.get? cc with
            | none =>
              rw [List.get?_eq_none] at hcg
              omega
            | some m => exact ⟨m, rfl⟩
          by_cases h1 : (n.setBitmap (n.bitmap ||| ((1 <<< x) % 65536))).children.length = i
          · simp only [if_pos h1, hm]
            obtain ⟨r, er, hr, _⟩ := ih (Node.mk false false x ((n.prefixBits + 4) % 256) 0 [])
              (counter.set cc (countChild m n.prefixBits n.value x
                ((n.setBitmap (n.bitmap ||| ((1 <<< x) % 65536))).children ++
                  [Node.mk false false x ((n.prefixBits + 4) % 256) 0 []]).length))
              (by rw [List.length_set]; exact hcc)
            rw [er, ← hr]
            cases r with
            | none => rfl
            | some r =>
              simp only [Option.map_some']
              rw [← h1, List.set_append_right _ _ (Nat.le_refl _)]
              simp
          · by_cases h2 : i < (n.setBitmap (n.bitmap ||| ((1 <<< x) % 65536))).children.length
            · simp only [if_neg h1, if_pos h2, hm]
              obtain ⟨r, er, hr, _⟩ :=
                ih (Node.mk false false x ((n.prefixBits + 4) % 256) 0 [])
                  (counter.set cc (countChild m n.prefixBits n.value x
                    (((n.setBitmap (n.bitmap ||| ((1 <<< x) % 65536))).children.take (i + 1) ++
                      (n.setBitmap (n.bitmap ||| ((1 <<< x) % 65536))).children.drop i).set i
                        (Node.mk false false x ((n.prefixBits + 4) % 256) 0 [])).length))
                  (by rw [List.length_set]; exact hcc)
              rw [er, ← hr]
              cases r with
              | none => rfl
              | some r =>
                simp only [Option.map_some', List.set_set]
            · simp only [if_neg h1, if_neg h2]
              rfl
    · intro n1 counter1 h
      rw [insertWithCheckpointCounted] at h
      cases hgi : n.getIndex x with
      | some i =>
        rw [hgi] at h
        simp only [] at h
        cases hg : n.children.get? i with
        | none => rw [hg] at h; cases h
        | some c =>
          rw [hg] at h
          simp only [] at h
          obtain ⟨r, er, _, hr2⟩ := ih c counter hcc
          rw [er] at h
          cases r with
          | none => cases h
          | some r =>
            simp only [Option.some.injEq, Prod.mk.injEq] at h
            have := hr2 r.1 r.2 rfl
            rw [← h.2]
            exact this
      | none =>
        rw [hgi] at h
        simp only [] at h
        cases hgi1 : (n.setBitmap (n.bitmap ||| ((1 <<< x) % 65536))).getIndex x with
        | none => rw [hgi1] at h; cases h
        | some i =>
          rw [hgi1] at h
          simp only [] at h
          obtain ⟨m, hm⟩ : ∃ m, counter.get? cc = some m := by
            cases hcg : counter.get? cc with
            | none =>
              rw [List.get?_eq_none] at hcg
              omega
            | some m => exact ⟨m, rfl⟩
          have key : ∀ ch : List Node,
              (match insertWithCheckpointCounted cc w
                  (Node.mk false false x ((n.prefixBits + 4) % 256) 0 [])
                  (counter.set cc (countChild m n.prefixBits n.value x ch.length)) with
                | none => none
                | some r => some ((n.setBitmap (n.bitmap ||| ((1 <<< x) % 65536))).setChildren
                    (ch.set i r.1), r.2)) = some (n1, counter1) →
              counter1.length = counter.length ∧
                ∀ j, j ≠ cc → counter1.get? j = counter.get? j := by
            intro ch hch
            obtain ⟨r, er, _, hr2⟩ :=
              ih (Node.mk false false x ((n.prefixBits + 4) % 256) 0 [])
                (counter.set cc (countChild m n.prefixBits n.value x ch.length))
                (by rw [List.length_set]; exact hcc)
            rw [er] at hch
            cases r with
            | none => cases hch
            | some r =>
              simp only [Option.some.injEq, Prod.mk.injEq] at hch
              obtain ⟨hl, hj⟩ := hr2 r.1 r.2 rfl
              rw [← hch.2]
              refine ⟨by rw [hl, List.length_set], ?_⟩
              intro j hj1
              rw [hj j hj1, List.get?_eq_getElem?, List.get?_eq_getElem?,
                List.getElem?_set_ne (fun h => hj1 h.symm)]
          by_cases h1 : (n.setBitmap (n.bitmap ||| ((1 <<< x) % 65536))).children.length = i
          · simp only [if_pos h1, hm] at h
            exact key _ h
          · by_cases h2 : i < (n.setBitmap (n.bitmap ||| ((1 <<< x) % 65536))).children.length
            · simp only [if_neg h1, if_pos h2, hm] at h
              exact key _ h
            · simp only [if_neg h1, if_neg h2] at h
              cases h

/-- C36. `insertWithCheckpoint` refines `insert`: on every state of the struct `AMT` in which
`currentCheckpoint` is an index of `counter`, as it is in every state that the operations
produce, and for every key, `insertWithCheckpoint` returns exactly when `insert` does, and the
trie it leaves, node for node with all fields and the children in their order, is the trie that
`insert` leaves; `currentCheckpoint`, the number of checkpoints and the maps of the other
checkpoints are as before, so the two differ only in the map of the current checkpoint. -/
theorem insertWithCheckpoint_refines (t : AMTState) (k : List Nat)
    (hcc : t.currentCheckpoint < t.counter.length) :
    (t.insertWithCheckpoint k).map AMTState.trie = t.trie.insert k ∧
    (t.insertWithCheckpoint k).map AMTState.trie = t.trie.insertWithCheckpoint k ∧
    (∀ t1, t.insertWithCheckpoint k = some t1 →
      t1.currentCheckpoint = t.currentCheckpoint ∧ t1.counter.length = t.counter.length ∧
      ∀ j, j ≠ t.currentCheckpoint → t1.counter.get? j = t.counter.get? j) := by
  obtain ⟨r, er, hr, hr2⟩ :=
    counted_eq_insertLoop t.currentCheckpoint (nibbles k) t.root t.counter hcc
  have h1 : (t.insertWithCheckpoint k).map AMTState.trie = t.trie.insert k := by
    unfold AMTState.insertWithCheckpoint AMT.insert
    rw [er]
    show _ = (match insertLoop (nibbles k) t.root with
      | none => none
      | some r => some { root := r })
    rw [← hr]
    cases r <;> rfl
  refine ⟨h1, by rw [h1, insertWithCheckpoint_eq], ?_⟩
  intro t1 ht1
  unfold AMTState.insertWithCheckpoint at ht1
  rw [er] at ht1
  cases r with
  | none => cases ht1
  | some r =>
    simp only [Option.some.injEq] at ht1
    obtain ⟨hl, hj⟩ := hr2 r.1 r.2 rfl
    rw [← ht1]
    exact ⟨rfl, hl, hj⟩

/-- The refinement on the state of `InitAMT` with the key `FA`: both leave the trie with the
one key. -/
theorem insertWithCheckpoint_refines_witness :
    InitAMTState.currentCheckpoint < InitAMTState.counter.length ∧
    ((InitAMTState.insertWithCheckpoint [0xFA]).map AMTState.trie =
        InitAMTState.trie.insert [0xFA] ∧
      (InitAMTState.insertWithCheckpoint [0xFA]).map AMTState.trie =
        InitAMTState.trie.insertWithCheckpoint [0xFA] ∧
      (∀ t1, InitAMTState.insertWithCheckpoint [0xFA] = some t1 →
        t1.currentCheckpoint = InitAMTState.currentCheckpoint ∧
        t1.counter.length = InitAMTState.counter.length ∧
        ∀ j, j ≠ InitAMTState.currentCheckpoint →
          t1.counter.get? j = InitAMTState.counter.get? j)) ∧
    (InitAMTState.insertWithCheckpoint [0xFA]).map AMTState.trie = some reachFirst ∧
    InitAMTState.trie.insert [0xFA] = some reachFirst :=
  ⟨by decide, insertWithCheckpoint_refines InitAMTState [0xFA] (by decide), by rfl, by rfl⟩

/-! ## The counter follows the trie -/

theorem nodesAtDepth_cons (p a b c : Nat) (L : List (Nat × Nat × Nat)) :
    nodesAtDepth p ((a, b, c) :: L) = (if a = p then 1 else 0) + nodesAtDepth p L := by
  unfold nodesAtDepth
  by_cases h : a = p
  · simp [h]; omega
  · simp [h]

theorem childrenAtDepth_cons (p a b c : Nat) (L : List (Nat × Nat × Nat)) :
    childrenAtDepth p ((a, b, c) :: L) = (if a = p then b else 0) + childrenAtDepth p L := by
  unfold childrenAtDepth
  by_cases h : a = p
  · simp [h]
  · simp [h]

theorem nodesAtDepth_perm {L L1 : List (Nat × Nat × Nat)} (h : L.Perm L1) (p : Nat) :
    nodesAtDepth p L = nodesAtDepth p L1 :=
  (h.filter _).length_eq

theorem childrenAtDepth_perm {L L1 : List (Nat × Nat × Nat)} (h : L.Perm L1) (p : Nat) :
    childrenAtDepth p L = childrenAtDepth p L1 :=
  ((h.filter _).map _).sum_eq

theorem tracks_perm {m : LevelMap} {L L1 : List (Nat × Nat × Nat)} (h : L.Perm L1)
    (ht : Tracks m L) : Tracks m L1 := by
  intro p
  obtain ⟨h1, h2⟩ := ht p
  refine ⟨fun hn r hr => h1 hn r (h.mem_iff.2 hr), ?_⟩
  intro s hs
  obtain ⟨a, b, c, d⟩ := h2 s hs
  refine ⟨by rw [a, nodesAtDepth_perm h], by rw [b, childrenAtDepth_perm h], c, ?_⟩
  rcases d with ⟨d1, r, hr, d2⟩ | ⟨d1, d2, d3, d4⟩
  · exact Or.inl ⟨fun x hx => d1 x (h.mem_iff.2 hx), r, h.mem_iff.1 hr, d2⟩
  · exact Or.inr ⟨d1, d2, d3, fun x hx => d4 x (h.mem_iff.2 hx)⟩

theorem parentUpdate_fields (s : LevelStats) (nc v : Int) :
    (parentUpdate s nc v).totalNodes = s.totalNodes ∧
    (parentUpdate s nc v).totalChildren = s.totalChildren + 1 ∧
    (parentUpdate s nc v).avg = f64div (s.totalChildren + 1) s.totalNodes ∧
    (parentUpdate s nc v).max =
      (if s.totalNodes = 1 then nc else if s.max < nc then nc else s.max) ∧
    (parentUpdate s nc v).maxValue =
      (if s.totalNodes = 1 then v else if s.max < nc then v else s.maxValue) := by
  unfold parentUpdate
  simp only []
  split_ifs <;> exact ⟨rfl, rfl, rfl, rfl, rfl⟩

theorem childUpdate_fields (s : LevelStats) (x : Int) :
    (childUpdate s x).totalNodes = s.totalNodes + 1 ∧
    (childUpdate s x).totalChildren = s.totalChildren ∧
    (childUpdate s x).avg = f64div s.totalChildren (s.totalNodes + 1) ∧
    (childUpdate s x).max = (if s.max < 0 then 0 else s.max) ∧
    (childUpdate s x).maxValue = (if s.max < 0 then x else s.maxValue) := by
  unfold childUpdate
  simp only []
  split_ifs <;> exact ⟨rfl, rfl, rfl, rfl, rfl⟩

theorem countChild_apply (m : LevelMap) (P v x nc : Nat) (s : LevelStats) (hs : m P = some s)
    (p : Nat) :
    countChild m P v x nc p =
      if p = (P + 4) % 256 then
        some (match m ((P + 4) % 256) with
          | some sq => childUpdate sq x
          | none => childFirst x)
      else if p = P then some (parentUpdate s nc v)
      else m p := by
  have hPQ : (P + 4) % 256 ≠ P := by omega
  unfold countChild
  simp only [hs]
  have hq : (m.put P (parentUpdate s nc v)) ((P + 4) % 256) = m ((P + 4) % 256) := by
    unfold LevelMap.put
    rw [if_neg hPQ]
  rw [hq]
  cases hmq : m ((P + 4) % 256) with
  | none => simp only [LevelMap.put]
  | some sq => simp only [LevelMap.put]

theorem depth_empty {p : Nat} {L : List (Nat × Nat × Nat)} (h : ∀ r ∈ L, r.1 ≠ p) :
    nodesAtDepth p L = 0 ∧ childrenAtDepth p L = 0 := by
  have : L.filter (fun r => decide (r.1 = p)) = [] := by
    rw [List.filter_eq_nil_iff]
    intro r hr
    simpa using h r hr
  unfold nodesAtDepth childrenAtDepth
  rw [this]
  exact ⟨rfl, rfl⟩

theorem depth_none {p : Nat} {L : List (Nat × Nat × Nat)} (h : nodesAtDepth p L = 0) :
    ∀ r ∈ L, r.1 ≠ p := by
  intro r hr he
  unfold nodesAtDepth at h
  have : r ∈ L.filter (fun r => decide (r.1 = p)) := List.mem_filter.2 ⟨hr, by simpa using he⟩
  rw [List.length_eq_zero] at h
  rw [h] at this
  cases this

theorem f64div_zero (b : Int) : f64div 0 b = 0 := by
  unfold f64div
  exact if_pos (Or.inl (Int.le_refl 0))

theorem log2Fuel_spec : ∀ fuel x : Nat, 1 ≤ x → x ≤ fuel →
    2 ^ log2Fuel fuel x ≤ x ∧ x < 2 ^ (log2Fuel fuel x + 1) := by
  intro fuel
  induction fuel with
  | zero =>
    intro x h1 h2
    omega
  | succ f ih =>
    intro x h1 h2
    unfold log2Fuel
    by_cases hx : x < 2
    · rw [if_pos hx]
      have : x = 1 := by omega
      subst this
      decide
    · rw [if_neg hx]
      obtain ⟨l1, l2⟩ := ih (x / 2) (by omega) (by omega)
      constructor
      · rw [pow_succ]
        omega
      · rw [pow_succ]
        omega

theorem roundHalfEven_near (num den : Nat) (hden : 0 < den) :
    2 * (roundHalfEven num den * den) ≤ 2 * num + den ∧
    2 * num ≤ 2 * (roundHalfEven num den * den) + den := by
  have h1 := Nat.div_add_mod num den
  have h2 := Nat.mod_lt num hden
  have h3 : den * (num / den) = num / den * den := Nat.mul_comm _ _
  unfold roundHalfEven
  simp only []
  split_ifs with c1 c2 c3
  · constructor <;> omega
  · rw [Nat.add_mul]
    constructor <;> omega
  · constructor <;> omega
  · rw [Nat.add_mul]
    constructor <;> omega

theorem scale_bounds (x y lx ly c : Nat) (hy : 1 ≤ y) (lx1 : 2 ^ lx ≤ x)
    (ly2 : y < 2 ^ (ly + 1))
    (hc : (if y * 2 ^ lx * 2 ^ 53 ≤ x * 2 ^ (ly + 53) then 2 else 1) = c) :
    0 < y * 2 ^ lx * c ∧ 2 ^ 52 * (y * 2 ^ lx * c) ≤ x * 2 ^ (ly + 53) := by
  have hpl : 0 < 2 ^ lx := Nat.two_pow_pos _
  constructor
  · have : 1 ≤ c := by
      rw [← hc]
      split_ifs <;> decide
    exact Nat.mul_pos (Nat.mul_pos hy hpl) this
  · by_cases h : y * 2 ^ lx * 2 ^ 53 ≤ x * 2 ^ (ly + 53)
    · rw [if_pos h] at hc
      subst hc
      omega
    · rw [if_neg h] at hc
      subst hc
      have e1 : y * 2 ^ lx ≤ 2 ^ (ly + 1) * x :=
        Nat.mul_le_mul ly2.le lx1
      have e2 : x * 2 ^ (ly + 53) = 2 ^ 52 * (2 ^ (ly + 1) * x) := by
        rw [show ly + 53 = 52 + (ly + 1) by omega, pow_add]
        ring
      rw [e2, Nat.mul_one]
      exact Nat.mul_le_mul_left _ e1

theorem near_of_bounds (x y S c M P K : Nat) (hy : 1 ≤ y) (hP : 0 < P)
    (hbig : K * (y * S * c) ≤ x * P)
    (n1 : 2 * (M * (y * S * c)) ≤ 2 * (x * P) + y * S * c)
    (n2 : 2 * (x * P) ≤ 2 * (M * (y * S * c)) + y * S * c) :
    |((M * c * S : Nat) : ℚ) / (P : ℚ) - (x : ℚ) / (y : ℚ)| * ((2 * K : Nat) : ℚ) ≤
      (x : ℚ) / (y : ℚ) := by
  have hP1 : (0 : ℚ) < (P : ℚ) := by exact_mod_cast hP
  have hY : (0 : ℚ) < (y : ℚ) := by exact_mod_cast hy
  have q1 : (2 : ℚ) * ((M : ℚ) * ((y : ℚ) * S * c)) ≤ 2 * ((x : ℚ) * P) + (y : ℚ) * S * c := by
    exact_mod_cast n1
  have q2 : (2 : ℚ) * ((x : ℚ) * P) ≤ 2 * ((M : ℚ) * ((y : ℚ) * S * c)) + (y : ℚ) * S * c := by
    exact_mod_cast n2
  have q3 : (K : ℚ) * ((y : ℚ) * S * c) ≤ (x : ℚ) * P := by
    exact_mod_cast hbig
  have hK : (0 : ℚ) ≤ (K : ℚ) := Nat.cast_nonneg K
  have hV : ((M * c * S : Nat) : ℚ) / (P : ℚ) - (x : ℚ) / (y : ℚ) =
      ((M : ℚ) * ((y : ℚ) * S * c) - (x : ℚ) * P) / ((P : ℚ) * (y : ℚ)) := by
    rw [div_sub_div _ _ hP1.ne.symm hY.ne.symm]
    congr 1
    push_cast
    ring
  have hq : (x : ℚ) / (y : ℚ) = ((x : ℚ) * P) / ((P : ℚ) * (y : ℚ)) := by
    rw [mul_comm (P : ℚ) (y : ℚ), mul_div_mul_right _ _ hP1.ne.symm]
  rw [hV, hq, abs_div, abs_of_pos (mul_pos hP1 hY), div_mul_eq_mul_div]
  apply div_le_div_of_nonneg_right _ (mul_pos hP1 hY).le
  have habs : |(M : ℚ) * ((y : ℚ) * S * c) - (x : ℚ) * P| ≤ ((y : ℚ) * S * c) / 2 := by
    rw [abs_le]
    constructor <;> linarith
  calc |(M : ℚ) * ((y : ℚ) * S * c) - (x : ℚ) * P| * ((2 * K : Nat) : ℚ)
      ≤ ((y : ℚ) * S * c) / 2 * ((2 * K : Nat) : ℚ) :=
        mul_le_mul_of_nonneg_right habs (Nat.cast_nonneg _)
    _ = (K : ℚ) * ((y : ℚ) * S * c) := by
        push_cast
        ring
    _ ≤ _ := q3

theorem f64div_near (a b : Int) (ha : 0 < a) (hb : 0 < b) :
    |f64div a b - (a : ℚ) / (b : ℚ)| * 2 ^ 53 ≤ (a : ℚ) / (b : ℚ) := by
  obtain ⟨x, rfl⟩ := Int.eq_ofNat_of_zero_le ha.le
  obtain ⟨y, rfl⟩ := Int.eq_ofNat_of_zero_le hb.le
  have hx : 1 ≤ x := by omega
  have hy : 1 ≤ y := by omega
  obtain ⟨lx1, _⟩ := log2Fuel_spec x x hx (Nat.le_refl x)
  obtain ⟨_, ly2⟩ := log2Fuel_spec y y hy (Nat.le_refl y)
  obtain ⟨hden, hbig⟩ := scale_bounds x y (log2Fuel x x) (log2Fuel y y) _ hy lx1 ly2 rfl
  obtain ⟨n1, n2⟩ := roundHalfEven_near (x * 2 ^ (log2Fuel y y + 53)) _ hden
  have h := near_of_bounds x y (2 ^ log2Fuel x x) _ _ (2 ^ (log2Fuel y y + 53)) (2 ^ 52) hy
    (Nat.two_pow_pos _) hbig n1 n2
  have e : ((2 * 2 ^ 52 : Nat) : ℚ) = 2 ^ 53 := by norm_num
  rw [e] at h
  unfold f64div
  rw [if_neg (by omega)]
  simp only [Int.toNat_ofNat, Int.cast_natCast]
  exact h

theorem f64div_close (a b : Int) (ha : 0 ≤ a) (hb : 0 < b) :
    |f64div a b - (a : ℚ) / (b : ℚ)| * 2 ^ 53 ≤ (a : ℚ) / (b : ℚ) := by
  rcases ha.lt_or_eq with h | h
  · exact f64div_near a b h hb
  · rw [← h, f64div_zero]
    simp

theorem tracks_add {m : LevelMap} {P k v x : Nat} {rest : List (Nat × Nat × Nat)}
    (h : Tracks m ((P, k, v) :: rest)) :
    Tracks (countChild m P v x (k + 1)) ((P, k + 1, v) :: ((P + 4) % 256, 0, x) :: rest) := by
  have hPQ : (P + 4) % 256 ≠ P := by omega
  obtain ⟨s, hmP⟩ : ∃ s, m P = some s := by
    cases hm : m P with
    | none => exact absurd rfl ((h P).1 hm (P, k, v) (List.mem_cons_self _ _))
    | some s => exact ⟨s, rfl⟩
  obtain ⟨a, b, c, d⟩ := (h P).2 s hmP
  rw [nodesAtDepth_cons, if_pos rfl] at a
  rw [childrenAtDepth_cons, if_pos rfl] at b
  intro p
  rw [countChild_apply m P v x (k + 1) s hmP p]
  by_cases hpQ : p = (P + 4) % 256
  · rw [if_pos hpQ]
    refine ⟨fun hn => Option.noConfusion hn, ?_⟩
    intro s1 hs1
    simp only [Option.some.injEq] at hs1
    rw [nodesAtDepth_cons, nodesAtDepth_cons, childrenAtDepth_cons, childrenAtDepth_cons,
      if_neg (fun e => hPQ (hpQ ▸ e).symm), if_pos hpQ.symm,
      if_neg (fun e => hPQ (hpQ ▸ e).symm), if_pos hpQ.symm]
    cases hmQ : m ((P + 4) % 256) with
    | none =>
      rw [hmQ] at hs1
      have hno := (h ((P + 4) % 256)).1 hmQ
      have hrest : ∀ r ∈ rest, r.1 ≠ p := fun r hr => by
        rw [hpQ]; exact hno r (List.mem_cons_of_mem _ hr)
      obtain ⟨z1, z2⟩ := depth_empty hrest
      rw [z1, z2, ← hs1]
      refine ⟨rfl, rfl, (f64div_zero 1).symm, Or.inl ⟨?_, ?_⟩⟩
      · intro r hr hrp
        rcases List.mem_cons.1 hr with e | hr
        · rw [e] at hrp; exact absurd (hrp.trans hpQ).symm hPQ
        · rcases List.mem_cons.1 hr with e | hr
          · subst e; exact Int.le_refl _
          · exact absurd hrp (hrest r hr)
      · exact ⟨((P + 4) % 256, 0, x), by simp, hpQ.symm, rfl, rfl⟩
    | some sq =>
      rw [hmQ] at hs1
      obtain ⟨a1, b1, c1, d1⟩ := (h ((P + 4) % 256)).2 sq hmQ
      rw [nodesAtDepth_cons, if_neg hPQ.symm] at a1
      rw [childrenAtDepth_cons, if_neg hPQ.symm] at b1
      obtain ⟨f1, f2, f3, f4, f5⟩ := childUpdate_fields sq x
      rw [← hs1, f1, f2, f3, hpQ]
      refine ⟨by rw [a1]; push_cast; omega, by rw [b1]; push_cast; omega, rfl, Or.inl ?_⟩
      rcases d1 with ⟨g1, r0, hr0, g2, g3, g4⟩ | ⟨g1, g2, g3, g4⟩
      · have hpos : ¬ sq.max < 0 := by
          rw [← g3]; omega
        rw [MaxExact, f4, f5, if_neg hpos, if_neg hpos]
        refine ⟨?_, r0, ?_, g2, g3, g4⟩
        · intro r hr hrp
          rcases List.mem_cons.1 hr with e | hr
          · rw [e] at hrp; exact absurd hrp.symm hPQ
          · rcases List.mem_cons.1 hr with e | hr
            · rw [e, ← g3]; simp
            · exact g1 r (List.mem_cons_of_mem _ hr) hrp
        · rcases List.mem_cons.1 hr0 with e | hr0
          · rw [e] at g2; exact absurd g2.symm hPQ
          · exact List.mem_cons_of_mem _ (List.mem_cons_of_mem _ hr0)
      · have hneg : sq.max < 0 := by rw [g2]; decide
        rw [MaxExact, f4, f5, if_pos hneg, if_pos hneg]
        refine ⟨?_, ((P + 4) % 256, 0, x), by simp, rfl, rfl, rfl⟩
        intro r hr hrp
        rcases List.mem_cons.1 hr with e | hr
        · rw [e] at hrp; exact absurd hrp.symm hPQ
        · rcases List.mem_cons.1 hr with e | hr
          · subst e; exact Int.le_refl _
          · rw [g4 r (List.mem_cons_of_mem _ hr) hrp]; exact Int.le_refl _
  · rw [if_neg hpQ]
    by_cases hpP : p = P
    · rw [if_pos hpP]
      refine ⟨fun hn => Option.noConfusion hn, ?_⟩
      intro s1 hs1
      simp only [Option.some.injEq] at hs1
      rw [nodesAtDepth_cons, nodesAtDepth_cons, childrenAtDepth_cons, childrenAtDepth_cons,
        if_pos hpP.symm, if_neg (fun e => hpQ e.symm), if_pos hpP.symm,
        if_neg (fun e => hpQ e.symm), hpP]
      obtain ⟨f1, f2, f3, f4, f5⟩ := parentUpdate_fields s ((k + 1 : Nat) : Int) (v : Int)
      rw [← hs1, f1, f2, f3]
      refine ⟨by rw [a]; push_cast; omega, by rw [b]; push_cast; omega, rfl, Or.inl ?_⟩
      rw [MaxExact, f4, f5]
      by_cases h1 : s.totalNodes = 1
      · rw [if_pos h1, if_pos h1]
        have hz : nodesAtDepth P rest = 0 := by
          rw [h1] at a
          omega
        have hrest := depth_none hz
        refine ⟨?_, (P, k + 1, v), by simp, rfl, rfl, rfl⟩
        intro r hr hrp
        rcases List.mem_cons.1 hr with e | hr
        · subst e; exact Int.le_refl _
        · rcases List.mem_cons.1 hr with e | hr
          · rw [e] at hrp; exact absurd hrp hPQ
          · exact absurd hrp (hrest r hr)
      · rw [if_neg h1, if_neg h1]
        rcases d with ⟨g1, r0, hr0, g2, g3, g4⟩ | ⟨_, _, g3, _⟩
        · by_cases h2 : s.max < ((k + 1 : Nat) : Int)
          · rw [if_pos h2, if_pos h2]
            refine ⟨?_, (P, k + 1, v), by simp, rfl, rfl, rfl⟩
            intro r hr hrp
            rcases List.mem_cons.1 hr with e | hr
            · subst e; exact Int.le_refl _
            · rcases List.mem_cons.1 hr with e | hr
              · rw [e] at hrp; exact absurd hrp hPQ
              · have := g1 r (List.mem_cons_of_mem _ hr) hrp
                omega
          · rw [if_neg h2, if_neg h2]
            refine ⟨?_, r0, ?_, g2, g3, g4⟩
            · intro r hr hrp
              rcases List.mem_cons.1 hr with e | hr
              · rw [e]; show ((k + 1 : Nat) : Int) ≤ s.max; omega
              · rcases List.mem_cons.1 hr with e | hr
                · rw [e] at hrp; exact absurd hrp hPQ
                · exact g1 r (List.mem_cons_of_mem _ hr) hrp
            · rcases List.mem_cons.1 hr0 with e | hr0
              · rw [e] at g3
                have : ((k : Nat) : Int) = s.max := g3
                push_cast at h2
                omega
              · exact List.mem_cons_of_mem _ (List.mem_cons_of_mem _ hr0)
        · exact absurd g3 h1
    · rw [if_neg hpP]
      have hmem : ∀ r : Nat × Nat × Nat, r.1 = p →
          (r ∈ (P, k + 1, v) :: ((P + 4) % 256, 0, x) :: rest ↔ r ∈ (P, k, v) :: rest) := by
        intro r hrp
        simp only [List.mem_cons]
        constructor
        · rintro (e | e | e)
          · rw [e] at hrp; exact absurd hrp.symm hpP
          · rw [e] at hrp; exact absurd hrp.symm hpQ
          · exact Or.inr e
        · rintro (e | e)
          · rw [e] at hrp; exact absurd hrp.symm hpP
          · exact Or.inr (Or.inr e)
      obtain ⟨h1, h2⟩ := h p
      refine ⟨fun hn r hr hrp => h1 hn r ((hmem r hrp).1 hr) hrp, ?_⟩
      intro s1 hs1
      obtain ⟨a1, b1, c1, d1⟩ := h2 s1 hs1
      rw [nodesAtDepth_cons, if_neg (fun e => hpP e.symm)] at a1
      rw [childrenAtDepth_cons, if_neg (fun e => hpP e.symm)] at b1
      rw [nodesAtDepth_cons, nodesAtDepth_cons, childrenAtDepth_cons, childrenAtDepth_cons,
        if_neg (fun e => hpP e.symm), if_neg (fun e => hpQ e.symm),
        if_neg (fun e => hpP e.symm), if_neg (fun e => hpQ e.symm)]
      refine ⟨by rw [a1]; push_cast; omega, by rw [b1]; push_cast; omega, c1, ?_⟩
      rcases d1 with ⟨g1, r0, hr0, g2, g3⟩ | ⟨g1, g2, g3, g4⟩
      · exact Or.inl ⟨fun r hr hrp => g1 r ((hmem r hrp).1 hr) hrp,
          r0, (hmem r0 g2).2 hr0, g2, g3⟩
      · exact Or.inr ⟨g1, g2, g3, fun r hr hrp => g4 r ((hmem r hrp).1 hr) hrp⟩

/-! ## The loop of `insertWithCheckpoint` keeps the counter exact -/

theorem recsOf_eq (n : Node) :
    recsOf n = (n.prefixBits, n.children.length, n.value) :: recsOfList n.children := by
  cases n
  simp [recsOf]

theorem recsOfList_append (l1 l2 : List Node) :
    recsOfList (l1 ++ l2) = recsOfList l1 ++ recsOfList l2 := by
  induction l1 with
  | nil => simp [recsOfList]
  | cons c cs ih => simp [recsOfList, ih]

theorem recsOfList_cons (c : Node) (cs : List Node) :
    recsOfList (c :: cs) = recsOf c ++ recsOfList cs := by
  simp [recsOfList]

theorem mem_recsOfList {r : Nat × Nat × Nat} {l : List Node} :
    r ∈ recsOfList l ↔ ∃ c ∈ l, r ∈ recsOf c := by
  induction l with
  | nil => simp [recsOfList]
  | cons c cs ih => simp [recsOfList, ih]

theorem recsOf_markLeaf (n : Node) : recsOf n.markLeaf = recsOf n := by
  cases n
  simp [recsOf, Node.markLeaf]

theorem perm_mid {α : Type} (ctx A B C : List α) (a : α) :
    (ctx ++ a :: (A ++ (C ++ B))).Perm ((ctx ++ a :: (A ++ B)) ++ C) := by
  rw [List.append_assoc, List.cons_append, List.append_assoc]
  exact List.Perm.append_left ctx (List.Perm.cons a (List.Perm.append_left A List.perm_append_comm))

theorem counted_present {n : Node} {x : Nat} {pre post : List Node} {c : Node} (cc : Nat)
    (w : List Nat) (counter : List LevelMap)
    (e : n.children = pre ++ c :: post) (hidx : n.getIndex x = some pre.length) :
    insertWithCheckpointCounted cc (x :: w) n counter =
      (insertWithCheckpointCounted cc w c counter).map
        (fun r => (n.setChildren (pre ++ r.1 :: post), r.2)) := by
  rw [insertWithCheckpointCounted, hidx]
  simp only [e, slot_get]
  cases insertWithCheckpointCounted cc w c counter with
  | none => rfl
  | some r => simp [slot_set]

theorem counted_absent {n : Node} {x : Nat} {pre post : List Node} (cc : Nat) (w : List Nat)
    (counter : List LevelMap) (m : LevelMap) (hm : counter.get? cc = some m)
    (e : n.children = pre ++ post) (hidx : n.getIndex x = none)
    (hidx1 : (n.setBitmap (n.bitmap ||| ((1 <<< x) % 65536))).getIndex x = some pre.length) :
    insertWithCheckpointCounted cc (x :: w) n counter =
      (insertWithCheckpointCounted cc w (Node.mk false false x ((n.prefixBits + 4) % 256) 0 [])
          (counter.set cc (countChild m n.prefixBits n.value x ((pre ++ post).length + 1)))).map
        (fun r => ((n.setBitmap (n.bitmap ||| ((1 <<< x) % 65536))).setChildren
          (pre ++ r.1 :: post), r.2)) := by
  rw [insertWithCheckpointCounted, hidx]
  simp only [hidx1, Node.children_setBitmap, e]
  by_cases hl : (pre ++ post).length = pre.length
  · rw [if_pos hl]
    have hp : post = [] := by
      cases post with
      | nil => rfl
      | cons b post => simp at hl
    subst hp
    simp only [hm, List.append_nil, List.length_append, List.length_singleton]
    cases insertWithCheckpointCounted cc w _ _ with
    | none => rfl
    | some r => simp
  · rw [if_neg hl]
    have hlt : pre.length < (pre ++ post).length := by
      have : pre.length ≤ (pre ++ post).length := by simp
      omega
    rw [if_pos hlt]
    simp only [hm]
    rw [place_mid pre post _ hlt]
    have hlen : (pre ++ Node.mk false false x ((n.prefixBits + 4) % 256) 0 [] :: post).length =
        (pre ++ post).length + 1 := by
      simp only [List.length_append, List.length_cons]
      omega
    rw [hlen]
    cases insertWithCheckpointCounted cc w _ _ with
    | none => rfl
    | some r => simp only [Option.map_some']; rw [slot_set]

theorem counted_tracks (cc : Nat) (w : List Nat) : ∀ (n : Node) (counter : List LevelMap)
    (m : LevelMap) (ctx : List (Nat × Nat × Nat)), WFA n → (∀ x ∈ w, x < 16) →
    counter.get? cc = some m → Tracks m (ctx ++ recsOf n) →
    ∃ n1 counter1 m1, insertWithCheckpointCounted cc w n counter = some (n1, counter1) ∧
      counter1.get? cc = some m1 ∧ Tracks m1 (ctx ++ recsOf n1) := by
  induction w with
  | nil =>
    intro n counter m ctx _ _ hm ht
    exact ⟨n.markLeaf, counter, m, rfl, hm, by rw [recsOf_markLeaf]; exact ht⟩
  | cons x w ih =>
    intro n counter m ctx hn hw hm ht
    have hx : x < 16 := hw x (List.mem_cons_self _ _)
    have hw1 : ∀ y ∈ w, y < 16 := fun y hy => hw y (List.mem_cons_of_mem _ hy)
    cases slot_cases n x hx hn with
    | present pre c post e hc hpre hpost hidx =>
      have hcw : WFA c := hn.sub c (by rw [e]; simp)
      have hrec : recsOf n = (n.prefixBits, (pre ++ c :: post).length, n.value) ::
          (recsOfList pre ++ (recsOf c ++ recsOfList post)) := by
        rw [recsOf_eq, e, recsOfList_append, recsOfList_cons]
      rw [hrec] at ht
      obtain ⟨c1, counter1, m1, e1, hm1, ht1⟩ := ih c counter m
        (ctx ++ (n.prefixBits, (pre ++ c :: post).length, n.value) ::
          (recsOfList pre ++ recsOfList post)) hcw hw1 hm
        (tracks_perm (perm_mid ctx _ _ _ _) ht)
      refine ⟨n.setChildren (pre ++ c1 :: post), counter1, m1, ?_, hm1, ?_⟩
      · rw [counted_present cc w counter e hidx, e1]
        rfl
      · have hrec1 : recsOf (n.setChildren (pre ++ c1 :: post)) =
            (n.prefixBits, (pre ++ c :: post).length, n.value) ::
              (recsOfList pre ++ (recsOf c1 ++ recsOfList post)) := by
          rw [recsOf_eq, Node.children_setChildren1, recsOfList_append, recsOfList_cons]
          simp
        rw [hrec1]
        exact tracks_perm (perm_mid ctx _ _ _ _).symm ht1
    | absent pre post e hpre hpost hidx hidx1 =>
      have hcc : cc < counter.length := by
        by_contra hge
        rw [List.get?_eq_none.2 (by omega)] at hm
        cases hm
      have hrec : recsOf n = (n.prefixBits, (pre ++ post).length, n.value) ::
          (recsOfList pre ++ recsOfList post) := by
        rw [recsOf_eq, e, recsOfList_append]
      rw [hrec] at ht
      have ht2 := tracks_add (x := x) (tracks_perm List.perm_middle ht)
      have hp2 : ((n.prefixBits, (pre ++ post).length + 1, n.value) ::
            ((n.prefixBits + 4) % 256, 0, x) :: (ctx ++ (recsOfList pre ++ recsOfList post))).Perm
          ((ctx ++ (n.prefixBits, (pre ++ post).length + 1, n.value) ::
            (recsOfList pre ++ recsOfList post)) ++
            recsOf (Node.mk false false x ((n.prefixBits + 4) % 256) 0 [])) := by
        have hr : recsOf (Node.mk false false x ((n.prefixBits + 4) % 256) 0 []) =
            [((n.prefixBits + 4) % 256, 0, x)] := by
          simp [recsOf, recsOfList]
        rw [hr]
        refine (List.Perm.swap _ _ _).trans ?_
        refine List.Perm.trans ?_ (List.perm_append_comm)
        exact List.Perm.cons _ List.perm_middle.symm
      obtain ⟨c1, counter1, m1, e1, hm1, ht1⟩ :=
        ih (Node.mk false false x ((n.prefixBits + 4) % 256) 0 [])
          (counter.set cc (countChild m n.prefixBits n.value x ((pre ++ post).length + 1)))
          (countChild m n.prefixBits n.value x ((pre ++ post).length + 1))
          (ctx ++ (n.prefixBits, (pre ++ post).length + 1, n.value) ::
            (recsOfList pre ++ recsOfList post))
          (wfa_fresh _ _ _ _) hw1
          (by rw [List.get?_eq_getElem?, List.getElem?_set_self hcc])
          (tracks_perm hp2 ht2)
      refine ⟨(n.setBitmap (n.bitmap ||| ((1 <<< x) % 65536))).setChildren (pre ++ c1 :: post),
        counter1, m1, ?_, hm1, ?_⟩
      · rw [counted_absent cc w counter m hm e hidx hidx1, e1]
        rfl
      · have hrec1 : recsOf ((n.setBitmap (n.bitmap ||| ((1 <<< x) % 65536))).setChildren
              (pre ++ c1 :: post)) =
            (n.prefixBits, (pre ++ post).length + 1, n.value) ::
              (recsOfList pre ++ (recsOf c1 ++ recsOfList post)) := by
          rw [recsOf_eq, Node.children_setChildren1, recsOfList_append, recsOfList_cons]
          simp
          omega
        rw [hrec1]
        exact tracks_perm (perm_mid ctx _ _ _ _).symm ht1

/-! ## Every reachable state has an exact counter -/

theorem nodesAtDepth_append (p : Nat) (L1 L2 : List (Nat × Nat × Nat)) :
    nodesAtDepth p (L1 ++ L2) = nodesAtDepth p L1 + nodesAtDepth p L2 := by
  unfold nodesAtDepth
  rw [List.filter_append, List.length_append]

theorem childrenAtDepth_append (p : Nat) (L1 L2 : List (Nat × Nat × Nat)) :
    childrenAtDepth p (L1 ++ L2) = childrenAtDepth p L1 + childrenAtDepth p L2 := by
  unfold childrenAtDepth
  rw [List.filter_append, List.map_append, List.sum_append]

theorem upsert_ne_nil (x : Nat) (d : Node) (l : List Node) : upsert x d l ≠ [] := by
  cases l with
  | nil => simp [upsert]
  | cons c cs =>
    simp only [upsert]
    split_ifs <;> simp

theorem recsOf_withChild (n : Node) (x : Nat) (c1 : Node) :
    recsOf (withChild n x c1) =
      (n.prefixBits, (upsert x c1 n.children).length, n.value) ::
        recsOfList (upsert x c1 n.children) := by
  rw [recsOf_eq]
  rfl

theorem recsOf_head_mem (n : Node) : (n.prefixBits, n.children.length, n.value) ∈ recsOf n := by
  rw [recsOf_eq]
  exact List.mem_cons_self _ _

theorem recsOf_child_mem {n c : Node} {r : Nat × Nat × Nat} (hc : c ∈ n.children)
    (hr : r ∈ recsOf c) : r ∈ recsOf n := by
  rw [recsOf_eq]
  exact List.mem_cons_of_mem _ (mem_recsOfList.2 ⟨c, hc, hr⟩)

theorem insertLoop_shallow (w : List Nat) : ∀ (n n1 : Node), WFA n → PrefixOk n →
    (∀ x ∈ w, x < 16) → (∀ r ∈ recsOf n, r.1 ≤ 248) → n.prefixBits + 4 * w.length ≤ 248 →
    insertLoop w n = some n1 → ∀ r ∈ recsOf n1, r.1 ≤ 248 := by
  induction w with
  | nil =>
    intro n n1 _ _ _ hb _ h
    simp only [insertLoop, Option.some.injEq] at h
    rw [← h, recsOf_markLeaf]
    exact hb
  | cons x w ih =>
    intro n n1 hn hp hw hb hlen h
    have hx := hw x (List.mem_cons_self _ _)
    have hw1 : ∀ z ∈ w, z < 16 := fun z hz => hw z (List.mem_cons_of_mem _ hz)
    rw [List.length_cons] at hlen
    obtain ⟨c1, ec1, _, _, _, _⟩ :=
      insertLoop_spec w (childOrNew n x) (childOrNew_wfa hn x) hw1
    obtain ⟨hcp, hcok⟩ := childOrNew_prefixBits hp x
    have hcp1 : (childOrNew n x).prefixBits = n.prefixBits + 4 := by
      rw [hcp]; omega
    have hcb : ∀ r ∈ recsOf (childOrNew n x), r.1 ≤ 248 := by
      intro r hr
      unfold childOrNew at hr
      cases hc : child n x with
      | none =>
        rw [hc] at hr
        simp only [Option.getD_none, recsOf, recsOfList, List.mem_singleton, List.length_nil,
          List.mem_cons, List.not_mem_nil, or_false] at hr
        rw [hr]
        show (n.prefixBits + 4) % 256 ≤ 248
        omega
      | some c =>
        rw [hc] at hr
        exact hb r (recsOf_child_mem (child_mem hc).1 hr)
    have hc1 := ih (childOrNew n x) c1 (childOrNew_wfa hn x) hcok hw1 hcb
      (by rw [hcp1]; omega) ec1
    rw [insertLoop_step hn x hx, ec1] at h
    have f1 : n1 = withChild n x c1 := (Option.some.inj h).symm
    rw [f1, recsOf_withChild]
    intro r hr
    rcases List.mem_cons.1 hr with e | hr
    · rw [e]
      have := hb _ (recsOf_head_mem n)
      exact this
    · obtain ⟨c, hc, hrc⟩ := mem_recsOfList.1 hr
      rcases mem_upsert hc with e | e
      · rw [e] at hrc; exact hc1 r hrc
      · exact hb r (recsOf_child_mem e hrc)

theorem insertLoop_has_child {n n1 : Node} {x : Nat} {w : List Nat} (hn : WFA n) (hx : x < 16)
    (hw : ∀ z ∈ w, z < 16) (h : insertLoop (x :: w) n = some n1) : n1.children ≠ [] := by
  obtain ⟨c1, ec1, _⟩ := insertLoop_spec w (childOrNew n x) (childOrNew_wfa hn x) hw
  rw [insertLoop_step hn x hx, ec1] at h
  have f1 : n1 = withChild n x c1 := (Option.some.inj h).symm
  rw [f1]
  exact upsert_ne_nil _ _ _

theorem insertLoop_keeps_child (w : List Nat) {n n1 : Node} (hn : WFA n)
    (hw : ∀ z ∈ w, z < 16) (hc : n.children ≠ []) (h : insertLoop w n = some n1) :
    n1.children ≠ [] := by
  cases w with
  | nil =>
    simp only [insertLoop, Option.some.injEq] at h
    rw [← h]
    cases n
    exact hc
  | cons x w =>
    exact insertLoop_has_child hn (hw x (List.mem_cons_self _ _))
      (fun z hz => hw z (List.mem_cons_of_mem _ hz)) h

theorem statsInv_init : StatsInv InitAMTState := by
  refine ⟨rfl, wfa_init, prefixOk_fresh _ _ _ _, rfl, rfl, ?_, _, rfl, ?_⟩
  · intro r hr
    simp [InitAMTState, recsOf, recsOfList] at hr
    rw [hr]
    decide
  · intro p
    have hL : recsOf InitAMTState.root = [(0, 0, 0)] := by
      simp [InitAMTState, recsOf, recsOfList]
    rw [hL]
    by_cases hp : p = 0
    · subst hp
      refine ⟨fun hn => by simp at hn, ?_⟩
      intro s hs
      simp only [if_true, Option.some.injEq] at hs
      rw [← hs]
      refine ⟨by decide, by decide, (f64div_zero 1).symm, Or.inr ⟨rfl, rfl, rfl, ?_⟩⟩
      intro r hr _
      simp only [List.mem_singleton] at hr
      rw [hr]
    · refine ⟨?_, ?_⟩
      · intro _ r hr
        simp only [List.mem_singleton] at hr
        rw [hr]
        exact fun h => hp h.symm
      · intro s hs
        simp [hp] at hs

theorem statsInv_insert (t : AMTState) (h : StatsInv t) (k : List Nat) :
    ∃ t1, t.insertWithCheckpoint k = some t1 ∧
      (t.trie.insert k).map AMT.root = some t1.root ∧
      (k ≠ [] → t1.root.children ≠ []) ∧ (t.root.children ≠ [] → t1.root.children ≠ []) ∧
      (k.length ≤ 31 → StatsInv t1) := by
  obtain ⟨hlen, hw, hpo, hp0, hv0, hb, m, hm, ht⟩ := h
  have hcc : t.currentCheckpoint < t.counter.length := by omega
  obtain ⟨n1, counter1, m1, e1, hm1, ht1⟩ :=
    counted_tracks t.currentCheckpoint (nibbles k) t.root t.counter m [] hw (nibbles_lt k) hm
      (by simpa using ht)
  obtain ⟨r, er, hr, hr2⟩ :=
    counted_eq_insertLoop t.currentCheckpoint (nibbles k) t.root t.counter hcc
  rw [e1] at er
  rw [← er] at hr hr2
  have hins : insertLoop (nibbles k) t.root = some n1 := hr.symm
  obtain ⟨hl1, _⟩ := hr2 n1 counter1 rfl
  obtain ⟨n2, e2, hw2, hv2, hp2, _⟩ := insertLoop_spec (nibbles k) t.root hw (nibbles_lt k)
  rw [hins] at e2
  cases e2
  refine ⟨{ t with root := n1, counter := counter1 }, ?_, ?_, ?_, ?_, ?_⟩
  · unfold AMTState.insertWithCheckpoint
    rw [e1]
  · unfold AMTState.trie AMT.insert
    rw [hins]
    simp
  · intro hk
    cases k with
    | nil => exact absurd rfl hk
    | cons b bs =>
      rw [nibbles_cons] at hins
      exact insertLoop_has_child hw (getNibble_lt _ _)
        (by
          intro z hz
          rcases List.mem_cons.1 hz with e | hz
          · rw [e]; exact getNibble_lt _ _
          · exact nibbles_lt bs z hz) hins
  · intro hc
    exact insertLoop_keeps_child (nibbles k) hw (nibbles_lt k) hc hins
  · intro hk
    refine ⟨by show counter1.length = _; rw [hl1]; exact hlen, hw2,
      insertLoop_prefixOk (nibbles k) t.root n1 hw hpo (nibbles_lt k) hins,
      by show n1.prefixBits = 0; rw [hp2]; exact hp0,
      by show n1.value = 0; rw [hv2]; exact hv0, ?_, m1, hm1, by simpa using ht1⟩
    refine insertLoop_shallow (nibbles k) t.root n1 hw hpo (nibbles_lt k) hb ?_ hins
    rw [hp0, nibbles_length]
    omega

theorem statsInv_checkpoint (t : AMTState) (h : StatsInv t) :
    ∃ t1, t.AddCheckpoint = some t1 ∧ StatsInv t1 ∧ t1.root = t.root := by
  obtain ⟨hlen, hw, hpo, hp0, hv0, hb, m, hm, ht⟩ := h
  have hne : ¬ t.counter.length = 0 := by omega
  have hlast : t.counter.get? (t.counter.length - 1) = some m := by
    rw [hlen]
    exact hm
  obtain ⟨s0, hs0⟩ : ∃ s0, m 0 = some s0 := by
    cases h0 : m 0 with
    | none =>
      have := (ht 0).1 h0 _ (recsOf_head_mem t.root)
      exact absurd hp0 this
    | some s0 => exact ⟨s0, rfl⟩
  have hcopy : ∀ F : LevelMap, (∀ k, F k = m k) →
      (some { t with counter := t.counter ++ [F],
                     currentCheckpoint := t.currentCheckpoint + 1 } : Option AMTState) =
        some { t with counter := t.counter ++ [m],
                      currentCheckpoint := t.currentCheckpoint + 1 } := by
    intro F hF
    rw [funext hF]
  refine ⟨{ t with counter := t.counter ++ [m], currentCheckpoint := t.currentCheckpoint + 1 },
    ?_, ?_, rfl⟩
  · unfold AMTState.AddCheckpoint
    simp only [if_neg hne, hlast]
    refine hcopy _ ?_
    intro k
    cases hk : m k with
    | some v => rfl
    | none =>
      have : k ≠ 0 := by
        intro h0
        rw [h0, hs0] at hk
        cases hk
      simp [this]
  · refine ⟨by simp [hlen], hw, hpo, hp0, hv0, hb, m, ?_, ht⟩
    show (t.counter ++ [m]).get? (t.currentCheckpoint + 1) = some m
    rw [← hlen, List.get?_eq_getElem?, List.getElem?_append_right (Nat.le_refl _)]
    simp

theorem statsReach_inv {t : AMTState} (h : StatsReach t) : StatsInv t := by
  induction h with
  | init => exact statsInv_init
  | insertWithCheckpoint t k t1 _ hk he ih =>
    obtain ⟨t2, e2, _, _, _, hinv⟩ := statsInv_insert t ih k
    rw [he] at e2
    cases e2
    exact hinv hk
  | addCheckpoint t t1 _ he ih =>
    obtain ⟨t2, e2, hinv, _⟩ := statsInv_checkpoint t ih
    rw [he] at e2
    cases e2
    exact hinv

/-! ## The children of a depth are the nodes of the next -/

theorem depth_shift_list (P p : Nat) : ∀ cs : List Node,
    (∀ c ∈ cs, c.prefixBits = P + 4 ∧
      nodesAtDepth (p + 4) (recsOf c) =
        (if c.prefixBits = p + 4 then 1 else 0) + childrenAtDepth p (recsOf c)) →
    nodesAtDepth (p + 4) (recsOfList cs) =
      (if P = p then cs.length else 0) + childrenAtDepth p (recsOfList cs) := by
  intro cs
  induction cs with
  | nil =>
    intro _
    simp [recsOfList, nodesAtDepth, childrenAtDepth]
  | cons c cs ih =>
    intro h
    obtain ⟨h1, h2⟩ := h c (List.mem_cons_self _ _)
    have h3 := ih (fun d hd => h d (List.mem_cons_of_mem _ hd))
    rw [recsOfList_cons, nodesAtDepth_append, childrenAtDepth_append, h2, h3,
      List.length_cons]
    by_cases hp : P = p
    · rw [if_pos hp, if_pos hp, if_pos (show c.prefixBits = p + 4 by omega)]
      omega
    · rw [if_neg hp, if_neg hp, if_neg (show ¬ c.prefixBits = p + 4 by omega)]
      omega

theorem depth_shift {n : Node} (h : PrefixOk n) :
    (∀ r ∈ recsOf n, r.1 ≤ 248) → ∀ p,
      nodesAtDepth (p + 4) (recsOf n) =
        (if n.prefixBits = p + 4 then 1 else 0) + childrenAtDepth p (recsOf n) := by
  induction h with
  | mk n h1 _ ih =>
    intro hb p
    have hP : n.prefixBits ≤ 248 := hb _ (recsOf_head_mem n)
    have hl := depth_shift_list n.prefixBits p n.children (by
      intro c hc
      have hc1 := h1 c hc
      have hcb : c.prefixBits ≤ 248 := hb _ (recsOf_child_mem hc (recsOf_head_mem c))
      refine ⟨by rw [hc1]; omega, ih c hc (fun r hr => hb r (recsOf_child_mem hc hr)) p⟩)
    rw [recsOf_eq, nodesAtDepth_cons, childrenAtDepth_cons, hl]

theorem tracks_entry {m : LevelMap} {L : List (Nat × Nat × Nat)} (h : Tracks m L) (p : Nat)
    (s : LevelStats) (hs : m p = some s) : ∃ r ∈ L, r.1 = p := by
  obtain ⟨a, _, _, d⟩ := (h p).2 s hs
  rcases d with ⟨_, r, hr, hrp, _⟩ | ⟨_, _, d3, _⟩
  · exact ⟨r, hr, hrp⟩
  · rw [d3] at a
    by_contra hno
    have hz := (depth_empty (fun r hr he => hno ⟨r, hr, he⟩)).1
    rw [hz] at a
    cases a

/-- C37. The counts of a depth are exact and `avg` is their `float64` quotient: in every state
reachable from `InitAMT` by calls of `insertWithCheckpoint` with keys of at most 31 bytes and
of `AddCheckpoint`, the current checkpoint is the last map of the counter, and for every depth
`p` that has an entry in it, `totalNodes` is the number of nodes of the trie with `prefix = p`,
which is at least one, `totalChildren` is the number of children of those nodes taken
together, which is the number of nodes with `prefix = p + 4`, and `avg` is the result of the
`float64` division of `totalChildren` by `totalNodes`: it is 0 when there is no child and
differs from the rational quotient by at most the quotient divided by 2^53; every depth at which the trie has a node has an entry. On such a state both operations
return. -/
theorem counter_counts_exact (t : AMTState) (h : StatsReach t) :
    t.counter.length = t.currentCheckpoint + 1 ∧
    (∃ m, t.counter.get? t.currentCheckpoint = some m ∧
      (∀ p s, m p = some s →
        s.totalNodes = (nodesAtDepth p (recsOf t.root) : Int) ∧ 1 ≤ s.totalNodes ∧
        s.totalChildren = (childrenAtDepth p (recsOf t.root) : Int) ∧
        s.totalChildren = (nodesAtDepth (p + 4) (recsOf t.root) : Int) ∧
        s.avg = f64div s.totalChildren s.totalNodes ∧
        (s.totalChildren = 0 → s.avg = 0) ∧
        |s.avg - (s.totalChildren : ℚ) / (s.totalNodes : ℚ)| * 2 ^ 53 ≤
          (s.totalChildren : ℚ) / (s.totalNodes : ℚ)) ∧
      (∀ r ∈ recsOf t.root, ∃ s, m r.1 = some s)) ∧
    (∀ k, ∃ t1, t.insertWithCheckpoint k = some t1) ∧
    (∃ t1, t.AddCheckpoint = some t1) := by
  have hinv := statsReach_inv h
  obtain ⟨hlen, hw, hpo, hp0, hv0, hb, m, hm, ht⟩ := hinv
  refine ⟨hlen, ⟨m, hm, ?_, ?_⟩, ?_, ?_⟩
  · intro p s hs
    obtain ⟨a, b, c, _⟩ := (ht p).2 s hs
    obtain ⟨r, hr, hrp⟩ := tracks_entry ht p s hs
    have hpos : 1 ≤ nodesAtDepth p (recsOf t.root) := by
      by_contra hlt
      exact depth_none (by omega) r hr hrp
    have hp248 : p ≤ 248 := by rw [← hrp]; exact hb r hr
    have hshift := depth_shift hpo hb p
    rw [hp0, if_neg (by omega)] at hshift
    refine ⟨a, by rw [a]; exact_mod_cast hpos, b, by rw [b, hshift]; simp, c, fun hz => ?_, ?_⟩
    · rw [c, hz]
      exact f64div_zero _
    · rw [c]
      refine f64div_close _ _ (by rw [b]; exact Int.natCast_nonneg _) ?_
      rw [a]
      exact_mod_cast hpos
  · intro r hr
    cases hmr : m r.1 with
    | none => exact absurd rfl ((ht r.1).1 hmr r hr)
    | some s => exact ⟨s, rfl⟩
  · intro k
    obtain ⟨t1, e1, _⟩ := statsInv_insert t ⟨hlen, hw, hpo, hp0, hv0, hb, m, hm, ht⟩ k
    exact ⟨t1, e1⟩
  · obtain ⟨t1, e1, _⟩ := statsInv_checkpoint t ⟨hlen, hw, hpo, hp0, hv0, hb, m, hm, ht⟩
    exact ⟨t1, e1⟩

theorem insertAllWithCheckpoint_reach (ks : List (List Nat)) : ∀ t : AMTState, StatsReach t →
    (∀ k ∈ ks, k.length ≤ 31) →
    ∃ t1, insertAllWithCheckpoint t ks = some t1 ∧ StatsReach t1 ∧
      ((t.root.children ≠ [] ∨ ∃ k ∈ ks, k ≠ []) → t1.root.children ≠ []) := by
  induction ks with
  | nil =>
    intro t h _
    refine ⟨t, rfl, h, ?_⟩
    rintro (hc | ⟨k, hk, _⟩)
    · exact hc
    · cases hk
  | cons k ks ih =>
    intro t h hks
    obtain ⟨t1, e1, _, hne, hkeep, _⟩ := statsInv_insert t (statsReach_inv h) k
    have hr1 : StatsReach t1 :=
      StatsReach.insertWithCheckpoint t k t1 h (hks k (List.mem_cons_self _ _)) e1
    obtain ⟨t2, e2, hr2, hc2⟩ := ih t1 hr1 (fun q hq => hks q (List.mem_cons_of_mem _ hq))
    refine ⟨t2, by simp only [insertAllWithCheckpoint, e1]; exact e2, hr2, ?_⟩
    intro hor
    apply hc2
    rcases hor with hc | ⟨q, hq, hqne⟩
    · exact Or.inl (hkeep hc)
    · rcases List.mem_cons.1 hq with e | hq
      · exact Or.inl (hne (e ▸ hqne))
      · exact Or.inr ⟨q, hq, hqne⟩

theorem maxExact_of_tracks {t : AMTState} (h : StatsInv t) (hc : t.root.children ≠ [])
    (p : Nat) (s : LevelStats) (hs : t.depthStats p = some s) :
    MaxExact s p (recsOf t.root) ∧
      s.totalNodes = (nodesAtDepth p (recsOf t.root) : Int) ∧
      s.totalChildren = (childrenAtDepth p (recsOf t.root) : Int) := by
  obtain ⟨_, _, _, hp0, _, _, m, hm, ht⟩ := h
  have hs1 : m p = some s := by
    unfold AMTState.depthStats at hs
    rw [hm] at hs
    exact hs
  obtain ⟨a, b, _, d⟩ := (ht p).2 s hs1
  refine ⟨?_, a, b⟩
  rcases d with d | ⟨d1, _, _, d4⟩
  · exact d
  · exfalso
    have hroot := d4 _ (recsOf_head_mem t.root) (by rw [d1]; exact hp0)
    exact hc (List.length_eq_zero.mp hroot)

theorem depthReport_twoKeys :
    depthReport twoKeys 8 = some [2, 2, 1, 10, 0, 11] ∧
    depthNodes twoKeys 8 = some [(8, 1, 10), (8, 1, 11)] := by
  constructor <;> decide!

/-- C37, at a concrete input: the state after `insertWithCheckpoint` of the key `FA` from
`InitAMT` is reachable, so its counter has the one map of the checkpoint 0 with exact counts and
both operations return on it; and after the keys `FA45` and `FB45` the depth 4 has the one node
`F` with two children, `avg = 2`, and the depth 8 the two nodes `A` and `B` with one child
each, `avg = 1`. -/
theorem counter_counts_exact_witness :
    StatsReach ((InitAMTState.insertWithCheckpoint [0xFA]).getD InitAMTState) ∧
    (((InitAMTState.insertWithCheckpoint [0xFA]).getD InitAMTState).counter.length =
      ((InitAMTState.insertWithCheckpoint [0xFA]).getD InitAMTState).currentCheckpoint + 1 ∧
    (∃ m, ((InitAMTState.insertWithCheckpoint [0xFA]).getD InitAMTState).counter.get?
        ((InitAMTState.insertWithCheckpoint [0xFA]).getD InitAMTState).currentCheckpoint =
          some m ∧
      (∀ p s, m p = some s →
        s.totalNodes = (nodesAtDepth p
          (recsOf ((InitAMTState.insertWithCheckpoint [0xFA]).getD InitAMTState).root) : Int) ∧
        1 ≤ s.totalNodes ∧
        s.totalChildren = (childrenAtDepth p
          (recsOf ((InitAMTState.insertWithCheckpoint [0xFA]).getD InitAMTState).root) : Int) ∧
        s.totalChildren = (nodesAtDepth (p + 4)
          (recsOf ((InitAMTState.insertWithCheckpoint [0xFA]).getD InitAMTState).root) : Int) ∧
        s.avg = f64div s.totalChildren s.totalNodes ∧
        (s.totalChildren = 0 → s.avg = 0) ∧
        |s.avg - (s.totalChildren : ℚ) / (s.totalNodes : ℚ)| * 2 ^ 53 ≤
          (s.totalChildren : ℚ) / (s.totalNodes : ℚ)) ∧
      (∀ r ∈ recsOf ((InitAMTState.insertWithCheckpoint [0xFA]).getD InitAMTState).root,
        ∃ s, m r.1 = some s)) ∧
    (∀ k, ∃ t1,
      ((InitAMTState.insertWithCheckpoint [0xFA]).getD InitAMTState).insertWithCheckpoint k =
        some t1) ∧
    (∃ t1, ((InitAMTState.insertWithCheckpoint [0xFA]).getD InitAMTState).AddCheckpoint =
      some t1)) ∧
    ((InitAMTState.insertWithCheckpoint [0xFA]).getD InitAMTState).trie = reachFirst ∧
    (depthReport twoKeys 4).map (fun l => l.take 2) = some [1, 2] ∧
    depthNodes twoKeys 4 = some [(4, 2, 15)] ∧ depthAvg twoKeys 4 = some 2 ∧
    (depthReport twoKeys 8).map (fun l => l.take 2) = some [2, 2] ∧
    depthNodes twoKeys 8 = some [(8, 1, 10), (8, 1, 11)] ∧ depthAvg twoKeys 8 = some 1 :=
  have hr : StatsReach ((InitAMTState.insertWithCheckpoint [0xFA]).getD InitAMTState) :=
    StatsReach.insertWithCheckpoint InitAMTState [0xFA] _ StatsReach.init (by decide) (by rfl)
  ⟨hr, counter_counts_exact _ hr, by rfl,
    by decide!, by decide!, by decide!, by decide!, by decide!, by decide!⟩

/-- C37, the claim as written fails: after `insertWithCheckpoint` of the keys `10`, `20` and
`3045` from `InitAMT` the depth 8 has three nodes and one child, its entry has
`totalNodes = 3` and `totalChildren = 1`, and its `avg` is the `float64` result of `1 / 3`,
which is 6004799503160661 / 2^54 and not the rational number 1 / 3. -/
theorem avg_not_exact :
    depthReport threeKeys 8 = some [3, 1, 1, 0, 0, 0] ∧
    depthNodes threeKeys 8 = some [(8, 0, 0), (8, 0, 0), (8, 1, 0)] ∧
    depthAvg threeKeys 8 = some (6004799503160661 / 18014398509481984) ∧
    f64div 1 3 = 6004799503160661 / 18014398509481984 ∧
    ∃ t s, insertAllWithCheckpoint InitAMTState threeKeys = some t ∧ StatsReach t ∧
      t.depthStats 8 = some s ∧ s.totalNodes = 3 ∧ s.totalChildren = 1 ∧
      s.avg ≠ (s.totalChildren : ℚ) / (s.totalNodes : ℚ) := by
  have h1 : depthReport threeKeys 8 = some [3, 1, 1, 0, 0, 0] := by decide!
  have h2 : depthAvg threeKeys 8 = some (6004799503160661 / 18014398509481984) := by decide!
  refine ⟨h1, by decide!, h2, by decide!, ?_⟩
  obtain ⟨t, e, hr, _⟩ := insertAllWithCheckpoint_reach threeKeys InitAMTState StatsReach.init
    (by decide)
  unfold depthReport at h1
  unfold depthAvg at h2
  rw [e] at h1 h2
  simp only at h1 h2
  cases hds : t.depthStats 8 with
  | none =>
    rw [hds] at h1
    cases h1
  | some s =>
    rw [hds] at h1 h2
    simp only [Option.some.injEq, List.cons.injEq, and_true] at h1 h2
    obtain ⟨hn, hc, _⟩ := h1
    refine ⟨t, s, e, hr, hds, hn, hc, ?_⟩
    rw [h2, hn, hc]
    norm_num

/-- C38. The field `min` of the counter is not kept exact. After `insertWithCheckpoint` of the
keys `FA45` and `FB45` from `InitAMT` the depth 8 has the two nodes `A` and `B` with one child
each, and its entry has `totalNodes = 2`, `totalChildren = 2`, `max = 1` at `maxValue = A`, but
`min = 0` at `minValue = B`: the 0 written when `B` was created is never raised when `B` gets
its child, so `min` is not the smallest number of children. The fields `max` and `maxValue`
are exact after every non-empty run of non-empty keys of at most 31 bytes: the run returns, and
for every depth with an entry no node of the depth has more children than `max` and a node of
the depth with the value `maxValue` has `max` children. -/
theorem counter_min_stale :
    depthReport twoKeys 8 = some [2, 2, 1, 10, 0, 11] ∧
    depthNodes twoKeys 8 = some [(8, 1, 10), (8, 1, 11)] ∧
    (∃ t s, insertAllWithCheckpoint InitAMTState twoKeys = some t ∧ StatsReach t ∧
      t.depthStats 8 = some s ∧ s.min = 0 ∧
      (∀ r ∈ recsOf t.root, r.1 = 8 → r.2.1 = 1) ∧
      ¬ MinExact s 8 (recsOf t.root) ∧ MaxExact s 8 (recsOf t.root)) ∧
    (∀ ks : List (List Nat), ks ≠ [] → (∀ k ∈ ks, k ≠ [] ∧ k.length ≤ 31) →
      ∃ t, insertAllWithCheckpoint InitAMTState ks = some t ∧
        ∀ p s, t.depthStats p = some s → MaxExact s p (recsOf t.root)) := by
  have hgen : ∀ ks : List (List Nat), ks ≠ [] → (∀ k ∈ ks, k ≠ [] ∧ k.length ≤ 31) →
      ∃ t, insertAllWithCheckpoint InitAMTState ks = some t ∧ StatsReach t ∧
        ∀ p s, t.depthStats p = some s → MaxExact s p (recsOf t.root) := by
    intro ks hne hks
    obtain ⟨t, e, hr, hc⟩ := insertAllWithCheckpoint_reach ks InitAMTState StatsReach.init
      (fun k hk => (hks k hk).2)
    refine ⟨t, e, hr, fun p s hs => (maxExact_of_tracks (statsReach_inv hr) (hc ?_) p s hs).1⟩
    obtain ⟨k, hk⟩ := List.exists_mem_of_ne_nil ks hne
    exact Or.inr ⟨k, hk, (hks k hk).1⟩
  have hrep := depthReport_twoKeys
  refine ⟨hrep.1, hrep.2, ?_, fun ks hne hks => ?_⟩
  · obtain ⟨t, e, hr, hmax⟩ := hgen twoKeys (by decide) (by decide)
    have h1 := hrep.1
    have h2 := hrep.2
    unfold depthReport at h1
    unfold depthNodes at h2
    rw [e] at h1 h2
    simp only at h1 h2
    cases hds : t.depthStats 8 with
    | none =>
      rw [hds] at h1
      cases h1
    | some s =>
      rw [hds] at h1
      simp only [Option.some.injEq, List.cons.injEq, and_true] at h1 h2
      obtain ⟨_, _, _, _, hmin, _⟩ := h1
      have hall : ∀ r ∈ recsOf t.root, r.1 = 8 → r.2.1 = 1 := by
        intro r hr hr8
        have hmem : r ∈ (recsOf t.root).filter (fun r => decide (r.1 = 8)) :=
          List.mem_filter.mpr ⟨hr, by simpa using hr8⟩
        rw [h2] at hmem
        simp only [List.mem_cons, List.mem_singleton, List.not_mem_nil, or_false] at hmem
        rcases hmem with rfl | rfl <;> rfl
      refine ⟨t, s, e, hr, hds, hmin, hall, ?_, hmax 8 s hds⟩
      rintro ⟨_, r, hr, hr8, hrm, _⟩
      rw [hall r hr hr8, hmin] at hrm
      cases hrm
  · obtain ⟨t, e, _, hmax⟩ := hgen ks hne hks
    exact ⟨t, e, hmax⟩

end Amt

end Aliasv6
